import Mathlib

/-! # Exact TSP solver (`tsp_oracle` v1 and v2): model

Shallow embedding of `tsp_oracle_v1.go` and `tsp_oracle_v2.go`.

* `float64` values are exact rationals (`ℚ`); rounding is not modelled.
* `math.MaxFloat64` is only ever used by the code as the initial value of a
  running minimum.  It is modelled as the absent value `none`, which every
  distance is below.
* A Go panic (index out of range) and a recursion that does not return are
  both the result `none`.
* The distance matrix is represented by its lookup function
  `distanceMatrix i j`; statements constrain it on `[0, n) × [0, n)` only.
* What the Go runtime leaves open (the result of the unstable `sort.Slice`
  among equal keys, the iteration order of `range` over a map) is a parameter,
  `Runtime`.
* Functions that are textually identical in the two files are modelled once;
  those that differ live in the namespaces `V1` and `V2`.
-/

namespace TspOracle

/-! ## Data model -/

/-- Go `type Point struct { X, Y float64 }`. -/
structure Point where
  X : ℚ
  Y : ℚ
deriving DecidableEq

/-- Go `type Edge struct { Weight float64; From int; To int }`. -/
structure Edge where
  Weight : ℚ
  From : Nat
  To : Nat
deriving DecidableEq

/-- Go `type UnionFind struct { parent []int; rank []int }`. -/
structure UnionFind where
  parent : List Nat
  rank : List Nat
deriving DecidableEq

/-- Choices the Go runtime makes: `sortSlice key l` is the result of
`sort.Slice(l, func(a, b) { return key(l[a]) < key(l[b]) })`, `sortEdges` the
same for the edge slice ordered by `Weight`, and `mapRange ctx keys` the order
in which `for k := range m` visits the keys of a map whose key set is `keys`,
in the loop instance identified by `ctx` (the greedy path built so far). -/
structure Runtime where
  sortSlice : (Nat → ℚ) → List Nat → List Nat
  sortEdges : List Edge → List Edge
  mapRange : List Nat → List Nat → List Nat

/-- What the Go specification guarantees about the choices in `Runtime`: a sort
returns a permutation of its input in which no later element is less than an
earlier one, and a map iteration visits every key exactly once. -/
structure Runtime.Valid (rt : Runtime) : Prop where
  sortSlice_perm : ∀ key l, (rt.sortSlice key l).Perm l
  sortSlice_sorted : ∀ key l, (rt.sortSlice key l).Pairwise (fun a b => key a ≤ key b)
  sortEdges_perm : ∀ l, (rt.sortEdges l).Perm l
  sortEdges_sorted : ∀ l, (rt.sortEdges l).Pairwise (fun a b => a.Weight ≤ b.Weight)
  mapRange_perm : ∀ ctx keys, (rt.mapRange ctx keys).Perm keys

/-- The solver state, Go `type TSPSolver struct`.  The fields used only for
input generation and progress printing (`points`, `seed`, `localRand`,
`lastUpdate`, `startTime`, `totalPermutations`) are left out.
`bestDistance = none` is `math.MaxFloat64`. -/
structure TSPSolver where
  numPoints : Nat
  distanceMatrix : Nat → Nat → ℚ
  bestPath : List Nat
  bestDistance : Option ℚ
  visitedCount : Nat
  mstCache : List (List Nat × ℚ)
  nearestNeighbors : List (List Nat)

/-- The comparison `x < best` where `best` may be `math.MaxFloat64` (`none`). -/
def ltBest (x : ℚ) : Option ℚ → Bool
  | none => true
  | some b => decide (x < b)

/-- The comparison `x >= best` where `best` may be `math.MaxFloat64` (`none`). -/
def geBest (x : ℚ) (best : Option ℚ) : Bool := !ltBest x best

/-- A concrete runtime: stable insertion sorts and map iteration in ascending
key order. -/
def Runtime.ascending : Runtime where
  sortSlice := fun key l => l.insertionSort (fun a b => key a ≤ key b)
  sortEdges := fun l => l.insertionSort (fun a b => a.Weight ≤ b.Weight)
  mapRange := fun _ keys => keys

/-- A second concrete runtime that differs from `Runtime.ascending` only in the
map iteration order, which is descending. -/
def Runtime.descending : Runtime where
  sortSlice := fun key l => l.insertionSort (fun a b => key a ≤ key b)
  sortEdges := fun l => l.insertionSort (fun a b => a.Weight ≤ b.Weight)
  mapRange := fun _ keys => keys.reverse

/-- Lookup function of a matrix given by its rows. -/
def matrixOf (rows : List (List ℚ)) (i j : Nat) : ℚ := (rows.getD i []).getD j 0

/-! ## Union-find -/

/-- Go `NewUnionFind(size)`. -/
def NewUnionFind (size : Nat) : UnionFind :=
  { parent := List.range size, rank := List.replicate size 0 }

/-- The recursion of Go `(*UnionFind).Find` with an explicit depth budget:
`if uf.parent[x] != x { uf.parent[x] = uf.Find(uf.parent[x]) }; return uf.parent[x]`. -/
def UnionFind.FindDepth : Nat → UnionFind → Nat → Option (UnionFind × Nat)
  | 0, _, _ => none
  | fuel + 1, uf, x =>
    match uf.parent[x]? with
    | none => none
    | some p =>
      if p ≠ x then
        match UnionFind.FindDepth fuel uf p with
        | none => none
        | some (uf1, r) => some ({ uf1 with parent := uf1.parent.set x r }, r)
      else some (uf, p)

/-- Go `(*UnionFind).Find`.  The depth budget is one more than the largest rank:
with union by rank the rank grows strictly along every parent chain. -/
def UnionFind.Find (uf : UnionFind) (x : Nat) : Option (UnionFind × Nat) :=
  UnionFind.FindDepth (uf.rank.foldr max 0 + 1) uf x

/-- Go `(*UnionFind).Union`. -/
def UnionFind.Union (uf : UnionFind) (x y : Nat) : Option UnionFind :=
  match uf.Find x with
  | none => none
  | some (uf1, rootX) =>
    match uf1.Find y with
    | none => none
    | some (uf2, rootY) =>
      if rootX = rootY then some uf2
      else
        match uf2.rank[rootX]?, uf2.rank[rootY]? with
        | some rx, some ry =>
          if rx < ry then some { uf2 with parent := uf2.parent.set rootX rootY }
          else if rx > ry then some { uf2 with parent := uf2.parent.set rootY rootX }
          else some { parent := uf2.parent.set rootY rootX, rank := uf2.rank.set rootX (rx + 1) }
        | _, _ => none

/-! ## Distances -/

/-- The accumulation loop shared by `calculatePathDistance` and
`calculatePartialDistance`: `for i := 0; i < len(path)-1; i++ { total += d[path[i]][path[i+1]] }`. -/
def sumConsecutive (d : Nat → Nat → ℚ) : ℚ → List Nat → ℚ
  | total, a :: b :: rest => sumConsecutive d (total + d a b) (b :: rest)
  | total, _ => total

/-- Go `calculatePartialDistance`. -/
def calculatePartialDistance (t : TSPSolver) (path : List Nat) : ℚ :=
  sumConsecutive t.distanceMatrix 0 path

/-- Go `calculatePathDistance`: the open path plus the closing edge
`d[path[len(path)-1]][path[0]]`.  The code panics on the empty path; callers in
this model guard that case. -/
def calculatePathDistance (t : TSPSolver) (path : List Nat) : ℚ :=
  sumConsecutive t.distanceMatrix 0 path + t.distanceMatrix (path.getLastD 0) (path.headD 0)

/-! ## Neighbour ranking -/

/-- Go `precomputeNearestNeighbors`: per vertex, sort all vertices by distance
and keep `neighbors[1:11]` (or `neighbors[1:]` when there are at most 10). -/
def precomputeNearestNeighbors (rt : Runtime) (n : Nat) (d : Nat → Nat → ℚ) : List (List Nat) :=
  (List.range n).map (fun i =>
    let neighbors := rt.sortSlice (d i) (List.range n)
    if neighbors.length > 10 then (neighbors.drop 1).take 10 else neighbors.drop 1)

/-- The solver as `NewTSPSolver` leaves it, for a given distance matrix. -/
def solverOf (rt : Runtime) (n : Nat) (d : Nat → Nat → ℚ) : TSPSolver :=
  { numPoints := n, distanceMatrix := d, bestPath := [], bestDistance := some 0,
    visitedCount := 0, mstCache := [], nearestNeighbors := precomputeNearestNeighbors rt n d }

/-! ## MST lower bound -/

/-- Go `sort.Ints`. -/
def sortInts (l : List Nat) : List Nat := l.insertionSort (fun a b => a ≤ b)

/-- The edge list built by the double loop of `calculateMSTKruskal`: all pairs
`points[i], points[j]` with `i < j`, in loop order. -/
def allEdges (d : Nat → Nat → ℚ) : List Nat → List Edge
  | [] => []
  | p :: ps => ps.map (fun q => { Weight := d p q, From := p, To := q }) ++ allEdges d ps

/-- The map `pointToIndex` of `calculateMSTKruskal`, as a lookup function
(Go returns 0 for a missing key). -/
def pointToIndex (points : List Nat) : Nat → Nat :=
  points.enum.foldl (fun m ip q => if q = ip.2 then ip.1 else m q) (fun _ => 0)

/-- The main loop of `calculateMSTKruskal` over the sorted edges; `k` is
`len(points)`. -/
def kruskalLoop (k : Nat) (idx : Nat → Nat) : List Edge → UnionFind → ℚ → Nat → Option ℚ
  | [], _, mstLength, _ => some mstLength
  | edge :: rest, uf, mstLength, edgesUsed =>
    if edgesUsed = k - 1 then some mstLength
    else
      match uf.Find (idx edge.From) with
      | none => none
      | some (uf1, r1) =>
        match uf1.Find (idx edge.To) with
        | none => none
        | some (uf2, r2) =>
          if r1 ≠ r2 then
            match uf2.Union (idx edge.From) (idx edge.To) with
            | none => none
            | some uf3 => kruskalLoop k idx rest uf3 (mstLength + edge.Weight) (edgesUsed + 1)
          else kruskalLoop k idx rest uf2 mstLength edgesUsed

/-- The computation of `calculateMSTKruskal` on a cache miss, for the sorted
slice `points`. -/
def kruskalCompute (rt : Runtime) (d : Nat → Nat → ℚ) (points : List Nat) : Option ℚ :=
  kruskalLoop points.length (pointToIndex points) (rt.sortEdges (allEdges d points))
    (NewUnionFind points.length) 0 0

/-- Go `calculateMSTKruskal`.  The cache key `fmt.Sprintf("%v", points)` is
injective on integer slices and is modelled by the sorted slice itself. -/
def calculateMSTKruskal (rt : Runtime) (t : TSPSolver) (points : List Nat) : Option (ℚ × TSPSolver) :=
  if points.length ≤ 1 then some (0, t)
  else
    let key := sortInts points
    match t.mstCache.lookup key with
    | some cached => some (cached, t)
    | none =>
      match kruskalCompute rt t.distanceMatrix key with
      | none => none
      | some mstLength => some (mstLength, { t with mstCache := (key, mstLength) :: t.mstCache })

/-- One of the two running minima of `minConnectionToPath`, started at
`math.MaxFloat64`: the first point always lowers it. -/
def minDistTo (d : Nat → Nat → ℚ) (v : Nat) : List Nat → Option ℚ → Option ℚ
  | [], m => m
  | point :: rest, m => minDistTo d v rest (if ltBest (d v point) m then some (d v point) else m)

/-- Go `minConnectionToPath`.  With a non-empty `unvisited` both minima are
below `math.MaxFloat64`. -/
def minConnectionToPath (t : TSPSolver) (unvisited path : List Nat) : ℚ :=
  if unvisited.length = 0 then 0
  else
    (minDistTo t.distanceMatrix (path.headD 0) unvisited none).getD 0 +
      (minDistTo t.distanceMatrix (path.getLastD 0) unvisited none).getD 0

/-- The slice `unvisited` built by `calculateLowerBound`. -/
def unvisitedOf (n : Nat) (visited : List Bool) : List Nat :=
  (List.range n).filter (fun i => !visited.getD i false)

/-- Go `calculateLowerBound`.  `sort.Ints` inside `calculateMSTKruskal` sorts
the caller's slice in place, so `minConnectionToPath` sees the sorted slice. -/
def calculateLowerBound (rt : Runtime) (t : TSPSolver) (currentPath : List Nat)
    (visited : List Bool) : Option (ℚ × TSPSolver) :=
  let currentLength := calculatePartialDistance t currentPath
  let unvisited := unvisitedOf t.numPoints visited
  if unvisited.length = 0 then
    some (currentLength + t.distanceMatrix (currentPath.getLastD 0) (currentPath.headD 0), t)
  else
    match calculateMSTKruskal rt t unvisited with
    | none => none
    | some (mstLength, t1) =>
      let unvisited1 := if unvisited.length ≤ 1 then unvisited else sortInts unvisited
      some (currentLength + mstLength + minConnectionToPath t1 unvisited1 currentPath, t1)

/-! ## Branch and bound -/

/-- The candidate list `pointsToTry` of `bruteForceRecursive`, before sorting:
the unvisited ranked neighbours, then every other unvisited vertex. -/
def pointsToTryOf (t : TSPSolver) (lastPoint : Nat) (visited : List Bool) : List Nat :=
  let ranked := (t.nearestNeighbors.getD lastPoint []).filter (fun nb => !visited.getD nb false)
  (List.range t.numPoints).foldl
    (fun pts i => if !visited.getD i false then (if pts.contains i then pts else pts ++ [i]) else pts)
    ranked

/-- The body of the loop `for _, nextPoint := range pointsToTry` of
`bruteForceRecursive`, acting on the solver and the `visited` slice; `recurse`
is the recursive call. -/
def tryPoint (recurse : TSPSolver → List Nat → ℚ → List Bool → Option (TSPSolver × List Bool))
    (currentPath : List Nat) (currentDistance : ℚ) (lastPoint : Nat)
    (s : TSPSolver × List Bool) (nextPoint : Nat) : Option (TSPSolver × List Bool) :=
  let newDistance := currentDistance + s.1.distanceMatrix lastPoint nextPoint
  if geBest newDistance s.1.bestDistance then some s
  else
    match recurse s.1 (currentPath ++ [nextPoint]) newDistance (s.2.set nextPoint true) with
    | none => none
    | some (t3, visited3) => some (t3, visited3.set nextPoint false)

/-- Go `bruteForceRecursive` (identical in v1 and v2 up to the progress
printing, which is not modelled).  The first argument bounds the recursion
depth.  The result is the solver and the `visited` slice after the call. -/
def bruteForceRecursive (rt : Runtime) :
    Nat → TSPSolver → List Nat → ℚ → List Bool → Option (TSPSolver × List Bool)
  | 0, _, _, _, _ => none
  | fuel + 1, t, currentPath, currentDistance, visited =>
    match calculateLowerBound rt t currentPath visited with
    | none => none
    | some (lowerBound, t1) =>
      if geBest lowerBound t1.bestDistance then some (t1, visited)
      else if currentPath.length = t1.numPoints then
        let finalDistance :=
          currentDistance + t1.distanceMatrix (currentPath.getLastD 0) (currentPath.headD 0)
        let t2 := { t1 with visitedCount := t1.visitedCount + 1 }
        if ltBest finalDistance t2.bestDistance then
          some ({ t2 with bestDistance := some finalDistance, bestPath := currentPath }, visited)
        else some (t2, visited)
      else
        let lastPoint := currentPath.getLastD 0
        let pointsToTry :=
          rt.sortSlice (t1.distanceMatrix lastPoint) (pointsToTryOf t1 lastPoint visited)
        pointsToTry.foldlM
          (tryPoint (bruteForceRecursive rt fuel) currentPath currentDistance lastPoint)
          (t1, visited)

/-- The loop body of `bruteForceRecursive` once more, with a third state
component that counts the executions of the assignment
`t.bestDistance = finalDistance` (the incumbent replacements). -/
def tryPointCount
    (recurse : TSPSolver → List Nat → ℚ → List Bool → Option (TSPSolver × List Bool × Nat))
    (currentPath : List Nat) (currentDistance : ℚ) (lastPoint : Nat)
    (s : TSPSolver × List Bool × Nat) (nextPoint : Nat) : Option (TSPSolver × List Bool × Nat) :=
  let newDistance := currentDistance + s.1.distanceMatrix lastPoint nextPoint
  if geBest newDistance s.1.bestDistance then some s
  else
    match recurse s.1 (currentPath ++ [nextPoint]) newDistance (s.2.1.set nextPoint true) with
    | none => none
    | some (t3, visited3, replaced) => some (t3, visited3.set nextPoint false, s.2.2 + replaced)

/-- Go `bruteForceRecursive` once more, with a count of the incumbent
replacements made during the call as a third result: the block
`if finalDistance < t.bestDistance { ... }` adds one, everything else is as in
`bruteForceRecursive`. -/
def bruteForceRecursiveCount (rt : Runtime) :
    Nat → TSPSolver → List Nat → ℚ → List Bool → Option (TSPSolver × List Bool × Nat)
  | 0, _, _, _, _ => none
  | fuel + 1, t, currentPath, currentDistance, visited =>
    match calculateLowerBound rt t currentPath visited with
    | none => none
    | some (lowerBound, t1) =>
      if geBest lowerBound t1.bestDistance then some (t1, visited, 0)
      else if currentPath.length = t1.numPoints then
        let finalDistance :=
          currentDistance + t1.distanceMatrix (currentPath.getLastD 0) (currentPath.headD 0)
        let t2 := { t1 with visitedCount := t1.visitedCount + 1 }
        if ltBest finalDistance t2.bestDistance then
          some ({ t2 with bestDistance := some finalDistance, bestPath := currentPath }, visited, 1)
        else some (t2, visited, 0)
      else
        let lastPoint := currentPath.getLastD 0
        let pointsToTry :=
          rt.sortSlice (t1.distanceMatrix lastPoint) (pointsToTryOf t1 lastPoint visited)
        pointsToTry.foldlM
          (tryPointCount (bruteForceRecursiveCount rt fuel) currentPath currentDistance lastPoint)
          (t1, visited, 0)

/-! ## v1: multi-start greedy and the search entry point -/

/-- The scan `for point := range ... { if dist := d[current][point]; dist < minDist
{ minDist = dist; nextPoint = point } }`; the state `none` is the initial
`nextPoint = 0, minDist = math.MaxFloat64`. -/
def scanNearest (d : Nat → Nat → ℚ) (current : Nat) : List Nat → Option (Nat × ℚ) → Option (Nat × ℚ)
  | [], best => best
  | point :: rest, best =>
    scanNearest d current rest
      (if ltBest (d current point) (best.map Prod.snd) then some (point, d current point) else best)

/-- The variable `nextPoint` after a scan (`var nextPoint int` is 0 initially). -/
def nextPointOf (best : Option (Nat × ℚ)) : Nat := (best.map Prod.fst).getD 0

namespace V1

/-- The loop `for len(unvisited) > 0 { ... }` of v1 `multiStartGreedy`; the key
set of the map `unvisited` is kept as a list.  The first argument bounds the
number of iterations. -/
def greedyLoop (rt : Runtime) (d : Nat → Nat → ℚ) : Nat → List Nat → List Nat → Option (List Nat)
  | 0, path, unvisited => if unvisited.length > 0 then none else some path
  | fuel + 1, path, unvisited =>
    if unvisited.length > 0 then
      let current := path.getLastD 0
      let nextPoint := nextPointOf (scanNearest d current (rt.mapRange path unvisited) none)
      greedyLoop rt d fuel (path ++ [nextPoint]) (unvisited.erase nextPoint)
    else some path

/-- The loop over `startPoint` of v1 `multiStartGreedy`, from `startPoint` on;
`best` is the pair `bestPath, bestDist`. -/
def startLoop (rt : Runtime) (t : TSPSolver) :
    List Nat → List Nat × Option ℚ → Option (List Nat × Option ℚ)
  | [], best => some best
  | startPoint :: rest, best =>
    match greedyLoop rt t.distanceMatrix t.numPoints [startPoint]
        ((List.range t.numPoints).filter (fun i => i ≠ startPoint)) with
    | none => none
    | some path =>
      let distance := calculatePathDistance t path
      startLoop rt t rest (if ltBest distance best.2 then (path, some distance) else best)

/-- Go v1 `multiStartGreedy`. -/
def multiStartGreedy (rt : Runtime) (t : TSPSolver) : Option (List Nat × Option ℚ) :=
  startLoop rt t (List.range t.numPoints) ([], none)

/-- Go v1 `bruteForce` (without the elapsed time).  `visited[0] = true` panics
when `numPoints = 0`.  The recursion depth budget is `numPoints + 1`. -/
def bruteForce (rt : Runtime) (t : TSPSolver) : Option (List Nat × Option ℚ) :=
  let t0 := { t with bestPath := [], bestDistance := none, visitedCount := 0, mstCache := [] }
  match multiStartGreedy rt t0 with
  | none => none
  | some (greedyPath, greedyDist) =>
    let t1 := { t0 with bestPath := greedyPath, bestDistance := greedyDist }
    if t1.numPoints = 0 then none
    else
      let visited := (List.replicate t1.numPoints false).set 0 true
      match bruteForceRecursive rt (t1.numPoints + 1) t1 [0] 0 visited with
      | none => none
      | some (t2, _) => some (t2.bestPath, t2.bestDistance)

end V1

/-! ## v2: 2-opt, multi-start greedy with ranking, adaptive search -/

namespace V2

/-- The loop of Go `reverseSegment`: `for i < j { swap; i++; j-- }`.  The first
argument bounds the number of iterations. -/
def reverseSegmentLoop : Nat → List Nat → Nat → Nat → List Nat
  | 0, path, _, _ => path
  | fuel + 1, path, i, j =>
    if i < j then
      reverseSegmentLoop fuel ((path.set i (path.getD j 0)).set j (path.getD i 0)) (i + 1) (j - 1)
    else path

/-- Go `reverseSegment(path, i, j)`; `j - i` iterations always suffice. -/
def reverseSegment (path : List Nat) (i j : Nat) : List Nat :=
  reverseSegmentLoop (j - i) path i j

/-- The value `delta` computed by `twoOpt` for the pair `(i, j)`. -/
def twoOptDelta (d : Nat → Nat → ℚ) (currentPath : List Nat) (i j : Nat) : ℚ :=
  -d (currentPath.getD (i - 1) 0) (currentPath.getD i 0)
    - d (currentPath.getD j 0) (currentPath.getD (j + 1) 0)
    + d (currentPath.getD (i - 1) 0) (currentPath.getD j 0)
    + d (currentPath.getD i 0) (currentPath.getD (j + 1) 0)

/-- The index pairs visited by the double loop of `twoOpt`, in loop order:
`for i := 1; i < n-2; i++ { for j := i + 1; j < n-1; j++ {...} }`. -/
def twoOptPairs (n : Nat) : List (Nat × Nat) :=
  (List.range' 1 (n - 3)).flatMap (fun i => (List.range' (i + 1) (n - 2 - i)).map (fun j => (i, j)))

/-- One pass of the double loop of `twoOpt`: the pair `bestDelta` and
`(bestI, bestJ)`; the second component is `none` while `improved` is false
(`bestI, bestJ = -1, -1`). -/
def twoOptPass (d : Nat → Nat → ℚ) (currentPath : List Nat) : ℚ × Option (Nat × Nat) :=
  (twoOptPairs currentPath.length).foldl
    (fun st ij =>
      let delta := twoOptDelta d currentPath ij.1 ij.2
      if delta < st.1 then (delta, some ij) else st)
    (0, none)

/-- The loop `for improved && iteration < maxIterations` of `twoOpt`; the first
argument is the number of passes left. -/
def twoOptLoop (d : Nat → Nat → ℚ) : Nat → List Nat → ℚ → List Nat × ℚ
  | 0, currentPath, currentDistance => (currentPath, currentDistance)
  | left + 1, currentPath, currentDistance =>
    match twoOptPass d currentPath with
    | (bestDelta, some (bestI, bestJ)) =>
      twoOptLoop d left (reverseSegment currentPath bestI bestJ) (currentDistance + bestDelta)
    | (_, none) => (currentPath, currentDistance)

/-- The variable `improved` of `twoOpt` when the loop
`for improved && iteration < maxIterations` ends; the first argument is the
number of passes left.  It is `false` when the last pass found no improving
pair and `true` when the loop ends because of the cap. -/
def twoOptImproved (d : Nat → Nat → ℚ) : Nat → List Nat → Bool
  | 0, _ => true
  | left + 1, currentPath =>
    match twoOptPass d currentPath with
    | (_, some (bestI, bestJ)) => twoOptImproved d left (reverseSegment currentPath bestI bestJ)
    | (_, none) => false

/-- Go v2 `twoOpt`.  `calculatePathDistance` panics on the empty path. -/
def twoOpt (t : TSPSolver) (path : List Nat) : Option (List Nat × ℚ) :=
  if path.length = 0 then none
  else if path.length < 4 then some (path, calculatePathDistance t path)
  else some (twoOptLoop t.distanceMatrix 1000 path (calculatePathDistance t path))

/-- The loop `for len(unvisited) > 0 { ... }` of v2 `multiStartGreedy`: the
ranked neighbours that are still unvisited are scanned first, and the map only
when that scan leaves `minDist == math.MaxFloat64`. -/
def greedyLoop (rt : Runtime) (t : TSPSolver) : Nat → List Nat → List Nat → Option (List Nat)
  | 0, path, unvisited => if unvisited.length > 0 then none else some path
  | fuel + 1, path, unvisited =>
    if unvisited.length > 0 then
      let current := path.getLastD 0
      let ranked := scanNearest t.distanceMatrix current
        ((t.nearestNeighbors.getD current []).filter (fun nb => unvisited.contains nb)) none
      let best :=
        if ranked.isNone then
          scanNearest t.distanceMatrix current (rt.mapRange path unvisited) ranked
        else ranked
      let nextPoint := nextPointOf best
      greedyLoop rt t fuel (path ++ [nextPoint]) (unvisited.erase nextPoint)
    else some path

/-- The loop over `startPoint` of v2 `multiStartGreedy`. -/
def startLoop (rt : Runtime) (t : TSPSolver) :
    List Nat → List Nat × Option ℚ → Option (List Nat × Option ℚ)
  | [], best => some best
  | startPoint :: rest, best =>
    match greedyLoop rt t t.numPoints [startPoint]
        ((List.range t.numPoints).filter (fun i => i ≠ startPoint)) with
    | none => none
    | some path =>
      let distance := calculatePathDistance t path
      startLoop rt t rest (if ltBest distance best.2 then (path, some distance) else best)

/-- Go v2 `multiStartGreedy`: at most the first 5 start points, then 2-opt. -/
def multiStartGreedy (rt : Runtime) (t : TSPSolver) : Option (List Nat × ℚ) :=
  match startLoop rt t ((List.range t.numPoints).filter (fun s => s < 5)) ([], none) with
  | none => none
  | some (bestPath, _) => twoOpt t bestPath

/-- The loop `for iteration := 0; iteration < 200; iteration++` of
`adaptiveSearch`; the first argument is the number of rounds left and the
result of running out of rounds is the fall-through `return bestPath, bestDist`. -/
def adaptiveLoop (rt : Runtime) (greedyPath : List Nat) (greedyDist : ℚ) (step : ℚ) :
    Nat → TSPSolver → ℚ → List Nat → ℚ → Bool → Option (List Nat × ℚ)
  | 0, _, _, bestPath, bestDist, _ => some (bestPath, bestDist)
  | left + 1, t, currentThreshold, bestPath, bestDist, foundAny =>
    let t1 := { t with bestPath := [], bestDistance := some currentThreshold,
                       visitedCount := 0, mstCache := [] }
    if t1.numPoints = 0 then none
    else
      let visited := (List.replicate t1.numPoints false).set 0 true
      match bruteForceRecursive rt (t1.numPoints + 1) t1 [0] 0 visited with
      | none => none
      | some (t2, _) =>
        if (match t2.bestDistance with
            | some b => decide (b < currentThreshold)
            | none => false) then
          let bestDist1 := t2.bestDistance.getD 0
          adaptiveLoop rt greedyPath greedyDist step left t2 (bestDist1 * (1 - step))
            t2.bestPath bestDist1 true
        else if foundAny then some (bestPath, bestDist)
        else
          let currentThreshold1 := currentThreshold * (1 + step)
          if currentThreshold1 ≥ greedyDist then some (greedyPath, greedyDist)
          else adaptiveLoop rt greedyPath greedyDist step left t2 currentThreshold1
            bestPath bestDist foundAny

/-- The loop of `adaptiveSearch` once more, with a log next to the result: the
values of `currentThreshold` with which `bruteForceRecursive` was called, in
order, and whether the function returned from inside the loop (`true`) or by
the `return bestPath, bestDist` after the loop (`false`). -/
def adaptiveLoopLog (rt : Runtime) (greedyPath : List Nat) (greedyDist : ℚ) (step : ℚ) :
    Nat → TSPSolver → ℚ → List Nat → ℚ → Bool → Option ((List Nat × ℚ) × List ℚ × Bool)
  | 0, _, _, bestPath, bestDist, _ => some ((bestPath, bestDist), [], false)
  | left + 1, t, currentThreshold, bestPath, bestDist, foundAny =>
    let t1 := { t with bestPath := [], bestDistance := some currentThreshold,
                       visitedCount := 0, mstCache := [] }
    if t1.numPoints = 0 then none
    else
      let visited := (List.replicate t1.numPoints false).set 0 true
      match bruteForceRecursive rt (t1.numPoints + 1) t1 [0] 0 visited with
      | none => none
      | some (t2, _) =>
        if (match t2.bestDistance with
            | some b => decide (b < currentThreshold)
            | none => false) then
          let bestDist1 := t2.bestDistance.getD 0
          (adaptiveLoopLog rt greedyPath greedyDist step left t2 (bestDist1 * (1 - step))
            t2.bestPath bestDist1 true).map
            (fun r => (r.1, currentThreshold :: r.2.1, r.2.2))
        else if foundAny then some ((bestPath, bestDist), [currentThreshold], true)
        else
          let currentThreshold1 := currentThreshold * (1 + step)
          if currentThreshold1 ≥ greedyDist then
            some ((greedyPath, greedyDist), [currentThreshold], true)
          else
            (adaptiveLoopLog rt greedyPath greedyDist step left t2 currentThreshold1
              bestPath bestDist foundAny).map
              (fun r => (r.1, currentThreshold :: r.2.1, r.2.2))

/-- Go v2 `adaptiveSearch`; `0.90` and `0.07` are the rationals 9/10 and 7/100. -/
def adaptiveSearch (rt : Runtime) (t : TSPSolver) : Option (List Nat × ℚ) :=
  match multiStartGreedy rt t with
  | none => none
  | some (greedyPath, greedyDist) =>
    adaptiveLoop rt greedyPath greedyDist (7 / 100) 200 t (greedyDist * (9 / 10))
      greedyPath greedyDist false

end V2

/-! ## Construction of the solver and the command-line guard -/

/-- Go `calculateDistanceMatrix`: entry `(i, j)` with `i < j` is
`math.Sqrt(dx*dx + dy*dy)`, copied to `(j, i)`; the diagonal keeps the zero of
`make`.  `sqrt` stands for `math.Sqrt`. -/
def calculateDistanceMatrix (sqrt : ℚ → ℚ) (points : List Point) (a b : Nat) : ℚ :=
  let entry := fun (i j : Nat) =>
    let pi := points.getD i ⟨0, 0⟩
    let pj := points.getD j ⟨0, 0⟩
    let dx := pi.X - pj.X
    let dy := pi.Y - pj.Y
    sqrt (dx * dx + dy * dy)
  if a < b ∧ b < points.length then entry a b
  else if b < a ∧ a < points.length then entry b a
  else 0

/-- The assignment `matrix[i][j] = v` on a slice of rows. -/
def setEntry (matrix : List (List ℚ)) (i j : Nat) (v : ℚ) : List (List ℚ) :=
  matrix.set i ((matrix.getD i []).set j v)

/-- Go `calculateDistanceMatrix` as the slice of rows that its loops build:
`make` gives `numPoints` rows of `numPoints` zeros, and the double loop
`for i := 0; i < n; i++ { for j := i + 1; j < n; j++ { ... } }` writes
`distance` to `matrix[i][j]` and to `matrix[j][i]`. -/
def calculateDistanceMatrixRows (sqrt : ℚ → ℚ) (points : List Point) : List (List ℚ) :=
  (List.range points.length).foldl
    (fun matrix i =>
      (List.range' (i + 1) (points.length - (i + 1))).foldl
        (fun matrix j =>
          let dx := (points.getD i ⟨0, 0⟩).X - (points.getD j ⟨0, 0⟩).X
          let dy := (points.getD i ⟨0, 0⟩).Y - (points.getD j ⟨0, 0⟩).Y
          let distance := sqrt (dx * dx + dy * dy)
          setEntry (setEntry matrix i j distance) j i distance)
        matrix)
    (List.replicate points.length (List.replicate points.length 0))

/-- Go `NewTSPSolver`, given the points that `generateRandomPoints` produced. -/
def NewTSPSolver (rt : Runtime) (sqrt : ℚ → ℚ) (points : List Point) : TSPSolver :=
  solverOf rt points.length (calculateDistanceMatrix sqrt points)

/-- The guard at the head of `main` in both files: `if *numPoints < 3
{ fmt.Println("Error: Minimum 3 dots required"); os.Exit(1) }`.  The result is
the exit code and message when `main` stops there. -/
def mainGuard (numPoints : Int) : Option (Nat × String) :=
  if numPoints < 3 then some (1, "Error: Minimum 3 dots required") else none

/-! ## The size of the search space -/

/-- The value an `int64` holds after an arithmetic result `x`: Go integer
arithmetic wraps around modulo `2^64`. -/
def wrapInt64 (x : Int) : Int := (x + 2 ^ 63) % 2 ^ 64 - 2 ^ 63

/-- Go `math.MaxInt64`. -/
def maxInt64 : Int := 2 ^ 63 - 1

/-- Go `calculateTotalPermutations`: `1` up to `n = 1`, `math.MaxInt64` above
`n = 20`, and otherwise the loop `for i := 2; i <= n; i++ { result *= int64(i) }`
in `int64` arithmetic. -/
def calculateTotalPermutations (n : Int) : Int :=
  if n ≤ 1 then 1
  else if n > 20 then maxInt64
  else (List.range' 2 (n.toNat - 1)).foldl (fun result i => wrapInt64 (result * (i : Int))) 1

/-! ## Specification vocabulary: connectivity and spanning trees -/


/-- The smallest equivalence relation that contains `R` and joins the two
endpoints of `e`. -/
def addEdge (R : Nat → Nat → Prop) (e : Edge) : Nat → Nat → Prop :=
  Relation.EqvGen (fun a b => R a b ∨ (a = e.From ∧ b = e.To))

/-- The relation obtained from `R` by joining the endpoints of every edge of `T`. -/
def addEdges (R : Nat → Nat → Prop) (T : List Edge) : Nat → Nat → Prop :=
  T.foldl addEdge R

/-- Every edge of the list, taken in order, joins two vertices that `R` and the
edges before it leave apart: the list closes no cycle over `R`. -/
def Indep : (Nat → Nat → Prop) → List Edge → Prop
  | _, [] => True
  | R, t :: T => ¬ R t.From t.To ∧ Indep (addEdge R t) T

/-- The run of the greedy choice over an edge list: `Greedy R L F` says that
`F` are the edges of `L`, in order, that join two `R`-classes when their turn
comes. -/
inductive Greedy : (Nat → Nat → Prop) → List Edge → List Edge → Prop
  | nil (R : Nat → Nat → Prop) : Greedy R [] []
  | skip {R : Nat → Nat → Prop} {e : Edge} {L F : List Edge} :
      R e.From e.To → Greedy R L F → Greedy R (e :: L) F
  | take {R : Nat → Nat → Prop} {e : Edge} {L F : List Edge} :
      ¬ R e.From e.To → Greedy (addEdge R e) L F → Greedy R (e :: L) (e :: F)

/-- The vertex `r` is the root reached from `x` along the parent pointers. -/
inductive UnionFind.RootOf (uf : UnionFind) : Nat → Nat → Prop
  | root {x : Nat} : uf.parent[x]? = some x → UnionFind.RootOf uf x x
  | step {x p r : Nat} : uf.parent[x]? = some p → p ≠ x → UnionFind.RootOf uf p r →
      UnionFind.RootOf uf x r

/-- Well-formedness of a union-find structure: both slices have the same
length, parent pointers stay inside, and the rank grows strictly along every
parent pointer. -/
structure UnionFind.Inv (uf : UnionFind) : Prop where
  length_eq : uf.rank.length = uf.parent.length
  parent_lt : ∀ x p : Nat, uf.parent[x]? = some p → p < uf.parent.length
  rank_lt : ∀ x p : Nat, uf.parent[x]? = some p → p ≠ x → uf.rank.getD x 0 < uf.rank.getD p 0

/-- Two indices have the same root. -/
def UnionFind.Conn (uf : UnionFind) (a b : Nat) : Prop :=
  ∃ r, uf.RootOf a r ∧ uf.RootOf b r

/-- Two edges with the same endpoints, in either orientation. -/
def Edge.Parallel (x t : Edge) : Prop :=
  (x.From = t.From ∧ x.To = t.To) ∨ (x.From = t.To ∧ x.To = t.From)

/-- Sum of the weights of an edge list. -/
def edgeWeight (T : List Edge) : ℚ := (T.map Edge.Weight).sum

/-- The edges of the open path through the vertices of a list. -/
def pathEdges (d : Nat → Nat → ℚ) : List Nat → List Edge
  | a :: b :: rest => { Weight := d a b, From := a, To := b } :: pathEdges d (b :: rest)
  | _ => []

/-- Two vertices are joined by a chain of edges of `T` (in either direction). -/
def Connected (T : List (Nat × Nat)) (a b : Nat) : Prop :=
  Relation.EqvGen (fun x y => (x, y) ∈ T) a b

/-- The list `T` of vertex pairs is a spanning tree of the complete graph on
the vertex list `S`: its edges join vertices of `S`, it has `|S| - 1` edges and
it connects every two vertices of `S`. -/
def IsSpanningTree (S : List Nat) (T : List (Nat × Nat)) : Prop :=
  (∀ e ∈ T, e.1 ∈ S ∧ e.2 ∈ S) ∧ T.length + 1 = S.length ∧
    ∀ a ∈ S, ∀ b ∈ S, Connected T a b

/-- The vertex pairs of `T` as weighted edges of the matrix `d`. -/
def toEdges (d : Nat → Nat → ℚ) (T : List (Nat × Nat)) : List Edge :=
  T.map (fun p => { Weight := d p.1 p.2, From := p.1, To := p.2 })

/-- Sum of the matrix entries of the edges of `T`. -/
def treeWeight (d : Nat → Nat → ℚ) (T : List (Nat × Nat)) : ℚ :=
  (T.map (fun e => d e.1 e.2)).sum

/-- The number `w` is the minimum spanning tree weight of the complete graph
on `S`: some spanning tree has weight `w` and none is lighter. -/
def IsMSTWeight (d : Nat → Nat → ℚ) (S : List Nat) (w : ℚ) : Prop :=
  (∃ T, IsSpanningTree S T ∧ treeWeight d T = w) ∧
    ∀ T, IsSpanningTree S T → w ≤ treeWeight d T

/-- The cache states of one episode: the empty cache, and what a call of
`calculateMSTKruskal` on a duplicate-free slice of vertices below `n` leaves
behind when started on such a state. -/
inductive ReachableCache (rt : Runtime) (n : Nat) (d : Nat → Nat → ℚ) :
    List (List Nat × ℚ) → Prop
  | empty : ReachableCache rt n d []
  | call {t t1 : TSPSolver} {S : List Nat} {v : ℚ} :
      ReachableCache rt n d t.mstCache → t.distanceMatrix = d → S.Nodup →
      (∀ x ∈ S, x < n) → calculateMSTKruskal rt t S = some (v, t1) →
      ReachableCache rt n d t1.mstCache

/-- Every cached value is what the computation returns for its key. -/
def CacheOK (rt : Runtime) (n : Nat) (d : Nat → Nat → ℚ) (cache : List (List Nat × ℚ)) : Prop :=
  ∀ key v, cache.lookup key = some v →
    key.Nodup ∧ 2 ≤ key.length ∧ (∀ x ∈ key, x < n) ∧ kruskalCompute rt d key = some v

/-- The matrix is symmetric on `[0, n) × [0, n)`. -/
def SymmetricOn (n : Nat) (d : Nat → Nat → ℚ) : Prop :=
  ∀ i j, i < n → j < n → d i j = d j i

/-- The matrix has no negative entry on `[0, n) × [0, n)`. -/
def NonnegOn (n : Nat) (d : Nat → Nat → ℚ) : Prop :=
  ∀ i j, i < n → j < n → 0 ≤ d i j

/-- The matrix has a zero diagonal on `[0, n)`. -/
def ZeroDiagOn (n : Nat) (d : Nat → Nat → ℚ) : Prop :=
  ∀ i, i < n → d i i = 0

/-- The list is a permutation of the vertices `0, ..., n-1`. -/
def IsTour (n : Nat) (path : List Nat) : Prop := path.Perm (List.range n)

/-- The running minimum `m` (with `none` for `math.MaxFloat64`) is at most `x`. -/
def Below (m : Option ℚ) (x : ℚ) : Prop := ∃ v, m = some v ∧ v ≤ x

/-- The slice `visited` has one entry per vertex and marks exactly the
vertices of `path`. -/
def Marks (n : Nat) (visited : List Bool) (path : List Nat) : Prop :=
  visited.length = n ∧ ∀ i, i < n → (visited.getD i false = true ↔ i ∈ path)

/-- Two solver states describe the same problem: they differ at most in the
incumbent, the counter and the cache. -/
def SameProblem (t t1 : TSPSolver) : Prop :=
  t1.numPoints = t.numPoints ∧ t1.distanceMatrix = t.distanceMatrix ∧
    t1.nearestNeighbors = t.nearestNeighbors

/-- The solver state is well formed for the search: the matrix is symmetric
and non-negative on the vertices, the cache is correct and the neighbour
ranking lists vertices only. -/
structure WellFormed (rt : Runtime) (t : TSPSolver) : Prop where
  symm : SymmetricOn t.numPoints t.distanceMatrix
  nonneg : NonnegOn t.numPoints t.distanceMatrix
  cache : CacheOK rt t.numPoints t.distanceMatrix t.mstCache
  ranking : ∀ row ∈ t.nearestNeighbors, ∀ x ∈ row, x < t.numPoints

/-- Closed length of a path for the matrix `d`: what `calculatePathDistance`
computes. -/
def tourLength (d : Nat → Nat → ℚ) (q : List Nat) : ℚ :=
  sumConsecutive d 0 q + d (q.getLastD 0) (q.headD 0)

/-- The list `q` is a tour that starts with `path`. -/
def Extends (n : Nat) (path q : List Nat) : Prop :=
  ∃ rest, q = path ++ rest ∧ IsTour n q

/-- What a piece of the search does to the solver: the problem and the
correctness of the cache are kept, the incumbent distance does not grow, it is
at most the length of every tour in `Cov` afterwards, and the incumbent either
is unchanged or is a tour of `Src`, carried with its own length, that was
strictly below the old incumbent distance. -/
structure SearchResult (rt : Runtime) (t t1 : TSPSolver) (Cov Src : List Nat → Prop) : Prop where
  same : SameProblem t t1
  cache : CacheOK rt t.numPoints t.distanceMatrix t1.mstCache
  mono : ∀ x, Below t.bestDistance x → Below t1.bestDistance x
  covered : ∀ q, Cov q → Below t1.bestDistance (tourLength t.distanceMatrix q)
  incumbent : (t1.bestDistance = t.bestDistance ∧ t1.bestPath = t.bestPath) ∨
    (Src t1.bestPath ∧ t1.bestDistance = some (tourLength t.distanceMatrix t1.bestPath) ∧
      ¬ Below t.bestDistance (tourLength t.distanceMatrix t1.bestPath))

/-- The number `v` is the optimal tour length: the closed length of some
permutation of the `n` vertices, and at most that of every permutation.  This
is what an exhaustive search without any bound returns. -/
def IsOptimal (n : Nat) (d : Nat → Nat → ℚ) (v : ℚ) : Prop :=
  (∃ q, IsTour n q ∧ tourLength d q = v) ∧ ∀ q, IsTour n q → v ≤ tourLength d q

/-- The vertex pairs of the open path through a list. -/
def pathPairs : List Nat → List (Nat × Nat)
  | a :: b :: rest => (a, b) :: pathPairs (b :: rest)
  | _ => []

/-- No two different vertices are equally far from a vertex: every row of the
matrix is injective on `[0, n)`. -/
def TieFree (n : Nat) (d : Nat → Nat → ℚ) : Prop :=
  ∀ i j k, i < n → j < n → k < n → d i j = d i k → j = k

/-- The comparison `uf.Find(a) == uf.Find(b)`: the two calls run one after the
other, the second on the structure that the first one left behind. -/
def UnionFind.sameSet (uf : UnionFind) (a b : Nat) : Option Bool :=
  match uf.Find a with
  | none => none
  | some (uf1, ra) =>
    match uf1.Find b with
    | none => none
    | some (_, rb) => some (decide (ra = rb))

/-- The union-find structures that arise from `NewUnionFind k` by calls of
`Find` and `Union` with indices in `[0, k)`. -/
inductive UnionFind.Reachable (k : Nat) : UnionFind → Prop
  | init : UnionFind.Reachable k (NewUnionFind k)
  | find {uf uf1 : UnionFind} {x r : Nat} : UnionFind.Reachable k uf → x < k →
      uf.Find x = some (uf1, r) → UnionFind.Reachable k uf1
  | union {uf uf1 : UnionFind} {x y : Nat} : UnionFind.Reachable k uf → x < k → y < k →
      uf.Union x y = some uf1 → UnionFind.Reachable k uf1

/-- What a piece of the search does to the incumbent, whatever the matrix is:
the problem is kept, the incumbent distance does not grow, and the incumbent
either is unchanged or is a path of `Src` carried with the distance
`off + tourLength` that was strictly below the old incumbent distance.  The
offset `off` is the difference between the argument `currentDistance` and the
length of the current path; it is 0 in every call that the solver makes. -/
structure Improves (off : ℚ) (t t1 : TSPSolver) (Src : List Nat → Prop) : Prop where
  same : SameProblem t t1
  mono : ∀ x, Below t.bestDistance x → Below t1.bestDistance x
  incumbent : (t1.bestDistance = t.bestDistance ∧ t1.bestPath = t.bestPath) ∨
    (Src t1.bestPath ∧
      t1.bestDistance = some (off + tourLength t.distanceMatrix t1.bestPath) ∧
      ¬ Below t.bestDistance (off + tourLength t.distanceMatrix t1.bestPath))

/-- The path `q` arises from `path` by nearest-neighbour steps: each step
appends a vertex below `n` that is not on the path yet and that is at least as
near to the last vertex of the path as every other such vertex. -/
inductive NearestSteps (n : Nat) (d : Nat → Nat → ℚ) : List Nat → List Nat → Prop
  | done (path : List Nat) : NearestSteps n d path path
  | step {path q : List Nat} {x : Nat} : x < n → x ∉ path →
      (∀ u, u < n → u ∉ path → d (path.getLastD 0) x ≤ d (path.getLastD 0) u) →
      NearestSteps n d (path ++ [x]) q → NearestSteps n d path q

/-- Every two different vertices are at a positive distance. -/
def PositiveOff (n : Nat) (d : Nat → Nat → ℚ) : Prop :=
  ∀ i j, i < n → j < n → i ≠ j → 0 < d i j

/-! ## Concrete instances -/

/-- A metric instance on four vertices in which no two entries of a row are
equal.  The optimal tour has length 40, the greedy tour improved by 2-opt has
length 41. -/
def gapMatrix : Nat → Nat → ℚ :=
  matrixOf [[0, 12, 18, 8], [12, 0, 9, 6], [18, 9, 0, 11], [8, 6, 11, 0]]

/-- A metric instance on four vertices with equal entries inside rows: the
vertices 1 and 2 are equally far from vertex 0. -/
def tieMatrix : Nat → Nat → ℚ :=
  matrixOf [[0, 3, 3, 4], [3, 0, 2, 4], [3, 2, 0, 4], [4, 4, 4, 0]]

/-- Three vertices at pairwise distances 3, 4 and 5. -/
def triangleMatrix : Nat → Nat → ℚ :=
  matrixOf [[0, 3, 4], [3, 0, 5], [4, 5, 0]]

/-- Two vertices at distance 1. -/
def pairMatrix : Nat → Nat → ℚ :=
  matrixOf [[0, 1], [1, 0]]

/-- The three collinear points `(0,0)`, `(1,0)`, `(2,0)`. -/
def collinearPoints : List Point := [⟨0, 0⟩, ⟨1, 0⟩, ⟨2, 0⟩]

/-- The distance matrix of `collinearPoints`. -/
def collinearMatrix : Nat → Nat → ℚ :=
  matrixOf [[0, 1, 2], [1, 0, 1], [2, 1, 0]]

/-- Three vertices of which the first two coincide: the distance matrix of the
points `(0,0)`, `(0,0)`, `(1,0)`. -/
def twinMatrix : Nat → Nat → ℚ :=
  matrixOf [[0, 0, 1], [0, 0, 1], [1, 1, 0]]

/-! # The float64 reading of the solver

The model above reads `float64` as exact rationals, which is faithful for what
the code does with its control flow and its data structures.  Where a
statement depends on what a sum or a comparison of `float64` values gives, the
functions are read once more with IEEE 754 binary64 arithmetic (round to
nearest, ties to even), in the namespace `F64`.

* A `float64` value is represented by the rational number it denotes.  `+Inf`,
  `-Inf` and `NaN` are represented by `2^1024`, `-2^1024` and `2^1025`, which
  no finite `float64` denotes.  The negative zero is not distinguished from
  zero: the code only adds, multiplies and compares.
* `math.MaxFloat64` is the number `2^1024 - 2^971`; the incumbent
  `bestDistance = none` of `TSPSolver` is read as that number.
* The loop `for len(unvisited) > 0` of `multiStartGreedy` gets an explicit
  bound on its iterations; the result `none` for every bound means that the
  loop does not end.
-/


namespace F64

/-! ## Arithmetic -/

/-- The representation of `+Inf`. -/
def posInf : ℚ := ((2 ^ 1024 : Nat) : ℚ)

/-- The representation of `-Inf`. -/
def negInf : ℚ := -((2 ^ 1024 : Nat) : ℚ)

/-- The representation of `NaN`. -/
def nan : ℚ := ((2 ^ 1025 : Nat) : ℚ)

/-- Go `math.MaxFloat64`, `(2 - 2^-52) * 2^1023`. -/
def maxFloat64 : ℚ := ((2 ^ 1024 - 2 ^ 971 : Nat) : ℚ)

/-- The power `2^k` for an integer exponent. -/
def pow2 (k : Int) : ℚ :=
  if 0 ≤ k then ((2 ^ k.toNat : Nat) : ℚ) else 1 / ((2 ^ (-k).toNat : Nat) : ℚ)

/-- The number of binary digits of `n`, by halving; the first argument bounds
the number of halvings and `n` itself always suffices. -/
def bitLength : Nat → Nat → Nat
  | 0, _ => 0
  | fuel + 1, n => if n = 0 then 0 else bitLength fuel (n / 2) + 1

/-- The binary exponent of a positive rational `x`: the integer `e` with
`2^e ≤ x < 2^(e+1)`. -/
def ilog2 (x : ℚ) : Int :=
  let k : Int := (bitLength x.num.natAbs x.num.natAbs : Int) - (bitLength x.den x.den : Int)
  if pow2 k ≤ x then k else k - 1

/-- Rounding of a positive real number to `float64`, round to nearest, ties to
even.  With `e` the binary exponent of `a`, not below the least normal
exponent `-1022`, the `float64` values near `a` are the multiples of
`q = 2^(e-52)`; `a / q` is rounded to the nearest integer `m`, to the even one
in a tie, and a result `m * q` of `2^1024` or more is an overflow to
infinity. -/
def roundPos (a : ℚ) : ℚ :=
  let q := pow2 (max (ilog2 a) (-1022) - 52)
  let y := a / q
  let f := y.num.natAbs / y.den
  let r := y - (f : ℚ)
  let m := if r < 1 / 2 then f else if 1 / 2 < r then f + 1 else if f % 2 = 0 then f else f + 1
  let v := (m : ℚ) * q
  if posInf ≤ v then posInf else v

/-- Rounding of a real number to `float64`, round to nearest, ties to even. -/
def roundNearest (x : ℚ) : ℚ :=
  if x = 0 then 0 else if 0 < x then roundPos x else -roundPos (-x)

/-- The `float64` sum `x + y`. -/
def add (x y : ℚ) : ℚ :=
  if x = nan ∨ y = nan then nan
  else if x = posInf then (if y = negInf then nan else posInf)
  else if x = negInf then (if y = posInf then nan else negInf)
  else if y = posInf then posInf
  else if y = negInf then negInf
  else roundNearest (x + y)

/-- The `float64` negation `-x`. -/
def neg (x : ℚ) : ℚ := if x = nan then nan else -x

/-- The `float64` difference `x - y`. -/
def sub (x y : ℚ) : ℚ := add x (neg y)

/-- The `float64` product `x * y`. -/
def mul (x y : ℚ) : ℚ :=
  if x = nan ∨ y = nan then nan
  else if x = posInf ∨ x = negInf ∨ y = posInf ∨ y = negInf then
    (if x = 0 ∨ y = 0 then nan else if decide (0 < x) = decide (0 < y) then posInf else negInf)
  else roundNearest (x * y)

/-- The `float64` comparison `x < y`; it is false when an operand is `NaN`. -/
def lt (x y : ℚ) : Bool := decide (x ≠ nan ∧ y ≠ nan ∧ x < y)

/-- The `float64` comparison `x >= y`; it is false when an operand is `NaN`. -/
def ge (x y : ℚ) : Bool := decide (x ≠ nan ∧ y ≠ nan ∧ y ≤ x)

/-- The `float64` comparison `x == y`; it is false when an operand is `NaN`. -/
def eq (x y : ℚ) : Bool := decide (x ≠ nan ∧ y ≠ nan ∧ x = y)

/-- The field `bestDistance` as a `float64`: `none` is `math.MaxFloat64`. -/
def incumbent (t : TSPSolver) : ℚ := t.bestDistance.getD maxFloat64

/-! ## Distances -/

/-- The accumulation loop of `calculatePathDistance` and
`calculatePartialDistance`, `total += d[path[i]][path[i+1]]`, in `float64`. -/
def sumConsecutive (d : Nat → Nat → ℚ) : ℚ → List Nat → ℚ
  | total, a :: b :: rest => sumConsecutive d (add total (d a b)) (b :: rest)
  | total, _ => total

/-- Go `calculatePartialDistance` in `float64`. -/
def calculatePartialDistance (t : TSPSolver) (path : List Nat) : ℚ :=
  sumConsecutive t.distanceMatrix 0 path

/-- Go `calculatePathDistance` in `float64`: the closing edge is added last. -/
def calculatePathDistance (t : TSPSolver) (path : List Nat) : ℚ :=
  add (sumConsecutive t.distanceMatrix 0 path)
    (t.distanceMatrix (path.getLastD 0) (path.headD 0))

/-! ## MST lower bound -/

/-- The main loop of `calculateMSTKruskal` with `mstLength += edge.Weight` in
`float64`. -/
def kruskalLoop (k : Nat) (idx : Nat → Nat) : List Edge → UnionFind → ℚ → Nat → Option ℚ
  | [], _, mstLength, _ => some mstLength
  | edge :: rest, uf, mstLength, edgesUsed =>
    if edgesUsed = k - 1 then some mstLength
    else
      match uf.Find (idx edge.From) with
      | none => none
      | some (uf1, r1) =>
        match uf1.Find (idx edge.To) with
        | none => none
        | some (uf2, r2) =>
          if r1 ≠ r2 then
            match uf2.Union (idx edge.From) (idx edge.To) with
            | none => none
            | some uf3 => kruskalLoop k idx rest uf3 (add mstLength edge.Weight) (edgesUsed + 1)
          else kruskalLoop k idx rest uf2 mstLength edgesUsed

/-- The computation of `calculateMSTKruskal` on a cache miss, in `float64`. -/
def kruskalCompute (rt : Runtime) (d : Nat → Nat → ℚ) (points : List Nat) : Option ℚ :=
  kruskalLoop points.length (pointToIndex points) (rt.sortEdges (allEdges d points))
    (NewUnionFind points.length) 0 0

/-- Go `calculateMSTKruskal` in `float64`. -/
def calculateMSTKruskal (rt : Runtime) (t : TSPSolver) (points : List Nat) :
    Option (ℚ × TSPSolver) :=
  if points.length ≤ 1 then some (0, t)
  else
    let key := sortInts points
    match t.mstCache.lookup key with
    | some cached => some (cached, t)
    | none =>
      match kruskalCompute rt t.distanceMatrix key with
      | none => none
      | some mstLength => some (mstLength, { t with mstCache := (key, mstLength) :: t.mstCache })

/-- One of the two running minima of `minConnectionToPath`:
`if dist := d[v][point]; dist < m { m = dist }`. -/
def minDistTo (d : Nat → Nat → ℚ) (v : Nat) : List Nat → ℚ → ℚ
  | [], m => m
  | point :: rest, m => minDistTo d v rest (if lt (d v point) m then d v point else m)

/-- Go `minConnectionToPath` in `float64`; both minima start at
`math.MaxFloat64`. -/
def minConnectionToPath (t : TSPSolver) (unvisited path : List Nat) : ℚ :=
  if unvisited.length = 0 then 0
  else
    add (minDistTo t.distanceMatrix (path.headD 0) unvisited maxFloat64)
      (minDistTo t.distanceMatrix (path.getLastD 0) unvisited maxFloat64)

/-- Go `calculateLowerBound` in `float64`:
`currentLength + mstLength + connectionLength` is summed from the left. -/
def calculateLowerBound (rt : Runtime) (t : TSPSolver) (currentPath : List Nat)
    (visited : List Bool) : Option (ℚ × TSPSolver) :=
  let currentLength := calculatePartialDistance t currentPath
  let unvisited := unvisitedOf t.numPoints visited
  if unvisited.length = 0 then
    some (add currentLength (t.distanceMatrix (currentPath.getLastD 0) (currentPath.headD 0)), t)
  else
    match calculateMSTKruskal rt t unvisited with
    | none => none
    | some (mstLength, t1) =>
      let unvisited1 := if unvisited.length ≤ 1 then unvisited else sortInts unvisited
      some (add (add currentLength mstLength) (minConnectionToPath t1 unvisited1 currentPath), t1)

/-! ## Branch and bound -/

/-- The body of the loop `for _, nextPoint := range pointsToTry` of
`bruteForceRecursive`, in `float64`. -/
def tryPoint (recurse : TSPSolver → List Nat → ℚ → List Bool → Option (TSPSolver × List Bool))
    (currentPath : List Nat) (currentDistance : ℚ) (lastPoint : Nat)
    (s : TSPSolver × List Bool) (nextPoint : Nat) : Option (TSPSolver × List Bool) :=
  let newDistance := add currentDistance (s.1.distanceMatrix lastPoint nextPoint)
  if ge newDistance (incumbent s.1) then some s
  else
    match recurse s.1 (currentPath ++ [nextPoint]) newDistance (s.2.set nextPoint true) with
    | none => none
    | some (t3, visited3) => some (t3, visited3.set nextPoint false)

/-- Go `bruteForceRecursive` in `float64`.  The first argument bounds the
recursion depth. -/
def bruteForceRecursive (rt : Runtime) :
    Nat → TSPSolver → List Nat → ℚ → List Bool → Option (TSPSolver × List Bool)
  | 0, _, _, _, _ => none
  | fuel + 1, t, currentPath, currentDistance, visited =>
    match calculateLowerBound rt t currentPath visited with
    | none => none
    | some (lowerBound, t1) =>
      if ge lowerBound (incumbent t1) then some (t1, visited)
      else if currentPath.length = t1.numPoints then
        let finalDistance :=
          add currentDistance (t1.distanceMatrix (currentPath.getLastD 0) (currentPath.headD 0))
        let t2 := { t1 with visitedCount := t1.visitedCount + 1 }
        if lt finalDistance (incumbent t2) then
          some ({ t2 with bestDistance := some finalDistance, bestPath := currentPath }, visited)
        else some (t2, visited)
      else
        let lastPoint := currentPath.getLastD 0
        let pointsToTry :=
          rt.sortSlice (t1.distanceMatrix lastPoint) (pointsToTryOf t1 lastPoint visited)
        pointsToTry.foldlM
          (tryPoint (bruteForceRecursive rt fuel) currentPath currentDistance lastPoint)
          (t1, visited)

/-! ## v1: multi-start greedy and the search entry point -/

/-- The scan `for point := range ... { if dist := d[current][point]; dist < minDist
{ minDist = dist; nextPoint = point } }` in `float64`; the state is the pair
`nextPoint, minDist`, initially `0, math.MaxFloat64`. -/
def scanNearest (d : Nat → Nat → ℚ) (current : Nat) : List Nat → Nat × ℚ → Nat × ℚ
  | [], best => best
  | point :: rest, best =>
    scanNearest d current rest (if lt (d current point) best.2 then (point, d current point) else best)

namespace V1

/-- The loop `for len(unvisited) > 0 { ... }` of v1 `multiStartGreedy` in
`float64`.  The first argument bounds the number of iterations. -/
def greedyLoop (rt : Runtime) (d : Nat → Nat → ℚ) : Nat → List Nat → List Nat → Option (List Nat)
  | 0, path, unvisited => if unvisited.length > 0 then none else some path
  | fuel + 1, path, unvisited =>
    if unvisited.length > 0 then
      let current := path.getLastD 0
      let nextPoint := (scanNearest d current (rt.mapRange path unvisited) (0, maxFloat64)).1
      greedyLoop rt d fuel (path ++ [nextPoint]) (unvisited.erase nextPoint)
    else some path

/-- The loop over `startPoint` of v1 `multiStartGreedy` in `float64`; `best` is
the pair `bestPath, bestDist`. -/
def startLoop (rt : Runtime) (fuel : Nat) (t : TSPSolver) :
    List Nat → List Nat × ℚ → Option (List Nat × ℚ)
  | [], best => some best
  | startPoint :: rest, best =>
    match greedyLoop rt t.distanceMatrix fuel [startPoint]
        ((List.range t.numPoints).filter (fun i => i ≠ startPoint)) with
    | none => none
    | some path =>
      let distance := calculatePathDistance t path
      startLoop rt fuel t rest (if lt distance best.2 then (path, distance) else best)

/-- Go v1 `multiStartGreedy` in `float64`; `fuel` bounds the iterations of each
inner loop. -/
def multiStartGreedy (rt : Runtime) (fuel : Nat) (t : TSPSolver) : Option (List Nat × ℚ) :=
  startLoop rt fuel t (List.range t.numPoints) ([], maxFloat64)

/-- Go v1 `bruteForce` in `float64` (without the elapsed time).  The assignment
`t.bestDistance = math.MaxFloat64` is `bestDistance := none`, which
`incumbent` reads as `math.MaxFloat64`. -/
def bruteForce (rt : Runtime) (fuel : Nat) (t : TSPSolver) : Option (List Nat × ℚ) :=
  let t0 := { t with bestPath := [], bestDistance := none, visitedCount := 0, mstCache := [] }
  match multiStartGreedy rt fuel t0 with
  | none => none
  | some (greedyPath, greedyDist) =>
    let t1 := { t0 with bestPath := greedyPath, bestDistance := some greedyDist }
    if t1.numPoints = 0 then none
    else
      let visited := (List.replicate t1.numPoints false).set 0 true
      match bruteForceRecursive rt (t1.numPoints + 1) t1 [0] 0 visited with
      | none => none
      | some (t2, _) => some (t2.bestPath, incumbent t2)

end V1

/-! ## v2: 2-opt, multi-start greedy with ranking, adaptive search -/

namespace V2

/-- The value `delta` computed by `twoOpt` for the pair `(i, j)` in `float64`:
`-d[i-1][i] - d[j][j+1] + d[i-1][j] + d[i][j+1]`, evaluated from the left. -/
def twoOptDelta (d : Nat → Nat → ℚ) (currentPath : List Nat) (i j : Nat) : ℚ :=
  add
    (add
      (sub (neg (d (currentPath.getD (i - 1) 0) (currentPath.getD i 0)))
        (d (currentPath.getD j 0) (currentPath.getD (j + 1) 0)))
      (d (currentPath.getD (i - 1) 0) (currentPath.getD j 0)))
    (d (currentPath.getD i 0) (currentPath.getD (j + 1) 0))

/-- One pass of the double loop of `twoOpt` in `float64`. -/
def twoOptPass (d : Nat → Nat → ℚ) (currentPath : List Nat) : ℚ × Option (Nat × Nat) :=
  (TspOracle.V2.twoOptPairs currentPath.length).foldl
    (fun st ij =>
      let delta := twoOptDelta d currentPath ij.1 ij.2
      if lt delta st.1 then (delta, some ij) else st)
    (0, none)

/-- The loop `for improved && iteration < maxIterations` of `twoOpt` in
`float64`; the first argument is the number of passes left. -/
def twoOptLoop (d : Nat → Nat → ℚ) : Nat → List Nat → ℚ → List Nat × ℚ
  | 0, currentPath, currentDistance => (currentPath, currentDistance)
  | left + 1, currentPath, currentDistance =>
    match twoOptPass d currentPath with
    | (bestDelta, some (bestI, bestJ)) =>
      twoOptLoop d left (TspOracle.V2.reverseSegment currentPath bestI bestJ)
        (add currentDistance bestDelta)
    | (_, none) => (currentPath, currentDistance)

/-- The variable `improved` of `twoOpt` when its loop ends, in `float64`. -/
def twoOptImproved (d : Nat → Nat → ℚ) : Nat → List Nat → Bool
  | 0, _ => true
  | left + 1, currentPath =>
    match twoOptPass d currentPath with
    | (_, some (bestI, bestJ)) =>
      twoOptImproved d left (TspOracle.V2.reverseSegment currentPath bestI bestJ)
    | (_, none) => false

/-- Go v2 `twoOpt` in `float64`.  `calculatePathDistance` panics on the empty
path. -/
def twoOpt (t : TSPSolver) (path : List Nat) : Option (List Nat × ℚ) :=
  if path.length = 0 then none
  else if path.length < 4 then some (path, calculatePathDistance t path)
  else some (twoOptLoop t.distanceMatrix 1000 path (calculatePathDistance t path))

/-- The loop `for len(unvisited) > 0 { ... }` of v2 `multiStartGreedy` in
`float64`: the ranked neighbours that are still unvisited are scanned first,
and the map when that scan leaves `minDist == math.MaxFloat64`. -/
def greedyLoop (rt : Runtime) (t : TSPSolver) : Nat → List Nat → List Nat → Option (List Nat)
  | 0, path, unvisited => if unvisited.length > 0 then none else some path
  | fuel + 1, path, unvisited =>
    if unvisited.length > 0 then
      let current := path.getLastD 0
      let ranked := scanNearest t.distanceMatrix current
        ((t.nearestNeighbors.getD current []).filter (fun nb => unvisited.contains nb))
        (0, maxFloat64)
      let best :=
        if eq ranked.2 maxFloat64 then
          scanNearest t.distanceMatrix current (rt.mapRange path unvisited) ranked
        else ranked
      greedyLoop rt t fuel (path ++ [best.1]) (unvisited.erase best.1)
    else some path

/-- The loop over `startPoint` of v2 `multiStartGreedy` in `float64`. -/
def startLoop (rt : Runtime) (fuel : Nat) (t : TSPSolver) :
    List Nat → List Nat × ℚ → Option (List Nat × ℚ)
  | [], best => some best
  | startPoint :: rest, best =>
    match greedyLoop rt t fuel [startPoint]
        ((List.range t.numPoints).filter (fun i => i ≠ startPoint)) with
    | none => none
    | some path =>
      let distance := calculatePathDistance t path
      startLoop rt fuel t rest (if lt distance best.2 then (path, distance) else best)

/-- Go v2 `multiStartGreedy` in `float64`: at most the first 5 start points,
then 2-opt; `fuel` bounds the iterations of each inner loop. -/
def multiStartGreedy (rt : Runtime) (fuel : Nat) (t : TSPSolver) : Option (List Nat × ℚ) :=
  match startLoop rt fuel t ((List.range t.numPoints).filter (fun s => s < 5))
      ([], maxFloat64) with
  | none => none
  | some (bestPath, _) => twoOpt t bestPath

/-- The loop `for iteration := 0; iteration < 200; iteration++` of
`adaptiveSearch` in `float64`.  `up` is the value of `1.0 + step` and `down`
the value of `1.0 - step`.  Next to the result, the values of
`currentThreshold` with which `bruteForceRecursive` was called are returned,
in order. -/
def adaptiveLoop (rt : Runtime) (greedyPath : List Nat) (greedyDist : ℚ) (up down : ℚ) :
    Nat → TSPSolver → ℚ → List Nat → ℚ → Bool → Option ((List Nat × ℚ) × List ℚ)
  | 0, _, _, bestPath, bestDist, _ => some ((bestPath, bestDist), [])
  | left + 1, t, currentThreshold, bestPath, bestDist, foundAny =>
    let t1 := { t with bestPath := [], bestDistance := some currentThreshold,
                       visitedCount := 0, mstCache := [] }
    if t1.numPoints = 0 then none
    else
      let visited := (List.replicate t1.numPoints false).set 0 true
      match bruteForceRecursive rt (t1.numPoints + 1) t1 [0] 0 visited with
      | none => none
      | some (t2, _) =>
        if lt (incumbent t2) currentThreshold then
          (adaptiveLoop rt greedyPath greedyDist up down left t2 (mul (incumbent t2) down)
            t2.bestPath (incumbent t2) true).map
            (fun r => (r.1, currentThreshold :: r.2))
        else if foundAny then some ((bestPath, bestDist), [currentThreshold])
        else
          let currentThreshold1 := mul currentThreshold up
          if ge currentThreshold1 greedyDist then
            some ((greedyPath, greedyDist), [currentThreshold])
          else
            (adaptiveLoop rt greedyPath greedyDist up down left t2 currentThreshold1
              bestPath bestDist foundAny).map
              (fun r => (r.1, currentThreshold :: r.2))

/-- Go v2 `adaptiveSearch` in `float64`, with the thresholds it searched:
`0.90` and `0.07` are the constants rounded to `float64`, and `1.0 + step`,
`1.0 - step` are `float64` operations. -/
def adaptiveSearchLog (rt : Runtime) (fuel : Nat) (t : TSPSolver) :
    Option ((List Nat × ℚ) × List ℚ) :=
  match multiStartGreedy rt fuel t with
  | none => none
  | some (greedyPath, greedyDist) =>
    adaptiveLoop rt greedyPath greedyDist (add 1 (roundNearest (7 / 100)))
      (sub 1 (roundNearest (7 / 100))) 200 t (mul greedyDist (roundNearest (9 / 10)))
      greedyPath greedyDist false

/-- Go v2 `adaptiveSearch` in `float64`. -/
def adaptiveSearch (rt : Runtime) (fuel : Nat) (t : TSPSolver) : Option (List Nat × ℚ) :=
  (adaptiveSearchLog rt fuel t).map Prod.fst

end V2

/-! ## Inputs on which `float64` arithmetic is exact -/

/-- The value of the decimal literal `x` as a `float64`. -/
def lit (x : ℚ) : ℚ := roundNearest x

end F64

/-- The number `x` is a natural number not above `B`. -/
def F64.Small (B : Nat) (x : ℚ) : Prop := ∃ k : Nat, k ≤ B ∧ x = (k : ℚ)

/-- Every entry of the matrix is a natural number, and the entries are so
small that every sum the solver forms is below `2^53`: there is a bound `K` on
the entries with `(2 n + 4) K < 2^53`.  On such a matrix no `float64`
addition or subtraction of the solver rounds. -/
def ExactOn (n : Nat) (d : Nat → Nat → ℚ) : Prop :=
  ∃ K : Nat, (2 * n + 4) * K < 2 ^ 53 ∧ ∀ i j, i < n → j < n → F64.Small K (d i j)

/-- The cache states of one episode in the `float64` reading: the empty cache,
and what a call of `calculateMSTKruskal` on a duplicate-free slice of vertices
below `n` leaves behind when started on such a state. -/
inductive F64.ReachableCache (rt : Runtime) (n : Nat) (d : Nat → Nat → ℚ) :
    List (List Nat × ℚ) → Prop
  | empty : F64.ReachableCache rt n d []
  | call {t t1 : TSPSolver} {S : List Nat} {v : ℚ} :
      F64.ReachableCache rt n d t.mstCache → t.distanceMatrix = d → S.Nodup →
      (∀ x ∈ S, x < n) → F64.calculateMSTKruskal rt t S = some (v, t1) →
      F64.ReachableCache rt n d t1.mstCache

/-- A solver state on which the `float64` arithmetic of the search is exact:
the entries of the matrix are natural numbers not above `K`, with
`(2 n + 4) K < 2^53`, the ranking lists vertices only, the cached values are
natural numbers not above `n K`, and the incumbent is not `NaN`. -/
structure F64.Tame (K : Nat) (t : TSPSolver) : Prop where
  pos : 0 < t.numPoints
  entries : ∀ i j, i < t.numPoints → j < t.numPoints → F64.Small K (t.distanceMatrix i j)
  bound : (2 * t.numPoints + 4) * K < 2 ^ 53
  ranking : ∀ row ∈ t.nearestNeighbors, ∀ x ∈ row, x < t.numPoints
  cache : ∀ key v, t.mstCache.lookup key = some v → F64.Small (t.numPoints * K) v
  finite : t.bestDistance ≠ some F64.nan

/-! ## Concrete instances for the `float64` reading -/

/-- Three vertices at the distances `0.1`, `0.2` and `0.3`, as `float64`
values. -/
def decimalMatrix : Nat → Nat → ℚ :=
  matrixOf [[0, F64.lit (1 / 10), F64.lit (3 / 10)],
            [F64.lit (1 / 10), 0, F64.lit (2 / 10)],
            [F64.lit (3 / 10), F64.lit (2 / 10), 0]]

/-- Three vertices at pairwise distance `2^1023`, a finite `float64`: the sum
of two entries overflows. -/
def hugeMatrix : Nat → Nat → ℚ :=
  matrixOf [[0, F64.pow2 1023, F64.pow2 1023],
            [F64.pow2 1023, 0, F64.pow2 1023],
            [F64.pow2 1023, F64.pow2 1023, 0]]

/-- Three vertices at pairwise distance `math.MaxFloat64`. -/
def maxMatrix : Nat → Nat → ℚ :=
  matrixOf [[0, F64.maxFloat64, F64.maxFloat64],
            [F64.maxFloat64, 0, F64.maxFloat64],
            [F64.maxFloat64, F64.maxFloat64, 0]]

/-- Four vertices at the distances `d01 = 0.3`, `d02 = 0.2`, `d03 = 0.5`,
`d12 = 0.7`, `d13 = 0.4`, `d23 = 0.3`, as `float64` values. -/
def driftMatrix : Nat → Nat → ℚ :=
  matrixOf [[0, F64.lit (3 / 10), F64.lit (2 / 10), F64.lit (5 / 10)],
            [F64.lit (3 / 10), 0, F64.lit (7 / 10), F64.lit (4 / 10)],
            [F64.lit (2 / 10), F64.lit (7 / 10), 0, F64.lit (3 / 10)],
            [F64.lit (5 / 10), F64.lit (4 / 10), F64.lit (3 / 10), 0]]

/-- The four points `(1,0)`, `(2,0)`, `(0,0)`, `(3,0)` of the plane. -/
def linePoints : List Point := [⟨1, 0⟩, ⟨2, 0⟩, ⟨0, 0⟩, ⟨3, 0⟩]

/-- The distance matrix of `linePoints`: the vertices 1 and 2 are equally far
from vertex 0. -/
def lineMatrix : Nat → Nat → ℚ :=
  matrixOf [[0, 1, 1, 2], [1, 0, 2, 1], [1, 2, 0, 3], [2, 1, 3, 0]]

/-! ## Joining classes -/

theorem addEdge_equivalence (R : Nat → Nat → Prop) (e : Edge) : Equivalence (addEdge R e) :=
  Relation.EqvGen.is_equivalence _

theorem addEdge_of_rel {R : Nat → Nat → Prop} (e : Edge) {a b : Nat} (h : R a b) :
    addEdge R e a b :=
  Relation.EqvGen.rel _ _ (Or.inl h)

theorem addEdge_edge (R : Nat → Nat → Prop) (e : Edge) : addEdge R e e.From e.To :=
  Relation.EqvGen.rel _ _ (Or.inr ⟨rfl, rfl⟩)

theorem addEdge_min {R Q : Nat → Nat → Prop} {e : Edge} (hQ : Equivalence Q)
    (hRQ : ∀ a b, R a b → Q a b) (he : Q e.From e.To) :
    ∀ a b, addEdge R e a b → Q a b := by
  intro a b h
  induction h with
  | rel x y hxy =>
    rcases hxy with h | ⟨rfl, rfl⟩
    · exact hRQ _ _ h
    · exact he
  | refl x => exact hQ.refl x
  | symm x y _ ih => exact hQ.symm ih
  | trans x y z _ _ ih1 ih2 => exact hQ.trans ih1 ih2

theorem addEdge_eq_self {R : Nat → Nat → Prop} (hR : Equivalence R) {e : Edge}
    (he : R e.From e.To) : addEdge R e = R := by
  funext a b
  apply propext
  exact ⟨addEdge_min hR (fun _ _ h => h) he a b, addEdge_of_rel e⟩

theorem addEdge_comm (R : Nat → Nat → Prop) (e f : Edge) :
    addEdge (addEdge R e) f = addEdge (addEdge R f) e := by
  have key : ∀ (e f : Edge) a b, addEdge (addEdge R e) f a b → addEdge (addEdge R f) e a b := by
    intro e f
    apply addEdge_min (addEdge_equivalence _ _)
    · apply addEdge_min (addEdge_equivalence _ _)
      · intro a b h
        exact addEdge_of_rel e (addEdge_of_rel f h)
      · exact addEdge_edge _ e
    · exact addEdge_of_rel e (addEdge_edge R f)
  funext a b
  exact propext ⟨key e f a b, key f e a b⟩

theorem addEdge_iff {R : Nat → Nat → Prop} (hR : Equivalence R) (e : Edge) (a b : Nat) :
    addEdge R e a b ↔
      R a b ∨ (R a e.From ∧ R e.To b) ∨ (R a e.To ∧ R e.From b) := by
  constructor
  · intro h
    induction h with
    | rel x y hxy =>
      rcases hxy with h | ⟨rfl, rfl⟩
      · exact Or.inl h
      · exact Or.inr (Or.inl ⟨hR.refl _, hR.refl _⟩)
    | refl x => exact Or.inl (hR.refl x)
    | symm x y _ ih =>
      rcases ih with h | ⟨h1, h2⟩ | ⟨h1, h2⟩
      · exact Or.inl (hR.symm h)
      · exact Or.inr (Or.inr ⟨hR.symm h2, hR.symm h1⟩)
      · exact Or.inr (Or.inl ⟨hR.symm h2, hR.symm h1⟩)
    | trans x y z _ _ ih1 ih2 =>
      rcases ih1 with h | ⟨h1, h2⟩ | ⟨h1, h2⟩ <;>
        rcases ih2 with k | ⟨k1, k2⟩ | ⟨k1, k2⟩
      · exact Or.inl (hR.trans h k)
      · exact Or.inr (Or.inl ⟨hR.trans h k1, k2⟩)
      · exact Or.inr (Or.inr ⟨hR.trans h k1, k2⟩)
      · exact Or.inr (Or.inl ⟨h1, hR.trans h2 k⟩)
      · exact Or.inr (Or.inl ⟨h1, k2⟩)
      · exact Or.inl (hR.trans h1 k2)
      · exact Or.inr (Or.inr ⟨h1, hR.trans h2 k⟩)
      · exact Or.inl (hR.trans h1 k2)
      · exact Or.inr (Or.inr ⟨h1, k2⟩)
  · rintro (h | ⟨h1, h2⟩ | ⟨h1, h2⟩)
    · exact addEdge_of_rel e h
    · exact (addEdge_equivalence R e).trans (addEdge_of_rel e h1)
        ((addEdge_equivalence R e).trans (addEdge_edge R e) (addEdge_of_rel e h2))
    · exact (addEdge_equivalence R e).trans (addEdge_of_rel e h1)
        ((addEdge_equivalence R e).trans ((addEdge_equivalence R e).symm (addEdge_edge R e))
          (addEdge_of_rel e h2))

theorem addEdges_equivalence {R : Nat → Nat → Prop} (hR : Equivalence R) (T : List Edge) :
    Equivalence (addEdges R T) := by
  induction T generalizing R with
  | nil => exact hR
  | cons t T ih => exact ih (addEdge_equivalence R t)

theorem addEdges_of_rel {R : Nat → Nat → Prop} (T : List Edge) {a b : Nat} (h : R a b) :
    addEdges R T a b := by
  induction T generalizing R with
  | nil => exact h
  | cons t T ih => exact ih (addEdge_of_rel t h)

theorem addEdges_cons (R : Nat → Nat → Prop) (t : Edge) (T : List Edge) :
    addEdges R (t :: T) = addEdges (addEdge R t) T := rfl

theorem addEdges_append (R : Nat → Nat → Prop) (T1 T2 : List Edge) :
    addEdges R (T1 ++ T2) = addEdges (addEdges R T1) T2 := by
  simp [addEdges, List.foldl_append]

theorem addEdges_mem {R : Nat → Nat → Prop} {T : List Edge} {t : Edge} (h : t ∈ T) :
    addEdges R T t.From t.To := by
  induction T generalizing R with
  | nil => cases h
  | cons x T ih =>
    rcases List.mem_cons.1 h with rfl | h
    · exact addEdges_of_rel T (addEdge_edge R t)
    · exact ih h

theorem addEdges_min {R Q : Nat → Nat → Prop} {T : List Edge} (hQ : Equivalence Q)
    (hRQ : ∀ a b, R a b → Q a b) (hT : ∀ t ∈ T, Q t.From t.To) :
    ∀ a b, addEdges R T a b → Q a b := by
  induction T generalizing R with
  | nil => exact hRQ
  | cons t T ih =>
    apply ih
    · exact addEdge_min hQ hRQ (hT t (List.mem_cons_self _ _))
    · intro x hx
      exact hT x (List.mem_cons_of_mem _ hx)

/-- An edge that `R` and the edges before it already join cannot occur in an
independent list. -/
theorem Indep.not_rel {R : Nat → Nat → Prop} {T : List Edge} (h : Indep R T) {t : Edge}
    (ht : t ∈ T) : ¬ R t.From t.To := by
  induction T generalizing R with
  | nil => cases ht
  | cons x T ih =>
    rcases List.mem_cons.1 ht with rfl | ht
    · exact h.1
    · intro hr
      exact ih h.2 ht (addEdge_of_rel x hr)

theorem Indep.append {R : Nat → Nat → Prop} {T1 T2 : List Edge} (h1 : Indep R T1)
    (h2 : Indep (addEdges R T1) T2) : Indep R (T1 ++ T2) := by
  induction T1 generalizing R with
  | nil => exact h2
  | cons x T ih => exact ⟨h1.1, ih h1.2 h2⟩

/-- Two edges that each join two classes of `R`, one of which no longer does
after the other is added, generate the same relation. -/
theorem addEdge_eq_of_not_merge {R : Nat → Nat → Prop} (hR : Equivalence R) {e t : Edge}
    (ht : ¬ R t.From t.To) (h : addEdge R e t.From t.To) :
    addEdge R e = addEdge R t := by
  have he' : addEdge R t e.From e.To := by
    rcases (addEdge_iff hR e _ _).1 h with h | ⟨h1, h2⟩ | ⟨h1, h2⟩
    · exact absurd h ht
    · exact (addEdge_iff hR t _ _).2 (Or.inr (Or.inl ⟨hR.symm h1, hR.symm h2⟩))
    · exact (addEdge_iff hR t _ _).2 (Or.inr (Or.inr ⟨h2, h1⟩))
  funext a b
  apply propext
  constructor
  · exact addEdge_min (addEdge_equivalence R t) (fun _ _ => addEdge_of_rel t) he' a b
  · exact addEdge_min (addEdge_equivalence R e) (fun _ _ => addEdge_of_rel e) h a b

/-- Exchange: if `e` joins two classes of `R` that the independent list `T`
also joins, one edge of `T` can be given up for `e`. -/
theorem exchange {R : Nat → Nat → Prop} (hR : Equivalence R) {e : Edge}
    (he : ¬ R e.From e.To) {T : List Edge} (hI : Indep R T)
    (hS : addEdges R T e.From e.To) :
    ∃ T1 t T2, T = T1 ++ t :: T2 ∧ Indep (addEdge R e) (T1 ++ T2) ∧
      addEdges (addEdge R e) (T1 ++ T2) = addEdges R T := by
  induction T generalizing R with
  | nil => exact absurd hS he
  | cons t1 T ih =>
    by_cases hm : addEdge R e t1.From t1.To
    · refine ⟨[], t1, T, rfl, ?_, ?_⟩
      · rw [List.nil_append, addEdge_eq_of_not_merge hR hI.1 hm]
        exact hI.2
      · rw [List.nil_append, addEdge_eq_of_not_merge hR hI.1 hm]
        rfl
    · have he1 : ¬ addEdge R t1 e.From e.To := by
        intro hc
        apply hm
        rw [← addEdge_eq_of_not_merge hR he hc]
        exact addEdge_edge R t1
      obtain ⟨T1, t, T2, hT, hI', hS'⟩ :=
        ih (addEdge_equivalence R t1) he1 hI.2 hS
      refine ⟨t1 :: T1, t, T2, by rw [hT]; rfl, ?_, ?_⟩
      · refine ⟨hm, ?_⟩
        rw [addEdge_comm]
        exact hI'
      · rw [List.cons_append, addEdges_cons, addEdge_comm, hS']
        rfl

/-- An independent list is no longer than an independent list that joins all
of its edges. -/
theorem Indep.length_le {R : Nat → Nat → Prop} (hR : Equivalence R) {F T : List Edge}
    (hF : Indep R F) (hT : Indep R T) (hS : ∀ f ∈ F, addEdges R T f.From f.To) :
    F.length ≤ T.length := by
  induction F generalizing R T with
  | nil => exact Nat.zero_le _
  | cons f F ih =>
    obtain ⟨T1, t, T2, hTeq, hI', hS'⟩ := exchange hR hF.1 hT (hS f (List.mem_cons_self _ _))
    have := ih (addEdge_equivalence R f) hF.2 hI' (fun x hx => by
      rw [hS']; exact hS x (List.mem_cons_of_mem _ hx))
    rw [hTeq]
    simp only [List.length_append, List.length_cons] at this ⊢
    omega

/-! ## The greedy run -/

theorem Greedy.exists (R : Nat → Nat → Prop) (L : List Edge) : ∃ F, Greedy R L F := by
  induction L generalizing R with
  | nil => exact ⟨[], Greedy.nil R⟩
  | cons e L ih =>
    by_cases h : R e.From e.To
    · obtain ⟨F, hF⟩ := ih R
      exact ⟨F, Greedy.skip h hF⟩
    · obtain ⟨F, hF⟩ := ih (addEdge R e)
      exact ⟨e :: F, Greedy.take h hF⟩

theorem Greedy.indep {R : Nat → Nat → Prop} {L F : List Edge} (h : Greedy R L F) : Indep R F := by
  induction h with
  | nil R => trivial
  | skip _ _ ih => exact ih
  | take hn _ ih => exact ⟨hn, ih⟩

theorem Greedy.sublist {R : Nat → Nat → Prop} {L F : List Edge} (h : Greedy R L F) :
    F.Sublist L := by
  induction h with
  | nil R => exact List.Sublist.slnil
  | skip _ _ ih => exact List.Sublist.cons _ ih
  | take _ _ ih => exact List.Sublist.cons₂ _ ih

theorem Greedy.addEdges_eq {R : Nat → Nat → Prop} (hR : Equivalence R) {L F : List Edge}
    (h : Greedy R L F) : addEdges R F = addEdges R L := by
  induction h with
  | nil R => rfl
  | @skip R e L F hr _ ih =>
    rw [addEdges_cons, addEdge_eq_self hR hr]
    exact ih hR
  | @take R e L F _ _ ih =>
    rw [addEdges_cons, addEdges_cons]
    exact ih (addEdge_equivalence R e)

theorem Greedy.unique_run {R : Nat → Nat → Prop} {L F G : List Edge} (h : Greedy R L F)
    (h2 : Greedy R L G) : F = G := by
  induction h generalizing G with
  | nil R => cases h2; rfl
  | skip hr _ ih =>
    cases h2 with
    | skip _ h3 => exact ih h3
    | take hn _ => exact absurd hr hn
  | take hn _ ih =>
    cases h2 with
    | skip hr _ => exact absurd hr hn
    | take _ h3 => rw [ih h3]

theorem edgeWeight_append (T1 T2 : List Edge) :
    edgeWeight (T1 ++ T2) = edgeWeight T1 + edgeWeight T2 := by
  simp [edgeWeight]

theorem edgeWeight_cons (t : Edge) (T : List Edge) :
    edgeWeight (t :: T) = t.Weight + edgeWeight T := by
  simp [edgeWeight]

/-- The greedy run over an edge list sorted by weight is lightest among the
independent lists that join everything the edge list joins and use only edges
parallel to (and no lighter than) edges of the list. -/
theorem Greedy.weight_le {R : Nat → Nat → Prop} (hR : Equivalence R) {L F : List Edge}
    (h : Greedy R L F) (hsorted : L.Pairwise (fun a b => a.Weight ≤ b.Weight))
    {T : List Edge} (hI : Indep R T)
    (hsub : ∀ t ∈ T, ∃ x ∈ L, x.Weight ≤ t.Weight ∧ x.Parallel t)
    (hS : ∀ x ∈ L, addEdges R T x.From x.To) :
    edgeWeight F ≤ edgeWeight T := by
  induction h generalizing T with
  | nil R =>
    cases T with
    | nil => exact le_refl _
    | cons t T =>
      obtain ⟨x, hx, _⟩ := hsub t (List.mem_cons_self _ _)
      cases hx
  | @skip R e L F hr _ ih =>
    apply ih hR (List.Pairwise.of_cons hsorted) hI
    · intro t ht
      obtain ⟨x, hx, hw, hp⟩ := hsub t ht
      rcases List.mem_cons.1 hx with rfl | hx
      · exfalso
        apply hI.not_rel ht
        rcases hp with ⟨h1, h2⟩ | ⟨h1, h2⟩
        · rw [← h1, ← h2]; exact hr
        · rw [← h1, ← h2]; exact hR.symm hr
      · exact ⟨x, hx, hw, hp⟩
    · intro x hx
      exact hS x (List.mem_cons_of_mem _ hx)
  | @take R e L F hn _ ih =>
    obtain ⟨T1, t, T2, hTeq, hI', hS'⟩ := exchange hR hn hI (hS e (List.mem_cons_self _ _))
    have hle : edgeWeight F ≤ edgeWeight (T1 ++ T2) := by
      apply ih (addEdge_equivalence R e) (List.Pairwise.of_cons hsorted) hI'
      · intro t' ht'
        have ht'T : t' ∈ T := by
          rw [hTeq]
          rcases List.mem_append.1 ht' with h | h
          · exact List.mem_append_left _ h
          · exact List.mem_append_right _ (List.mem_cons_of_mem _ h)
        obtain ⟨x, hx, hw, hp⟩ := hsub t' ht'T
        rcases List.mem_cons.1 hx with rfl | hx
        · exfalso
          apply hI'.not_rel ht'
          rcases hp with ⟨h1, h2⟩ | ⟨h1, h2⟩
          · rw [← h1, ← h2]; exact addEdge_edge R x
          · rw [← h1, ← h2]; exact (addEdge_equivalence R x).symm (addEdge_edge R x)
        · exact ⟨x, hx, hw, hp⟩
      · intro x hx
        rw [hS']
        exact hS x (List.mem_cons_of_mem _ hx)
    have hwt : e.Weight ≤ t.Weight := by
      obtain ⟨x, hx, hw, _⟩ := hsub t (by rw [hTeq]; simp)
      rcases List.mem_cons.1 hx with rfl | hx
      · exact hw
      · exact le_trans (List.rel_of_pairwise_cons hsorted hx) hw
    rw [hTeq, edgeWeight_cons, edgeWeight_append, edgeWeight_cons]
    rw [edgeWeight_append] at hle
    linarith

/-! ## Spanning trees of the complete graph on a vertex list -/

theorem edgeWeight_toEdges (d : Nat → Nat → ℚ) (T : List (Nat × Nat)) :
    edgeWeight (toEdges d T) = treeWeight d T := by
  simp [edgeWeight, toEdges, treeWeight, List.map_map, Function.comp_def]

theorem connected_iff_addEdges (d : Nat → Nat → ℚ) (T : List (Nat × Nat)) (a b : Nat) :
    Connected T a b ↔ addEdges Eq (toEdges d T) a b := by
  have hEq : Equivalence (@Eq Nat) := ⟨fun _ => rfl, fun h => h.symm, fun h k => h.trans k⟩
  constructor
  · intro h
    induction h with
    | rel x y hxy =>
      have : (⟨d x y, x, y⟩ : Edge) ∈ toEdges d T :=
        List.mem_map.2 ⟨(x, y), hxy, rfl⟩
      exact addEdges_mem this
    | refl x => exact (addEdges_equivalence hEq _).refl x
    | symm x y _ ih => exact (addEdges_equivalence hEq _).symm ih
    | trans x y z _ _ ih1 ih2 => exact (addEdges_equivalence hEq _).trans ih1 ih2
  · apply addEdges_min (Relation.EqvGen.is_equivalence _)
    · intro x y h
      rw [h]
      exact Relation.EqvGen.refl _
    · intro t ht
      obtain ⟨p, hp, rfl⟩ := List.mem_map.1 ht
      exact Relation.EqvGen.rel _ _ hp

theorem eq_equivalence : Equivalence (@Eq Nat) :=
  ⟨fun _ => rfl, fun h => h.symm, fun h k => h.trans k⟩

/-- The open path through a duplicate-free list whose tail vertices are alone
in their classes closes no cycle and joins the head to every vertex. -/
theorem pathEdges_indep (d : Nat → Nat → ℚ) {R : Nat → Nat → Prop} (hR : Equivalence R)
    (a : Nat) (l : List Nat) (hnd : (a :: l).Nodup) (hiso : ∀ x ∈ l, ∀ y, R x y → x = y) :
    Indep R (pathEdges d (a :: l)) ∧
      ∀ x ∈ a :: l, addEdges R (pathEdges d (a :: l)) a x := by
  induction l generalizing R a with
  | nil =>
    refine ⟨trivial, ?_⟩
    intro x hx
    rw [List.mem_singleton.1 hx]
    exact hR.refl a
  | cons b l ih =>
    have hab : a ≠ b := fun h => (List.nodup_cons.1 hnd).1 (h ▸ List.mem_cons_self _ _)
    have hnd' : (b :: l).Nodup := (List.nodup_cons.1 hnd).2
    have hnR : ¬ R a b := fun h =>
      hab (hiso b (List.mem_cons_self _ _) a (hR.symm h)).symm
    have hiso' : ∀ x ∈ l, ∀ y, addEdge R ⟨d a b, a, b⟩ x y → x = y := by
      intro x hx y hxy
      have hxl : x ∈ b :: l := List.mem_cons_of_mem _ hx
      rcases (addEdge_iff hR _ _ _).1 hxy with h | ⟨h1, _⟩ | ⟨h1, _⟩
      · exact hiso x hxl y h
      · exfalso
        have := hiso x hxl a h1
        exact (List.nodup_cons.1 hnd).1 (this ▸ hxl)
      · exfalso
        have := hiso x hxl b h1
        exact (List.nodup_cons.1 hnd').1 (this ▸ hx)
    obtain ⟨hI, hS⟩ := ih (addEdge_equivalence R ⟨d a b, a, b⟩) b hnd' hiso'
    refine ⟨⟨hnR, hI⟩, ?_⟩
    intro x hx
    have hE := addEdges_equivalence (addEdge_equivalence R ⟨d a b, a, b⟩) (pathEdges d (b :: l))
    have hab' : addEdges (addEdge R ⟨d a b, a, b⟩) (pathEdges d (b :: l)) a b :=
      addEdges_of_rel _ (addEdge_edge R ⟨d a b, a, b⟩)
    rcases List.mem_cons.1 hx with rfl | hx
    · exact hE.refl _
    · exact hE.trans hab' (hS x hx)

theorem pathEdges_length (d : Nat → Nat → ℚ) (a : Nat) (l : List Nat) :
    (pathEdges d (a :: l)).length = l.length := by
  induction l generalizing a with
  | nil => rfl
  | cons b l ih => simp [pathEdges, ih]

theorem pathEdges_spanning (d : Nat → Nat → ℚ) (S : List Nat) (hnd : S.Nodup) :
    Indep Eq (pathEdges d S) ∧ ∀ x ∈ S, ∀ y ∈ S, addEdges Eq (pathEdges d S) x y := by
  cases S with
  | nil => exact ⟨trivial, fun x hx => by cases hx⟩
  | cons a l =>
    obtain ⟨hI, hS⟩ := pathEdges_indep d eq_equivalence a l hnd (fun x _ y h => h)
    refine ⟨hI, fun x hx y hy => ?_⟩
    have hE := addEdges_equivalence eq_equivalence (pathEdges d (a :: l))
    exact hE.trans (hE.symm (hS x hx)) (hS y hy)

/-! ## The edge list of `calculateMSTKruskal` -/

theorem mem_allEdges {d : Nat → Nat → ℚ} {S : List Nat} {e : Edge} (h : e ∈ allEdges d S) :
    e.From ∈ S ∧ e.To ∈ S ∧ e.Weight = d e.From e.To := by
  induction S with
  | nil => cases h
  | cons p ps ih =>
    rcases List.mem_append.1 h with h | h
    · obtain ⟨q, hq, rfl⟩ := List.mem_map.1 h
      exact ⟨List.mem_cons_self _ _, List.mem_cons_of_mem _ hq, rfl⟩
    · obtain ⟨h1, h2, h3⟩ := ih h
      exact ⟨List.mem_cons_of_mem _ h1, List.mem_cons_of_mem _ h2, h3⟩

theorem allEdges_parallel (d : Nat → Nat → ℚ) {S : List Nat} {a b : Nat} (ha : a ∈ S)
    (hb : b ∈ S) (hab : a ≠ b) :
    ∃ x ∈ allEdges d S, (x.From = a ∧ x.To = b) ∨ (x.From = b ∧ x.To = a) := by
  induction S with
  | nil => cases ha
  | cons p ps ih =>
    rcases List.mem_cons.1 ha with rfl | ha' <;> rcases List.mem_cons.1 hb with rfl | hb'
    · exact absurd rfl hab
    · exact ⟨⟨d a b, a, b⟩, List.mem_append_left _ (List.mem_map.2 ⟨b, hb', rfl⟩),
        Or.inl ⟨rfl, rfl⟩⟩
    · exact ⟨⟨d b a, b, a⟩, List.mem_append_left _ (List.mem_map.2 ⟨a, ha', rfl⟩),
        Or.inr ⟨rfl, rfl⟩⟩
    · obtain ⟨x, hx, h⟩ := ih ha' hb'
      exact ⟨x, List.mem_append_right _ hx, h⟩

theorem allEdges_length (d : Nat → Nat → ℚ) (S : List Nat) :
    (allEdges d S).length = S.length * (S.length - 1) / 2 := by
  induction S with
  | nil => rfl
  | cons p ps ih =>
    simp only [allEdges, List.length_append, List.length_map, ih, List.length_cons,
      Nat.add_sub_cancel]
    have h2 : (ps.length + 1) * ps.length = ps.length * (ps.length - 1) + 2 * ps.length := by
      cases ps.length with
      | zero => rfl
      | succ k => simp only [Nat.add_sub_cancel]; ring
    rw [h2, Nat.add_mul_div_left _ _ (by norm_num : 0 < 2)]
    omega

/-- The greedy run over all edges of the complete graph on `S` joins all of `S`. -/
theorem Greedy.spans {d : Nat → Nat → ℚ} {S : List Nat} {L F : List Edge}
    (hL : L.Perm (allEdges d S)) (hG : Greedy Eq L F) :
    ∀ x ∈ S, ∀ y ∈ S, addEdges Eq F x y := by
  intro x hx y hy
  have hE := addEdges_equivalence eq_equivalence L
  rw [hG.addEdges_eq eq_equivalence]
  by_cases hxy : x = y
  · rw [hxy]; exact hE.refl _
  · obtain ⟨e, he, h⟩ := allEdges_parallel d hx hy hxy
    have he' : e ∈ L := hL.symm.subset he
    rcases h with ⟨rfl, rfl⟩ | ⟨rfl, rfl⟩
    · exact addEdges_mem he'
    · exact hE.symm (addEdges_mem he')

theorem Greedy.mem_vertices {d : Nat → Nat → ℚ} {S : List Nat} {L F : List Edge}
    (hL : L.Perm (allEdges d S)) (hG : Greedy Eq L F) {e : Edge} (he : e ∈ F) :
    e.From ∈ S ∧ e.To ∈ S ∧ e.Weight = d e.From e.To :=
  mem_allEdges (hL.subset (hG.sublist.subset he))

/-- An independent list of edges between vertices of `S` that joins all of `S`
has `|S| - 1` edges. -/
theorem Indep.length_of_spans (d : Nat → Nat → ℚ) {S : List Nat} (hnd : S.Nodup)
    {F : List Edge} (hI : Indep Eq F) (hmem : ∀ e ∈ F, e.From ∈ S ∧ e.To ∈ S)
    (hS : ∀ x ∈ S, ∀ y ∈ S, addEdges Eq F x y) :
    F.length = (pathEdges d S).length := by
  obtain ⟨hPI, hPS⟩ := pathEdges_spanning d S hnd
  apply Nat.le_antisymm
  · exact hI.length_le eq_equivalence hPI (fun f hf => hPS _ (hmem f hf).1 _ (hmem f hf).2)
  · apply hPI.length_le eq_equivalence hI
    intro f hf
    have : f.From ∈ S ∧ f.To ∈ S := by
      clear hPI hPS hI hmem hS hnd
      induction S with
      | nil => cases hf
      | cons a l ih =>
        cases l with
        | nil => cases hf
        | cons b l =>
          rcases List.mem_cons.1 hf with rfl | hf
          · exact ⟨List.mem_cons_self _ _, List.mem_cons_of_mem _ (List.mem_cons_self _ _)⟩
          · obtain ⟨h1, h2⟩ := ih hf
            exact ⟨List.mem_cons_of_mem _ h1, List.mem_cons_of_mem _ h2⟩
    exact hS _ this.1 _ this.2

/-- An independent list stays independent when edges are left out at the end
and, with as many edges as a spanning path, joins all of `S`. -/
theorem Indep.spans_of_length (d : Nat → Nat → ℚ) {S : List Nat} (hnd : S.Nodup)
    {F : List Edge} (hI : Indep Eq F) (hmem : ∀ e ∈ F, e.From ∈ S ∧ e.To ∈ S)
    (hlen : F.length = (pathEdges d S).length) :
    ∀ x ∈ S, ∀ y ∈ S, addEdges Eq F x y := by
  intro x hx y hy
  by_contra hxy
  obtain ⟨hPI, hPS⟩ := pathEdges_spanning d S hnd
  have hI' : Indep Eq (F ++ [⟨d x y, x, y⟩]) := hI.append ⟨hxy, trivial⟩
  have := hI'.length_le eq_equivalence hPI (fun f hf => by
    rcases List.mem_append.1 hf with h | h
    · exact hPS _ (hmem f h).1 _ (hmem f h).2
    · rw [List.mem_singleton.1 h]
      exact hPS _ hx _ hy)
  simp only [List.length_append, List.length_singleton] at this
  omega

/-- A spanning tree closes no cycle. -/
theorem IsSpanningTree.toEdges_indep (d : Nat → Nat → ℚ) {S : List Nat} (hnd : S.Nodup)
    {T : List (Nat × Nat)} (hT : IsSpanningTree S T) : Indep Eq (toEdges d T) := by
  obtain ⟨T0, hG⟩ := Greedy.exists Eq (toEdges d T)
  have hmem : ∀ e ∈ T0, e.From ∈ S ∧ e.To ∈ S := by
    intro e he
    obtain ⟨p, hp, rfl⟩ := List.mem_map.1 (hG.sublist.subset he)
    exact hT.1 p hp
  have hspan : ∀ x ∈ S, ∀ y ∈ S, addEdges Eq T0 x y := by
    intro x hx y hy
    rw [hG.addEdges_eq eq_equivalence]
    exact (connected_iff_addEdges d T x y).1 (hT.2.2 x hx y hy)
  have hlen := Indep.length_of_spans d hnd hG.indep hmem hspan
  have hlenT : (toEdges d T).length = T0.length := by
    rw [hlen]
    have h1 := hT.2.1
    cases S with
    | nil => simp at h1
    | cons a l =>
      rw [pathEdges_length]
      simp only [toEdges, List.length_map, List.length_cons] at h1 ⊢
      omega
  have : T0 = toEdges d T := hG.sublist.eq_of_length hlenT.symm
  rw [← this]
  exact hG.indep

/-- Kruskal, abstractly: the greedy run over the edges of the complete graph on
`S`, sorted by weight, is a spanning tree of `S` and no spanning tree of `S` is
lighter. -/
theorem Greedy.isMinimum {d : Nat → Nat → ℚ} {S : List Nat} (hnd : S.Nodup)
    (hsymm : ∀ a ∈ S, ∀ b ∈ S, d a b = d b a) {L F : List Edge}
    (hL : L.Perm (allEdges d S)) (hsorted : L.Pairwise (fun a b => a.Weight ≤ b.Weight))
    (hG : Greedy Eq L F) (hS : S ≠ []) :
    (IsSpanningTree S (F.map (fun e => (e.From, e.To))) ∧
      treeWeight d (F.map (fun e => (e.From, e.To))) = edgeWeight F) ∧
    ∀ T, IsSpanningTree S T → edgeWeight F ≤ treeWeight d T := by
  have hmem : ∀ e ∈ F, e.From ∈ S ∧ e.To ∈ S := fun e he =>
    ⟨(hG.mem_vertices hL he).1, (hG.mem_vertices hL he).2.1⟩
  have hFeq : toEdges d (F.map (fun e => (e.From, e.To))) = F := by
    simp only [toEdges, List.map_map]
    conv_rhs => rw [← List.map_id F]
    apply List.map_congr_left
    intro e he
    have := (hG.mem_vertices hL he).2.2
    cases e
    simp only [Function.comp_apply, id_eq, Edge.mk.injEq, and_true]
    exact this.symm
  refine ⟨⟨⟨?_, ?_, ?_⟩, ?_⟩, ?_⟩
  · intro p hp
    obtain ⟨e, he, rfl⟩ := List.mem_map.1 hp
    exact hmem e he
  · have hlen := Indep.length_of_spans d hnd hG.indep hmem (hG.spans hL)
    cases S with
    | nil => exact absurd rfl hS
    | cons a l =>
      rw [pathEdges_length] at hlen
      simp [hlen]
  · intro a ha b hb
    rw [connected_iff_addEdges d, hFeq]
    exact hG.spans hL a ha b hb
  · rw [← edgeWeight_toEdges, hFeq]
  · intro T hT
    rw [← edgeWeight_toEdges]
    have hI := hT.toEdges_indep d hnd
    apply hG.weight_le eq_equivalence hsorted hI
    · intro t ht
      have hne : t.From ≠ t.To := hI.not_rel ht
      obtain ⟨p, hp, rfl⟩ := List.mem_map.1 ht
      obtain ⟨h1, h2⟩ := hT.1 p hp
      obtain ⟨x, hx, hpar⟩ := allEdges_parallel d h1 h2 hne
      refine ⟨x, hL.symm.subset hx, ?_, hpar⟩
      have hw := (mem_allEdges hx).2.2
      rcases hpar with ⟨e1, e2⟩ | ⟨e1, e2⟩
      · rw [hw, e1, e2]
      · rw [hw, e1, e2]
        exact le_of_eq (hsymm _ h2 _ h1)
    · intro x hx
      have hx' := mem_allEdges (hL.subset hx)
      exact (connected_iff_addEdges d T _ _).1 (hT.2.2 _ hx'.1 _ hx'.2.1)

/-! ## Union-find: roots -/

theorem UnionFind.RootOf.unique {uf : UnionFind} {x r s : Nat} (h1 : uf.RootOf x r)
    (h2 : uf.RootOf x s) : r = s := by
  induction h1 with
  | root hx =>
    cases h2 with
    | root _ => rfl
    | step hp hne _ => rw [hx] at hp; cases hp; exact absurd rfl hne
  | step hp hne _ ih =>
    cases h2 with
    | root hx => rw [hx] at hp; cases hp; exact absurd rfl hne
    | step hp2 _ h3 => rw [hp] at hp2; cases hp2; exact ih h3

theorem UnionFind.RootOf.is_root {uf : UnionFind} {x r : Nat} (h : uf.RootOf x r) :
    uf.parent[r]? = some r := by
  induction h with
  | root hx => exact hx
  | step _ _ _ ih => exact ih

theorem UnionFind.RootOf.lt {uf : UnionFind} {x r : Nat} (h : uf.RootOf x r) :
    x < uf.parent.length := by
  cases h with
  | root hx => exact (List.getElem?_eq_some.1 hx).1
  | step hp _ _ => exact (List.getElem?_eq_some.1 hp).1

theorem UnionFind.RootOf.root_lt {uf : UnionFind} {x r : Nat} (h : uf.RootOf x r) :
    r < uf.parent.length :=
  (List.getElem?_eq_some.1 h.is_root).1

theorem UnionFind.RootOf.self_of_root {uf : UnionFind} {r : Nat} (h : uf.parent[r]? = some r) :
    uf.RootOf r r := UnionFind.RootOf.root h

theorem UnionFind.RootOf.rank_le {uf : UnionFind} (hI : uf.Inv) {x r : Nat}
    (h : uf.RootOf x r) : uf.rank.getD x 0 ≤ uf.rank.getD r 0 ∧
      (x ≠ r → uf.rank.getD x 0 < uf.rank.getD r 0) := by
  induction h with
  | root _ => exact ⟨le_refl _, fun h => absurd rfl h⟩
  | step hp hne _ ih =>
    have := hI.rank_lt _ _ hp hne
    exact ⟨by omega, fun _ => by omega⟩

theorem le_foldr_max (l : List Nat) (x : Nat) : l.getD x 0 ≤ l.foldr max 0 := by
  induction l generalizing x with
  | nil => simp
  | cons a l ih =>
    cases x with
    | zero => simp
    | succ x =>
      simp only [List.getD_cons_succ, List.foldr_cons]
      exact le_trans (ih x) (le_max_right _ _)

theorem UnionFind.Conn.refl_of {uf : UnionFind} {a r : Nat} (h : uf.RootOf a r) : uf.Conn a a :=
  ⟨r, h, h⟩

theorem UnionFind.Conn.symm {uf : UnionFind} {a b : Nat} (h : uf.Conn a b) : uf.Conn b a := by
  obtain ⟨r, h1, h2⟩ := h
  exact ⟨r, h2, h1⟩

theorem UnionFind.Conn.trans_conn {uf : UnionFind} {a b c : Nat} (h : uf.Conn a b)
    (k : uf.Conn b c) : uf.Conn a c := by
  obtain ⟨r, h1, h2⟩ := h
  obtain ⟨s, k1, k2⟩ := k
  have := h2.unique k1
  subst this
  exact ⟨r, h1, k2⟩

/-- Redirecting a non-root to its own root changes no root. -/
theorem UnionFind.RootOf.compress {uf : UnionFind} {x r : Nat} (hx : uf.RootOf x r)
    (hne : x ≠ r) (rk : List Nat) (y s : Nat) :
    UnionFind.RootOf { parent := uf.parent.set x r, rank := rk } y s ↔ uf.RootOf y s := by
  have hxlt := hx.lt
  have hget : ∀ z, (uf.parent.set x r)[z]? = if x = z then some r else uf.parent[z]? := by
    intro z
    rw [List.getElem?_set]
    by_cases hxz : x = z
    · subst hxz
      simp [hxlt]
    · simp [hxz]
  constructor
  · intro h
    induction h with
    | @root y hy =>
      rw [hget] at hy
      by_cases hxy : x = y
      · rw [if_pos hxy] at hy
        cases hy
        exact absurd hxy hne
      · rw [if_neg hxy] at hy
        exact UnionFind.RootOf.root hy
    | @step y p s hp hpy _ ih =>
      rw [hget] at hp
      by_cases hxy : x = y
      · rw [if_pos hxy] at hp
        cases hp
        have := (UnionFind.RootOf.self_of_root hx.is_root).unique ih
        rw [← this, ← hxy]
        exact hx
      · rw [if_neg hxy] at hp
        exact UnionFind.RootOf.step hp hpy ih
  · intro h
    induction h with
    | @root y hy =>
      apply UnionFind.RootOf.root
      rw [hget]
      by_cases hxy : x = y
      · exfalso
        subst hxy
        have := hx.unique (UnionFind.RootOf.root hy)
        exact hne this.symm
      · rw [if_neg hxy]; exact hy
    | @step y p s hp hpy h' ih =>
      by_cases hxy : x = y
      · subst hxy
        have hs : s = r := (UnionFind.RootOf.step hp hpy h').unique hx
        rw [hs]
        refine UnionFind.RootOf.step (p := r) ?_ (Ne.symm hne) ?_
        · rw [hget, if_pos rfl]
        · apply UnionFind.RootOf.root
          rw [hget, if_neg hne]
          exact hx.is_root
      · refine UnionFind.RootOf.step ?_ hpy ih
        rw [hget, if_neg hxy]
        exact hp

theorem getElem?_set_eq_ite (l : List Nat) (i j v : Nat) (hi : i < l.length) :
    (l.set i v)[j]? = if i = j then some v else l[j]? := by
  rw [List.getElem?_set]
  by_cases hij : i = j
  · subst hij
    simp [hi]
  · simp [hij]

theorem getD_set_eq_ite (l : List Nat) (i j v : Nat) (hi : i < l.length) :
    (l.set i v).getD j 0 = if i = j then v else l.getD j 0 := by
  rw [List.getD_eq_getElem?_getD, List.getD_eq_getElem?_getD, getElem?_set_eq_ite l i j v hi]
  by_cases hij : i = j
  · simp [hij]
  · simp [hij]

/-- `Find` returns the root, keeps every root and keeps the structure well formed. -/
theorem UnionFind.FindDepth_spec {uf : UnionFind} (hI : uf.Inv) :
    ∀ (fuel x : Nat), x < uf.parent.length →
      uf.rank.foldr max 0 < fuel + uf.rank.getD x 0 →
      ∃ uf1 r, uf.FindDepth fuel x = some (uf1, r) ∧ uf.RootOf x r ∧ uf1.Inv ∧
        uf1.rank = uf.rank ∧ uf1.parent.length = uf.parent.length ∧
        ∀ y s, uf1.RootOf y s ↔ uf.RootOf y s := by
  intro fuel
  induction fuel with
  | zero =>
    intro x _ h
    have := le_foldr_max uf.rank x
    omega
  | succ fuel ih =>
    intro x hx hfuel
    obtain ⟨p, hp⟩ : ∃ p, uf.parent[x]? = some p := ⟨uf.parent[x], List.getElem?_eq_getElem hx⟩
    by_cases hpx : p = x
    · refine ⟨uf, p, ?_, ?_, hI, rfl, rfl, fun _ _ => Iff.rfl⟩
      · simp [UnionFind.FindDepth, hp, hpx]
      · rw [hpx]
        exact UnionFind.RootOf.root (hpx ▸ hp)
    · have hplt := hI.parent_lt x p hp
      have hrk := hI.rank_lt x p hp hpx
      obtain ⟨uf1, r, hfind, hroot, hI1, hrank1, hlen1, hroots1⟩ := ih p hplt (by omega)
      have hxr : uf.RootOf x r := UnionFind.RootOf.step hp hpx hroot
      have hxr1 : uf1.RootOf x r := (hroots1 x r).2 hxr
      have hxner : x ≠ r := by
        intro h
        have := hxr.is_root
        rw [← h, hp] at this
        cases this
        exact hpx rfl
      have hxlt1 : x < uf1.parent.length := by rw [hlen1]; exact hx
      refine ⟨{ uf1 with parent := uf1.parent.set x r }, r, ?_, hxr, ?_, hrank1, ?_, ?_⟩
      · simp [UnionFind.FindDepth, hp, hpx, hfind]
      · constructor
        · simp only [List.length_set]
          exact hI1.length_eq
        · intro z q hq
          simp only [List.length_set]
          rw [getElem?_set_eq_ite _ _ _ _ hxlt1] at hq
          by_cases hxz : x = z
          · rw [if_pos hxz] at hq
            cases hq
            exact hxr1.root_lt
          · rw [if_neg hxz] at hq
            exact hI1.parent_lt z q hq
        · intro z q hq hqz
          simp only at hq ⊢
          rw [getElem?_set_eq_ite _ _ _ _ hxlt1] at hq
          by_cases hxz : x = z
          · rw [if_pos hxz] at hq
            cases hq
            rw [← hxz]
            exact (hxr1.rank_le hI1).2 hxner
          · rw [if_neg hxz] at hq
            exact hI1.rank_lt z q hq hqz
      · simp only [List.length_set]
        exact hlen1
      · intro y s
        rw [hxr1.compress hxner uf1.rank y s]
        exact hroots1 y s

theorem UnionFind.Find_spec {uf : UnionFind} (hI : uf.Inv) {x : Nat}
    (hx : x < uf.parent.length) :
    ∃ uf1 r, uf.Find x = some (uf1, r) ∧ uf.RootOf x r ∧ uf1.Inv ∧
      uf1.rank = uf.rank ∧ uf1.parent.length = uf.parent.length ∧
      ∀ y s, uf1.RootOf y s ↔ uf.RootOf y s :=
  UnionFind.FindDepth_spec hI _ x hx (by omega)

theorem UnionFind.conn_congr {uf uf1 : UnionFind}
    (h : ∀ y s, uf1.RootOf y s ↔ uf.RootOf y s) (a b : Nat) :
    uf1.Conn a b ↔ uf.Conn a b := by
  constructor
  · rintro ⟨r, h1, h2⟩
    exact ⟨r, (h _ _).1 h1, (h _ _).1 h2⟩
  · rintro ⟨r, h1, h2⟩
    exact ⟨r, (h _ _).2 h1, (h _ _).2 h2⟩

/-- Roots after hanging the root `a` under the root `b`. -/
theorem UnionFind.RootOf.link {uf : UnionFind} {a b : Nat} (ha : uf.parent[a]? = some a)
    (hb : uf.parent[b]? = some b) (hab : a ≠ b) (rk : List Nat) (y s : Nat) :
    UnionFind.RootOf { parent := uf.parent.set a b, rank := rk } y s ↔
      (uf.RootOf y s ∧ s ≠ a) ∨ (uf.RootOf y a ∧ s = b) := by
  have halt : a < uf.parent.length := (List.getElem?_eq_some.1 ha).1
  have hget : ∀ z, (uf.parent.set a b)[z]? = if a = z then some b else uf.parent[z]? :=
    fun z => getElem?_set_eq_ite _ _ _ _ halt
  have hb' : UnionFind.RootOf { parent := uf.parent.set a b, rank := rk } b b := by
    apply UnionFind.RootOf.root
    rw [hget, if_neg hab]
    exact hb
  constructor
  · intro h
    induction h with
    | @root y hy =>
      rw [hget] at hy
      by_cases hay : a = y
      · rw [if_pos hay] at hy
        cases hy
        exact absurd hay hab
      · rw [if_neg hay] at hy
        exact Or.inl ⟨UnionFind.RootOf.root hy, fun h => hay h.symm⟩
    | @step y p s hp hpy _ ih =>
      rw [hget] at hp
      by_cases hay : a = y
      · rw [if_pos hay] at hp
        cases hp
        subst hay
        rcases ih with ⟨h1, _⟩ | ⟨h1, _⟩
        · have := (UnionFind.RootOf.root hb).unique h1
          exact Or.inr ⟨UnionFind.RootOf.root ha, this.symm⟩
        · have := (UnionFind.RootOf.root hb).unique h1
          exact absurd this.symm hab
      · rw [if_neg hay] at hp
        rcases ih with ⟨h1, h2⟩ | ⟨h1, h2⟩
        · exact Or.inl ⟨UnionFind.RootOf.step hp hpy h1, h2⟩
        · exact Or.inr ⟨UnionFind.RootOf.step hp hpy h1, h2⟩
  · rintro (⟨h, hs⟩ | ⟨h, hs⟩)
    · induction h with
      | @root y hy =>
        apply UnionFind.RootOf.root
        rw [hget, if_neg (fun h => hs h.symm)]
        exact hy
      | @step y p s hp hpy _ ih =>
        have hay : a ≠ y := by
          intro h
          rw [← h, ha] at hp
          cases hp
          exact hpy h
        refine UnionFind.RootOf.step ?_ hpy (ih hs)
        rw [hget, if_neg hay]
        exact hp
    · subst hs
      have aux : ∀ y c, uf.RootOf y c → c = a →
          UnionFind.RootOf { parent := uf.parent.set a s, rank := rk } y s := by
        intro y c hyc
        induction hyc with
        | @root y hy =>
          intro hc
          subst hc
          refine UnionFind.RootOf.step (p := s) ?_ (Ne.symm hab) hb'
          rw [hget, if_pos rfl]
        | @step y p c hp hpy _ ih =>
          intro hc
          have hay : a ≠ y := by
            intro h
            rw [← h, ha] at hp
            cases hp
            exact hpy h
          refine UnionFind.RootOf.step ?_ hpy (ih hc)
          rw [hget, if_neg hay]
          exact hp
      exact aux y a h rfl

/-- Connectivity after hanging the root `a` under the root `b`. -/
theorem UnionFind.Conn.link_conn {uf : UnionFind} {a b : Nat} (ha : uf.parent[a]? = some a)
    (hb : uf.parent[b]? = some b) (hab : a ≠ b) (rk : List Nat) (c e : Nat) :
    UnionFind.Conn { parent := uf.parent.set a b, rank := rk } c e ↔
      uf.Conn c e ∨ (uf.RootOf c a ∧ uf.RootOf e b) ∨ (uf.RootOf c b ∧ uf.RootOf e a) := by
  constructor
  · rintro ⟨s, h1, h2⟩
    rcases (UnionFind.RootOf.link ha hb hab rk c s).1 h1 with ⟨k1, _⟩ | ⟨k1, k2⟩ <;>
      rcases (UnionFind.RootOf.link ha hb hab rk e s).1 h2 with ⟨l1, _⟩ | ⟨l1, l2⟩
    · exact Or.inl ⟨s, k1, l1⟩
    · subst l2
      exact Or.inr (Or.inr ⟨k1, l1⟩)
    · subst k2
      exact Or.inr (Or.inl ⟨k1, l1⟩)
    · exact Or.inl ⟨a, k1, l1⟩
  · rintro (⟨s, h1, h2⟩ | ⟨h1, h2⟩ | ⟨h1, h2⟩)
    · by_cases hs : s = a
      · subst hs
        exact ⟨b, (UnionFind.RootOf.link ha hb hab rk c b).2 (Or.inr ⟨h1, rfl⟩),
          (UnionFind.RootOf.link ha hb hab rk e b).2 (Or.inr ⟨h2, rfl⟩)⟩
      · exact ⟨s, (UnionFind.RootOf.link ha hb hab rk c s).2 (Or.inl ⟨h1, hs⟩),
          (UnionFind.RootOf.link ha hb hab rk e s).2 (Or.inl ⟨h2, hs⟩)⟩
    · exact ⟨b, (UnionFind.RootOf.link ha hb hab rk c b).2 (Or.inr ⟨h1, rfl⟩),
        (UnionFind.RootOf.link ha hb hab rk e b).2 (Or.inl ⟨h2, Ne.symm hab⟩)⟩
    · exact ⟨b, (UnionFind.RootOf.link ha hb hab rk c b).2 (Or.inl ⟨h1, Ne.symm hab⟩),
        (UnionFind.RootOf.link ha hb hab rk e b).2 (Or.inr ⟨h2, rfl⟩)⟩

/-- Well-formedness after hanging the root `a` under the root `b`, for a rank
slice that is no smaller than before, unchanged off the roots and larger at
`b` than at `a`. -/
theorem UnionFind.Inv.link_inv {uf : UnionFind} (hI : uf.Inv) {a b : Nat}
    (ha : uf.parent[a]? = some a) (hb : uf.parent[b]? = some b) (rk : List Nat)
    (hlen : rk.length = uf.rank.length)
    (hge : ∀ z, uf.rank.getD z 0 ≤ rk.getD z 0)
    (hsame : ∀ z, z ≠ b → rk.getD z 0 = uf.rank.getD z 0)
    (hlt : rk.getD a 0 < rk.getD b 0) :
    UnionFind.Inv { parent := uf.parent.set a b, rank := rk } := by
  have halt : a < uf.parent.length := (List.getElem?_eq_some.1 ha).1
  have hblt : b < uf.parent.length := (List.getElem?_eq_some.1 hb).1
  constructor
  · simp only [List.length_set]
    rw [hlen]
    exact hI.length_eq
  · intro z q hq
    simp only [List.length_set]
    simp only at hq
    rw [getElem?_set_eq_ite _ _ _ _ halt] at hq
    by_cases haz : a = z
    · rw [if_pos haz] at hq
      cases hq
      exact hblt
    · rw [if_neg haz] at hq
      exact hI.parent_lt z q hq
  · intro z q hq hqz
    simp only at hq ⊢
    rw [getElem?_set_eq_ite _ _ _ _ halt] at hq
    by_cases haz : a = z
    · rw [if_pos haz] at hq
      cases hq
      rw [← haz]
      exact hlt
    · rw [if_neg haz] at hq
      have hzb : z ≠ b := by
        intro h
        rw [h, hb] at hq
        cases hq
        exact hqz h.symm
      have := hI.rank_lt z q hq hqz
      rw [hsame z hzb]
      exact lt_of_lt_of_le this (hge q)

theorem getD_of_getElem? {l : List Nat} {i v : Nat} (h : l[i]? = some v) : l.getD i 0 = v := by
  rw [List.getD_eq_getElem?_getD, h]
  rfl

/-- `Union` joins the classes of `x` and `y` and nothing else. -/
theorem UnionFind.Union_spec {uf : UnionFind} (hI : uf.Inv) {x y : Nat}
    (hx : x < uf.parent.length) (hy : y < uf.parent.length) :
    ∃ uf1, uf.Union x y = some uf1 ∧ uf1.Inv ∧ uf1.parent.length = uf.parent.length ∧
      ∀ c e, uf1.Conn c e ↔
        uf.Conn c e ∨ (uf.Conn c x ∧ uf.Conn y e) ∨ (uf.Conn c y ∧ uf.Conn x e) := by
  obtain ⟨u1, rootX, hf1, hrx, hI1, hrk1, hlen1, hroots1⟩ := UnionFind.Find_spec hI hx
  obtain ⟨u2, rootY, hf2, hry1, hI2, hrk2, hlen2, hroots2⟩ :=
    UnionFind.Find_spec hI1 (x := y) (by rw [hlen1]; exact hy)
  have hry : uf.RootOf y rootY := (hroots1 _ _).1 hry1
  have hroots : ∀ z s, u2.RootOf z s ↔ uf.RootOf z s := fun z s =>
    (hroots2 z s).trans (hroots1 z s)
  have hlen : u2.parent.length = uf.parent.length := hlen2.trans hlen1
  have hconn : ∀ c e, u2.Conn c e ↔ uf.Conn c e := UnionFind.conn_congr hroots
  have hcx : ∀ c, uf.RootOf c rootX ↔ uf.Conn c x :=
    fun c => ⟨fun h => ⟨rootX, h, hrx⟩, fun ⟨s, h1, h2⟩ => (h2.unique hrx) ▸ h1⟩
  have hcy : ∀ c, uf.RootOf c rootY ↔ uf.Conn c y :=
    fun c => ⟨fun h => ⟨rootY, h, hry⟩, fun ⟨s, h1, h2⟩ => (h2.unique hry) ▸ h1⟩
  by_cases hxy : rootX = rootY
  · refine ⟨u2, ?_, hI2, hlen, ?_⟩
    · simp [UnionFind.Union, hf1, hf2, hxy]
    · intro c e
      rw [hconn]
      have hxy' : uf.Conn x y := ⟨rootX, hrx, hxy ▸ hry⟩
      constructor
      · exact Or.inl
      · rintro (h | ⟨h1, h2⟩ | ⟨h1, h2⟩)
        · exact h
        · exact h1.trans_conn (hxy'.trans_conn h2)
        · exact h1.trans_conn (hxy'.symm.trans_conn h2)
  · have hX2 : u2.parent[rootX]? = some rootX := ((hroots _ _).2 hrx).is_root
    have hY2 : u2.parent[rootY]? = some rootY := ((hroots _ _).2 hry).is_root
    have hXlt : rootX < u2.rank.length := by
      rw [hI2.length_eq]; exact (List.getElem?_eq_some.1 hX2).1
    have hYlt : rootY < u2.rank.length := by
      rw [hI2.length_eq]; exact (List.getElem?_eq_some.1 hY2).1
    obtain ⟨rx, hrX⟩ : ∃ rx, u2.rank[rootX]? = some rx :=
      ⟨_, List.getElem?_eq_getElem hXlt⟩
    obtain ⟨ry, hrY⟩ : ∃ ry, u2.rank[rootY]? = some ry :=
      ⟨_, List.getElem?_eq_getElem hYlt⟩
    have hgX : u2.rank.getD rootX 0 = rx := getD_of_getElem? hrX
    have hgY : u2.rank.getD rootY 0 = ry := getD_of_getElem? hrY
    have final : ∀ (a b : Nat) (rk : List Nat), u2.parent[a]? = some a →
        u2.parent[b]? = some b → a ≠ b →
        ((uf.RootOf x a ∧ uf.RootOf y b) ∨ (uf.RootOf x b ∧ uf.RootOf y a)) →
        ∀ c e, UnionFind.Conn { parent := u2.parent.set a b, rank := rk } c e ↔
          uf.Conn c e ∨ (uf.Conn c x ∧ uf.Conn y e) ∨ (uf.Conn c y ∧ uf.Conn x e) := by
      intro a b rk ha hb hab hcase c e
      rw [UnionFind.Conn.link_conn ha hb hab rk c e, hconn]
      simp only [hroots]
      have hca : ∀ {z r w}, uf.RootOf w r → (uf.RootOf z r ↔ uf.Conn z w) :=
        fun hw => ⟨fun h => ⟨_, h, hw⟩, fun ⟨s, h1, h2⟩ => (h2.unique hw) ▸ h1⟩
      rcases hcase with ⟨h1, h2⟩ | ⟨h1, h2⟩
      · rw [hca h1, hca h2, hca h2, hca h1]
        constructor
        · rintro (h | ⟨k1, k2⟩ | ⟨k1, k2⟩)
          · exact Or.inl h
          · exact Or.inr (Or.inl ⟨k1, k2.symm⟩)
          · exact Or.inr (Or.inr ⟨k1, k2.symm⟩)
        · rintro (h | ⟨k1, k2⟩ | ⟨k1, k2⟩)
          · exact Or.inl h
          · exact Or.inr (Or.inl ⟨k1, k2.symm⟩)
          · exact Or.inr (Or.inr ⟨k1, k2.symm⟩)
      · rw [hca h2, hca h1, hca h1, hca h2]
        constructor
        · rintro (h | ⟨k1, k2⟩ | ⟨k1, k2⟩)
          · exact Or.inl h
          · exact Or.inr (Or.inr ⟨k1, k2.symm⟩)
          · exact Or.inr (Or.inl ⟨k1, k2.symm⟩)
        · rintro (h | ⟨k1, k2⟩ | ⟨k1, k2⟩)
          · exact Or.inl h
          · exact Or.inr (Or.inr ⟨k1, k2.symm⟩)
          · exact Or.inr (Or.inl ⟨k1, k2.symm⟩)
    rcases Nat.lt_trichotomy rx ry with hlt | heq | hgt
    · refine ⟨{ u2 with parent := u2.parent.set rootX rootY }, ?_, ?_, ?_, ?_⟩
      · simp [UnionFind.Union, hf1, hf2, hxy, hrX, hrY, hlt]
      · exact hI2.link_inv hX2 hY2 u2.rank rfl (fun _ => le_refl _) (fun _ _ => rfl)
          (by rw [hgX, hgY]; exact hlt)
      · simp only [List.length_set]; exact hlen
      · exact final rootX rootY u2.rank hX2 hY2 hxy (Or.inl ⟨hrx, hry⟩)
    · refine ⟨{ parent := u2.parent.set rootY rootX,
                rank := u2.rank.set rootX (rx + 1) }, ?_, ?_, ?_, ?_⟩
      · simp [UnionFind.Union, hf1, hf2, hxy, hrX, hrY, heq]
      · apply hI2.link_inv hY2 hX2
        · simp
        · intro z
          rw [getD_set_eq_ite _ _ _ _ hXlt]
          by_cases h : rootX = z
          · rw [if_pos h, ← h, hgX]; omega
          · rw [if_neg h]
        · intro z hz
          rw [getD_set_eq_ite _ _ _ _ hXlt, if_neg (Ne.symm hz)]
        · rw [getD_set_eq_ite _ _ _ _ hXlt, getD_set_eq_ite _ _ _ _ hXlt, if_neg hxy,
            if_pos rfl, hgY]
          omega
      · simp only [List.length_set]; exact hlen
      · exact final rootY rootX _ hY2 hX2 (Ne.symm hxy) (Or.inr ⟨hrx, hry⟩)
    · refine ⟨{ u2 with parent := u2.parent.set rootY rootX }, ?_, ?_, ?_, ?_⟩
      · have h1 : ¬ rx < ry := by omega
        simp [UnionFind.Union, hf1, hf2, hxy, hrX, hrY, h1, hgt]
      · exact hI2.link_inv hY2 hX2 u2.rank rfl (fun _ => le_refl _) (fun _ _ => rfl)
          (by rw [hgX, hgY]; exact hgt)
      · simp only [List.length_set]; exact hlen
      · exact final rootY rootX u2.rank hY2 hX2 (Ne.symm hxy) (Or.inr ⟨hrx, hry⟩)

/-! ### The initial structure -/

theorem NewUnionFind_inv (k : Nat) : (NewUnionFind k).Inv := by
  constructor
  · simp [NewUnionFind]
  · intro x p hp
    simp only [NewUnionFind, List.length_range] at hp ⊢
    have hlt : x < k := by simpa using (List.getElem?_eq_some.1 hp).1
    rw [List.getElem?_range hlt] at hp
    cases hp
    exact hlt
  · intro x p hp hpx
    exfalso
    simp only [NewUnionFind] at hp
    by_cases h : x < k
    · rw [List.getElem?_range h] at hp
      cases hp
      exact hpx rfl
    · rw [List.getElem?_eq_none (by simpa using h)] at hp
      cases hp

theorem NewUnionFind_length (k : Nat) : (NewUnionFind k).parent.length = k := by
  simp [NewUnionFind]

theorem NewUnionFind_rootOf {k x r : Nat} :
    (NewUnionFind k).RootOf x r ↔ x < k ∧ r = x := by
  constructor
  · intro h
    cases h with
    | root hx =>
      simp only [NewUnionFind] at hx
      exact ⟨by simpa using (List.getElem?_eq_some.1 hx).1, rfl⟩
    | step hp hpx _ =>
      exfalso
      simp only [NewUnionFind] at hp
      have hlt : x < k := by simpa using (List.getElem?_eq_some.1 hp).1
      rw [List.getElem?_range hlt] at hp
      cases hp
      exact hpx rfl
  · rintro ⟨hx, rfl⟩
    apply UnionFind.RootOf.root
    simp only [NewUnionFind]
    exact List.getElem?_range hx

theorem NewUnionFind_conn {k a b : Nat} :
    (NewUnionFind k).Conn a b ↔ a < k ∧ a = b := by
  constructor
  · rintro ⟨r, h1, h2⟩
    obtain ⟨ha, rfl⟩ := NewUnionFind_rootOf.1 h1
    obtain ⟨_, h⟩ := NewUnionFind_rootOf.1 h2
    exact ⟨ha, h⟩
  · rintro ⟨ha, rfl⟩
    exact ⟨a, NewUnionFind_rootOf.2 ⟨ha, rfl⟩, NewUnionFind_rootOf.2 ⟨ha, rfl⟩⟩

/-! ## `calculateMSTKruskal` computes the greedy run -/

theorem pointToIndex_aux (l : List Nat) (n : Nat) (m0 : Nat → Nat) (a : Nat) :
    (a ∈ l → ∃ i, (l.enumFrom n).foldl (fun m ip q => if q = ip.2 then ip.1 else m q) m0 a
        = n + i ∧ l[i]? = some a) ∧
    (a ∉ l → (l.enumFrom n).foldl (fun m ip q => if q = ip.2 then ip.1 else m q) m0 a
        = m0 a) := by
  induction l generalizing n m0 with
  | nil => exact ⟨fun h => absurd h (List.not_mem_nil _), fun _ => rfl⟩
  | cons x l ih =>
    simp only [List.enumFrom_cons, List.foldl_cons]
    obtain ⟨ih1, ih2⟩ := ih (n + 1) (fun q => if q = x then n else m0 q)
    by_cases hal : a ∈ l
    · refine ⟨fun _ => ?_, fun h => absurd (List.mem_cons_of_mem _ hal) h⟩
      obtain ⟨i, hi, hget⟩ := ih1 hal
      refine ⟨i + 1, ?_, ?_⟩
      · exact hi.trans (by rw [Nat.add_assoc, Nat.add_comm 1 i])
      · simpa using hget
    · constructor
      · intro h
        have hax : a = x := by
          rcases List.mem_cons.1 h with h | h
          · exact h
          · exact absurd h hal
        refine ⟨0, ?_, ?_⟩
        · rw [ih2 hal]
          simp [hax]
        · simp [hax]
      · intro h
        rw [ih2 hal]
        have hax : a ≠ x := fun hx => h (hx ▸ List.mem_cons_self _ _)
        simp [hax]

theorem pointToIndex_spec {S : List Nat} {a : Nat} (ha : a ∈ S) :
    S[pointToIndex S a]? = some a := by
  obtain ⟨i, hi, hget⟩ := (pointToIndex_aux S 0 (fun _ => 0) a).1 ha
  have : pointToIndex S a = i := by
    simp only [pointToIndex, List.enum]
    exact hi.trans (Nat.zero_add i)
  rw [this]
  exact hget

theorem pointToIndex_lt {S : List Nat} {a : Nat} (ha : a ∈ S) :
    pointToIndex S a < S.length :=
  (List.getElem?_eq_some.1 (pointToIndex_spec ha)).1

theorem pointToIndex_inj {S : List Nat} {a b : Nat} (ha : a ∈ S) (hb : b ∈ S)
    (h : pointToIndex S a = pointToIndex S b) : a = b := by
  have h1 := pointToIndex_spec ha
  have h2 := pointToIndex_spec hb
  rw [h, h2] at h1
  cases h1
  rfl

theorem Greedy.nil_of_rel {R : Nat → Nat → Prop} {L F : List Edge} (h : Greedy R L F)
    (hall : ∀ x ∈ L, R x.From x.To) : F = [] := by
  induction h with
  | nil R => rfl
  | skip _ _ ih => exact ih (fun x hx => hall x (List.mem_cons_of_mem _ hx))
  | take hn _ _ => exact absurd (hall _ (List.mem_cons_self _ _)) hn

/-- The loop of `calculateMSTKruskal` adds up the weights of the greedy run.
`F0` are the edges accepted so far. -/
theorem kruskalLoop_spec (d : Nat → Nat → ℚ) {S : List Nat} (hnd : S.Nodup) :
    ∀ (L : List Edge), (∀ e ∈ L, e.From ∈ S ∧ e.To ∈ S) →
    ∀ (uf : UnionFind) (R : Nat → Nat → Prop) (mst : ℚ) (used : Nat) (F0 : List Edge),
      uf.Inv → uf.parent.length = S.length → Equivalence R →
      (∀ a ∈ S, ∀ b ∈ S, (uf.Conn (pointToIndex S a) (pointToIndex S b) ↔ R a b)) →
      Indep Eq F0 → R = addEdges Eq F0 → F0.length = used →
      (∀ e ∈ F0, e.From ∈ S ∧ e.To ∈ S) →
      ∀ F, Greedy R L F →
        kruskalLoop S.length (pointToIndex S) L uf mst used = some (mst + edgeWeight F) := by
  intro L
  induction L with
  | nil =>
    intro _ uf R mst used F0 _ _ _ _ _ _ _ _ F hG
    cases hG
    simp [kruskalLoop, edgeWeight]
  | cons e rest ih =>
    intro hmem uf R mst used F0 hI hlen hR hrep hF0 hRF hused hF0mem F hG
    have heS := hmem e (List.mem_cons_self _ _)
    have hrest : ∀ x ∈ rest, x.From ∈ S ∧ x.To ∈ S :=
      fun x hx => hmem x (List.mem_cons_of_mem _ hx)
    by_cases hbreak : used = S.length - 1
    · have hall : ∀ x ∈ S, ∀ y ∈ S, R x y := by
        rw [hRF]
        apply Indep.spans_of_length d hnd hF0 hF0mem
        rw [hused, hbreak]
        cases S with
        | nil => exact absurd heS.1 (List.not_mem_nil _)
        | cons a l => rw [pathEdges_length]; simp
      have hFnil := hG.nil_of_rel (fun x hx => hall _ (hmem x hx).1 _ (hmem x hx).2)
      simp [kruskalLoop, hbreak, hFnil, edgeWeight]
    · have hxlt : pointToIndex S e.From < uf.parent.length := by
        rw [hlen]; exact pointToIndex_lt heS.1
      have hylt : pointToIndex S e.To < uf.parent.length := by
        rw [hlen]; exact pointToIndex_lt heS.2
      obtain ⟨u1, r1, hf1, hr1, hI1, _, hlen1, hroots1⟩ := UnionFind.Find_spec hI hxlt
      obtain ⟨u2, r2, hf2, hr2', hI2, _, hlen2, hroots2⟩ :=
        UnionFind.Find_spec hI1 (x := pointToIndex S e.To) (by rw [hlen1]; exact hylt)
      have hr2 : uf.RootOf (pointToIndex S e.To) r2 := (hroots1 _ _).1 hr2'
      have hroots : ∀ z s, u2.RootOf z s ↔ uf.RootOf z s := fun z s =>
        (hroots2 z s).trans (hroots1 z s)
      have hconn2 : ∀ c e, u2.Conn c e ↔ uf.Conn c e := UnionFind.conn_congr hroots
      have hlenu2 : u2.parent.length = S.length := (hlen2.trans hlen1).trans hlen
      have hiff : r1 = r2 ↔ R e.From e.To := by
        rw [← hrep _ heS.1 _ heS.2]
        constructor
        · intro h
          exact ⟨r1, hr1, h ▸ hr2⟩
        · rintro ⟨s, h1, h2⟩
          rw [hr1.unique h1, hr2.unique h2]
      cases hG with
      | skip hr hG' =>
        have h12 : r1 = r2 := hiff.2 hr
        have := ih hrest u2 R mst used F0 hI2 hlenu2 hR
          (fun a ha b hb => (hconn2 _ _).trans (hrep a ha b hb)) hF0 hRF hused hF0mem F hG'
        simp [kruskalLoop, hbreak, hf1, hf2, h12, this]
      | @take _ _ _ F' hn hG' =>
        have h12 : r1 ≠ r2 := fun h => hn (hiff.1 h)
        obtain ⟨u3, hu3, hI3, hlen3, hconn3⟩ := UnionFind.Union_spec hI2
          (x := pointToIndex S e.From) (y := pointToIndex S e.To)
          (by rw [hlenu2]; exact pointToIndex_lt heS.1)
          (by rw [hlenu2]; exact pointToIndex_lt heS.2)
        have hrep3 : ∀ a ∈ S, ∀ b ∈ S,
            (u3.Conn (pointToIndex S a) (pointToIndex S b) ↔ addEdge R e a b) := by
          intro a ha b hb
          rw [hconn3, addEdge_iff hR]
          simp only [hconn2]
          rw [hrep a ha b hb, hrep a ha _ heS.1, hrep _ heS.2 b hb, hrep a ha _ heS.2,
            hrep _ heS.1 b hb]
        have hF0' : Indep Eq (F0 ++ [e]) := hF0.append ⟨by rw [← hRF]; exact hn, trivial⟩
        have hRF' : addEdge R e = addEdges Eq (F0 ++ [e]) := by
          rw [addEdges_append, ← hRF]
          rfl
        have hmem' : ∀ x ∈ F0 ++ [e], x.From ∈ S ∧ x.To ∈ S := by
          intro x hx
          rcases List.mem_append.1 hx with h | h
          · exact hF0mem x h
          · rw [List.mem_singleton.1 h]; exact heS
        have := ih hrest u3 (addEdge R e) (mst + e.Weight) (used + 1) (F0 ++ [e]) hI3
          (hlen3.trans hlenu2) (addEdge_equivalence R e) hrep3 hF0' hRF'
          (by simp [hused]) hmem' F' hG'
        simp [kruskalLoop, hbreak, hf1, hf2, h12, hu3, this, edgeWeight_cons, add_assoc]

/-- On a duplicate-free slice the MST computation returns, and its value is
the weight of the greedy run over the sorted edge list. -/
theorem kruskalCompute_spec (rt : Runtime) (hrt : rt.Valid) (d : Nat → Nat → ℚ)
    {S : List Nat} (hnd : S.Nodup) :
    ∃ F, Greedy Eq (rt.sortEdges (allEdges d S)) F ∧
      kruskalCompute rt d S = some (edgeWeight F) := by
  obtain ⟨F, hG⟩ := Greedy.exists Eq (rt.sortEdges (allEdges d S))
  refine ⟨F, hG, ?_⟩
  have hmem : ∀ e ∈ rt.sortEdges (allEdges d S), e.From ∈ S ∧ e.To ∈ S := by
    intro e he
    have := mem_allEdges ((hrt.sortEdges_perm _).subset he)
    exact ⟨this.1, this.2.1⟩
  have := kruskalLoop_spec d hnd _ hmem (NewUnionFind S.length) Eq 0 0 []
    (NewUnionFind_inv _) (NewUnionFind_length _) eq_equivalence
    (fun a ha b hb => by
      rw [NewUnionFind_conn]
      constructor
      · rintro ⟨_, h⟩
        exact pointToIndex_inj ha hb h
      · intro h
        exact ⟨pointToIndex_lt ha, by rw [h]⟩)
    trivial rfl rfl (fun e he => by cases he) F hG
  rw [kruskalCompute, this, zero_add]

/-! ## `calculateMSTKruskal` -/

theorem sortInts_perm (l : List Nat) : (sortInts l).Perm l :=
  List.perm_insertionSort _ l

theorem sortInts_sorted (l : List Nat) : (sortInts l).Sorted (fun a b => a ≤ b) :=
  List.sorted_insertionSort _ l

theorem sortInts_eq_of_perm {l l2 : List Nat} (h : l.Perm l2) : sortInts l = sortInts l2 :=
  List.eq_of_perm_of_sorted ((sortInts_perm l).trans (h.trans (sortInts_perm l2).symm))
    (sortInts_sorted l) (sortInts_sorted l2)

theorem sortInts_of_sorted {l : List Nat} (h : l.Sorted (fun a b => a ≤ b)) : sortInts l = l :=
  List.Sorted.insertionSort_eq h

theorem sortInts_nodup {l : List Nat} (h : l.Nodup) : (sortInts l).Nodup :=
  (sortInts_perm l).nodup_iff.2 h

theorem sortInts_length (l : List Nat) : (sortInts l).length = l.length :=
  (sortInts_perm l).length_eq

/-- The loop of `calculateMSTKruskal` returns on every edge list whose
endpoints have indices inside the union-find structure. -/
theorem kruskalLoop_total (k : Nat) (idx : Nat → Nat) :
    ∀ (L : List Edge), (∀ e ∈ L, idx e.From < k ∧ idx e.To < k) →
    ∀ (uf : UnionFind) (mst : ℚ) (used : Nat), uf.Inv → uf.parent.length = k →
      ∃ w, kruskalLoop k idx L uf mst used = some w := by
  intro L
  induction L with
  | nil =>
    intro _ uf mst used _ _
    exact ⟨mst, rfl⟩
  | cons e rest ih =>
    intro hmem uf mst used hI hlen
    have he := hmem e (List.mem_cons_self _ _)
    have hrest : ∀ x ∈ rest, idx x.From < k ∧ idx x.To < k :=
      fun x hx => hmem x (List.mem_cons_of_mem _ hx)
    by_cases hbreak : used = k - 1
    · exact ⟨mst, by simp [kruskalLoop, hbreak]⟩
    · obtain ⟨u1, r1, hf1, _, hI1, _, hlen1, _⟩ :=
        UnionFind.Find_spec hI (x := idx e.From) (by rw [hlen]; exact he.1)
      obtain ⟨u2, r2, hf2, _, hI2, _, hlen2, _⟩ :=
        UnionFind.Find_spec hI1 (x := idx e.To) (by rw [hlen1, hlen]; exact he.2)
      have hlenu2 : u2.parent.length = k := (hlen2.trans hlen1).trans hlen
      by_cases h12 : r1 = r2
      · obtain ⟨w, hw⟩ := ih hrest u2 mst used hI2 hlenu2
        exact ⟨w, by simp [kruskalLoop, hbreak, hf1, hf2, h12, hw]⟩
      · obtain ⟨u3, hu3, hI3, hlen3, _⟩ := UnionFind.Union_spec hI2
          (x := idx e.From) (y := idx e.To) (by rw [hlenu2]; exact he.1)
          (by rw [hlenu2]; exact he.2)
        obtain ⟨w, hw⟩ := ih hrest u3 (mst + e.Weight) (used + 1) hI3 (hlen3.trans hlenu2)
        exact ⟨w, by simp [kruskalLoop, hbreak, hf1, hf2, h12, hu3, hw]⟩

theorem kruskalCompute_total (rt : Runtime) (hrt : rt.Valid) (d : Nat → Nat → ℚ)
    (S : List Nat) : ∃ w, kruskalCompute rt d S = some w := by
  apply kruskalLoop_total _ _ _ _ _ _ _ (NewUnionFind_inv _) (NewUnionFind_length _)
  intro e he
  have := mem_allEdges ((hrt.sortEdges_perm _).subset he)
  exact ⟨pointToIndex_lt this.1, pointToIndex_lt this.2.1⟩

theorem IsSpanningTree.of_perm {S S2 : List Nat} (h : S.Perm S2) {T : List (Nat × Nat)}
    (hT : IsSpanningTree S T) : IsSpanningTree S2 T :=
  ⟨fun e he => ⟨h.subset (hT.1 e he).1, h.subset (hT.1 e he).2⟩,
   by rw [← h.length_eq]; exact hT.2.1,
   fun a ha b hb => hT.2.2 a (h.symm.subset ha) b (h.symm.subset hb)⟩

theorem IsMSTWeight.perm {d : Nat → Nat → ℚ} {S S2 : List Nat} (h : S.Perm S2) {w : ℚ}
    (hw : IsMSTWeight d S w) : IsMSTWeight d S2 w := by
  obtain ⟨⟨T, hT, hTw⟩, hmin⟩ := hw
  exact ⟨⟨T, hT.of_perm h, hTw⟩, fun T2 hT2 => hmin T2 (hT2.of_perm h.symm)⟩

theorem IsMSTWeight.unique_weight {d : Nat → Nat → ℚ} {S : List Nat} {w w2 : ℚ}
    (h : IsMSTWeight d S w) (h2 : IsMSTWeight d S w2) : w = w2 := by
  obtain ⟨⟨T, hT, hTw⟩, hmin⟩ := h
  obtain ⟨⟨T2, hT2, hTw2⟩, hmin2⟩ := h2
  have := hmin T2 hT2
  have := hmin2 T hT
  linarith

/-- On a non-empty duplicate-free slice the computation of
`calculateMSTKruskal` returns the minimum spanning tree weight. -/
theorem kruskalCompute_isMST (rt : Runtime) (hrt : rt.Valid) {d : Nat → Nat → ℚ}
    {S : List Nat} (hnd : S.Nodup) (hne : S ≠ [])
    (hsymm : ∀ a ∈ S, ∀ b ∈ S, d a b = d b a) :
    ∃ w, kruskalCompute rt d S = some w ∧ IsMSTWeight d S w := by
  obtain ⟨F, hG, hcomp⟩ := kruskalCompute_spec rt hrt d hnd
  obtain ⟨⟨hT, hTw⟩, hmin⟩ := hG.isMinimum hnd hsymm (hrt.sortEdges_perm _)
    (hrt.sortEdges_sorted _) hne
  exact ⟨edgeWeight F, hcomp, ⟨_, hT, hTw⟩, hmin⟩

theorem CacheOK.empty (rt : Runtime) (n : Nat) (d : Nat → Nat → ℚ) : CacheOK rt n d [] := by
  intro key v hlook
  cases hlook

/-- What a call of `calculateMSTKruskal` does, on any slice: it returns, it
changes nothing but the cache, and its value is 0 for a slice of at most one
vertex and otherwise the cached or computed value for the sorted slice. -/
theorem calculateMSTKruskal_spec (rt : Runtime) (hrt : rt.Valid) (t : TSPSolver)
    (S : List Nat) :
    ∃ v t1, calculateMSTKruskal rt t S = some (v, t1) ∧
      t1.numPoints = t.numPoints ∧ t1.distanceMatrix = t.distanceMatrix ∧
      t1.bestPath = t.bestPath ∧ t1.bestDistance = t.bestDistance ∧
      t1.visitedCount = t.visitedCount ∧ t1.nearestNeighbors = t.nearestNeighbors ∧
      (S.length ≤ 1 → v = 0 ∧ t1 = t) ∧
      (2 ≤ S.length → t1.mstCache.lookup (sortInts S) = some v ∧
        (t.mstCache.lookup (sortInts S) = none →
          kruskalCompute rt t.distanceMatrix (sortInts S) = some v ∧
          t1.mstCache = (sortInts S, v) :: t.mstCache) ∧
        (∀ c, t.mstCache.lookup (sortInts S) = some c → v = c ∧ t1 = t)) := by
  by_cases hlen : S.length ≤ 1
  · refine ⟨0, t, by simp [calculateMSTKruskal, hlen], rfl, rfl, rfl, rfl, rfl, rfl,
      fun _ => ⟨rfl, rfl⟩, fun h => by omega⟩
  · cases hlook : t.mstCache.lookup (sortInts S) with
    | some c =>
      refine ⟨c, t, by simp [calculateMSTKruskal, hlen, hlook], rfl, rfl, rfl, rfl, rfl, rfl,
        fun h => absurd h hlen, fun _ => ⟨hlook, fun h => (by cases h), ?_⟩⟩
      intro c2 hc2
      cases hc2
      exact ⟨rfl, rfl⟩
    | none =>
      obtain ⟨w, hw⟩ := kruskalCompute_total rt hrt t.distanceMatrix (sortInts S)
      refine ⟨w, { t with mstCache := (sortInts S, w) :: t.mstCache },
        by simp [calculateMSTKruskal, hlen, hlook, hw], rfl, rfl, rfl, rfl, rfl, rfl,
        fun h => absurd h hlen, fun _ => ⟨?_, fun _ => ⟨hw, rfl⟩, fun c hc => (by cases hc)⟩⟩
      simp [List.lookup]

theorem calculateMSTKruskal_cacheOK (rt : Runtime) {n : Nat} {t t1 : TSPSolver}
    {S : List Nat} {v : ℚ} (hok : CacheOK rt n t.distanceMatrix t.mstCache) (hnd : S.Nodup)
    (hlt : ∀ x ∈ S, x < n) (h : calculateMSTKruskal rt t S = some (v, t1)) :
    CacheOK rt n t.distanceMatrix t1.mstCache ∧ t1.distanceMatrix = t.distanceMatrix := by
  unfold calculateMSTKruskal at h
  by_cases hlen : S.length ≤ 1
  · rw [if_pos hlen] at h
    cases h
    exact ⟨hok, rfl⟩
  · rw [if_neg hlen] at h
    simp only at h
    cases hlook : t.mstCache.lookup (sortInts S) with
    | some c =>
      rw [hlook] at h
      cases h
      exact ⟨hok, rfl⟩
    | none =>
      rw [hlook] at h
      cases hcomp : kruskalCompute rt t.distanceMatrix (sortInts S) with
      | none => rw [hcomp] at h; cases h
      | some w =>
        rw [hcomp] at h
        cases h
        refine ⟨?_, rfl⟩
        intro key u hku
        simp only [List.lookup] at hku
        by_cases hk : key = sortInts S
        · subst hk
          simp only [beq_self_eq_true] at hku
          cases hku
          exact ⟨sortInts_nodup hnd, by rw [sortInts_length]; omega,
            fun x hx => hlt x ((sortInts_perm S).subset hx), hcomp⟩
        · have : (key == sortInts S) = false := by simpa using hk
          rw [this] at hku
          exact hok key u hku

theorem ReachableCache.cacheOK {rt : Runtime} {n : Nat} {d : Nat → Nat → ℚ}
    {c : List (List Nat × ℚ)} (h : ReachableCache rt n d c) : CacheOK rt n d c := by
  induction h with
  | empty => exact CacheOK.empty rt n d
  | @call t0 t1 S v _ hd hnd hlt hcall ih =>
    have := (calculateMSTKruskal_cacheOK rt (hd ▸ ih) hnd hlt hcall).1
    rw [hd] at this
    exact this

/-! ## Path lengths -/

theorem sumConsecutive_acc (d : Nat → Nat → ℚ) (acc : ℚ) (l : List Nat) :
    sumConsecutive d acc l = acc + sumConsecutive d 0 l := by
  induction l generalizing acc with
  | nil => simp [sumConsecutive]
  | cons a l ih =>
    cases l with
    | nil => simp [sumConsecutive]
    | cons b rest =>
      simp only [sumConsecutive]
      rw [ih (acc + d a b), ih (0 + d a b)]
      ring

theorem sumConsecutive_cons_cons (d : Nat → Nat → ℚ) (a b : Nat) (rest : List Nat) :
    sumConsecutive d 0 (a :: b :: rest) = d a b + sumConsecutive d 0 (b :: rest) := by
  simp only [sumConsecutive]
  rw [sumConsecutive_acc, zero_add]

theorem sumConsecutive_append (d : Nat → Nat → ℚ) (l1 l2 : List Nat) (h1 : l1 ≠ [])
    (h2 : l2 ≠ []) :
    sumConsecutive d 0 (l1 ++ l2) =
      sumConsecutive d 0 l1 + d (l1.getLastD 0) (l2.headD 0) + sumConsecutive d 0 l2 := by
  induction l1 with
  | nil => exact absurd rfl h1
  | cons a l ih =>
    cases l with
    | nil =>
      cases l2 with
      | nil => exact absurd rfl h2
      | cons b rest =>
        simp only [List.singleton_append, sumConsecutive_cons_cons]
        simp [sumConsecutive]
    | cons b rest =>
      have := ih (List.cons_ne_nil _ _)
      simp only [List.cons_append] at this ⊢
      rw [sumConsecutive_cons_cons, sumConsecutive_cons_cons, this]
      simp only [List.getLastD_cons]
      ring

theorem sumConsecutive_append_singleton (d : Nat → Nat → ℚ) (l : List Nat) (h : l ≠ [])
    (c : Nat) :
    sumConsecutive d 0 (l ++ [c]) = sumConsecutive d 0 l + d (l.getLastD 0) c := by
  rw [sumConsecutive_append d l [c] h (List.cons_ne_nil _ _)]
  simp [sumConsecutive]

theorem sumConsecutive_nonneg {n : Nat} {d : Nat → Nat → ℚ} (hd : NonnegOn n d)
    (l : List Nat) (hl : ∀ x ∈ l, x < n) : 0 ≤ sumConsecutive d 0 l := by
  induction l with
  | nil => simp [sumConsecutive]
  | cons a l ih =>
    cases l with
    | nil => simp [sumConsecutive]
    | cons b rest =>
      rw [sumConsecutive_cons_cons]
      have h1 := hd a b (hl a (List.mem_cons_self _ _))
        (hl b (List.mem_cons_of_mem _ (List.mem_cons_self _ _)))
      have h2 := ih (fun x hx => hl x (List.mem_cons_of_mem _ hx))
      linarith

theorem treeWeight_pathPairs (d : Nat → Nat → ℚ) (l : List Nat) :
    treeWeight d (pathPairs l) = sumConsecutive d 0 l := by
  induction l with
  | nil => simp [pathPairs, treeWeight, sumConsecutive]
  | cons a l ih =>
    cases l with
    | nil => simp [pathPairs, treeWeight, sumConsecutive]
    | cons b rest =>
      rw [sumConsecutive_cons_cons, ← ih]
      simp [pathPairs, treeWeight]

theorem toEdges_pathPairs (d : Nat → Nat → ℚ) (l : List Nat) :
    toEdges d (pathPairs l) = pathEdges d l := by
  induction l with
  | nil => rfl
  | cons a l ih =>
    cases l with
    | nil => rfl
    | cons b rest =>
      simp only [pathPairs, pathEdges, toEdges, List.map_cons] at ih ⊢
      rw [ih]

theorem mem_pathPairs {l : List Nat} {e : Nat × Nat} (h : e ∈ pathPairs l) :
    e.1 ∈ l ∧ e.2 ∈ l := by
  induction l with
  | nil => cases h
  | cons a l ih =>
    cases l with
    | nil => cases h
    | cons b rest =>
      rcases List.mem_cons.1 h with rfl | h
      · exact ⟨List.mem_cons_self _ _, List.mem_cons_of_mem _ (List.mem_cons_self _ _)⟩
      · exact ⟨List.mem_cons_of_mem _ (ih h).1, List.mem_cons_of_mem _ (ih h).2⟩

/-- The open path through a duplicate-free list is a spanning tree of its
vertices. -/
theorem pathPairs_isSpanningTree (d : Nat → Nat → ℚ) {l : List Nat} (hnd : l.Nodup)
    (hne : l ≠ []) : IsSpanningTree l (pathPairs l) := by
  refine ⟨fun e he => mem_pathPairs he, ?_, ?_⟩
  · cases l with
    | nil => exact absurd rfl hne
    | cons a rest =>
      have := pathEdges_length d a rest
      rw [← toEdges_pathPairs] at this
      simp only [toEdges, List.length_map] at this
      rw [this]
      rfl
  · intro a ha b hb
    rw [connected_iff_addEdges d, toEdges_pathPairs]
    exact (pathEdges_spanning d l hnd).2 a ha b hb

/-! ## The running minima -/

theorem ltBest_eq_false_iff (x : ℚ) (m : Option ℚ) : ltBest x m = false ↔ Below m x := by
  cases m with
  | none => simp [ltBest, Below]
  | some b => simp [ltBest, Below]

theorem ltBest_eq_true_iff (x : ℚ) (m : Option ℚ) : ltBest x m = true ↔ ¬ Below m x := by
  rw [← ltBest_eq_false_iff]
  simp

theorem geBest_eq_true_iff (x : ℚ) (m : Option ℚ) : geBest x m = true ↔ Below m x := by
  rw [geBest, ← ltBest_eq_false_iff]
  simp

theorem Below.trans_le {m : Option ℚ} {x y : ℚ} (h : Below m x) (hxy : x ≤ y) : Below m y := by
  obtain ⟨v, hv, hle⟩ := h
  exact ⟨v, hv, le_trans hle hxy⟩

theorem minDistTo_spec (d : Nat → Nat → ℚ) (v : Nat) (U : List Nat) (acc : Option ℚ) :
    (∀ x, Below acc x → Below (minDistTo d v U acc) x) ∧
      (∀ u ∈ U, Below (minDistTo d v U acc) (d v u)) := by
  induction U generalizing acc with
  | nil => exact ⟨fun _ h => h, fun u hu => absurd hu (List.not_mem_nil _)⟩
  | cons p rest ih =>
    simp only [minDistTo]
    obtain ⟨ih1, ih2⟩ := ih (if ltBest (d v p) acc = true then some (d v p) else acc)
    have hp : Below (if ltBest (d v p) acc = true then some (d v p) else acc) (d v p) := by
      by_cases h : ltBest (d v p) acc = true
      · rw [if_pos h]
        exact ⟨_, rfl, le_refl _⟩
      · rw [if_neg h]
        exact (ltBest_eq_false_iff _ _).1 (by simpa using h)
    have hacc : ∀ x, Below acc x →
        Below (if ltBest (d v p) acc = true then some (d v p) else acc) x := by
      intro x hx
      by_cases h : ltBest (d v p) acc = true
      · rw [if_pos h]
        obtain ⟨a, ha, hax⟩ := hx
        subst ha
        simp only [ltBest, decide_eq_true_eq] at h
        exact ⟨_, rfl, le_trans (le_of_lt h) hax⟩
      · rw [if_neg h]
        exact hx
    refine ⟨fun x hx => ih1 x (hacc x hx), ?_⟩
    intro u hu
    rcases List.mem_cons.1 hu with rfl | hu
    · exact ih1 _ hp
    · exact ih2 u hu

/-- `minConnectionToPath` is at most the cost of leaving the path at its last
vertex towards `u2` and entering it at its first vertex from `u1`. -/
theorem minConnectionToPath_le (t : TSPSolver) (U path : List Nat) {u1 u2 : Nat}
    (h1 : u1 ∈ U) (h2 : u2 ∈ U) :
    minConnectionToPath t U path ≤
      t.distanceMatrix (path.headD 0) u1 + t.distanceMatrix (path.getLastD 0) u2 := by
  have hlen : U.length ≠ 0 := by
    intro h
    rw [List.length_eq_zero] at h
    rw [h] at h1
    cases h1
  obtain ⟨a, ha, hale⟩ := (minDistTo_spec t.distanceMatrix (path.headD 0) U none).2 u1 h1
  obtain ⟨b, hb, hble⟩ := (minDistTo_spec t.distanceMatrix (path.getLastD 0) U none).2 u2 h2
  simp only [minConnectionToPath, if_neg hlen, ha, hb, Option.getD_some]
  linarith

/-! ## The unvisited slice -/

theorem mem_unvisitedOf {n : Nat} {visited : List Bool} {i : Nat} :
    i ∈ unvisitedOf n visited ↔ i < n ∧ visited.getD i false = false := by
  simp [unvisitedOf]

theorem unvisitedOf_sorted (n : Nat) (visited : List Bool) :
    (unvisitedOf n visited).Sorted (fun a b => a ≤ b) := by
  apply List.Pairwise.filter
  exact (List.pairwise_lt_range n).imp (fun h => le_of_lt h)

theorem unvisitedOf_nodup (n : Nat) (visited : List Bool) : (unvisitedOf n visited).Nodup :=
  (List.nodup_range n).filter _

theorem mem_unvisitedOf_of_marks {n : Nat} {visited : List Bool} {path : List Nat}
    (hm : Marks n visited path) {i : Nat} :
    i ∈ unvisitedOf n visited ↔ i < n ∧ i ∉ path := by
  rw [mem_unvisitedOf]
  constructor
  · rintro ⟨hi, hv⟩
    refine ⟨hi, fun hp => ?_⟩
    rw [(hm.2 i hi).2 hp] at hv
    cases hv
  · rintro ⟨hi, hp⟩
    refine ⟨hi, ?_⟩
    cases hv : visited.getD i false with
    | false => rfl
    | true => exact absurd ((hm.2 i hi).1 hv) hp

/-- The rest of a tour that extends `path` is a permutation of the unvisited
slice. -/
theorem rest_perm_unvisited {n : Nat} {visited : List Bool} {path rest : List Nat}
    (hm : Marks n visited path) (htour : IsTour n (path ++ rest)) :
    rest.Perm (unvisitedOf n visited) := by
  have hnd : (path ++ rest).Nodup := htour.nodup_iff.2 (List.nodup_range n)
  apply (List.perm_ext_iff_of_nodup (List.nodup_append.1 hnd).2.1
    (unvisitedOf_nodup n visited)).2
  intro i
  rw [mem_unvisitedOf_of_marks hm]
  constructor
  · intro hi
    refine ⟨List.mem_range.1 (htour.subset (List.mem_append_right _ hi)), fun hp => ?_⟩
    exact (List.nodup_append.1 hnd).2.2 hp hi
  · rintro ⟨hi, hp⟩
    rcases List.mem_append.1 (htour.symm.subset (List.mem_range.2 hi)) with h | h
    · exact absurd h hp
    · exact h

/-! ## The lower bound -/

theorem minConnectionToPath_congr {t t1 : TSPSolver} (h : t1.distanceMatrix = t.distanceMatrix)
    (U path : List Nat) : minConnectionToPath t1 U path = minConnectionToPath t U path := by
  simp only [minConnectionToPath, h]

theorem calculatePathDistance_congr {t t1 : TSPSolver}
    (h : t1.distanceMatrix = t.distanceMatrix) (path : List Nat) :
    calculatePathDistance t1 path = calculatePathDistance t path := by
  simp only [calculatePathDistance, h]

theorem getLastD_append_of_ne_nil (l1 l2 : List Nat) (h : l2 ≠ []) :
    (l1 ++ l2).getLastD 0 = l2.getLastD 0 := by
  cases l2 with
  | nil => exact absurd rfl h
  | cons b rest =>
    rw [List.getLastD_eq_getLast?, List.getLastD_eq_getLast?, List.getLast?_append]
    cases h2 : (b :: rest).getLast? with
    | none => simp at h2
    | some x => rfl

theorem headD_append_of_ne_nil (l1 l2 : List Nat) (h : l1 ≠ []) :
    (l1 ++ l2).headD 0 = l1.headD 0 := by
  cases l1 with
  | nil => exact absurd rfl h
  | cons a rest => rfl

theorem headD_mem {l : List Nat} (h : l ≠ []) : l.headD 0 ∈ l := by
  cases l with
  | nil => exact absurd rfl h
  | cons a rest => exact List.mem_cons_self _ _

theorem getLastD_mem {l : List Nat} (h : l ≠ []) : l.getLastD 0 ∈ l := by
  cases l with
  | nil => exact absurd rfl h
  | cons a rest =>
    rw [List.getLastD_cons]
    induction rest generalizing a with
    | nil => exact List.mem_cons_self _ _
    | cons b rest ih =>
      rw [List.getLastD_cons]
      exact List.mem_cons_of_mem _ (ih b (List.cons_ne_nil _ _))

/-- The closed length of a path made of two non-empty pieces. -/
theorem calculatePathDistance_append (t : TSPSolver) (l1 l2 : List Nat) (h1 : l1 ≠ [])
    (h2 : l2 ≠ []) :
    calculatePathDistance t (l1 ++ l2) =
      sumConsecutive t.distanceMatrix 0 l1 + t.distanceMatrix (l1.getLastD 0) (l2.headD 0)
        + sumConsecutive t.distanceMatrix 0 l2
        + t.distanceMatrix (l2.getLastD 0) (l1.headD 0) := by
  rw [calculatePathDistance, sumConsecutive_append _ _ _ h1 h2,
    getLastD_append_of_ne_nil _ _ h2, headD_append_of_ne_nil _ _ h1]

/-- The value the MST oracle returns for a duplicate-free slice of valid
vertices is at most the length of every open path through the slice. -/
theorem mst_le_path (rt : Runtime) (hrt : rt.Valid) {n : Nat} {d : Nat → Nat → ℚ}
    (hsymm : SymmetricOn n d) {U rest : List Nat} (hperm : rest.Perm U) (hnd : U.Nodup)
    (hlt : ∀ x ∈ U, x < n) (hne : U ≠ []) {m : ℚ}
    (hm : kruskalCompute rt d (sortInts U) = some m) :
    IsMSTWeight d U m ∧ m ≤ sumConsecutive d 0 rest := by
  have hne' : sortInts U ≠ [] := by
    intro h
    apply hne
    have := sortInts_length U
    rw [h] at this
    exact List.length_eq_zero.1 this.symm
  obtain ⟨w, hw, hmst⟩ := kruskalCompute_isMST rt hrt (d := d) (sortInts_nodup hnd) hne'
    (fun a ha b hb => hsymm a b (hlt a ((sortInts_perm U).subset ha))
      (hlt b ((sortInts_perm U).subset hb)))
  rw [hm] at hw
  cases hw
  have hU : IsMSTWeight d U m := hmst.perm (sortInts_perm U)
  refine ⟨hU, ?_⟩
  have hrestne : rest ≠ [] := by
    intro h
    rw [h] at hperm
    exact hne (List.Perm.nil_eq hperm).symm
  have hT := (pathPairs_isSpanningTree d (hperm.nodup_iff.2 hnd) hrestne).of_perm hperm
  have := hU.2 _ hT
  rw [treeWeight_pathPairs] at this
  exact this

/-- What `calculateLowerBound` does on a non-empty path whose vertices are
exactly the marked ones: it returns, it changes nothing but the cache, which
stays correct, and its value is at most the closed length of every tour that
extends the path. -/
theorem calculateLowerBound_spec (rt : Runtime) (hrt : rt.Valid) (t : TSPSolver)
    (hsymm : SymmetricOn t.numPoints t.distanceMatrix)
    (hok : CacheOK rt t.numPoints t.distanceMatrix t.mstCache)
    {path : List Nat} {visited : List Bool} (hp : path ≠ [])
    (hm : Marks t.numPoints visited path) :
    ∃ lb t1, calculateLowerBound rt t path visited = some (lb, t1) ∧
      SameProblem t t1 ∧ t1.bestPath = t.bestPath ∧ t1.bestDistance = t.bestDistance ∧
      t1.visitedCount = t.visitedCount ∧
      CacheOK rt t.numPoints t.distanceMatrix t1.mstCache ∧
      (unvisitedOf t.numPoints visited = [] →
        lb = calculatePathDistance t path ∧ t1 = t) ∧
      (unvisitedOf t.numPoints visited ≠ [] →
        ∃ m, calculateMSTKruskal rt t (unvisitedOf t.numPoints visited) = some (m, t1) ∧
          lb = calculatePartialDistance t path + m +
            minConnectionToPath t (unvisitedOf t.numPoints visited) path) ∧
      ∀ rest, IsTour t.numPoints (path ++ rest) →
        lb ≤ calculatePathDistance t (path ++ rest) := by
  by_cases hU : unvisitedOf t.numPoints visited = []
  · refine ⟨calculatePathDistance t path, t, ?_, ⟨rfl, rfl, rfl⟩, rfl, rfl, rfl, hok,
      fun _ => ⟨rfl, rfl⟩, fun h => absurd hU h, ?_⟩
    · simp [calculateLowerBound, hU, calculatePathDistance, calculatePartialDistance]
    · intro rest htour
      have hperm := rest_perm_unvisited hm htour
      rw [hU] at hperm
      rw [List.Perm.eq_nil hperm, List.append_nil]
  · have hnd := unvisitedOf_nodup t.numPoints visited
    have hlt : ∀ x ∈ unvisitedOf t.numPoints visited, x < t.numPoints :=
      fun x hx => (mem_unvisitedOf.1 hx).1
    obtain ⟨m, t1, hcall, hn1, hd1, hbp1, hbd1, hvc1, hnn1, hsmall, hbig⟩ :=
      calculateMSTKruskal_spec rt hrt t (unvisitedOf t.numPoints visited)
    have hok1 := (calculateMSTKruskal_cacheOK rt hok hnd hlt hcall).1
    have hlen0 : (unvisitedOf t.numPoints visited).length ≠ 0 :=
      fun h => hU (List.length_eq_zero.1 h)
    have hsorted : (if (unvisitedOf t.numPoints visited).length ≤ 1 then
        unvisitedOf t.numPoints visited else sortInts (unvisitedOf t.numPoints visited))
        = unvisitedOf t.numPoints visited := by
      split
      · rfl
      · exact sortInts_of_sorted (unvisitedOf_sorted _ _)
    refine ⟨calculatePartialDistance t path + m +
        minConnectionToPath t (unvisitedOf t.numPoints visited) path, t1, ?_,
      ⟨hn1, hd1, hnn1⟩, hbp1, hbd1, hvc1, hok1, fun h => absurd h hU,
      fun _ => ⟨m, hcall, rfl⟩, ?_⟩
    · simp only [calculateLowerBound, hlen0, if_false, hcall, hsorted]
      rw [minConnectionToPath_congr hd1]
    · intro rest htour
      have hperm := rest_perm_unvisited hm htour
      have hrestne : rest ≠ [] := by
        intro h
        rw [h] at hperm
        exact hU (List.Perm.nil_eq hperm).symm
      have hmem : ∀ x ∈ path ++ rest, x < t.numPoints :=
        fun x hx => List.mem_range.1 (htour.subset hx)
      have hm_le : m ≤ sumConsecutive t.distanceMatrix 0 rest := by
        by_cases hlen : (unvisitedOf t.numPoints visited).length ≤ 1
        · rw [(hsmall hlen).1]
          have hrl : rest.length ≤ 1 := by rw [hperm.length_eq]; exact hlen
          match rest, hrl with
          | [], _ => simp [sumConsecutive]
          | [_], _ => simp [sumConsecutive]
        · have h2 : 2 ≤ (unvisitedOf t.numPoints visited).length := by omega
          obtain ⟨hlook1, hmiss, hhit⟩ := hbig h2
          have hcomp : kruskalCompute rt t.distanceMatrix
              (sortInts (unvisitedOf t.numPoints visited)) = some m := by
            cases hlook : t.mstCache.lookup (sortInts (unvisitedOf t.numPoints visited)) with
            | none => exact (hmiss hlook).1
            | some c =>
              rw [(hhit c hlook).1]
              exact (hok _ c hlook).2.2.2
          exact (mst_le_path rt hrt hsymm hperm hnd hlt hU hcomp).2
      have hconn := minConnectionToPath_le t (unvisitedOf t.numPoints visited) path
        (hperm.subset (getLastD_mem hrestne)) (hperm.subset (headD_mem hrestne))
      have hs := hsymm (rest.getLastD 0) (path.headD 0)
        (hmem _ (List.mem_append_right _ (getLastD_mem hrestne)))
        (hmem _ (List.mem_append_left _ (headD_mem hp)))
      rw [calculatePathDistance_append t path rest hp hrestne, hs]
      simp only [calculatePartialDistance]
      linarith

/-! ## Branch and bound: auxiliary facts -/

theorem mem_pointsToTry_fold (visited : List Bool) (x : Nat) (l init : List Nat) :
    x ∈ l.foldl (fun pts i => if !visited.getD i false then
        (if pts.contains i then pts else pts ++ [i]) else pts) init ↔
      x ∈ init ∨ (x ∈ l ∧ visited.getD x false = false) := by
  induction l generalizing init with
  | nil => simp
  | cons a l ih =>
    rw [List.foldl_cons, ih]
    by_cases hv : visited.getD a false = false
    · by_cases hc : init.contains a = true
      · simp only [hv, Bool.not_false, if_true, hc]
        have ha : a ∈ init := by simpa using hc
        constructor
        · rintro (h | ⟨h1, h2⟩)
          · exact Or.inl h
          · exact Or.inr ⟨List.mem_cons_of_mem _ h1, h2⟩
        · rintro (h | ⟨h1, h2⟩)
          · exact Or.inl h
          · rcases List.mem_cons.1 h1 with rfl | h1
            · exact Or.inl ha
            · exact Or.inr ⟨h1, h2⟩
      · simp only [hv, Bool.not_false, if_true, hc, Bool.false_eq_true, if_false,
          List.mem_append, List.mem_singleton]
        constructor
        · rintro ((h | rfl) | ⟨h1, h2⟩)
          · exact Or.inl h
          · exact Or.inr ⟨List.mem_cons_self _ _, hv⟩
          · exact Or.inr ⟨List.mem_cons_of_mem _ h1, h2⟩
        · rintro (h | ⟨h1, h2⟩)
          · exact Or.inl (Or.inl h)
          · rcases List.mem_cons.1 h1 with rfl | h1
            · exact Or.inl (Or.inr rfl)
            · exact Or.inr ⟨h1, h2⟩
    · have hv' : visited.getD a false = true := by simpa using hv
      simp only [hv', Bool.not_true, Bool.false_eq_true, if_false]
      constructor
      · rintro (h | ⟨h1, h2⟩)
        · exact Or.inl h
        · exact Or.inr ⟨List.mem_cons_of_mem _ h1, h2⟩
      · rintro (h | ⟨h1, h2⟩)
        · exact Or.inl h
        · rcases List.mem_cons.1 h1 with rfl | h1
          · rw [hv'] at h2; cases h2
          · exact Or.inr ⟨h1, h2⟩

/-- The candidates of a branching step are exactly the unvisited vertices. -/
theorem mem_pointsToTryOf {t : TSPSolver}
    (hrank : ∀ row ∈ t.nearestNeighbors, ∀ x ∈ row, x < t.numPoints) (lastPoint : Nat)
    (visited : List Bool) (x : Nat) :
    x ∈ pointsToTryOf t lastPoint visited ↔ x ∈ unvisitedOf t.numPoints visited := by
  rw [pointsToTryOf, mem_pointsToTry_fold, mem_unvisitedOf, List.mem_range, List.mem_filter]
  constructor
  · rintro (⟨h1, h2⟩ | h)
    · refine ⟨?_, by simpa using h2⟩
      by_cases hl : lastPoint < t.nearestNeighbors.length
      · rw [List.getD_eq_getElem _ _ hl] at h1
        exact hrank _ (List.getElem_mem _) x h1
      · rw [List.getD_eq_default _ _ (by omega)] at h1
        cases h1
    · exact h
  · exact Or.inr

theorem set_set_visited (visited : List Bool) (c : Nat) (hc : c < visited.length)
    (hv : visited.getD c false = false) : (visited.set c true).set c false = visited := by
  rw [List.set_set]
  apply List.ext_getElem?
  intro i
  rw [List.getElem?_set]
  by_cases hci : c = i
  · subst hci
    rw [if_pos rfl, if_pos hc]
    rw [List.getD_eq_getElem _ _ hc] at hv
    rw [List.getElem?_eq_getElem hc, hv]
  · rw [if_neg hci]

theorem Marks.extend {n : Nat} {visited : List Bool} {path : List Nat}
    (hm : Marks n visited path) {c : Nat} (hc : c < n) :
    Marks n (visited.set c true) (path ++ [c]) := by
  refine ⟨by rw [List.length_set]; exact hm.1, ?_⟩
  intro i hi
  rw [List.getD_eq_getElem?_getD, List.getElem?_set, List.mem_append, List.mem_singleton]
  by_cases hci : c = i
  · subst hci
    rw [if_pos rfl, if_pos (by rw [hm.1]; exact hc)]
    simp
  · rw [if_neg hci, ← List.getD_eq_getElem?_getD, hm.2 i hi]
    constructor
    · exact Or.inl
    · rintro (h | h)
      · exact h
      · exact absurd h.symm hci

/-- A duplicate-free list of `n` vertices below `n` is a tour. -/
theorem isTour_of_nodup {n : Nat} {path : List Nat} (hnd : path.Nodup)
    (hlt : ∀ x ∈ path, x < n) (hlen : path.length = n) : IsTour n path := by
  have hsub : path.Subperm (List.range n) :=
    List.subperm_of_subset hnd (fun x hx => List.mem_range.2 (hlt x hx))
  exact hsub.perm_of_length_le (by rw [List.length_range, hlen])

theorem IsTour.length_eq {n : Nat} {path : List Nat} (h : IsTour n path) : path.length = n := by
  rw [List.Perm.length_eq h, List.length_range]

theorem IsTour.mem_lt {n : Nat} {path : List Nat} (h : IsTour n path) {x : Nat} (hx : x ∈ path) :
    x < n := List.mem_range.1 (h.subset hx)

theorem IsTour.nodup {n : Nat} {path : List Nat} (h : IsTour n path) : path.Nodup :=
  (List.Perm.nodup_iff h).2 (List.nodup_range n)

/-- With non-negative entries the open length of a prefix is at most the
closed length of the whole path. -/
theorem partial_le_tour {t : TSPSolver} (hd : NonnegOn t.numPoints t.distanceMatrix)
    (l1 l2 : List Nat) (h1 : l1 ≠ []) (hlt : ∀ x ∈ l1 ++ l2, x < t.numPoints) :
    sumConsecutive t.distanceMatrix 0 l1 ≤ calculatePathDistance t (l1 ++ l2) := by
  by_cases h2 : l2 = []
  · subst h2
    rw [List.append_nil, calculatePathDistance]
    rw [List.append_nil] at hlt
    have := hd _ _ (hlt _ (getLastD_mem h1)) (hlt _ (headD_mem h1))
    linarith
  · rw [calculatePathDistance_append t l1 l2 h1 h2]
    have hl1 : ∀ x ∈ l1, x < t.numPoints := fun x hx => hlt x (List.mem_append_left _ hx)
    have hl2 : ∀ x ∈ l2, x < t.numPoints := fun x hx => hlt x (List.mem_append_right _ hx)
    have a1 := hd _ _ (hl1 _ (getLastD_mem h1)) (hl2 _ (headD_mem h2))
    have a2 := hd _ _ (hl2 _ (getLastD_mem h2)) (hl1 _ (headD_mem h1))
    have a3 := sumConsecutive_nonneg hd l2 hl2
    linarith

theorem WellFormed.of_same {rt : Runtime} {t t1 : TSPSolver} (h : WellFormed rt t)
    (hs : SameProblem t t1)
    (hc : CacheOK rt t.numPoints t.distanceMatrix t1.mstCache) : WellFormed rt t1 := by
  obtain ⟨h1, h2, h3⟩ := hs
  constructor
  · rw [h1, h2]; exact h.symm
  · rw [h1, h2]; exact h.nonneg
  · rw [h1, h2]; exact hc
  · rw [h1, h3]; exact h.ranking

theorem SameProblem.refl (t : TSPSolver) : SameProblem t t := ⟨rfl, rfl, rfl⟩

theorem SameProblem.trans_same {t t1 t2 : TSPSolver} (h1 : SameProblem t t1)
    (h2 : SameProblem t1 t2) : SameProblem t t2 :=
  ⟨h2.1.trans h1.1, h2.2.1.trans h1.2.1, h2.2.2.trans h1.2.2⟩

/-! ## Branch and bound: the search is exhaustive up to the incumbent -/

theorem calculatePathDistance_eq (t : TSPSolver) (q : List Nat) :
    calculatePathDistance t q = tourLength t.distanceMatrix q := rfl

theorem SearchResult.seq {rt : Runtime} {t t1 t2 : TSPSolver} {C1 C2 S : List Nat → Prop}
    (h1 : SearchResult rt t t1 C1 S) (h2 : SearchResult rt t1 t2 C2 S) :
    SearchResult rt t t2 (fun q => C1 q ∨ C2 q) S := by
  obtain ⟨hn, hd, _⟩ := h1.same
  constructor
  · exact h1.same.trans_same h2.same
  · have := h2.cache
    rw [hn, hd] at this
    exact this
  · exact fun x hx => h2.mono x (h1.mono x hx)
  · intro q hq
    rcases hq with hq | hq
    · exact h2.mono _ (h1.covered q hq)
    · have := h2.covered q hq
      rw [hd] at this
      exact this
  · rcases h2.incumbent with ⟨e1, e2⟩ | ⟨s1, s2, s3⟩
    · rcases h1.incumbent with ⟨f1, f2⟩ | ⟨r1, r2, r3⟩
      · exact Or.inl ⟨e1.trans f1, e2.trans f2⟩
      · refine Or.inr ⟨by rw [e2]; exact r1, by rw [e1, e2]; exact r2, by rw [e2]; exact r3⟩
    · rw [hd] at s2 s3
      exact Or.inr ⟨s1, s2, fun hb => s3 (h1.mono _ hb)⟩

theorem SearchResult.weaken {rt : Runtime} {t t1 : TSPSolver} {C C2 S S2 : List Nat → Prop}
    (h : SearchResult rt t t1 C S) (hC : ∀ q, C2 q → C q) (hS : ∀ q, S q → S2 q) :
    SearchResult rt t t1 C2 S2 := by
  refine ⟨h.same, h.cache, h.mono, fun q hq => h.covered q (hC q hq), ?_⟩
  rcases h.incumbent with h1 | ⟨s1, s2, s3⟩
  · exact Or.inl h1
  · exact Or.inr ⟨hS _ s1, s2, s3⟩

/-- The loop over the candidates, given what the recursive calls do. -/
theorem tryPoints_spec (rt : Runtime) (fuel : Nat) (n : Nat) (d : Nat → Nat → ℚ)
    (path : List Nat) (visited : List Bool) (hp : path ≠ []) (hnd : path.Nodup)
    (hlt : ∀ x ∈ path, x < n) (hm : Marks n visited path) (hfuel : n < fuel + 1 + path.length)
    (ih : ∀ (t : TSPSolver) (path : List Nat) (visited : List Bool),
      WellFormed rt t → path ≠ [] → path.Nodup → (∀ x ∈ path, x < t.numPoints) →
      Marks t.numPoints visited path → t.numPoints < fuel + path.length →
      ∃ t1, bruteForceRecursive rt fuel t path (sumConsecutive t.distanceMatrix 0 path) visited
          = some (t1, visited) ∧
        SearchResult rt t t1 (Extends t.numPoints path) (Extends t.numPoints path)) :
    ∀ (cands : List Nat), (∀ c ∈ cands, c < n ∧ c ∉ path) →
    ∀ (ts : TSPSolver), WellFormed rt ts → ts.numPoints = n → ts.distanceMatrix = d →
      ∃ t1, cands.foldlM (tryPoint (bruteForceRecursive rt fuel) path
          (sumConsecutive d 0 path) (path.getLastD 0)) (ts, visited) = some (t1, visited) ∧
        SearchResult rt ts t1
          (fun q => ∃ c ∈ cands, Extends n (path ++ [c]) q) (Extends n path) := by
  intro cands
  induction cands with
  | nil =>
    intro _ ts hwf _ _
    refine ⟨ts, rfl, SameProblem.refl ts, hwf.cache, fun _ h => h, ?_, Or.inl ⟨rfl, rfl⟩⟩
    rintro q ⟨c, hc, _⟩
    cases hc
  | cons c cs ihc =>
    intro hc ts hwf hn hd
    obtain ⟨hcn, hcp⟩ := hc c (List.mem_cons_self _ _)
    have hcs : ∀ x ∈ cs, x < n ∧ x ∉ path := fun x hx => hc x (List.mem_cons_of_mem _ hx)
    have hnew : sumConsecutive d 0 path + ts.distanceMatrix (path.getLastD 0) c
        = sumConsecutive ts.distanceMatrix 0 (path ++ [c]) := by
      rw [hd, sumConsecutive_append_singleton d path hp c]
    have hextend : ∀ q, Extends n (path ++ [c]) q → Extends n path q := by
      rintro q ⟨rest, hq, htour⟩
      exact ⟨c :: rest, by rw [hq, List.append_assoc]; rfl, htour⟩
    -- the step for `c`
    have hstep : ∃ t2, tryPoint (bruteForceRecursive rt fuel) path (sumConsecutive d 0 path)
          (path.getLastD 0) (ts, visited) c = some (t2, visited) ∧
        SearchResult rt ts t2 (Extends n (path ++ [c])) (Extends n path) := by
      by_cases hge : geBest (sumConsecutive d 0 path + ts.distanceMatrix (path.getLastD 0) c)
          ts.bestDistance = true
      · refine ⟨ts, by simp only [tryPoint]; rw [if_pos hge], SameProblem.refl ts, hwf.cache,
          fun _ h => h, ?_, Or.inl ⟨rfl, rfl⟩⟩
        rintro q ⟨rest, hq, htour⟩
        have hb := (geBest_eq_true_iff _ _).1 hge
        rw [hnew] at hb
        apply hb.trans_le
        rw [hq, ← calculatePathDistance_eq]
        apply partial_le_tour hwf.nonneg _ _ (by simp)
        intro x hx
        rw [hn]
        exact htour.mem_lt (hq ▸ hx)
      · have hnd' : (path ++ [c]).Nodup := by
          rw [List.nodup_append]
          refine ⟨hnd, List.nodup_singleton c, ?_⟩
          intro x hx hx'
          rw [List.mem_singleton.1 hx'] at hx
          exact hcp hx
        have hlt' : ∀ x ∈ path ++ [c], x < ts.numPoints := by
          intro x hx
          rw [hn]
          rcases List.mem_append.1 hx with h | h
          · exact hlt x h
          · rw [List.mem_singleton.1 h]; exact hcn
        obtain ⟨t2, hrec, hres⟩ := ih ts (path ++ [c]) (visited.set c true) hwf (by simp) hnd'
          hlt' (by rw [hn]; exact hm.extend hcn)
          (by rw [hn, List.length_append, List.length_singleton]; omega)
        have hvis : visited.getD c false = false := by
          cases hv : visited.getD c false with
          | false => rfl
          | true => exact absurd ((hm.2 c hcn).1 hv) hcp
        refine ⟨t2, ?_, ?_⟩
        · simp only [tryPoint]
          rw [if_neg hge, hnew, hrec]
          simp only []
          rw [set_set_visited visited c (by rw [hm.1]; exact hcn) hvis]
        · rw [hn] at hres
          exact hres.weaken (fun _ h => h) hextend
    obtain ⟨t2, hstep2, hres2⟩ := hstep
    have hwf2 : WellFormed rt t2 := hwf.of_same hres2.same hres2.cache
    obtain ⟨t3, hfold, hres3⟩ := ihc hcs t2 hwf2 (hres2.same.1.trans hn)
      (hres2.same.2.1.trans hd)
    refine ⟨t3, ?_, ?_⟩
    · rw [List.foldlM_cons, hstep2]
      exact hfold
    · refine (hres2.seq hres3).weaken ?_ (fun _ h => h)
      rintro q ⟨x, hx, hq⟩
      rcases List.mem_cons.1 hx with rfl | hx
      · exact Or.inl hq
      · exact Or.inr ⟨x, hx, hq⟩

theorem length_le_of_nodup {n : Nat} {path : List Nat} (hnd : path.Nodup)
    (hlt : ∀ x ∈ path, x < n) : path.length ≤ n := by
  have hsub : path.Subperm (List.range n) :=
    List.subperm_of_subset hnd (fun x hx => List.mem_range.2 (hlt x hx))
  simpa using hsub.length_le

theorem extends_complete {n : Nat} {path q : List Nat} (hlen : path.length = n)
    (h : Extends n path q) : q = path := by
  obtain ⟨rest, hq, htour⟩ := h
  have := htour.length_eq
  rw [hq, List.length_append, hlen] at this
  have hr : rest = [] := List.length_eq_zero.1 (by omega)
  rw [hq, hr, List.append_nil]

/-- The search below a path: it returns, restores `visited`, and afterwards the
incumbent distance is at most the length of every tour that extends the path. -/
theorem bruteForceRecursive_spec (rt : Runtime) (hrt : rt.Valid) :
    ∀ (fuel : Nat) (t : TSPSolver) (path : List Nat) (visited : List Bool),
      WellFormed rt t → path ≠ [] → path.Nodup → (∀ x ∈ path, x < t.numPoints) →
      Marks t.numPoints visited path → t.numPoints < fuel + path.length →
      ∃ t1, bruteForceRecursive rt fuel t path (sumConsecutive t.distanceMatrix 0 path) visited
          = some (t1, visited) ∧
        SearchResult rt t t1 (Extends t.numPoints path) (Extends t.numPoints path) := by
  intro fuel
  induction fuel with
  | zero =>
    intro t path visited _ _ hnd hlt _ hfuel
    have := length_le_of_nodup hnd hlt
    omega
  | succ fuel ih =>
    intro t path visited hwf hp hnd hlt hm hfuel
    obtain ⟨lb, t1, hlb, hsame, hbp, hbd, hvc, hcache, hempty, _, hadm⟩ :=
      calculateLowerBound_spec rt hrt t hwf.symm hwf.cache hp hm
    rw [bruteForceRecursive]
    simp only [hlb]
    by_cases hge : geBest lb t1.bestDistance = true
    · rw [if_pos hge]
      refine ⟨t1, rfl, hsame, hcache, fun x hx => hbd ▸ hx, ?_, Or.inl ⟨hbd, hbp⟩⟩
      rintro q ⟨rest, hq, htour⟩
      have hb := (geBest_eq_true_iff _ _).1 hge
      apply hb.trans_le
      rw [hq, ← calculatePathDistance_eq]
      exact hadm rest (hq ▸ htour)
    · rw [if_neg hge]
      by_cases hlen : path.length = t1.numPoints
      · rw [if_pos hlen]
        have hlen' : path.length = t.numPoints := hlen.trans hsame.1
        have htour : IsTour t.numPoints path := isTour_of_nodup hnd hlt hlen'
        have hU : unvisitedOf t.numPoints visited = [] := by
          apply List.eq_nil_iff_forall_not_mem.2
          intro i hi
          obtain ⟨hin, hip⟩ := (mem_unvisitedOf_of_marks hm).1 hi
          exact hip (htour.symm.subset (List.mem_range.2 hin))
        obtain ⟨hlbeq, ht1⟩ := hempty hU
        subst ht1
        have hfinal : sumConsecutive t1.distanceMatrix 0 path +
            t1.distanceMatrix (path.getLastD 0) (path.headD 0) = lb := hlbeq.symm
        have hlt' : ltBest lb t1.bestDistance = true := by
          simpa [geBest] using hge
        have hnb : ¬ Below t1.bestDistance lb := (ltBest_eq_true_iff _ _).1 hlt'
        simp only [hfinal]
        rw [if_pos hlt']
        refine ⟨_, rfl, ⟨rfl, rfl, rfl⟩, hcache, ?_, ?_, Or.inr ⟨?_, ?_, ?_⟩⟩
        · rintro x ⟨b, hb, hbx⟩
          refine ⟨lb, rfl, ?_⟩
          by_contra hcon
          exact hnb ⟨b, hb, by linarith [lt_of_not_le hcon]⟩
        · intro q hq
          rw [extends_complete hlen' hq]
          exact ⟨lb, rfl, le_of_eq hlbeq⟩
        · exact ⟨[], by simp, htour⟩
        · show some lb = some (tourLength t1.distanceMatrix path)
          rw [hlbeq]; rfl
        · show ¬ Below t1.bestDistance (tourLength t1.distanceMatrix path)
          rw [← calculatePathDistance_eq, ← hlbeq]
          exact hnb
      · rw [if_neg hlen]
        have hwf1 : WellFormed rt t1 := hwf.of_same hsame hcache
        have hcands : ∀ c ∈ rt.sortSlice (t1.distanceMatrix (path.getLastD 0))
            (pointsToTryOf t1 (path.getLastD 0) visited), c < t.numPoints ∧ c ∉ path := by
          intro c hc
          have h1 := (hrt.sortSlice_perm _ _).subset hc
          rw [mem_pointsToTryOf hwf1.ranking, hsame.1] at h1
          exact (mem_unvisitedOf_of_marks hm).1 h1
        obtain ⟨t2, hfold, hres⟩ := tryPoints_spec rt fuel t.numPoints t.distanceMatrix path
          visited hp hnd hlt hm hfuel ih _ hcands t1 hwf1 hsame.1 hsame.2.1
        refine ⟨t2, hfold, ?_⟩
        have hres0 : SearchResult rt t t1 (fun _ => False) (Extends t.numPoints path) :=
          ⟨hsame, hcache, fun x hx => hbd ▸ hx, fun _ h => h.elim, Or.inl ⟨hbd, hbp⟩⟩
        refine (hres0.seq hres).weaken ?_ (fun _ h => h)
        rintro q ⟨rest, hq, htour⟩
        have hperm := rest_perm_unvisited hm (hq ▸ htour)
        cases rest with
        | nil =>
          exfalso
          rw [List.append_nil] at hq
          apply hlen
          rw [hsame.1, ← hq]
          exact htour.length_eq
        | cons c rest =>
          refine Or.inr ⟨c, ?_, rest, by rw [hq, List.append_assoc]; rfl, htour⟩
          apply (hrt.sortSlice_perm _ _).symm.subset
          rw [mem_pointsToTryOf hwf1.ranking, hsame.1]
          exact hperm.subset (List.mem_cons_self _ _)

/-! ## The greedy construction of v1 -/

theorem scanNearest_spec (d : Nat → Nat → ℚ) (current : Nat) (l : List Nat)
    (acc : Option (Nat × ℚ)) :
    match scanNearest d current l acc with
    | none => l = [] ∧ acc = none
    | some (p, v) => p ∈ l ∨ acc = some (p, v) := by
  induction l generalizing acc with
  | nil =>
    cases acc with
    | none => simp [scanNearest]
    | some pv => simp [scanNearest]
  | cons point rest ih =>
    rw [scanNearest]
    have h := ih (if ltBest (d current point) (acc.map Prod.snd) = true
      then some (point, d current point) else acc)
    revert h
    cases scanNearest d current rest (if ltBest (d current point) (acc.map Prod.snd) = true
      then some (point, d current point) else acc) with
    | none =>
      intro h
      exfalso
      obtain ⟨_, h2⟩ := h
      by_cases hlt : ltBest (d current point) (acc.map Prod.snd) = true
      · rw [if_pos hlt] at h2
        cases h2
      · rw [if_neg hlt] at h2
        rw [h2] at hlt
        exact hlt rfl
    | some pv =>
      obtain ⟨p, v⟩ := pv
      intro h
      rcases h with h | h
      · exact Or.inl (List.mem_cons_of_mem _ h)
      · by_cases hlt : ltBest (d current point) (acc.map Prod.snd) = true
        · rw [if_pos hlt] at h
          cases h
          exact Or.inl (List.mem_cons_self _ _)
        · rw [if_neg hlt] at h
          exact Or.inr h

/-- A scan over a non-empty key list started at `math.MaxFloat64` picks one of
the keys. -/
theorem nextPointOf_scan_mem (d : Nat → Nat → ℚ) (current : Nat) {l : List Nat} (hl : l ≠ []) :
    nextPointOf (scanNearest d current l none) ∈ l := by
  have h := scanNearest_spec d current l none
  revert h
  cases scanNearest d current l none with
  | none => intro h; exact absurd h.1 hl
  | some pv =>
    obtain ⟨p, v⟩ := pv
    intro h
    rcases h with h | h
    · exact h
    · cases h

/-- The inner loop of v1 `multiStartGreedy` returns and appends a permutation
of the unvisited keys to the path. -/
theorem V1.greedyLoop_spec (rt : Runtime) (hrt : rt.Valid) (d : Nat → Nat → ℚ) :
    ∀ (fuel : Nat) (path unvisited : List Nat), unvisited.Nodup → unvisited.length ≤ fuel →
      ∃ rest, V1.greedyLoop rt d fuel path unvisited = some (path ++ rest) ∧
        rest.Perm unvisited := by
  intro fuel
  induction fuel with
  | zero =>
    intro path unvisited _ hlen
    have : unvisited = [] := List.length_eq_zero.1 (by omega)
    subst this
    exact ⟨[], by simp [V1.greedyLoop], List.Perm.refl _⟩
  | succ fuel ih =>
    intro path unvisited hnd hlen
    by_cases hU : unvisited = []
    · subst hU
      exact ⟨[], by simp [V1.greedyLoop], List.Perm.refl _⟩
    · have hpos : unvisited.length > 0 := List.length_pos.2 hU
      have hkeys : rt.mapRange path unvisited ≠ [] := by
        intro h
        have := (hrt.mapRange_perm path unvisited).length_eq
        rw [h] at this
        simp at this
        exact hU (List.length_eq_zero.1 this.symm)
      have hmem : nextPointOf (scanNearest d (path.getLastD 0) (rt.mapRange path unvisited) none)
          ∈ unvisited :=
        (hrt.mapRange_perm path unvisited).subset (nextPointOf_scan_mem d _ hkeys)
      obtain ⟨rest, hrec, hperm⟩ := ih
        (path ++ [nextPointOf (scanNearest d (path.getLastD 0) (rt.mapRange path unvisited) none)])
        (unvisited.erase
          (nextPointOf (scanNearest d (path.getLastD 0) (rt.mapRange path unvisited) none)))
        (hnd.erase _) (by rw [List.length_erase_of_mem hmem]; omega)
      refine ⟨nextPointOf (scanNearest d (path.getLastD 0) (rt.mapRange path unvisited) none)
        :: rest, ?_, ?_⟩
      · rw [V1.greedyLoop, if_pos hpos]
        simp only []
        rw [hrec, List.append_assoc]
        rfl
      · exact (List.Perm.cons _ hperm).trans (List.perm_cons_erase hmem).symm

theorem filter_ne_perm (n s : Nat) (hs : s < n) :
    (s :: (List.range n).filter (fun i => i ≠ s)).Perm (List.range n) := by
  have h1 : (List.range n).filter (fun i => i ≠ s) = (List.range n).erase s := by
    rw [List.Nodup.erase_eq_filter (List.nodup_range n)]
    apply List.filter_congr
    intro x _
    by_cases h : x = s <;> simp [h]
  rw [h1]
  exact (List.perm_cons_erase (List.mem_range.2 hs)).symm

/-- Every start point of v1 `multiStartGreedy` yields a tour. -/
theorem V1.greedy_tour (rt : Runtime) (hrt : rt.Valid) (t : TSPSolver) {s : Nat}
    (hs : s < t.numPoints) :
    ∃ path, V1.greedyLoop rt t.distanceMatrix t.numPoints [s]
        ((List.range t.numPoints).filter (fun i => i ≠ s)) = some path ∧
      IsTour t.numPoints path := by
  obtain ⟨rest, hrec, hperm⟩ := V1.greedyLoop_spec rt hrt t.distanceMatrix t.numPoints [s]
    ((List.range t.numPoints).filter (fun i => i ≠ s)) ((List.nodup_range _).filter _)
    (by
      have := List.length_filter_le (fun i => decide (i ≠ s)) (List.range t.numPoints)
      simpa using this)
  refine ⟨[s] ++ rest, hrec, ?_⟩
  exact (List.Perm.cons s hperm).trans (filter_ne_perm _ s hs)

/-- The loop over the start points keeps a best pair that is either the
initial one or a tour with its length, no longer than any tour tried. -/
theorem V1.startLoop_spec (rt : Runtime) (hrt : rt.Valid) (t : TSPSolver) :
    ∀ (starts : List Nat), (∀ s ∈ starts, s < t.numPoints) →
    ∀ (best : List Nat × Option ℚ),
      (best.2 = none ∨ (IsTour t.numPoints best.1 ∧
        best.2 = some (tourLength t.distanceMatrix best.1))) →
      ∃ res, V1.startLoop rt t starts best = some res ∧
        ((res.2 = none ∧ starts = []) ∨ (IsTour t.numPoints res.1 ∧
          res.2 = some (tourLength t.distanceMatrix res.1))) := by
  intro starts
  induction starts with
  | nil =>
    intro _ best hbest
    refine ⟨best, rfl, ?_⟩
    rcases hbest with h | h
    · exact Or.inl ⟨h, rfl⟩
    · exact Or.inr h
  | cons s rest ih =>
    intro hs best hbest
    obtain ⟨path, hpath, htour⟩ := V1.greedy_tour rt hrt t (hs s (List.mem_cons_self _ _))
    have hnext : (if ltBest (calculatePathDistance t path) best.2 = true
        then (path, some (calculatePathDistance t path)) else best).2 = none ∨
        (IsTour t.numPoints (if ltBest (calculatePathDistance t path) best.2 = true
          then (path, some (calculatePathDistance t path)) else best).1 ∧
         (if ltBest (calculatePathDistance t path) best.2 = true
          then (path, some (calculatePathDistance t path)) else best).2 =
          some (tourLength t.distanceMatrix (if ltBest (calculatePathDistance t path) best.2 = true
          then (path, some (calculatePathDistance t path)) else best).1)) := by
      by_cases hlt : ltBest (calculatePathDistance t path) best.2 = true
      · rw [if_pos hlt]
        exact Or.inr ⟨htour, rfl⟩
      · rw [if_neg hlt]
        rcases hbest with h | h
        · rw [h] at hlt
          exact absurd rfl hlt
        · exact Or.inr h
    obtain ⟨res, hres, hprop⟩ := ih (fun x hx => hs x (List.mem_cons_of_mem _ hx)) _ hnext
    refine ⟨res, ?_, ?_⟩
    · rw [V1.startLoop, hpath]
      exact hres
    · rcases hprop with ⟨h1, h2⟩ | h
      · exfalso
        subst h2
        simp only [V1.startLoop] at hres
        cases hres
        rcases hnext with h | h
        · by_cases hlt : ltBest (calculatePathDistance t path) best.2 = true
          · rw [if_pos hlt] at h
            cases h
          · rw [if_neg hlt] at h
            rw [h] at hlt
            exact hlt rfl
        · rw [h.2] at h1
          cases h1
      · exact Or.inr h

/-- Go v1 `multiStartGreedy` returns a tour together with its length when
there is at least one point. -/
theorem V1.multiStartGreedy_spec (rt : Runtime) (hrt : rt.Valid) (t : TSPSolver)
    (hn : 0 < t.numPoints) :
    ∃ path, V1.multiStartGreedy rt t = some (path, some (tourLength t.distanceMatrix path)) ∧
      IsTour t.numPoints path := by
  obtain ⟨res, hres, hprop⟩ := V1.startLoop_spec rt hrt t (List.range t.numPoints)
    (fun s hs => List.mem_range.1 hs) ([], none) (Or.inl rfl)
  rcases hprop with ⟨_, h⟩ | ⟨h1, h2⟩
  · exfalso
    have := congrArg List.length h
    simp at this
    omega
  · refine ⟨res.1, ?_, h1⟩
    rw [V1.multiStartGreedy, hres, ← h2]

/-! ## v1 `bruteForce` -/

theorem tourLength_append (d : Nat → Nat → ℚ) (l1 l2 : List Nat) (h1 : l1 ≠ [])
    (h2 : l2 ≠ []) :
    tourLength d (l1 ++ l2) =
      sumConsecutive d 0 l1 + d (l1.getLastD 0) (l2.headD 0) + sumConsecutive d 0 l2
        + d (l2.getLastD 0) (l1.headD 0) := by
  rw [tourLength, sumConsecutive_append _ _ _ h1 h2, getLastD_append_of_ne_nil _ _ h2,
    headD_append_of_ne_nil _ _ h1]

/-- The closed length does not depend on where the cycle is cut. -/
theorem tourLength_rotate (d : Nat → Nat → ℚ) (l1 l2 : List Nat) :
    tourLength d (l1 ++ l2) = tourLength d (l2 ++ l1) := by
  by_cases h1 : l1 = []
  · subst h1; simp
  · by_cases h2 : l2 = []
    · subst h2; simp
    · rw [tourLength_append d l1 l2 h1 h2, tourLength_append d l2 l1 h2 h1]
      ring

/-- Every tour has a rotation that starts at vertex 0, of the same length. -/
theorem exists_rotation (d : Nat → Nat → ℚ) {n : Nat} (hn : 0 < n) {q : List Nat}
    (hq : IsTour n q) : ∃ q2, Extends n [0] q2 ∧ tourLength d q2 = tourLength d q := by
  have h0 : 0 ∈ q := hq.symm.subset (List.mem_range.2 hn)
  obtain ⟨l1, l2, hsplit⟩ := List.append_of_mem h0
  refine ⟨(0 :: l2) ++ l1, ⟨l2 ++ l1, by simp, ?_⟩, ?_⟩
  · exact (List.perm_append_comm.trans (hsplit ▸ List.Perm.refl q)).trans hq
  · rw [hsplit]
    exact (tourLength_rotate d l1 (0 :: l2)).symm

theorem V1.startLoop_congr (rt : Runtime) {t t2 : TSPSolver} (hn : t2.numPoints = t.numPoints)
    (hd : t2.distanceMatrix = t.distanceMatrix) (starts : List Nat)
    (best : List Nat × Option ℚ) : V1.startLoop rt t2 starts best = V1.startLoop rt t starts best := by
  induction starts generalizing best with
  | nil => rfl
  | cons s rest ih =>
    simp only [V1.startLoop, hn, hd, calculatePathDistance]
    cases V1.greedyLoop rt t.distanceMatrix t.numPoints [s]
        (List.filter (fun i => decide (i ≠ s)) (List.range t.numPoints)) with
    | none => rfl
    | some path => exact ih _

theorem V1.multiStartGreedy_congr (rt : Runtime) {t t2 : TSPSolver}
    (hn : t2.numPoints = t.numPoints) (hd : t2.distanceMatrix = t.distanceMatrix) :
    V1.multiStartGreedy rt t2 = V1.multiStartGreedy rt t := by
  rw [V1.multiStartGreedy, V1.multiStartGreedy, hn]
  exact V1.startLoop_congr rt hn hd _ _

theorem marks_initial {n : Nat} (hn : 0 < n) :
    Marks n ((List.replicate n false).set 0 true) [0] := by
  refine ⟨by simp, ?_⟩
  intro i hi
  rw [List.getD_eq_getElem?_getD, List.getElem?_set, List.mem_singleton]
  by_cases h0 : 0 = i
  · subst h0
    simp [hn]
  · rw [if_neg h0, List.getElem?_replicate]
    simp [hi]
    exact fun h => h0 h.symm

/-- The neighbour ranking built by `precomputeNearestNeighbors` lists vertices
only. -/
theorem precomputeNearestNeighbors_lt (rt : Runtime) (hrt : rt.Valid) (n : Nat)
    (d : Nat → Nat → ℚ) :
    ∀ row ∈ precomputeNearestNeighbors rt n d, ∀ x ∈ row, x < n := by
  intro row hrow x hx
  obtain ⟨i, _, rfl⟩ := List.mem_map.1 hrow
  have hmem : x ∈ rt.sortSlice (d i) (List.range n) := by
    simp only at hx
    split at hx
    · exact List.mem_of_mem_drop (List.mem_of_mem_take hx)
    · exact List.mem_of_mem_drop hx
  exact List.mem_range.1 ((hrt.sortSlice_perm _ _).subset hmem)

/-- What v1 `bruteForce` returns on a well-formed problem with at least one
point. -/
theorem V1.bruteForce_spec (rt : Runtime) (hrt : rt.Valid) (t : TSPSolver)
    (hn : 0 < t.numPoints) (hsymm : SymmetricOn t.numPoints t.distanceMatrix)
    (hnonneg : NonnegOn t.numPoints t.distanceMatrix)
    (hrank : ∀ row ∈ t.nearestNeighbors, ∀ x ∈ row, x < t.numPoints) :
    ∃ path dist gpath gdist, V1.bruteForce rt t = some (path, some dist) ∧
      V1.multiStartGreedy rt t = some (gpath, some gdist) ∧
      IsTour t.numPoints gpath ∧ tourLength t.distanceMatrix gpath = gdist ∧
      IsTour t.numPoints path ∧ tourLength t.distanceMatrix path = dist ∧
      dist ≤ gdist ∧ ∀ q, IsTour t.numPoints q → dist ≤ tourLength t.distanceMatrix q := by
  obtain ⟨gpath, hg, hgtour⟩ := V1.multiStartGreedy_spec rt hrt t hn
  have hg0 : V1.multiStartGreedy rt
      { t with bestPath := [], bestDistance := none, visitedCount := 0, mstCache := [] }
      = some (gpath, some (tourLength t.distanceMatrix gpath)) := by
    exact (@V1.multiStartGreedy_congr rt t
      { t with bestPath := [], bestDistance := none, visitedCount := 0, mstCache := [] }
      rfl rfl).trans hg
  have hwf : WellFormed rt
      { t with bestPath := gpath, bestDistance := some (tourLength t.distanceMatrix gpath),
               visitedCount := 0, mstCache := [] } :=
    ⟨hsymm, hnonneg, CacheOK.empty rt _ _, hrank⟩
  obtain ⟨t2, hrec, hres⟩ := bruteForceRecursive_spec rt hrt (t.numPoints + 1) _ [0]
    ((List.replicate t.numPoints false).set 0 true) hwf (by simp) (List.nodup_singleton 0)
    (fun x hx => by rw [List.mem_singleton.1 hx]; exact hn) (marks_initial hn)
    (by simp only [List.length_singleton]; omega)
  obtain ⟨v, hv, hvle⟩ := hres.mono (tourLength t.distanceMatrix gpath) ⟨_, rfl, le_refl _⟩
  have hcov : ∀ q, IsTour t.numPoints q → v ≤ tourLength t.distanceMatrix q := by
    intro q hq
    obtain ⟨q2, hq2, hlen⟩ := exists_rotation t.distanceMatrix hn hq
    obtain ⟨w, hw, hwle⟩ := hres.covered q2 hq2
    rw [hv] at hw
    cases hw
    rw [← hlen]
    exact hwle
  have hne : t.numPoints ≠ 0 := by omega
  have hrun : V1.bruteForce rt t = some (t2.bestPath, some v) := by
    rw [V1.bruteForce]
    simp only [hg0, hne, if_false]
    have h0 : (0 : ℚ) = sumConsecutive t.distanceMatrix 0 [0] := by simp [sumConsecutive]
    rw [h0]
    simp only [sumConsecutive] at hrec ⊢
    rw [hrec]
    simp only [hv]
  refine ⟨t2.bestPath, v, gpath, _, hrun, hg, hgtour, rfl, ?_, ?_, hvle, hcov⟩
  · rcases hres.incumbent with ⟨_, h2⟩ | ⟨⟨rest, _, htour⟩, _, _⟩
    · rw [h2]; exact hgtour
    · exact htour
  · rcases hres.incumbent with ⟨h1, h2⟩ | ⟨_, h2, _⟩
    · rw [h2]
      rw [hv] at h1
      cases h1
      rfl
    · rw [hv] at h2
      cases h2
      rfl

/-! ## v2: `reverseSegment` -/

theorem getD_append_length (P rest : List Nat) (x : Nat) :
    (P ++ x :: rest).getD P.length 0 = x := by
  rw [List.getD_eq_getElem?_getD, List.getElem?_append_right (le_refl _)]
  simp

theorem set_append_length (P rest : List Nat) (x y : Nat) :
    (P ++ x :: rest).set P.length y = P ++ y :: rest := by
  induction P with
  | nil => rfl
  | cons a P ih => simp [ih]

/-- The loop of `reverseSegment` reverses the segment between the two indices. -/
theorem V2.reverseSegmentLoop_spec :
    ∀ (fuel : Nat) (S P Q : List Nat), S.length ≤ fuel + 1 →
      V2.reverseSegmentLoop fuel (P ++ S ++ Q) P.length (P.length + S.length - 1)
        = P ++ S.reverse ++ Q := by
  intro fuel
  induction fuel with
  | zero =>
    intro S P Q hlen
    match S, hlen with
    | [], _ => rfl
    | [x], _ => rfl
  | succ fuel ih =>
    intro S P Q hlen
    match S, hlen with
    | [], _ =>
      rw [V2.reverseSegmentLoop, if_neg (by simp)]
      rfl
    | [x], _ =>
      rw [V2.reverseSegmentLoop, if_neg (by simp)]
      rfl
    | x :: x2 :: S2, hlen2 =>
      obtain ⟨M, y, hM⟩ : ∃ M y, x2 :: S2 = M ++ [y] :=
        ⟨(x2 :: S2).dropLast, (x2 :: S2).getLast (List.cons_ne_nil _ _),
          (List.dropLast_append_getLast (List.cons_ne_nil _ _)).symm⟩
      have hlenM : (x2 :: S2).length = M.length + 1 := by rw [hM]; simp
      have hMfuel : M.length ≤ fuel + 1 := by
        have h1 : (x :: x2 :: S2).length = (x2 :: S2).length + 1 := rfl
        rw [h1, hlenM] at hlen2
        omega
      have hj : P.length + (x :: x2 :: S2).length - 1 = (P ++ x :: M).length := by
        have h1 : (x :: x2 :: S2).length = M.length + 1 + 1 := by
          rw [← hlenM]; rfl
        have h2 : (P ++ x :: M).length = P.length + (M.length + 1) := by simp
        rw [h1, h2]
        omega
      have hpath : P ++ (x :: x2 :: S2) ++ Q = (P ++ x :: M) ++ y :: Q := by
        rw [hM]; simp
      have hpath' : P ++ (x :: x2 :: S2) ++ Q = P ++ x :: (M ++ y :: Q) := by
        rw [hM]; simp
      have hlt : P.length < P.length + (x :: x2 :: S2).length - 1 := by
        have h1 : (x :: x2 :: S2).length = M.length + 1 + 1 := by
          rw [← hlenM]; rfl
        rw [h1]
        omega
      rw [V2.reverseSegmentLoop, if_pos hlt]
      have hgi : (P ++ (x :: x2 :: S2) ++ Q).getD P.length 0 = x := by
        rw [hpath']; exact getD_append_length _ _ _
      have hgj : (P ++ (x :: x2 :: S2) ++ Q).getD (P.length + (x :: x2 :: S2).length - 1) 0
          = y := by
        rw [hj, hpath]; exact getD_append_length _ _ _
      rw [hgi, hgj]
      have hset : ((P ++ (x :: x2 :: S2) ++ Q).set P.length y).set
          (P.length + (x :: x2 :: S2).length - 1) x = (P ++ [y]) ++ M ++ (x :: Q) := by
        rw [hpath', set_append_length]
        have h2 : P ++ y :: (M ++ y :: Q) = (P ++ y :: M) ++ y :: Q := by simp
        have h3 : (P ++ x :: M).length = (P ++ y :: M).length := by simp
        rw [h2, hj, h3, set_append_length]
        simp
      have hi' : P.length + 1 = (P ++ [y]).length := by simp
      have hj' : P.length + (x :: x2 :: S2).length - 1 - 1 = (P ++ [y]).length + M.length - 1 := by
        have h1 : (x :: x2 :: S2).length = M.length + 1 + 1 := by
          rw [← hlenM]; rfl
        have h2 : (P ++ [y]).length = P.length + 1 := by simp
        rw [h1, h2]
        omega
      rw [hset, hi', hj', ih M (P ++ [y]) (x :: Q) hMfuel]
      rw [hM]
      simp

/-- Go `reverseSegment(path, i, j)` for `i <= j < len(path)`. -/
theorem V2.reverseSegment_eq (path : List Nat) (i j : Nat) (hij : i ≤ j)
    (hj : j < path.length) :
    V2.reverseSegment path i j =
      path.take i ++ ((path.drop i).take (j - i + 1)).reverse ++ path.drop (j + 1) := by
  have hsplit : path = path.take i ++ (path.drop i).take (j - i + 1) ++ path.drop (j + 1) := by
    have h1 : path.drop (j + 1) = (path.drop i).drop (j - i + 1) := by
      rw [List.drop_drop]
      congr 1
      omega
    rw [h1, List.append_assoc, List.take_append_drop, List.take_append_drop]
  have hPlen : (path.take i).length = i := by
    rw [List.length_take]; omega
  have hSlen : ((path.drop i).take (j - i + 1)).length = j - i + 1 := by
    rw [List.length_take, List.length_drop]; omega
  have := V2.reverseSegmentLoop_spec (j - i) ((path.drop i).take (j - i + 1)) (path.take i)
    (path.drop (j + 1)) (by rw [hSlen])
  rw [hPlen, hSlen, ← hsplit] at this
  rw [V2.reverseSegment]
  have hidx : i + (j - i + 1) - 1 = j := by omega
  rw [hidx] at this
  exact this

theorem V2.reverseSegment_perm (path : List Nat) (i j : Nat) (hij : i ≤ j)
    (hj : j < path.length) : (V2.reverseSegment path i j).Perm path := by
  rw [V2.reverseSegment_eq path i j hij hj]
  have hsplit : path = path.take i ++ (path.drop i).take (j - i + 1) ++ path.drop (j + 1) := by
    have h1 : path.drop (j + 1) = (path.drop i).drop (j - i + 1) := by
      rw [List.drop_drop]
      congr 1
      omega
    rw [h1, List.append_assoc, List.take_append_drop, List.take_append_drop]
  conv_rhs => rw [hsplit]
  exact List.Perm.append_right _ (List.Perm.append_left _ (List.reverse_perm _))

/-! ## v2: the effect of one 2-opt move on the tour length -/

theorem headD_eq_getD (l : List Nat) : l.headD 0 = l.getD 0 0 := by
  cases l <;> rfl

theorem getLastD_eq_getD (l : List Nat) : l.getLastD 0 = l.getD (l.length - 1) 0 := by
  cases l with
  | nil => rfl
  | cons a l =>
    rw [List.getLastD_eq_getLast?, List.getLast?_eq_getElem?, List.getD_eq_getElem?_getD]

theorem headD_reverse (l : List Nat) : l.reverse.headD 0 = l.getLastD 0 := by
  cases l with
  | nil => rfl
  | cons a l =>
    rw [List.headD_eq_head?_getD, List.head?_reverse, List.getLastD_eq_getLast?]

theorem getLastD_reverse (l : List Nat) : l.reverse.getLastD 0 = l.headD 0 := by
  rw [List.getLastD_eq_getLast?, List.getLast?_reverse, List.headD_eq_head?_getD]

theorem headD_append_left (l1 l2 : List Nat) (h : l1 ≠ []) :
    (l1 ++ l2).headD 0 = l1.headD 0 := headD_append_of_ne_nil l1 l2 h

/-- With a symmetric matrix the open length of a path does not depend on its
direction. -/
theorem sumConsecutive_reverse {n : Nat} {d : Nat → Nat → ℚ} (hd : SymmetricOn n d)
    (l : List Nat) (hl : ∀ x ∈ l, x < n) :
    sumConsecutive d 0 l.reverse = sumConsecutive d 0 l := by
  induction l with
  | nil => rfl
  | cons a l ih =>
    cases l with
    | nil => rfl
    | cons b rest =>
      have hrev : (a :: b :: rest).reverse = (b :: rest).reverse ++ [a] := by simp
      rw [hrev, sumConsecutive_append_singleton d _ (by simp), sumConsecutive_cons_cons,
        ih (fun x hx => hl x (List.mem_cons_of_mem _ hx)), getLastD_reverse]
      have := hd b a (hl b (List.mem_cons_of_mem _ (List.mem_cons_self _ _)))
        (hl a (List.mem_cons_self _ _))
      simp only [List.headD_cons]
      rw [this]
      ring

/-- The closed length of a tour made of three non-empty pieces. -/
theorem tourLength_three (d : Nat → Nat → ℚ) (P S Q : List Nat) (hP : P ≠ []) (hS : S ≠ [])
    (hQ : Q ≠ []) :
    tourLength d (P ++ S ++ Q) =
      sumConsecutive d 0 P + d (P.getLastD 0) (S.headD 0) + sumConsecutive d 0 S
        + d (S.getLastD 0) (Q.headD 0) + sumConsecutive d 0 Q + d (Q.getLastD 0) (P.headD 0) := by
  have hSQ : S ++ Q ≠ [] := by simp [hS]
  rw [List.append_assoc, tourLength_append d P (S ++ Q) hP hSQ,
    sumConsecutive_append d S Q hS hQ, headD_append_of_ne_nil S Q hS,
    getLastD_append_of_ne_nil S Q hQ]
  ring

/-- Reversing the middle piece changes the closed length by the 2-opt delta. -/
theorem tourLength_reverse_middle {n : Nat} {d : Nat → Nat → ℚ} (hd : SymmetricOn n d)
    (P S Q : List Nat) (hP : P ≠ []) (hS : S ≠ []) (hQ : Q ≠ []) (hl : ∀ x ∈ S, x < n) :
    tourLength d (P ++ S.reverse ++ Q) =
      tourLength d (P ++ S ++ Q) +
        (-d (P.getLastD 0) (S.headD 0) - d (S.getLastD 0) (Q.headD 0)
          + d (P.getLastD 0) (S.getLastD 0) + d (S.headD 0) (Q.headD 0)) := by
  have hSr : S.reverse ≠ [] := by simp [hS]
  rw [tourLength_three d P S.reverse Q hP hSr hQ, tourLength_three d P S Q hP hS hQ,
    sumConsecutive_reverse hd S hl, headD_reverse, getLastD_reverse]
  ring

theorem getD_take_of_lt (l : List Nat) (i k : Nat) (h : i < k) :
    (l.take k).getD i 0 = l.getD i 0 := by
  rw [List.getD_eq_getElem?_getD, List.getD_eq_getElem?_getD, List.getElem?_take, if_pos h]

theorem getD_drop (l : List Nat) (i k : Nat) :
    (l.drop k).getD i 0 = l.getD (k + i) 0 := by
  rw [List.getD_eq_getElem?_getD, List.getD_eq_getElem?_getD, List.getElem?_drop]

/-- One applied move of `twoOpt`: the closed length of the path after
`reverseSegment` is the old one plus `delta`. -/
theorem V2.tourLength_reverseSegment {n : Nat} {d : Nat → Nat → ℚ} (hd : SymmetricOn n d)
    (path : List Nat) (hl : ∀ x ∈ path, x < n) (i j : Nat) (hi : 1 ≤ i) (hij : i < j)
    (hj : j + 1 < path.length) :
    tourLength d (V2.reverseSegment path i j) = tourLength d path + V2.twoOptDelta d path i j := by
  have hsplit : path = path.take i ++ (path.drop i).take (j - i + 1) ++ path.drop (j + 1) := by
    have h1 : path.drop (j + 1) = (path.drop i).drop (j - i + 1) := by
      rw [List.drop_drop]
      congr 1
      omega
    rw [h1, List.append_assoc, List.take_append_drop, List.take_append_drop]
  have hPlen : (path.take i).length = i := by
    rw [List.length_take]; omega
  have hSlen : ((path.drop i).take (j - i + 1)).length = j - i + 1 := by
    rw [List.length_take, List.length_drop]; omega
  have hQlen : (path.drop (j + 1)).length = path.length - (j + 1) := List.length_drop _ _
  have hP : path.take i ≠ [] := by
    intro h; rw [h] at hPlen; simp at hPlen; omega
  have hS : (path.drop i).take (j - i + 1) ≠ [] := by
    intro h; rw [h] at hSlen; simp at hSlen
  have hQ : path.drop (j + 1) ≠ [] := by
    intro h; rw [h] at hQlen; simp at hQlen; omega
  have hSmem : ∀ x ∈ (path.drop i).take (j - i + 1), x < n :=
    fun x hx => hl x (List.mem_of_mem_drop (List.mem_of_mem_take hx))
  have e1 : (path.take i).getLastD 0 = path.getD (i - 1) 0 := by
    rw [getLastD_eq_getD, hPlen, getD_take_of_lt _ _ _ (by omega)]
  have e2 : ((path.drop i).take (j - i + 1)).headD 0 = path.getD i 0 := by
    rw [headD_eq_getD, getD_take_of_lt _ _ _ (by omega), getD_drop]
    rfl
  have e3 : ((path.drop i).take (j - i + 1)).getLastD 0 = path.getD j 0 := by
    rw [getLastD_eq_getD, hSlen, getD_take_of_lt _ _ _ (by omega), getD_drop]
    congr 1
    omega
  have e4 : (path.drop (j + 1)).headD 0 = path.getD (j + 1) 0 := by
    rw [headD_eq_getD, getD_drop]
  rw [V2.reverseSegment_eq path i j (le_of_lt hij) (by omega),
    tourLength_reverse_middle hd _ _ _ hP hS hQ hSmem, ← hsplit, e1, e2, e3, e4]
  rfl

/-! ## v2: `twoOpt` -/

theorem V2.mem_twoOptPairs {n i j : Nat} (h : (i, j) ∈ V2.twoOptPairs n) :
    1 ≤ i ∧ i < j ∧ j + 1 < n := by
  simp only [V2.twoOptPairs, List.mem_flatMap, List.mem_map, List.mem_range'_1, Prod.mk.injEq]
    at h
  obtain ⟨a, ⟨ha1, ha2⟩, b, ⟨hb1, hb2⟩, rfl, rfl⟩ := h
  omega

/-- The state kept by one pass of `twoOpt` is well formed: `bestDelta` is the
delta of the recorded pair and is negative, or no pair is recorded and it is 0. -/
theorem V2.twoOptPass_fold (d : Nat → Nat → ℚ) (cur : List Nat) (all : List (Nat × Nat)) :
    ∀ (l : List (Nat × Nat)) (st : ℚ × Option (Nat × Nat)), (∀ p ∈ l, p ∈ all) →
      (match st.2 with
        | none => st.1 = 0
        | some ij => ij ∈ all ∧ st.1 = V2.twoOptDelta d cur ij.1 ij.2 ∧ st.1 < 0) →
      match (l.foldl (fun st ij =>
          if V2.twoOptDelta d cur ij.1 ij.2 < st.1 then (V2.twoOptDelta d cur ij.1 ij.2, some ij)
          else st) st).2 with
        | none => (l.foldl (fun st ij =>
          if V2.twoOptDelta d cur ij.1 ij.2 < st.1 then (V2.twoOptDelta d cur ij.1 ij.2, some ij)
          else st) st).1 = 0
        | some ij => ij ∈ all ∧ (l.foldl (fun st ij =>
          if V2.twoOptDelta d cur ij.1 ij.2 < st.1 then (V2.twoOptDelta d cur ij.1 ij.2, some ij)
          else st) st).1 = V2.twoOptDelta d cur ij.1 ij.2 ∧ (l.foldl (fun st ij =>
          if V2.twoOptDelta d cur ij.1 ij.2 < st.1 then (V2.twoOptDelta d cur ij.1 ij.2, some ij)
          else st) st).1 < 0 := by
  intro l
  induction l with
  | nil => intro st _ h; exact h
  | cons p rest ih =>
    intro st hmem hst
    rw [List.foldl_cons]
    apply ih _ (fun q hq => hmem q (List.mem_cons_of_mem _ hq))
    by_cases hlt : V2.twoOptDelta d cur p.1 p.2 < st.1
    · rw [if_pos hlt]
      refine ⟨hmem p (List.mem_cons_self _ _), rfl, ?_⟩
      have hle : st.1 ≤ 0 := by
        revert hst
        cases st.2 with
        | none => intro h; exact le_of_eq h
        | some ij => intro h; exact le_of_lt h.2.2
      exact lt_of_lt_of_le hlt hle
    · rw [if_neg hlt]
      exact hst

/-- A pass of `twoOpt` that records a move records a proper pair of indices
together with its negative delta. -/
theorem V2.twoOptPass_some {d : Nat → Nat → ℚ} {cur : List Nat} {delta : ℚ} {i j : Nat}
    (h : V2.twoOptPass d cur = (delta, some (i, j))) :
    1 ≤ i ∧ i < j ∧ j + 1 < cur.length ∧ delta = V2.twoOptDelta d cur i j ∧ delta < 0 := by
  have := V2.twoOptPass_fold d cur (V2.twoOptPairs cur.length) (V2.twoOptPairs cur.length) (0, none)
    (fun _ hp => hp) rfl
  rw [V2.twoOptPass] at h
  rw [h] at this
  obtain ⟨h1, h2, h3⟩ := this
  obtain ⟨a, b, c⟩ := V2.mem_twoOptPairs h1
  exact ⟨a, b, c, h2, h3⟩

/-- Every move applied by `twoOpt` strictly shortens the tour and permutes it. -/
theorem V2.move_decreases {n : Nat} {d : Nat → Nat → ℚ} (hd : SymmetricOn n d)
    {cur : List Nat} (hl : ∀ x ∈ cur, x < n) {delta : ℚ} {i j : Nat}
    (h : V2.twoOptPass d cur = (delta, some (i, j))) :
    tourLength d (V2.reverseSegment cur i j) = tourLength d cur + delta ∧
      tourLength d (V2.reverseSegment cur i j) < tourLength d cur ∧
      (V2.reverseSegment cur i j).Perm cur := by
  obtain ⟨h1, h2, h3, h4, h5⟩ := V2.twoOptPass_some h
  have := V2.tourLength_reverseSegment hd cur hl i j h1 h2 h3
  rw [← h4] at this
  exact ⟨this, by linarith, V2.reverseSegment_perm cur i j (le_of_lt h2) (by omega)⟩

/-- The loop of `twoOpt`: the result is a permutation of the start, no longer
than it, and the distance carried along stays in step with the path. -/
theorem V2.twoOptLoop_spec {n : Nat} {d : Nat → Nat → ℚ} (hd : SymmetricOn n d) :
    ∀ (left : Nat) (cur : List Nat) (dist : ℚ), (∀ x ∈ cur, x < n) →
      ((V2.twoOptLoop d left cur dist).1).Perm cur ∧
      tourLength d (V2.twoOptLoop d left cur dist).1 ≤ tourLength d cur ∧
      (V2.twoOptLoop d left cur dist).2 - tourLength d (V2.twoOptLoop d left cur dist).1
        = dist - tourLength d cur := by
  intro left
  induction left with
  | zero =>
    intro cur dist _
    exact ⟨List.Perm.refl _, le_refl _, rfl⟩
  | succ left ih =>
    intro cur dist hl
    rw [V2.twoOptLoop]
    cases hpass : V2.twoOptPass d cur with
    | mk delta best =>
      cases best with
      | none => exact ⟨List.Perm.refl _, le_refl _, rfl⟩
      | some ij =>
        obtain ⟨i, j⟩ := ij
        obtain ⟨hlen, hlt, hperm⟩ := V2.move_decreases hd hl hpass
        obtain ⟨ih1, ih2, ih3⟩ := ih (V2.reverseSegment cur i j) (dist + delta)
          (fun x hx => hl x (hperm.subset hx))
        refine ⟨ih1.trans hperm, le_trans ih2 (le_of_lt hlt), ?_⟩
        simp only []
        rw [ih3, hlen]
        ring

/-- Go v2 `twoOpt` on a non-empty path of valid vertices. -/
theorem V2.twoOpt_spec {n : Nat} (t : TSPSolver) (hd : SymmetricOn n t.distanceMatrix)
    {path : List Nat} (hne : path ≠ []) (hl : ∀ x ∈ path, x < n) :
    ∃ p dist, V2.twoOpt t path = some (p, dist) ∧ p.Perm path ∧
      dist = tourLength t.distanceMatrix p ∧
      tourLength t.distanceMatrix p ≤ tourLength t.distanceMatrix path := by
  have hlen0 : path.length ≠ 0 := fun h => hne (List.length_eq_zero.1 h)
  by_cases h4 : path.length < 4
  · exact ⟨path, calculatePathDistance t path, by simp [V2.twoOpt, hlen0, h4],
      List.Perm.refl _, calculatePathDistance_eq t path, le_refl _⟩
  · obtain ⟨h1, h2, h3⟩ := V2.twoOptLoop_spec hd 1000 path (calculatePathDistance t path) hl
    refine ⟨(V2.twoOptLoop t.distanceMatrix 1000 path (calculatePathDistance t path)).1,
      (V2.twoOptLoop t.distanceMatrix 1000 path (calculatePathDistance t path)).2,
      by simp only [V2.twoOpt, if_neg hlen0, if_neg h4], h1, ?_, h2⟩
    have : calculatePathDistance t path - tourLength t.distanceMatrix path = 0 := by
      rw [calculatePathDistance_eq]; ring
    rw [this] at h3
    linarith

/-! ## v2: multi-start greedy -/

theorem V2.nextPoint_mem (rt : Runtime) (hrt : rt.Valid) (t : TSPSolver)
    (path unvisited : List Nat) (hU : unvisited ≠ []) :
    nextPointOf
      (if (scanNearest t.distanceMatrix (path.getLastD 0)
            ((t.nearestNeighbors.getD (path.getLastD 0) []).filter
              (fun nb => unvisited.contains nb)) none).isNone then
          scanNearest t.distanceMatrix (path.getLastD 0) (rt.mapRange path unvisited)
            (scanNearest t.distanceMatrix (path.getLastD 0)
              ((t.nearestNeighbors.getD (path.getLastD 0) []).filter
                (fun nb => unvisited.contains nb)) none)
        else scanNearest t.distanceMatrix (path.getLastD 0)
            ((t.nearestNeighbors.getD (path.getLastD 0) []).filter
              (fun nb => unvisited.contains nb)) none) ∈ unvisited := by
  have hspec := scanNearest_spec t.distanceMatrix (path.getLastD 0)
    ((t.nearestNeighbors.getD (path.getLastD 0) []).filter (fun nb => unvisited.contains nb)) none
  revert hspec
  cases hr : scanNearest t.distanceMatrix (path.getLastD 0)
    ((t.nearestNeighbors.getD (path.getLastD 0) []).filter
      (fun nb => unvisited.contains nb)) none with
  | none =>
    intro _
    simp only [Option.isNone_none, if_true]
    have hkeys : rt.mapRange path unvisited ≠ [] := by
      intro h
      have := (hrt.mapRange_perm path unvisited).length_eq
      rw [h] at this
      simp at this
      exact hU (List.length_eq_zero.1 this.symm)
    exact (hrt.mapRange_perm path unvisited).subset (nextPointOf_scan_mem _ _ hkeys)
  | some pv =>
    obtain ⟨p, v⟩ := pv
    intro hspec
    simp only [Option.isNone_some, Bool.false_eq_true, if_false]
    rcases hspec with h | h
    · have := (List.mem_filter.1 h).2
      simpa [nextPointOf] using this
    · cases h

theorem V2.rankedGreedyLoop_spec (rt : Runtime) (hrt : rt.Valid) (t : TSPSolver) :
    ∀ (fuel : Nat) (path unvisited : List Nat), unvisited.Nodup → unvisited.length ≤ fuel →
      ∃ rest, V2.greedyLoop rt t fuel path unvisited = some (path ++ rest) ∧
        rest.Perm unvisited := by
  intro fuel
  induction fuel with
  | zero =>
    intro path unvisited _ hlen
    have : unvisited = [] := List.length_eq_zero.1 (by omega)
    subst this
    exact ⟨[], by simp [V2.greedyLoop], List.Perm.refl _⟩
  | succ fuel ih =>
    intro path unvisited hnd hlen
    by_cases hU : unvisited = []
    · subst hU
      exact ⟨[], by simp [V2.greedyLoop], List.Perm.refl _⟩
    · have hpos : unvisited.length > 0 := List.length_pos.2 hU
      obtain ⟨np, hmem, hnp⟩ : ∃ np, np ∈ unvisited ∧ np = nextPointOf
          (if (scanNearest t.distanceMatrix (path.getLastD 0)
                ((t.nearestNeighbors.getD (path.getLastD 0) []).filter
                  (fun nb => unvisited.contains nb)) none).isNone then
              scanNearest t.distanceMatrix (path.getLastD 0) (rt.mapRange path unvisited)
                (scanNearest t.distanceMatrix (path.getLastD 0)
                  ((t.nearestNeighbors.getD (path.getLastD 0) []).filter
                    (fun nb => unvisited.contains nb)) none)
            else scanNearest t.distanceMatrix (path.getLastD 0)
                ((t.nearestNeighbors.getD (path.getLastD 0) []).filter
                  (fun nb => unvisited.contains nb)) none) :=
        ⟨_, V2.nextPoint_mem rt hrt t path unvisited hU, rfl⟩
      obtain ⟨rest, hrec, hperm⟩ := ih (path ++ [np]) (unvisited.erase np)
        (hnd.erase _) (by rw [List.length_erase_of_mem hmem]; omega)
      refine ⟨np :: rest, ?_, ?_⟩
      · rw [V2.greedyLoop, if_pos hpos]
        simp only []
        rw [← hnp, hrec, List.append_assoc]
        rfl
      · exact (List.Perm.cons _ hperm).trans (List.perm_cons_erase hmem).symm

theorem V2.rankedGreedy_tour (rt : Runtime) (hrt : rt.Valid) (t : TSPSolver) {s : Nat}
    (hs : s < t.numPoints) :
    ∃ path, V2.greedyLoop rt t t.numPoints [s]
        ((List.range t.numPoints).filter (fun i => i ≠ s)) = some path ∧
      IsTour t.numPoints path := by
  obtain ⟨rest, hrec, hperm⟩ := V2.rankedGreedyLoop_spec rt hrt t t.numPoints [s]
    ((List.range t.numPoints).filter (fun i => i ≠ s)) ((List.nodup_range _).filter _)
    (by
      have := List.length_filter_le (fun i => decide (i ≠ s)) (List.range t.numPoints)
      simpa using this)
  refine ⟨[s] ++ rest, hrec, ?_⟩
  exact (List.Perm.cons s hperm).trans (filter_ne_perm _ s hs)

theorem V2.rankedStartLoop_spec (rt : Runtime) (hrt : rt.Valid) (t : TSPSolver) :
    ∀ (starts : List Nat), (∀ s ∈ starts, s < t.numPoints) →
    ∀ (best : List Nat × Option ℚ),
      (best.2 = none ∨ IsTour t.numPoints best.1) →
      ∃ res, V2.startLoop rt t starts best = some res ∧
        ((res.2 = none ∧ starts = []) ∨ IsTour t.numPoints res.1) := by
  intro starts
  induction starts with
  | nil =>
    intro _ best hbest
    refine ⟨best, rfl, ?_⟩
    rcases hbest with h | h
    · exact Or.inl ⟨h, rfl⟩
    · exact Or.inr h
  | cons s rest ih =>
    intro hs best hbest
    obtain ⟨path, hpath, htour⟩ := V2.rankedGreedy_tour rt hrt t (hs s (List.mem_cons_self _ _))
    have hnext : IsTour t.numPoints (if ltBest (calculatePathDistance t path) best.2 = true
          then (path, some (calculatePathDistance t path)) else best).1 := by
      by_cases hlt : ltBest (calculatePathDistance t path) best.2 = true
      · rw [if_pos hlt]
        exact htour
      · rw [if_neg hlt]
        rcases hbest with h | h
        · rw [h] at hlt
          exact absurd rfl hlt
        · exact h
    obtain ⟨res, hres, hprop⟩ := ih (fun x hx => hs x (List.mem_cons_of_mem _ hx)) _
      (Or.inr hnext)
    refine ⟨res, ?_, ?_⟩
    · rw [V2.startLoop, hpath]
      exact hres
    · rcases hprop with ⟨_, h2⟩ | h
      · subst h2
        simp only [V2.startLoop] at hres
        cases hres
        exact Or.inr hnext
      · exact Or.inr h

/-- Go v2 `multiStartGreedy` returns a tour together with its length when
there is at least one point. -/
theorem V2.multiStartGreedy_twoOpt_spec (rt : Runtime) (hrt : rt.Valid) (t : TSPSolver)
    (hn : 0 < t.numPoints) (hd : SymmetricOn t.numPoints t.distanceMatrix) :
    ∃ path, V2.multiStartGreedy rt t = some (path, tourLength t.distanceMatrix path) ∧
      IsTour t.numPoints path := by
  obtain ⟨res, hres, hprop⟩ := V2.rankedStartLoop_spec rt hrt t
    ((List.range t.numPoints).filter (fun s => s < 5))
    (fun s hs => List.mem_range.1 (List.mem_filter.1 hs).1) ([], none) (Or.inl rfl)
  have htour : IsTour t.numPoints res.1 := by
    rcases hprop with ⟨_, h⟩ | h
    · exfalso
      have h0 : 0 ∈ (List.range t.numPoints).filter (fun s => s < 5) :=
        List.mem_filter.2 ⟨List.mem_range.2 hn, by simp⟩
      rw [h] at h0
      cases h0
    · exact h
  have hne : res.1 ≠ [] := by
    intro h
    have := htour.length_eq
    rw [h] at this
    simp at this
    omega
  obtain ⟨p, dist, htwo, hperm, hdist, _⟩ := V2.twoOpt_spec t hd hne (fun x hx => htour.mem_lt hx)
  refine ⟨p, ?_, hperm.trans htour⟩
  rw [V2.multiStartGreedy, hres]
  simp only []
  rw [htwo, hdist]

/-! ## v2: one round of the adaptive search -/

/-- One round of `adaptiveSearch` with ceiling `C`: the incumbent distance
afterwards is at most `C` and at most the length of every tour; when it is
below `C`, the incumbent is a tour of that length. -/
theorem V2.round_spec (rt : Runtime) (hrt : rt.Valid) (t : TSPSolver)
    (hn : 0 < t.numPoints) (hsymm : SymmetricOn t.numPoints t.distanceMatrix)
    (hnonneg : NonnegOn t.numPoints t.distanceMatrix)
    (hrank : ∀ row ∈ t.nearestNeighbors, ∀ x ∈ row, x < t.numPoints) (C : ℚ) :
    ∃ t2 v, bruteForceRecursive rt (t.numPoints + 1)
        { t with bestPath := [], bestDistance := some C, visitedCount := 0, mstCache := [] }
        [0] 0 ((List.replicate t.numPoints false).set 0 true)
        = some (t2, (List.replicate t.numPoints false).set 0 true) ∧
      SameProblem t t2 ∧ t2.bestDistance = some v ∧ v ≤ C ∧
      (∀ q, IsTour t.numPoints q → v ≤ tourLength t.distanceMatrix q) ∧
      (v < C → IsTour t.numPoints t2.bestPath ∧ tourLength t.distanceMatrix t2.bestPath = v) := by
  have hwf : WellFormed rt
      { t with bestPath := [], bestDistance := some C, visitedCount := 0, mstCache := [] } :=
    ⟨hsymm, hnonneg, CacheOK.empty rt _ _, hrank⟩
  obtain ⟨t2, hrec, hres⟩ := bruteForceRecursive_spec rt hrt (t.numPoints + 1) _ [0]
    ((List.replicate t.numPoints false).set 0 true) hwf (by simp) (List.nodup_singleton 0)
    (fun x hx => by rw [List.mem_singleton.1 hx]; exact hn) (marks_initial hn)
    (by simp only [List.length_singleton]; omega)
  obtain ⟨v, hv, hvle⟩ := hres.mono C ⟨_, rfl, le_refl _⟩
  refine ⟨t2, v, ?_, hres.same, hv, hvle, ?_, ?_⟩
  · simp only [sumConsecutive] at hrec
    exact hrec
  · intro q hq
    obtain ⟨q2, hq2, hlen⟩ := exists_rotation t.distanceMatrix hn hq
    obtain ⟨w, hw, hwle⟩ := hres.covered q2 hq2
    rw [hv] at hw
    cases hw
    rw [← hlen]
    exact hwle
  · intro hlt
    rcases hres.incumbent with ⟨h1, _⟩ | ⟨⟨rest, _, htour⟩, h2, _⟩
    · rw [hv] at h1
      cases h1
      exact absurd hlt (lt_irrefl _)
    · rw [hv] at h2
      cases h2
      exact ⟨htour, rfl⟩

/-- One iteration of the loop of `adaptiveSearch`, in terms of what the round
returns. -/
theorem V2.adaptiveLoop_step (rt : Runtime) (gp : List Nat) (G s : ℚ) (left : Nat)
    (t : TSPSolver) (C : ℚ) (bp : List Nat) (bd : ℚ) (fa : Bool) (hn : 0 < t.numPoints)
    {t2 : TSPSolver} {v : ℚ}
    (hround : bruteForceRecursive rt (t.numPoints + 1)
        { t with bestPath := [], bestDistance := some C, visitedCount := 0, mstCache := [] }
        [0] 0 ((List.replicate t.numPoints false).set 0 true)
        = some (t2, (List.replicate t.numPoints false).set 0 true))
    (hv : t2.bestDistance = some v) :
    V2.adaptiveLoop rt gp G s (left + 1) t C bp bd fa =
      if v < C then V2.adaptiveLoop rt gp G s left t2 (v * (1 - s)) t2.bestPath v true
      else if fa then some (bp, bd)
      else if C * (1 + s) ≥ G then some (gp, G)
      else V2.adaptiveLoop rt gp G s left t2 (C * (1 + s)) bp bd fa := by
  have hne : t.numPoints ≠ 0 := by omega
  rw [V2.adaptiveLoop]
  simp only [hne, if_false, hround, hv, Option.getD_some, decide_eq_true_eq]

/-- A round that cannot find anything below its ceiling ends the search when a
tour was found before. -/
theorem V2.adaptiveLoop_final (rt : Runtime) (hrt : rt.Valid) (gp : List Nat) (G s : ℚ)
    (left : Nat) (t : TSPSolver) (C : ℚ) (bp : List Nat) (bd : ℚ) (hn : 0 < t.numPoints)
    (hsymm : SymmetricOn t.numPoints t.distanceMatrix)
    (hnonneg : NonnegOn t.numPoints t.distanceMatrix)
    (hrank : ∀ row ∈ t.nearestNeighbors, ∀ x ∈ row, x < t.numPoints)
    (hC : ∀ q, IsTour t.numPoints q → C ≤ tourLength t.distanceMatrix q) :
    V2.adaptiveLoop rt gp G s (left + 1) t C bp bd true = some (bp, bd) := by
  obtain ⟨t2, v, hround, _, hv, hvle, hcov, hfound⟩ :=
    V2.round_spec rt hrt t hn hsymm hnonneg hrank C
  rw [V2.adaptiveLoop_step rt gp G s left t C bp bd true hn hround hv]
  have hnlt : ¬ v < C := by
    intro hlt
    obtain ⟨htour, hlen⟩ := hfound hlt
    have := hC _ htour
    rw [hlen] at this
    exact absurd hlt (not_lt.2 this)
  rw [if_neg hnlt]
  rfl

/-! ## v2: `adaptiveSearch` -/

theorem tourLength_nonneg {n : Nat} {d : Nat → Nat → ℚ} (hd : NonnegOn n d) (hn : 0 < n)
    {q : List Nat} (hq : IsTour n q) : 0 ≤ tourLength d q := by
  have hne : q ≠ [] := by
    intro h
    have := hq.length_eq
    rw [h] at this
    simp at this
    omega
  have h1 := sumConsecutive_nonneg hd q (fun x hx => hq.mem_lt hx)
  have h2 := hd _ _ (hq.mem_lt (getLastD_mem hne)) (hq.mem_lt (headD_mem hne))
  rw [tourLength]
  linarith

/-- The loop of `adaptiveSearch`, started as `adaptiveSearch` starts it with at
least three rounds: it returns a tour with its length, no longer than the
baseline; the result is optimal when some tour is shorter than 0.963 times the
baseline, and it is the baseline itself otherwise. -/
theorem V2.adaptiveLoop_spec (rt : Runtime) (hrt : rt.Valid) (t : TSPSolver)
    (hn : 0 < t.numPoints) (hsymm : SymmetricOn t.numPoints t.distanceMatrix)
    (hnonneg : NonnegOn t.numPoints t.distanceMatrix)
    (hrank : ∀ row ∈ t.nearestNeighbors, ∀ x ∈ row, x < t.numPoints)
    (gp : List Nat) (hgp : IsTour t.numPoints gp) (left : Nat) :
    ∃ p r, V2.adaptiveLoop rt gp (tourLength t.distanceMatrix gp) (7 / 100) (left + 3) t
        (tourLength t.distanceMatrix gp * (9 / 10)) gp (tourLength t.distanceMatrix gp) false
        = some (p, r) ∧
      IsTour t.numPoints p ∧ tourLength t.distanceMatrix p = r ∧
      r ≤ tourLength t.distanceMatrix gp ∧
      ((∃ q, IsTour t.numPoints q ∧
          tourLength t.distanceMatrix q < 963 / 1000 * tourLength t.distanceMatrix gp) →
        IsOptimal t.numPoints t.distanceMatrix r) ∧
      ((∀ q, IsTour t.numPoints q →
          963 / 1000 * tourLength t.distanceMatrix gp ≤ tourLength t.distanceMatrix q) →
        p = gp ∧ r = tourLength t.distanceMatrix gp) := by
  have hG0 : 0 ≤ tourLength t.distanceMatrix gp := tourLength_nonneg hnonneg hn hgp
  obtain ⟨t2, v1, hround1, hsame1, hv1, hv1le, hcov1, hfound1⟩ :=
    V2.round_spec rt hrt t hn hsymm hnonneg hrank (tourLength t.distanceMatrix gp * (9 / 10))
  have hn2 : 0 < t2.numPoints := by rw [hsame1.1]; exact hn
  have hsymm2 : SymmetricOn t2.numPoints t2.distanceMatrix := by
    rw [hsame1.1, hsame1.2.1]; exact hsymm
  have hnonneg2 : NonnegOn t2.numPoints t2.distanceMatrix := by
    rw [hsame1.1, hsame1.2.1]; exact hnonneg
  have hrank2 : ∀ row ∈ t2.nearestNeighbors, ∀ x ∈ row, x < t2.numPoints := by
    rw [hsame1.1, hsame1.2.2]; exact hrank
  rw [V2.adaptiveLoop_step rt gp _ _ (left + 2) t _ gp _ false hn hround1 hv1]
  by_cases hlt1 : v1 < tourLength t.distanceMatrix gp * (9 / 10)
  · -- found in the first round
    obtain ⟨htour1, hlen1⟩ := hfound1 hlt1
    have hv0 : 0 ≤ v1 := hlen1 ▸ tourLength_nonneg hnonneg hn htour1
    rw [if_pos hlt1]
    have hfin := V2.adaptiveLoop_final rt hrt gp (tourLength t.distanceMatrix gp) (7 / 100)
      (left + 1) t2 (v1 * (1 - 7 / 100)) t2.bestPath v1 hn2 hsymm2 hnonneg2 hrank2
      (by
        intro q hq
        rw [hsame1.1] at hq
        rw [hsame1.2.1]
        have := hcov1 q hq
        linarith)
    refine ⟨t2.bestPath, v1, hfin, htour1, hlen1, by linarith, ?_, ?_⟩
    · intro _
      exact ⟨⟨_, htour1, hlen1⟩, hcov1⟩
    · intro hall
      have := hall _ htour1
      rw [hlen1] at this
      exfalso
      linarith
  · rw [if_neg hlt1]
    have hall1 : ∀ q, IsTour t.numPoints q →
        tourLength t.distanceMatrix gp * (9 / 10) ≤ tourLength t.distanceMatrix q := by
      intro q hq
      have := hcov1 q hq
      linarith
    simp only [Bool.false_eq_true, if_false]
    by_cases hge : tourLength t.distanceMatrix gp * (9 / 10) * (1 + 7 / 100)
        ≥ tourLength t.distanceMatrix gp
    · rw [if_pos hge]
      have hGz : tourLength t.distanceMatrix gp = 0 := by linarith
      refine ⟨gp, _, rfl, hgp, rfl, le_refl _, ?_, fun _ => ⟨rfl, rfl⟩⟩
      rintro ⟨q, hq, hqlt⟩
      have := tourLength_nonneg hnonneg hn hq
      rw [hGz] at hqlt
      exfalso
      linarith
    · rw [if_neg hge]
      obtain ⟨t3, v2, hround2, hsame2, hv2, hv2le, hcov2, hfound2⟩ :=
        V2.round_spec rt hrt t2 hn2 hsymm2 hnonneg2 hrank2
          (tourLength t.distanceMatrix gp * (9 / 10) * (1 + 7 / 100))
      have hn3 : 0 < t3.numPoints := by rw [hsame2.1]; exact hn2
      have hsymm3 : SymmetricOn t3.numPoints t3.distanceMatrix := by
        rw [hsame2.1, hsame2.2.1]; exact hsymm2
      have hnonneg3 : NonnegOn t3.numPoints t3.distanceMatrix := by
        rw [hsame2.1, hsame2.2.1]; exact hnonneg2
      have hrank3 : ∀ row ∈ t3.nearestNeighbors, ∀ x ∈ row, x < t3.numPoints := by
        rw [hsame2.1, hsame2.2.2]; exact hrank2
      rw [hsame1.1, hsame1.2.1] at hcov2 hfound2
      rw [V2.adaptiveLoop_step rt gp _ _ (left + 1) t2 _ gp _ false hn2 hround2 hv2]
      by_cases hlt2 : v2 < tourLength t.distanceMatrix gp * (9 / 10) * (1 + 7 / 100)
      · obtain ⟨htour2, hlen2⟩ := hfound2 hlt2
        have hv0 : 0 ≤ v2 := hlen2 ▸ tourLength_nonneg hnonneg hn htour2
        rw [if_pos hlt2]
        have hfin := V2.adaptiveLoop_final rt hrt gp (tourLength t.distanceMatrix gp) (7 / 100)
          left t3 (v2 * (1 - 7 / 100)) t3.bestPath v2 hn3 hsymm3 hnonneg3 hrank3
          (by
            intro q hq
            rw [hsame2.1, hsame1.1] at hq
            rw [hsame2.2.1, hsame1.2.1]
            have := hcov2 q hq
            linarith)
        refine ⟨t3.bestPath, v2, hfin, htour2, hlen2, by linarith, ?_, ?_⟩
        · intro _
          exact ⟨⟨_, htour2, hlen2⟩, hcov2⟩
        · intro hall
          have := hall _ htour2
          rw [hlen2] at this
          exfalso
          linarith
      · rw [if_neg hlt2]
        simp only [Bool.false_eq_true, if_false]
        have hge3 : tourLength t.distanceMatrix gp * (9 / 10) * (1 + 7 / 100) * (1 + 7 / 100)
            ≥ tourLength t.distanceMatrix gp := by
          have : 0 < tourLength t.distanceMatrix gp := by
            by_contra hcon
            apply hge
            have hz : tourLength t.distanceMatrix gp = 0 := le_antisymm (not_lt.1 hcon) hG0
            rw [hz]
            norm_num
          nlinarith
        rw [if_pos hge3]
        refine ⟨gp, _, rfl, hgp, rfl, le_refl _, ?_, fun _ => ⟨rfl, rfl⟩⟩
        rintro ⟨q, hq, hqlt⟩
        have := hcov2 q hq
        exfalso
        linarith

/-- What v2 `adaptiveSearch` returns on a well-formed problem with at least
one point. -/
theorem V2.adaptiveSearch_spec (rt : Runtime) (hrt : rt.Valid) (t : TSPSolver)
    (hn : 0 < t.numPoints) (hsymm : SymmetricOn t.numPoints t.distanceMatrix)
    (hnonneg : NonnegOn t.numPoints t.distanceMatrix)
    (hrank : ∀ row ∈ t.nearestNeighbors, ∀ x ∈ row, x < t.numPoints) :
    ∃ p r gp G, V2.adaptiveSearch rt t = some (p, r) ∧
      V2.multiStartGreedy rt t = some (gp, G) ∧
      IsTour t.numPoints gp ∧ tourLength t.distanceMatrix gp = G ∧
      IsTour t.numPoints p ∧ tourLength t.distanceMatrix p = r ∧ r ≤ G ∧
      ((∃ q, IsTour t.numPoints q ∧ tourLength t.distanceMatrix q < 963 / 1000 * G) →
        IsOptimal t.numPoints t.distanceMatrix r) ∧
      ((∀ q, IsTour t.numPoints q → 963 / 1000 * G ≤ tourLength t.distanceMatrix q) →
        p = gp ∧ r = G) := by
  obtain ⟨gp, hg, hgtour⟩ := V2.multiStartGreedy_twoOpt_spec rt hrt t hn hsymm
  obtain ⟨p, r, hloop, h1, h2, h3, h4, h5⟩ :=
    V2.adaptiveLoop_spec rt hrt t hn hsymm hnonneg hrank gp hgtour 197
  refine ⟨p, r, gp, _, ?_, hg, hgtour, rfl, h1, h2, h3, h4, h5⟩
  rw [V2.adaptiveSearch, hg]
  exact hloop

/-! ## The concrete runtimes and instances -/

theorem insertionSort_key_sorted (key : Nat → ℚ) (l : List Nat) :
    (l.insertionSort (fun a b => key a ≤ key b)).Pairwise (fun a b => key a ≤ key b) := by
  have h1 : IsTotal Nat (fun a b => key a ≤ key b) := ⟨fun a b => le_total (key a) (key b)⟩
  have h2 : IsTrans Nat (fun a b => key a ≤ key b) :=
    ⟨fun a b c hab hbc => le_trans hab hbc⟩
  exact List.sorted_insertionSort (fun a b => key a ≤ key b) l

theorem insertionSort_weight_sorted (l : List Edge) :
    (l.insertionSort (fun a b => a.Weight ≤ b.Weight)).Pairwise
      (fun a b => a.Weight ≤ b.Weight) := by
  have h1 : IsTotal Edge (fun a b => a.Weight ≤ b.Weight) :=
    ⟨fun a b => le_total a.Weight b.Weight⟩
  have h2 : IsTrans Edge (fun a b => a.Weight ≤ b.Weight) :=
    ⟨fun a b c hab hbc => le_trans hab hbc⟩
  exact List.sorted_insertionSort (fun a b => a.Weight ≤ b.Weight) l

/-- Stable sorts and ascending map iteration are one of the behaviours Go
allows. -/
theorem Runtime.ascending_valid : Runtime.ascending.Valid where
  sortSlice_perm := fun _ l => List.perm_insertionSort _ l
  sortSlice_sorted := fun key l => insertionSort_key_sorted key l
  sortEdges_perm := fun l => List.perm_insertionSort _ l
  sortEdges_sorted := fun l => insertionSort_weight_sorted l
  mapRange_perm := fun _ keys => List.Perm.refl keys

/-- Stable sorts and descending map iteration are another one. -/
theorem Runtime.descending_valid : Runtime.descending.Valid where
  sortSlice_perm := fun _ l => List.perm_insertionSort _ l
  sortSlice_sorted := fun key l => insertionSort_key_sorted key l
  sortEdges_perm := fun l => List.perm_insertionSort _ l
  sortEdges_sorted := fun l => insertionSort_weight_sorted l
  mapRange_perm := fun _ keys => List.reverse_perm keys

theorem gapMatrix_symmetric : SymmetricOn 4 gapMatrix := by
  intro i j hi hj
  interval_cases i <;> interval_cases j <;> decide!

theorem gapMatrix_nonneg : NonnegOn 4 gapMatrix := by
  intro i j hi hj
  interval_cases i <;> interval_cases j <;> decide!

theorem gapMatrix_zeroDiag : ZeroDiagOn 4 gapMatrix := by
  intro i hi
  interval_cases i <;> decide!

theorem tieMatrix_symmetric : SymmetricOn 4 tieMatrix := by
  intro i j hi hj
  interval_cases i <;> interval_cases j <;> decide!

theorem tieMatrix_nonneg : NonnegOn 4 tieMatrix := by
  intro i j hi hj
  interval_cases i <;> interval_cases j <;> decide!

theorem tieMatrix_zeroDiag : ZeroDiagOn 4 tieMatrix := by
  intro i hi
  interval_cases i <;> decide!

theorem triangleMatrix_symmetric : SymmetricOn 3 triangleMatrix := by
  intro i j hi hj
  interval_cases i <;> interval_cases j <;> decide!

theorem triangleMatrix_nonneg : NonnegOn 3 triangleMatrix := by
  intro i j hi hj
  interval_cases i <;> interval_cases j <;> decide!

theorem triangleMatrix_zeroDiag : ZeroDiagOn 3 triangleMatrix := by
  intro i hi
  interval_cases i <;> decide!

theorem pairMatrix_symmetric : SymmetricOn 2 pairMatrix := by
  intro i j hi hj
  interval_cases i <;> interval_cases j <;> decide!

/-! ## Permutations of the vertices -/

theorem IsTour.facts {n : Nat} {path : List Nat} (h : IsTour n path) :
    path.length = n ∧ (∀ x ∈ path, x < n) ∧ path.Nodup :=
  ⟨h.length_eq, fun _ hx => List.mem_range.1 (h.subset hx),
    h.nodup_iff.2 (List.nodup_range n)⟩

theorem solverOf_ranking (rt : Runtime) (hrt : rt.Valid) (n : Nat) (d : Nat → Nat → ℚ) :
    ∀ row ∈ (solverOf rt n d).nearestNeighbors, ∀ x ∈ row, x < (solverOf rt n d).numPoints :=
  precomputeNearestNeighbors_lt rt hrt n d

/-! ## The MST oracle: exactness, canonical keys, repeated calls -/

/-- In a correct cache every value is the minimum spanning tree weight of its
key. -/
theorem CacheOK.isMST {rt : Runtime} (hrt : rt.Valid) {n : Nat} {d : Nat → Nat → ℚ}
    (hsymm : SymmetricOn n d) {cache : List (List Nat × ℚ)} (hok : CacheOK rt n d cache)
    {key : List Nat} {w : ℚ} (hlook : cache.lookup key = some w) : IsMSTWeight d key w := by
  obtain ⟨hnd, hlen, hlt, hcomp⟩ := hok key w hlook
  have hne : key ≠ [] := by
    intro h
    rw [h] at hlen
    simp at hlen
  obtain ⟨w2, hw2, hmst⟩ := kruskalCompute_isMST rt hrt hnd hne
    (fun a ha b hb => hsymm a b (hlt a ha) (hlt b hb))
  rw [hcomp] at hw2
  cases hw2
  exact hmst

/-- The result of `calculateMSTKruskal` depends on the slice only through its
sorted form. -/
theorem calculateMSTKruskal_perm (rt : Runtime) (t : TSPSolver) {S S2 : List Nat}
    (h : S.Perm S2) : calculateMSTKruskal rt t S2 = calculateMSTKruskal rt t S := by
  unfold calculateMSTKruskal
  rw [h.length_eq, sortInts_eq_of_perm h]

/-- A call of `calculateMSTKruskal` on the solver that an earlier call with
the same slice left behind returns the same value and changes nothing. -/
theorem calculateMSTKruskal_again (rt : Runtime) (hrt : rt.Valid) {t t1 : TSPSolver}
    {S : List Nat} {v : ℚ} (h : calculateMSTKruskal rt t S = some (v, t1)) :
    calculateMSTKruskal rt t1 S = some (v, t1) := by
  obtain ⟨v0, t0, hcall, _, _, _, _, _, _, hsmall, hbig⟩ := calculateMSTKruskal_spec rt hrt t S
  rw [h] at hcall
  cases hcall
  obtain ⟨v2, t2, hcall2, _, _, _, _, _, _, hsmall2, hbig2⟩ :=
    calculateMSTKruskal_spec rt hrt t1 S
  by_cases hlen : S.length ≤ 1
  · obtain ⟨e1, _⟩ := hsmall hlen
    obtain ⟨e3, e4⟩ := hsmall2 hlen
    rw [hcall2, e3, e4, e1]
  · have h2 : 2 ≤ S.length := by omega
    obtain ⟨hlook, _, _⟩ := hbig h2
    obtain ⟨_, _, hhit⟩ := hbig2 h2
    obtain ⟨e3, e4⟩ := hhit v hlook
    rw [hcall2, e3, e4]

/-! ## The core on a single point -/

/-- On a single point the core runs through and returns the tour `[0]` of
length 0, whatever the runtime, the square root and the point are. -/
theorem V1.bruteForce_single (rt : Runtime) (sqrt : ℚ → ℚ) (p : Point) :
    V1.bruteForce rt (NewTSPSolver rt sqrt [p]) = some ([0], some 0) := by
  simp [V1.bruteForce, V1.multiStartGreedy, V1.startLoop, V1.greedyLoop, NewTSPSolver, solverOf,
    calculatePathDistance, sumConsecutive, calculateDistanceMatrix, ltBest, bruteForceRecursive,
    calculateLowerBound, calculatePartialDistance, unvisitedOf, geBest, List.range,
    List.range.loop]

/-! ## Independence of the runtime when no two distances from a vertex are equal -/

theorem map_injOn_eq {key : Nat → ℚ} : ∀ (l1 l2 : List Nat),
    (∀ a ∈ l1, ∀ b ∈ l2, key a = key b → a = b) → l1.map key = l2.map key → l1 = l2
  | [], [], _, _ => rfl
  | [], _ :: _, _, h => by simp at h
  | _ :: _, [], _, h => by simp at h
  | a :: l1, b :: l2, hinj, h => by
    simp only [List.map_cons, List.cons.injEq] at h
    have hab := hinj a (List.mem_cons_self _ _) b (List.mem_cons_self _ _) h.1
    subst hab
    rw [map_injOn_eq l1 l2
      (fun x hx y hy => hinj x (List.mem_cons_of_mem _ hx) y (List.mem_cons_of_mem _ hy)) h.2]

/-- A slice whose keys are pairwise different has one sorted arrangement only,
so `sort.Slice` has no choice. -/
theorem sortSlice_unique {rt1 rt2 : Runtime} (h1 : rt1.Valid) (h2 : rt2.Valid)
    (key : Nat → ℚ) (l : List Nat) (hinj : ∀ a ∈ l, ∀ b ∈ l, key a = key b → a = b) :
    rt1.sortSlice key l = rt2.sortSlice key l := by
  have hp : (rt1.sortSlice key l).Perm (rt2.sortSlice key l) :=
    (h1.sortSlice_perm key l).trans (h2.sortSlice_perm key l).symm
  apply map_injOn_eq _ _ (fun a ha b hb =>
    hinj a ((h1.sortSlice_perm key l).subset ha) b ((h2.sortSlice_perm key l).subset hb))
  have s1 : ((rt1.sortSlice key l).map key).Sorted (fun a b => a ≤ b) :=
    List.pairwise_map.2 (h1.sortSlice_sorted key l)
  have s2 : ((rt2.sortSlice key l).map key).Sorted (fun a b => a ≤ b) :=
    List.pairwise_map.2 (h2.sortSlice_sorted key l)
  exact List.eq_of_perm_of_sorted (hp.map key) s1 s2

theorem precomputeNearestNeighbors_unique {rt1 rt2 : Runtime} (h1 : rt1.Valid)
    (h2 : rt2.Valid) {n : Nat} {d : Nat → Nat → ℚ} (htf : TieFree n d) :
    precomputeNearestNeighbors rt1 n d = precomputeNearestNeighbors rt2 n d := by
  unfold precomputeNearestNeighbors
  apply List.map_congr_left
  intro i hi
  have := sortSlice_unique h1 h2 (d i) (List.range n) (fun a ha b hb hab =>
    htf i a b (List.mem_range.1 hi) (List.mem_range.1 ha) (List.mem_range.1 hb) hab)
  simp only [this]

theorem solverOf_unique {rt1 rt2 : Runtime} (h1 : rt1.Valid) (h2 : rt2.Valid) {n : Nat}
    {d : Nat → Nat → ℚ} (htf : TieFree n d) : solverOf rt1 n d = solverOf rt2 n d := by
  unfold solverOf
  rw [precomputeNearestNeighbors_unique h1 h2 htf]

/-- The scan ends on a key of minimal distance. -/
theorem scanNearest_min (d : Nat → Nat → ℚ) (cur : Nat) :
    ∀ (l : List Nat) (acc : Option (Nat × ℚ)),
      (∀ q w, acc = some (q, w) → w = d cur q) →
      ∀ p v, scanNearest d cur l acc = some (p, v) →
        v = d cur p ∧ (p ∈ l ∨ acc = some (p, v)) ∧ (∀ x ∈ l, v ≤ d cur x) ∧
          ∀ q w, acc = some (q, w) → v ≤ w := by
  intro l
  induction l with
  | nil =>
    intro acc hacc p v h
    rw [scanNearest] at h
    refine ⟨hacc p v h, Or.inr h, fun x hx => absurd hx (List.not_mem_nil _), ?_⟩
    intro q w hq
    rw [h] at hq
    cases hq
    exact le_refl _
  | cons x rest ih =>
    intro acc hacc p v h
    rw [scanNearest] at h
    by_cases hlt : ltBest (d cur x) (acc.map Prod.snd) = true
    · rw [if_pos hlt] at h
      obtain ⟨e1, e2, e3, e4⟩ := ih (some (x, d cur x))
        (fun q w hq => by cases hq; rfl) p v h
      have hvx : v ≤ d cur x := e4 x (d cur x) rfl
      refine ⟨e1, Or.inl ?_, ?_, ?_⟩
      · rcases e2 with e2 | e2
        · exact List.mem_cons_of_mem _ e2
        · cases e2
          exact List.mem_cons_self _ _
      · intro y hy
        rcases List.mem_cons.1 hy with rfl | hy
        · exact hvx
        · exact e3 y hy
      · intro q w hq
        rw [hq] at hlt
        have : d cur x < w := by simpa [ltBest] using hlt
        exact le_of_lt (lt_of_le_of_lt hvx this)
    · rw [if_neg hlt] at h
      obtain ⟨e1, e2, e3, e4⟩ := ih acc hacc p v h
      have hb : Below (acc.map Prod.snd) (d cur x) :=
        (ltBest_eq_false_iff _ _).1 (by simpa using hlt)
      obtain ⟨w0, hw0, hle0⟩ := hb
      have hvx : v ≤ d cur x := by
        cases hacc0 : acc with
        | none => rw [hacc0] at hw0; cases hw0
        | some qw =>
          obtain ⟨q0, w1⟩ := qw
          rw [hacc0] at hw0
          cases hw0
          exact le_trans (e4 q0 w1 hacc0) hle0
      refine ⟨e1, ?_, ?_, e4⟩
      · rcases e2 with e2 | e2
        · exact Or.inl (List.mem_cons_of_mem _ e2)
        · exact Or.inr e2
      · intro y hy
        rcases List.mem_cons.1 hy with rfl | hy
        · exact hvx
        · exact e3 y hy

/-- With pairwise different distances the vertex a scan selects does not
depend on the order in which the keys are visited. -/
theorem nextPointOf_scan_perm (d : Nat → Nat → ℚ) (cur : Nat) {l1 l2 : List Nat}
    (hperm : l1.Perm l2) (hinj : ∀ a ∈ l1, ∀ b ∈ l1, d cur a = d cur b → a = b) :
    nextPointOf (scanNearest d cur l1 none) = nextPointOf (scanNearest d cur l2 none) := by
  have hs1 := scanNearest_spec d cur l1 none
  have hs2 := scanNearest_spec d cur l2 none
  have hm1 := scanNearest_min d cur l1 none (fun q w hq => by cases hq)
  have hm2 := scanNearest_min d cur l2 none (fun q w hq => by cases hq)
  revert hs1 hs2 hm1 hm2
  cases scanNearest d cur l1 none with
  | none =>
    intro hs1 _ _ _
    have : l2 = [] := by
      have := hperm.length_eq
      rw [hs1.1] at this
      exact List.length_eq_zero.1 this.symm
    rw [this]
    rfl
  | some pv1 =>
    cases scanNearest d cur l2 none with
    | none =>
      intro hs1 hs2 _ _
      exfalso
      obtain ⟨p1, v1⟩ := pv1
      rcases hs1 with h | h
      · have := hperm.subset h
        rw [hs2.1] at this
        cases this
      · cases h
    | some pv2 =>
      obtain ⟨p1, v1⟩ := pv1
      obtain ⟨p2, v2⟩ := pv2
      intro _ _ hm1 hm2
      obtain ⟨a1, a2, a3, _⟩ := hm1 p1 v1 rfl
      obtain ⟨b1, b2, b3, _⟩ := hm2 p2 v2 rfl
      have hp1 : p1 ∈ l1 := by
        rcases a2 with h | h
        · exact h
        · cases h
      have hp2 : p2 ∈ l2 := by
        rcases b2 with h | h
        · exact h
        · cases h
      have c1 : v1 ≤ d cur p2 := a3 p2 (hperm.symm.subset hp2)
      have c2 : v2 ≤ d cur p1 := b3 p1 (hperm.subset hp1)
      have : d cur p1 = d cur p2 := by
        rw [← a1, ← b1] at *
        exact le_antisymm c1 c2
      have := hinj p1 hp1 p2 (hperm.symm.subset hp2) this
      subst this
      rfl

/-! ### The greedy constructions -/

theorem V1.greedyLoop_unique {rt1 rt2 : Runtime} (h1 : rt1.Valid) (h2 : rt2.Valid) {n : Nat}
    {d : Nat → Nat → ℚ} (htf : TieFree n d) :
    ∀ (fuel : Nat) (path unvisited : List Nat), path.getLastD 0 < n →
      (∀ x ∈ unvisited, x < n) →
      V1.greedyLoop rt1 d fuel path unvisited = V1.greedyLoop rt2 d fuel path unvisited := by
  intro fuel
  induction fuel with
  | zero => intro path unvisited _ _; rfl
  | succ fuel ih =>
    intro path unvisited hlast hU
    rw [V1.greedyLoop, V1.greedyLoop]
    by_cases hpos : unvisited.length > 0
    · rw [if_pos hpos, if_pos hpos]
      have hne : unvisited ≠ [] := List.length_pos.1 hpos
      have hinj : ∀ a ∈ unvisited, ∀ b ∈ unvisited,
          d (path.getLastD 0) a = d (path.getLastD 0) b → a = b :=
        fun a ha b hb hab => htf _ a b hlast (hU a ha) (hU b hb) hab
      have e1 : nextPointOf (scanNearest d (path.getLastD 0) (rt1.mapRange path unvisited) none)
          = nextPointOf (scanNearest d (path.getLastD 0) unvisited none) :=
        (nextPointOf_scan_perm d _ (h1.mapRange_perm path unvisited).symm hinj).symm
      have e2 : nextPointOf (scanNearest d (path.getLastD 0) (rt2.mapRange path unvisited) none)
          = nextPointOf (scanNearest d (path.getLastD 0) unvisited none) :=
        (nextPointOf_scan_perm d _ (h2.mapRange_perm path unvisited).symm hinj).symm
      simp only [e1, e2]
      have hmem := nextPointOf_scan_mem d (path.getLastD 0) hne
      apply ih
      · rw [getLastD_append_of_ne_nil _ _ (by simp)]
        exact hU _ hmem
      · intro x hx
        exact hU x (List.mem_of_mem_erase hx)
    · rw [if_neg hpos, if_neg hpos]

theorem V1.startLoop_unique {rt1 rt2 : Runtime} (h1 : rt1.Valid) (h2 : rt2.Valid)
    (t : TSPSolver) (htf : TieFree t.numPoints t.distanceMatrix) :
    ∀ (starts : List Nat), (∀ s ∈ starts, s < t.numPoints) →
    ∀ (best : List Nat × Option ℚ),
      V1.startLoop rt1 t starts best = V1.startLoop rt2 t starts best := by
  intro starts
  induction starts with
  | nil => intro _ best; rfl
  | cons s rest ih =>
    intro hs best
    rw [V1.startLoop, V1.startLoop,
      V1.greedyLoop_unique h1 h2 htf t.numPoints [s] _ (hs s (List.mem_cons_self _ _))
        (fun x hx => List.mem_range.1 (List.mem_filter.1 hx).1)]
    cases V1.greedyLoop rt2 t.distanceMatrix t.numPoints [s]
        (List.filter (fun i => decide (i ≠ s)) (List.range t.numPoints)) with
    | none => rfl
    | some path => exact ih (fun x hx => hs x (List.mem_cons_of_mem _ hx)) _

theorem V1.multiStartGreedy_unique {rt1 rt2 : Runtime} (h1 : rt1.Valid) (h2 : rt2.Valid)
    (t : TSPSolver) (htf : TieFree t.numPoints t.distanceMatrix) :
    V1.multiStartGreedy rt1 t = V1.multiStartGreedy rt2 t :=
  V1.startLoop_unique h1 h2 t htf _ (fun _ hs => List.mem_range.1 hs) _

theorem V2.rankedGreedyLoop_unique {rt1 rt2 : Runtime} (h1 : rt1.Valid) (h2 : rt2.Valid)
    (t : TSPSolver) (htf : TieFree t.numPoints t.distanceMatrix) :
    ∀ (fuel : Nat) (path unvisited : List Nat), path.getLastD 0 < t.numPoints →
      (∀ x ∈ unvisited, x < t.numPoints) →
      V2.greedyLoop rt1 t fuel path unvisited = V2.greedyLoop rt2 t fuel path unvisited := by
  intro fuel
  induction fuel with
  | zero => intro path unvisited _ _; rfl
  | succ fuel ih =>
    intro path unvisited hlast hU
    rw [V2.greedyLoop, V2.greedyLoop]
    by_cases hpos : unvisited.length > 0
    · rw [if_pos hpos, if_pos hpos]
      have hne : unvisited ≠ [] := List.length_pos.1 hpos
      have hinj : ∀ a ∈ unvisited, ∀ b ∈ unvisited,
          t.distanceMatrix (path.getLastD 0) a = t.distanceMatrix (path.getLastD 0) b → a = b :=
        fun a ha b hb hab => htf _ a b hlast (hU a ha) (hU b hb) hab
      have hmem := V2.nextPoint_mem rt2 h2 t path unvisited hne
      have e : nextPointOf
          (if (scanNearest t.distanceMatrix (path.getLastD 0)
                ((t.nearestNeighbors.getD (path.getLastD 0) []).filter
                  (fun nb => unvisited.contains nb)) none).isNone then
              scanNearest t.distanceMatrix (path.getLastD 0) (rt1.mapRange path unvisited)
                (scanNearest t.distanceMatrix (path.getLastD 0)
                  ((t.nearestNeighbors.getD (path.getLastD 0) []).filter
                    (fun nb => unvisited.contains nb)) none)
            else scanNearest t.distanceMatrix (path.getLastD 0)
                ((t.nearestNeighbors.getD (path.getLastD 0) []).filter
                  (fun nb => unvisited.contains nb)) none)
          = nextPointOf
          (if (scanNearest t.distanceMatrix (path.getLastD 0)
                ((t.nearestNeighbors.getD (path.getLastD 0) []).filter
                  (fun nb => unvisited.contains nb)) none).isNone then
              scanNearest t.distanceMatrix (path.getLastD 0) (rt2.mapRange path unvisited)
                (scanNearest t.distanceMatrix (path.getLastD 0)
                  ((t.nearestNeighbors.getD (path.getLastD 0) []).filter
                    (fun nb => unvisited.contains nb)) none)
            else scanNearest t.distanceMatrix (path.getLastD 0)
                ((t.nearestNeighbors.getD (path.getLastD 0) []).filter
                  (fun nb => unvisited.contains nb)) none) := by
        cases hr : scanNearest t.distanceMatrix (path.getLastD 0)
            ((t.nearestNeighbors.getD (path.getLastD 0) []).filter
              (fun nb => unvisited.contains nb)) none with
        | some pv => rfl
        | none =>
          simp only [Option.isNone_none, if_true]
          exact nextPointOf_scan_perm t.distanceMatrix _
            ((h1.mapRange_perm path unvisited).trans (h2.mapRange_perm path unvisited).symm)
            (fun a ha b hb => hinj a ((h1.mapRange_perm path unvisited).subset ha) b
              ((h1.mapRange_perm path unvisited).subset hb))
      simp only [e]
      apply ih
      · rw [getLastD_append_of_ne_nil _ _ (by simp)]
        exact hU _ hmem
      · intro x hx
        exact hU x (List.mem_of_mem_erase hx)
    · rw [if_neg hpos, if_neg hpos]

theorem V2.rankedStartLoop_unique {rt1 rt2 : Runtime} (h1 : rt1.Valid) (h2 : rt2.Valid)
    (t : TSPSolver) (htf : TieFree t.numPoints t.distanceMatrix) :
    ∀ (starts : List Nat), (∀ s ∈ starts, s < t.numPoints) →
    ∀ (best : List Nat × Option ℚ),
      V2.startLoop rt1 t starts best = V2.startLoop rt2 t starts best := by
  intro starts
  induction starts with
  | nil => intro _ best; rfl
  | cons s rest ih =>
    intro hs best
    rw [V2.startLoop, V2.startLoop,
      V2.rankedGreedyLoop_unique h1 h2 t htf t.numPoints [s] _ (hs s (List.mem_cons_self _ _))
        (fun x hx => List.mem_range.1 (List.mem_filter.1 hx).1)]
    cases V2.greedyLoop rt2 t t.numPoints [s]
        (List.filter (fun i => decide (i ≠ s)) (List.range t.numPoints)) with
    | none => rfl
    | some path => exact ih (fun x hx => hs x (List.mem_cons_of_mem _ hx)) _

theorem V2.multiStartGreedy_twoOpt_unique {rt1 rt2 : Runtime} (h1 : rt1.Valid) (h2 : rt2.Valid)
    (t : TSPSolver) (htf : TieFree t.numPoints t.distanceMatrix) :
    V2.multiStartGreedy rt1 t = V2.multiStartGreedy rt2 t := by
  rw [V2.multiStartGreedy, V2.multiStartGreedy,
    V2.rankedStartLoop_unique h1 h2 t htf _ (fun _ hs => List.mem_range.1 (List.mem_filter.1 hs).1)]

/-! ### The MST oracle and the lower bound -/

/-- The value computed on a cache miss does not depend on how the sort
arranges edges of equal weight: it is the minimum spanning tree weight. -/
theorem kruskalCompute_unique {rt1 rt2 : Runtime} (h1 : rt1.Valid) (h2 : rt2.Valid)
    {d : Nat → Nat → ℚ} {S : List Nat} (hnd : S.Nodup) (hne : S ≠ [])
    (hsymm : ∀ a ∈ S, ∀ b ∈ S, d a b = d b a) :
    kruskalCompute rt1 d S = kruskalCompute rt2 d S := by
  obtain ⟨w1, e1, m1⟩ := kruskalCompute_isMST rt1 h1 hnd hne hsymm
  obtain ⟨w2, e2, m2⟩ := kruskalCompute_isMST rt2 h2 hnd hne hsymm
  rw [e1, e2, m1.unique_weight m2]

theorem calculateMSTKruskal_unique {rt1 rt2 : Runtime} (h1 : rt1.Valid) (h2 : rt2.Valid)
    (t : TSPSolver) (hsymm : SymmetricOn t.numPoints t.distanceMatrix) {S : List Nat}
    (hnd : S.Nodup) (hlt : ∀ x ∈ S, x < t.numPoints) :
    calculateMSTKruskal rt1 t S = calculateMSTKruskal rt2 t S := by
  unfold calculateMSTKruskal
  by_cases hlen : S.length ≤ 1
  · rw [if_pos hlen, if_pos hlen]
  · rw [if_neg hlen, if_neg hlen]
    have hne : sortInts S ≠ [] := by
      intro h
      have := sortInts_length S
      rw [h] at this
      simp at this
      omega
    have := kruskalCompute_unique h1 h2 (d := t.distanceMatrix) (sortInts_nodup hnd) hne
      (fun a ha b hb => hsymm a b (hlt a ((sortInts_perm S).subset ha))
        (hlt b ((sortInts_perm S).subset hb)))
    simp only [this]

theorem calculateLowerBound_unique {rt1 rt2 : Runtime} (h1 : rt1.Valid) (h2 : rt2.Valid)
    (t : TSPSolver) (hsymm : SymmetricOn t.numPoints t.distanceMatrix) (path : List Nat)
    (visited : List Bool) :
    calculateLowerBound rt1 t path visited = calculateLowerBound rt2 t path visited := by
  unfold calculateLowerBound
  simp only [calculateMSTKruskal_unique h1 h2 t hsymm (unvisitedOf_nodup t.numPoints visited)
    (fun x hx => (mem_unvisitedOf.1 hx).1)]

/-- The lower bound changes nothing of the solver but the cache. -/
theorem calculateLowerBound_same {rt : Runtime} (hrt : rt.Valid) {t t1 : TSPSolver}
    {path : List Nat} {visited : List Bool} {lb : ℚ}
    (h : calculateLowerBound rt t path visited = some (lb, t1)) : SameProblem t t1 := by
  unfold calculateLowerBound at h
  simp only [] at h
  split at h
  · cases h
    exact SameProblem.refl t
  · obtain ⟨v, t2, hcall, a1, a2, _, _, _, a3, _⟩ :=
      calculateMSTKruskal_spec rt hrt t (unvisitedOf t.numPoints visited)
    rw [hcall] at h
    cases h
    exact ⟨a1, a2, a3⟩

/-! ### The search -/

/-- The loop over the candidates gives the same result for two recursions that
agree on every solver of the same problem and every path ending below `n`. -/
theorem tryPoints_unique {n : Nat} {d : Nat → Nat → ℚ} {rank : List (List Nat)}
    (f g : TSPSolver → List Nat → ℚ → List Bool → Option (TSPSolver × List Bool))
    (hfg : ∀ (t : TSPSolver) (path : List Nat) (cd : ℚ) (visited : List Bool),
      t.numPoints = n → t.distanceMatrix = d → t.nearestNeighbors = rank →
      path.getLastD 0 < n →
      f t path cd visited = g t path cd visited ∧
      ∀ r, f t path cd visited = some r →
        r.1.numPoints = n ∧ r.1.distanceMatrix = d ∧ r.1.nearestNeighbors = rank)
    (path : List Nat) (cd : ℚ) (last : Nat) :
    ∀ (cands : List Nat), (∀ c ∈ cands, c < n) →
    ∀ (s : TSPSolver × List Bool), s.1.numPoints = n → s.1.distanceMatrix = d →
      s.1.nearestNeighbors = rank →
      cands.foldlM (tryPoint f path cd last) s = cands.foldlM (tryPoint g path cd last) s ∧
      ∀ r, cands.foldlM (tryPoint f path cd last) s = some r →
        r.1.numPoints = n ∧ r.1.distanceMatrix = d ∧ r.1.nearestNeighbors = rank := by
  intro cands
  induction cands with
  | nil =>
    intro _ s a1 a2 a3
    refine ⟨rfl, ?_⟩
    intro r hr
    simp only [List.foldlM_nil] at hr
    cases hr
    exact ⟨a1, a2, a3⟩
  | cons c cs ih =>
    intro hc s a1 a2 a3
    have hcn : c < n := hc c (List.mem_cons_self _ _)
    have hlast : (path ++ [c]).getLastD 0 < n := by
      rw [getLastD_append_of_ne_nil _ _ (by simp)]
      exact hcn
    obtain ⟨e, hframe⟩ := hfg s.1 (path ++ [c]) (cd + s.1.distanceMatrix last c)
      (s.2.set c true) a1 a2 a3 hlast
    have hstep : tryPoint f path cd last s c = tryPoint g path cd last s c := by
      simp only [tryPoint]
      rw [e]
    have hstepframe : ∀ r, tryPoint f path cd last s c = some r →
        r.1.numPoints = n ∧ r.1.distanceMatrix = d ∧ r.1.nearestNeighbors = rank := by
      intro r hr
      simp only [tryPoint] at hr
      split at hr
      · cases hr
        exact ⟨a1, a2, a3⟩
      · revert hr
        cases hrec : f s.1 (path ++ [c]) (cd + s.1.distanceMatrix last c) (s.2.set c true) with
        | none => intro hr; cases hr
        | some r3 =>
          intro hr
          cases hr
          exact hframe r3 hrec
    rw [List.foldlM_cons, List.foldlM_cons, ← hstep]
    cases hs : tryPoint f path cd last s c with
    | none =>
      refine ⟨rfl, ?_⟩
      intro r hr
      cases hr
    | some s2 =>
      obtain ⟨b1, b2, b3⟩ := hstepframe s2 hs
      exact ih (fun x hx => hc x (List.mem_cons_of_mem _ hx)) s2 b1 b2 b3

/-- With a tie-free symmetric matrix `bruteForceRecursive` computes the same
result under any two behaviours of the runtime. -/
theorem bruteForceRecursive_unique {rt1 rt2 : Runtime} (h1 : rt1.Valid) (h2 : rt2.Valid)
    {n : Nat} {d : Nat → Nat → ℚ} (hsymm : SymmetricOn n d) (htf : TieFree n d)
    {rank : List (List Nat)} (hrank : ∀ row ∈ rank, ∀ x ∈ row, x < n) :
    ∀ (fuel : Nat) (t : TSPSolver) (path : List Nat) (cd : ℚ) (visited : List Bool),
      t.numPoints = n → t.distanceMatrix = d → t.nearestNeighbors = rank →
      path.getLastD 0 < n →
      bruteForceRecursive rt1 fuel t path cd visited
        = bruteForceRecursive rt2 fuel t path cd visited ∧
      ∀ r, bruteForceRecursive rt1 fuel t path cd visited = some r →
        r.1.numPoints = n ∧ r.1.distanceMatrix = d ∧ r.1.nearestNeighbors = rank := by
  intro fuel
  induction fuel with
  | zero =>
    intro t path cd visited _ _ _ _
    refine ⟨rfl, ?_⟩
    intro r hr
    rw [bruteForceRecursive] at hr
    cases hr
  | succ fuel ih =>
    intro t path cd visited a1 a2 a3 hlast
    have hsymm0 : SymmetricOn t.numPoints t.distanceMatrix := by rw [a1, a2]; exact hsymm
    rw [bruteForceRecursive, bruteForceRecursive,
      ← calculateLowerBound_unique h1 h2 t hsymm0 path visited]
    cases hlb : calculateLowerBound rt1 t path visited with
    | none =>
      refine ⟨rfl, ?_⟩
      intro r hr
      cases hr
    | some lbt =>
      obtain ⟨lb, t1⟩ := lbt
      obtain ⟨s1, s2, s3⟩ := calculateLowerBound_same h1 hlb
      have b1 : t1.numPoints = n := s1.trans a1
      have b2 : t1.distanceMatrix = d := s2.trans a2
      have b3 : t1.nearestNeighbors = rank := s3.trans a3
      simp only []
      by_cases hge : geBest lb t1.bestDistance = true
      · rw [if_pos hge, if_pos hge]
        refine ⟨rfl, ?_⟩
        intro r hr
        cases hr
        exact ⟨b1, b2, b3⟩
      · rw [if_neg hge, if_neg hge]
        by_cases hlen : path.length = t1.numPoints
        · rw [if_pos hlen, if_pos hlen]
          refine ⟨rfl, ?_⟩
          intro r hr
          split at hr
          · cases hr
            exact ⟨b1, b2, b3⟩
          · cases hr
            exact ⟨b1, b2, b3⟩
        · rw [if_neg hlen, if_neg hlen]
          have hrank1 : ∀ row ∈ t1.nearestNeighbors, ∀ x ∈ row, x < t1.numPoints := by
            rw [b1, b3]
            exact hrank
          have hmem : ∀ c ∈ pointsToTryOf t1 (path.getLastD 0) visited, c < n := by
            intro c hc
            rw [mem_pointsToTryOf hrank1] at hc
            rw [← b1]
            exact (mem_unvisitedOf.1 hc).1
          have hsort : rt1.sortSlice (t1.distanceMatrix (path.getLastD 0))
              (pointsToTryOf t1 (path.getLastD 0) visited)
              = rt2.sortSlice (t1.distanceMatrix (path.getLastD 0))
                (pointsToTryOf t1 (path.getLastD 0) visited) := by
            apply sortSlice_unique h1 h2
            intro a ha b hb hab
            rw [b2] at hab
            exact htf _ a b hlast (hmem a ha) (hmem b hb) hab
          rw [← hsort]
          exact tryPoints_unique (bruteForceRecursive rt1 fuel) (bruteForceRecursive rt2 fuel)
            ih path cd (path.getLastD 0) _
            (fun c hc => hmem c ((h1.sortSlice_perm _ _).subset hc)) (t1, visited) b1 b2 b3

/-! ### The entry points -/

theorem V1.bruteForce_unique {rt1 rt2 : Runtime} (h1 : rt1.Valid) (h2 : rt2.Valid)
    (t : TSPSolver) (hsymm : SymmetricOn t.numPoints t.distanceMatrix)
    (htf : TieFree t.numPoints t.distanceMatrix)
    (hrank : ∀ row ∈ t.nearestNeighbors, ∀ x ∈ row, x < t.numPoints) :
    V1.bruteForce rt1 t = V1.bruteForce rt2 t := by
  rw [V1.bruteForce, V1.bruteForce]
  simp only []
  rw [V1.multiStartGreedy_unique h1 h2
    { t with bestPath := [], bestDistance := none, visitedCount := 0, mstCache := [] } htf]
  cases V1.multiStartGreedy rt2
      { t with bestPath := [], bestDistance := none, visitedCount := 0, mstCache := [] } with
  | none => rfl
  | some g =>
    obtain ⟨gp, gd⟩ := g
    simp only []
    by_cases hn : t.numPoints = 0
    · rw [if_pos hn, if_pos hn]
    · rw [if_neg hn, if_neg hn]
      have := (bruteForceRecursive_unique h1 h2 hsymm htf hrank (t.numPoints + 1)
        { t with bestPath := gp, bestDistance := gd, visitedCount := 0, mstCache := [] } [0] 0
        ((List.replicate t.numPoints false).set 0 true) rfl rfl rfl
        (by simp only [List.getLastD_cons, List.getLastD_nil]; omega)).1
      rw [this]

theorem V2.adaptiveLoop_unique {rt1 rt2 : Runtime} (h1 : rt1.Valid) (h2 : rt2.Valid)
    {n : Nat} {d : Nat → Nat → ℚ} (hsymm : SymmetricOn n d) (htf : TieFree n d)
    {rank : List (List Nat)} (hrank : ∀ row ∈ rank, ∀ x ∈ row, x < n)
    (greedyPath : List Nat) (greedyDist step : ℚ) :
    ∀ (left : Nat) (t : TSPSolver) (thr : ℚ) (bestPath : List Nat) (bestDist : ℚ)
      (foundAny : Bool),
      t.numPoints = n → t.distanceMatrix = d → t.nearestNeighbors = rank →
      V2.adaptiveLoop rt1 greedyPath greedyDist step left t thr bestPath bestDist foundAny
        = V2.adaptiveLoop rt2 greedyPath greedyDist step left t thr bestPath bestDist
            foundAny := by
  intro left
  induction left with
  | zero => intro t thr bestPath bestDist foundAny _ _ _; rfl
  | succ left ih =>
    intro t thr bestPath bestDist foundAny a1 a2 a3
    rw [V2.adaptiveLoop, V2.adaptiveLoop]
    simp only []
    by_cases hn : t.numPoints = 0
    · rw [if_pos hn, if_pos hn]
    · rw [if_neg hn, if_neg hn]
      obtain ⟨e, hframe⟩ := bruteForceRecursive_unique h1 h2 hsymm htf hrank (t.numPoints + 1)
        { t with bestPath := [], bestDistance := some thr, visitedCount := 0, mstCache := [] }
        [0] 0 ((List.replicate t.numPoints false).set 0 true) a1 a2 a3
        (by simp only [List.getLastD_cons, List.getLastD_nil]; omega)
      rw [← e]
      cases hrec : bruteForceRecursive rt1 (t.numPoints + 1)
          { t with bestPath := [], bestDistance := some thr, visitedCount := 0, mstCache := [] }
          [0] 0 ((List.replicate t.numPoints false).set 0 true) with
      | none => rfl
      | some r =>
        obtain ⟨t2, v2⟩ := r
        obtain ⟨b1, b2, b3⟩ := hframe (t2, v2) hrec
        simp only []
        rw [ih t2 _ _ _ _ b1 b2 b3, ih t2 _ _ _ _ b1 b2 b3]

theorem V2.adaptiveSearch_unique {rt1 rt2 : Runtime} (h1 : rt1.Valid) (h2 : rt2.Valid)
    (t : TSPSolver) (hsymm : SymmetricOn t.numPoints t.distanceMatrix)
    (htf : TieFree t.numPoints t.distanceMatrix)
    (hrank : ∀ row ∈ t.nearestNeighbors, ∀ x ∈ row, x < t.numPoints) :
    V2.adaptiveSearch rt1 t = V2.adaptiveSearch rt2 t := by
  rw [V2.adaptiveSearch, V2.adaptiveSearch, V2.multiStartGreedy_twoOpt_unique h1 h2 t htf]
  cases V2.multiStartGreedy rt2 t with
  | none => rfl
  | some g =>
    obtain ⟨gp, gd⟩ := g
    exact V2.adaptiveLoop_unique h1 h2 hsymm htf hrank gp gd _ 200 t _ gp gd false rfl rfl rfl

theorem gapMatrix_tieFree : TieFree 4 gapMatrix := by
  intro i j k hi hj hk
  interval_cases i <;> interval_cases j <;> interval_cases k <;>
    first
    | exact fun _ => rfl
    | exact fun h => absurd h (by decide!)

/-! ## The size of the search space -/

theorem calculateTotalPermutations_small (n : Int) (h : n ≤ 1) :
    calculateTotalPermutations n = 1 := by
  simp [calculateTotalPermutations, h]

theorem calculateTotalPermutations_large (n : Int) (h : 20 < n) :
    calculateTotalPermutations n = maxInt64 := by
  have h1 : ¬ n ≤ 1 := by omega
  simp [calculateTotalPermutations, h1, h]

theorem calculateTotalPermutations_mid (n : Int) (h2 : 2 ≤ n) (h20 : n ≤ 20) :
    calculateTotalPermutations n = (n.toNat.factorial : Int) ∧
      (n.toNat.factorial : Int) ≤ maxInt64 := by
  interval_cases n <;> exact ⟨by decide, by decide⟩

/-! ## The distance matrix as a slice of rows -/

theorem setEntry_dims {n : Nat} {m : List (List ℚ)}
    (hm : m.length = n ∧ ∀ row ∈ m, row.length = n) (i j : Nat) (v : ℚ) :
    (setEntry m i j v).length = n ∧ ∀ row ∈ setEntry m i j v, row.length = n := by
  refine ⟨by simp [setEntry, hm.1], ?_⟩
  intro row hrow
  rcases List.mem_or_eq_of_mem_set hrow with h | h
  · exact hm.2 row h
  · by_cases hi : i < m.length
    · rw [h, List.length_set, List.getD_eq_getElem _ _ hi]
      exact hm.2 _ (List.getElem_mem _)
    · have : setEntry m i j v = m := by
        simp only [setEntry]
        exact List.set_eq_of_length_le (by omega)
      rw [this] at hrow
      exact hm.2 row hrow

theorem matrixOf_setEntry {n : Nat} {m : List (List ℚ)}
    (hm : m.length = n ∧ ∀ row ∈ m, row.length = n) {i j : Nat} (hi : i < n) (hj : j < n)
    (v : ℚ) (a b : Nat) :
    matrixOf (setEntry m i j v) a b = if a = i ∧ b = j then v else matrixOf m a b := by
  have hi' : i < m.length := by rw [hm.1]; exact hi
  have hrow : (m.getD i []).length = n := by
    rw [List.getD_eq_getElem _ _ hi']
    exact hm.2 _ (List.getElem_mem _)
  simp only [matrixOf, setEntry, List.getD_eq_getElem?_getD, List.getElem?_set]
  by_cases ha : i = a
  · subst ha
    simp only [hi', if_true, true_and, Option.getD_some]
    by_cases hb : j = b
    · subst hb
      rw [List.getD_eq_getElem?_getD] at hrow
      simp [hrow, hj]
    · have hb' : ¬ b = j := fun h => hb h.symm
      simp [hb, hb']
  · have ha' : ¬ a = i := fun h => ha h.symm
    simp [ha, ha']

/-- The inner loop of `calculateDistanceMatrix` for the row `i`. -/
theorem fillRow_spec (E : Nat → Nat → ℚ) {n i : Nat} (hi : i < n) :
    ∀ (js : List Nat), (∀ j ∈ js, j < n ∧ i < j) →
    ∀ (m : List (List ℚ)), (m.length = n ∧ ∀ row ∈ m, row.length = n) →
      ((js.foldl (fun matrix j => setEntry (setEntry matrix i j (E i j)) j i (E i j)) m).length
          = n ∧
        ∀ row ∈ js.foldl (fun matrix j => setEntry (setEntry matrix i j (E i j)) j i (E i j)) m,
          row.length = n) ∧
      ∀ a b, matrixOf
          (js.foldl (fun matrix j => setEntry (setEntry matrix i j (E i j)) j i (E i j)) m) a b
        = if a = i ∧ b ∈ js then E i b else if b = i ∧ a ∈ js then E i a else matrixOf m a b := by
  intro js
  induction js with
  | nil =>
    intro _ m hm
    exact ⟨hm, fun a b => by simp⟩
  | cons j js ih =>
    intro hjs m hm
    obtain ⟨hjn, hij⟩ := hjs j (List.mem_cons_self _ _)
    have hm1 := setEntry_dims hm i j (E i j)
    have hm2 := setEntry_dims hm1 j i (E i j)
    obtain ⟨hd, hv⟩ := ih (fun x hx => hjs x (List.mem_cons_of_mem _ hx)) _ hm2
    refine ⟨by simpa only [List.foldl_cons] using hd, ?_⟩
    intro a b
    rw [List.foldl_cons, hv a b, matrixOf_setEntry hm1 hjn hi, matrixOf_setEntry hm hi hjn]
    by_cases h1 : a = i
    · subst h1
      by_cases h2 : b ∈ js
      · simp [h2]
      · by_cases h3 : b = j
        · subst h3
          have h4 : ¬ a = b := by omega
          have h5 : ¬ b = a := by omega
          simp [h2, h4, h5]
        · have h4 : ¬ (b = a ∧ a ∈ js) := by
            rintro ⟨_, h⟩
            have := (hjs a (List.mem_cons_of_mem _ h)).2
            omega
          have h5 : ¬ (b = a ∧ (a = j ∨ a ∈ js)) := by
            rintro ⟨_, h⟩
            rcases h with h | h
            · omega
            · exact h4 ⟨by assumption, h⟩
          have h6 : ¬ a = j := by omega
          simp [h2, h3, h4, h5, h6]
    · by_cases h2 : b = i
      · subst h2
        by_cases h3 : a ∈ js
        · simp [h1, h3]
        · by_cases h4 : a = j
          · subst h4
            simp [h1, h3]
          · simp [h1, h3, h4]
      · simp [h1, h2]

/-- The outer loop of `calculateDistanceMatrix` over the rows `is`. -/
theorem fillRows_spec (E : Nat → Nat → ℚ) (n : Nat) :
    ∀ (is : List Nat), (∀ i ∈ is, i < n) →
    ∀ (m : List (List ℚ)), (m.length = n ∧ ∀ row ∈ m, row.length = n) →
      ((is.foldl (fun matrix i => (List.range' (i + 1) (n - (i + 1))).foldl
          (fun matrix j => setEntry (setEntry matrix i j (E i j)) j i (E i j)) matrix) m).length
          = n ∧
        ∀ row ∈ is.foldl (fun matrix i => (List.range' (i + 1) (n - (i + 1))).foldl
          (fun matrix j => setEntry (setEntry matrix i j (E i j)) j i (E i j)) matrix) m,
          row.length = n) ∧
      ∀ a b, matrixOf
          (is.foldl (fun matrix i => (List.range' (i + 1) (n - (i + 1))).foldl
            (fun matrix j => setEntry (setEntry matrix i j (E i j)) j i (E i j)) matrix) m) a b
        = if a ∈ is ∧ a < b ∧ b < n then E a b
          else if b ∈ is ∧ b < a ∧ a < n then E b a else matrixOf m a b := by
  intro is
  induction is with
  | nil =>
    intro _ m hm
    exact ⟨hm, fun a b => by simp⟩
  | cons i is ih =>
    intro his m hm
    have hi : i < n := his i (List.mem_cons_self _ _)
    have hjs : ∀ j ∈ List.range' (i + 1) (n - (i + 1)), j < n ∧ i < j := by
      intro j hj
      rw [List.mem_range'_1] at hj
      omega
    obtain ⟨hm1, hv1⟩ := fillRow_spec E hi _ hjs m hm
    obtain ⟨hd, hv⟩ := ih (fun x hx => his x (List.mem_cons_of_mem _ hx)) _ hm1
    refine ⟨by simpa only [List.foldl_cons] using hd, ?_⟩
    intro a b
    rw [List.foldl_cons, hv a b, hv1 a b]
    have hmem : ∀ x, x ∈ List.range' (i + 1) (n - (i + 1)) ↔ i < x ∧ x < n := by
      intro x
      rw [List.mem_range'_1]
      omega
    simp only [hmem, List.mem_cons]
    by_cases h1 : a ∈ is ∧ a < b ∧ b < n
    · have h2 : (a = i ∨ a ∈ is) ∧ a < b ∧ b < n := ⟨Or.inr h1.1, h1.2⟩
      rw [if_pos h1, if_pos h2]
    · rw [if_neg h1]
      by_cases h3 : b ∈ is ∧ b < a ∧ a < n
      · have h4 : ¬ ((a = i ∨ a ∈ is) ∧ a < b ∧ b < n) := by
          rintro ⟨_, h, _⟩
          omega
        have h5 : (b = i ∨ b ∈ is) ∧ b < a ∧ a < n := ⟨Or.inr h3.1, h3.2⟩
        rw [if_pos h3, if_neg h4, if_pos h5]
      · rw [if_neg h3]
        by_cases h6 : a = i ∧ i < b ∧ b < n
        · have h7 : (a = i ∨ a ∈ is) ∧ a < b ∧ b < n :=
            ⟨Or.inl h6.1, by rw [h6.1]; exact h6.2⟩
          rw [if_pos h6, if_pos h7, h6.1]
        · have h7 : ¬ ((a = i ∨ a ∈ is) ∧ a < b ∧ b < n) := by
            rintro ⟨h | h, h8, h9⟩
            · exact h6 ⟨h, by rw [← h]; exact h8, h9⟩
            · exact h1 ⟨h, h8, h9⟩
          rw [if_neg h6, if_neg h7]
          by_cases h8 : b = i ∧ i < a ∧ a < n
          · have h9 : (b = i ∨ b ∈ is) ∧ b < a ∧ a < n :=
              ⟨Or.inl h8.1, by rw [h8.1]; exact h8.2⟩
            rw [if_pos h8, if_pos h9, h8.1]
          · have h9 : ¬ ((b = i ∨ b ∈ is) ∧ b < a ∧ a < n) := by
              rintro ⟨h | h, h10, h11⟩
              · exact h8 ⟨h, by rw [← h]; exact h10, h11⟩
              · exact h3 ⟨h, h10, h11⟩
            rw [if_neg h8, if_neg h9]

theorem matrixOf_replicate (n : Nat) (a b : Nat) :
    matrixOf (List.replicate n (List.replicate n 0)) a b = 0 := by
  simp only [matrixOf, List.getD_eq_getElem?_getD, List.getElem?_replicate]
  by_cases ha : a < n
  · by_cases hb : b < n
    · simp [ha, hb]
    · simp [ha, hb]
  · simp [ha]

/-- The rows that the loops of `calculateDistanceMatrix` build form a square
matrix whose lookup function is `calculateDistanceMatrix`. -/
theorem calculateDistanceMatrixRows_spec (sqrt : ℚ → ℚ) (points : List Point) :
    (calculateDistanceMatrixRows sqrt points).length = points.length ∧
      (∀ row ∈ calculateDistanceMatrixRows sqrt points, row.length = points.length) ∧
      ∀ a b, matrixOf (calculateDistanceMatrixRows sqrt points) a b
        = calculateDistanceMatrix sqrt points a b := by
  have hm0 : (List.replicate points.length (List.replicate points.length (0 : ℚ))).length
        = points.length ∧
      ∀ row ∈ List.replicate points.length (List.replicate points.length (0 : ℚ)),
        row.length = points.length := by
    refine ⟨List.length_replicate _ _, ?_⟩
    intro row hrow
    rw [List.eq_of_mem_replicate hrow, List.length_replicate]
  obtain ⟨hd, hv⟩ := fillRows_spec
    (fun i j => sqrt (((points.getD i ⟨0, 0⟩).X - (points.getD j ⟨0, 0⟩).X) *
        ((points.getD i ⟨0, 0⟩).X - (points.getD j ⟨0, 0⟩).X) +
      ((points.getD i ⟨0, 0⟩).Y - (points.getD j ⟨0, 0⟩).Y) *
        ((points.getD i ⟨0, 0⟩).Y - (points.getD j ⟨0, 0⟩).Y)))
    points.length (List.range points.length) (fun i hi => List.mem_range.1 hi) _ hm0
  refine ⟨hd.1, hd.2, ?_⟩
  intro a b
  have := hv a b
  simp only [calculateDistanceMatrixRows]
  rw [this, matrixOf_replicate]
  simp only [calculateDistanceMatrix, List.mem_range]
  by_cases h1 : a < b ∧ b < points.length
  · have h2 : a < points.length ∧ a < b ∧ b < points.length := ⟨by omega, h1⟩
    rw [if_pos h1, if_pos h2]
  · have h2 : ¬ (a < points.length ∧ a < b ∧ b < points.length) := fun h => h1 h.2
    rw [if_neg h1, if_neg h2]
    by_cases h3 : b < a ∧ a < points.length
    · have h4 : b < points.length ∧ b < a ∧ a < points.length := ⟨by omega, h3⟩
      rw [if_pos h3, if_pos h4]
    · have h4 : ¬ (b < points.length ∧ b < a ∧ a < points.length) := fun h => h3 h.2
      rw [if_neg h3, if_neg h4]

/-! ## The distance matrix: symmetry, diagonal, sign -/

theorem calculateDistanceMatrix_symm (sqrt : ℚ → ℚ) (points : List Point) (a b : Nat) :
    calculateDistanceMatrix sqrt points a b = calculateDistanceMatrix sqrt points b a := by
  simp only [calculateDistanceMatrix]
  by_cases h1 : a < b ∧ b < points.length
  · have h2 : ¬ (b < a ∧ a < points.length) := by omega
    rw [if_pos h1, if_neg h2, if_pos h1]
  · rw [if_neg h1]
    by_cases h3 : b < a ∧ a < points.length
    · rw [if_pos h3, if_pos h3]
    · rw [if_neg h3, if_neg h3, if_neg h1]

theorem calculateDistanceMatrix_diag (sqrt : ℚ → ℚ) (points : List Point) (a : Nat) :
    calculateDistanceMatrix sqrt points a a = 0 := by
  simp [calculateDistanceMatrix]

theorem calculateDistanceMatrix_nonneg (sqrt : ℚ → ℚ) (hsqrt : ∀ x, 0 ≤ x → 0 ≤ sqrt x)
    (points : List Point) (a b : Nat) : 0 ≤ calculateDistanceMatrix sqrt points a b := by
  simp only [calculateDistanceMatrix]
  split_ifs
  · exact hsqrt _ (add_nonneg (mul_self_nonneg _) (mul_self_nonneg _))
  · exact hsqrt _ (add_nonneg (mul_self_nonneg _) (mul_self_nonneg _))
  · exact le_refl 0

/-! ## Union-find: the partition along any sequence of calls -/

/-- The parent slice after `Find`: an entry either is what it was or has become
the root of its index (path compression). -/
theorem UnionFind.FindDepth_parent {uf : UnionFind} (hI : uf.Inv) :
    ∀ (fuel x : Nat), x < uf.parent.length →
      uf.rank.foldr max 0 < fuel + uf.rank.getD x 0 →
      ∀ uf1 r, uf.FindDepth fuel x = some (uf1, r) →
      ∀ a, uf1.parent[a]? = uf.parent[a]? ∨
        ∃ s, uf.RootOf a s ∧ uf1.parent[a]? = some s := by
  intro fuel
  induction fuel with
  | zero =>
    intro x _ h
    have := le_foldr_max uf.rank x
    omega
  | succ fuel ih =>
    intro x hx hfuel uf1 r hres a
    obtain ⟨p, hp⟩ : ∃ p, uf.parent[x]? = some p := ⟨uf.parent[x], List.getElem?_eq_getElem hx⟩
    by_cases hpx : p = x
    · have : uf.FindDepth (fuel + 1) x = some (uf, p) := by
        simp [UnionFind.FindDepth, hp, hpx]
      rw [this] at hres
      cases hres
      exact Or.inl rfl
    · have hplt := hI.parent_lt x p hp
      have hrk := hI.rank_lt x p hp hpx
      obtain ⟨uf2, r2, hfind, hroot, _, _, hlen2, _⟩ :=
        UnionFind.FindDepth_spec hI fuel p hplt (by omega)
      have hxr : uf.RootOf x r2 := UnionFind.RootOf.step hp hpx hroot
      have : uf.FindDepth (fuel + 1) x
          = some ({ uf2 with parent := uf2.parent.set x r2 }, r2) := by
        simp [UnionFind.FindDepth, hp, hpx, hfind]
      rw [this] at hres
      cases hres
      simp only
      rw [getElem?_set_eq_ite _ _ _ _ (by rw [hlen2]; exact hx)]
      by_cases hxa : x = a
      · rw [if_pos hxa]
        exact Or.inr ⟨r, hxa ▸ hxr, rfl⟩
      · rw [if_neg hxa]
        exact ih p hplt (by omega) uf2 r hfind a

theorem UnionFind.Find_parent {uf : UnionFind} (hI : uf.Inv) {x : Nat}
    (hx : x < uf.parent.length) {uf1 : UnionFind} {r : Nat}
    (h : uf.Find x = some (uf1, r)) (a : Nat) :
    uf1.parent[a]? = uf.parent[a]? ∨ ∃ s, uf.RootOf a s ∧ uf1.parent[a]? = some s :=
  UnionFind.FindDepth_parent hI _ x hx (by omega) uf1 r h a

/-- Every structure that arises from `NewUnionFind k` is well formed and has
`k` entries. -/
theorem UnionFind.Reachable.inv {k : Nat} {uf : UnionFind} (h : UnionFind.Reachable k uf) :
    uf.Inv ∧ uf.parent.length = k := by
  induction h with
  | init => exact ⟨NewUnionFind_inv k, NewUnionFind_length k⟩
  | find _ hx hfind ih =>
    obtain ⟨hI, hlen⟩ := ih
    obtain ⟨uf2, r2, hfind2, _, hI2, _, hlen2, _⟩ :=
      UnionFind.Find_spec hI (show _ < _ by rw [hlen]; exact hx)
    rw [hfind] at hfind2
    cases hfind2
    exact ⟨hI2, hlen2.trans hlen⟩
  | union _ hx hy hunion ih =>
    obtain ⟨hI, hlen⟩ := ih
    obtain ⟨uf2, hunion2, hI2, hlen2, _⟩ :=
      UnionFind.Union_spec hI (show _ < _ by rw [hlen]; exact hx)
        (show _ < _ by rw [hlen]; exact hy)
    rw [hunion] at hunion2
    cases hunion2
    exact ⟨hI2, hlen2.trans hlen⟩

/-- The comparison of two `Find` results decides whether the two indices have
the same root. -/
theorem UnionFind.sameSet_spec {uf : UnionFind} (hI : uf.Inv) {a b : Nat}
    (ha : a < uf.parent.length) (hb : b < uf.parent.length) :
    ∃ v, uf.sameSet a b = some v ∧ (v = true ↔ uf.Conn a b) := by
  obtain ⟨uf1, ra, hfa, hra, hI1, _, hlen1, hroots1⟩ := UnionFind.Find_spec hI ha
  obtain ⟨uf2, rb, hfb, hrb, _⟩ := UnionFind.Find_spec hI1 (show b < _ by rw [hlen1]; exact hb)
  have hrb0 : uf.RootOf b rb := (hroots1 b rb).1 hrb
  refine ⟨decide (ra = rb), by simp [UnionFind.sameSet, hfa, hfb], ?_⟩
  rw [decide_eq_true_iff]
  constructor
  · intro h
    exact ⟨ra, hra, h ▸ hrb0⟩
  · rintro ⟨r, h1, h2⟩
    rw [hra.unique h1, hrb0.unique h2]

theorem UnionFind.sameSet_iff {uf : UnionFind} (hI : uf.Inv) {a b : Nat}
    (ha : a < uf.parent.length) (hb : b < uf.parent.length) :
    uf.sameSet a b = some true ↔ uf.Conn a b := by
  obtain ⟨v, hv, hiff⟩ := UnionFind.sameSet_spec hI ha hb
  rw [hv, ← hiff]
  simp

theorem UnionFind.sameSet_congr {uf uf1 : UnionFind} (hI : uf.Inv) (hI1 : uf1.Inv)
    (hlen : uf1.parent.length = uf.parent.length)
    (h : ∀ a b, uf1.Conn a b ↔ uf.Conn a b) {a b : Nat}
    (ha : a < uf.parent.length) (hb : b < uf.parent.length) :
    uf1.sameSet a b = uf.sameSet a b := by
  obtain ⟨v, hv, hiff⟩ := UnionFind.sameSet_spec hI ha hb
  obtain ⟨v1, hv1, hiff1⟩ := UnionFind.sameSet_spec hI1 (show a < _ by rw [hlen]; exact ha)
    (show b < _ by rw [hlen]; exact hb)
  rw [hv, hv1]
  congr 1
  rw [Bool.eq_iff_iff, hiff, hiff1]
  exact h a b

/-- On a root, `Find` returns the root itself. -/
theorem UnionFind.Find_root {uf : UnionFind} (hI : uf.Inv) {x r : Nat} (h : uf.RootOf x r) :
    ∃ uf1, uf.Find r = some (uf1, r) := by
  obtain ⟨uf1, r1, hfind, hr1, _⟩ := UnionFind.Find_spec hI h.root_lt
  have : r1 = r := hr1.unique (UnionFind.RootOf.self_of_root h.is_root)
  exact ⟨uf1, by rw [hfind, this]⟩

/-! ## Branch and bound on an arbitrary matrix: the run and the incumbent -/

/-- The lower bound returns on every matrix, and changes nothing but the cache. -/
theorem calculateLowerBound_frame (rt : Runtime) (hrt : rt.Valid) (t : TSPSolver)
    (path : List Nat) (visited : List Bool) :
    ∃ lb t1, calculateLowerBound rt t path visited = some (lb, t1) ∧ SameProblem t t1 ∧
      t1.bestPath = t.bestPath ∧ t1.bestDistance = t.bestDistance ∧
      t1.visitedCount = t.visitedCount ∧
      (unvisitedOf t.numPoints visited = [] →
        lb = sumConsecutive t.distanceMatrix 0 path +
          t.distanceMatrix (path.getLastD 0) (path.headD 0)) := by
  unfold calculateLowerBound
  simp only []
  by_cases hU : (unvisitedOf t.numPoints visited).length = 0
  · rw [if_pos hU]
    exact ⟨_, t, rfl, SameProblem.refl t, rfl, rfl, rfl, fun _ => rfl⟩
  · rw [if_neg hU]
    obtain ⟨v, t2, hcall, a1, a2, a3, a4, a5, a6, _⟩ :=
      calculateMSTKruskal_spec rt hrt t (unvisitedOf t.numPoints visited)
    rw [hcall]
    refine ⟨_, t2, rfl, ⟨a1, a2, a6⟩, a3, a4, a5, ?_⟩
    intro h
    rw [h] at hU
    exact absurd rfl hU

theorem Improves.nothing (off : ℚ) (t : TSPSolver) (Src : List Nat → Prop) :
    Improves off t t Src :=
  ⟨SameProblem.refl t, fun _ h => h, Or.inl ⟨rfl, rfl⟩⟩

theorem Improves.chain {off : ℚ} {t t1 t2 : TSPSolver} {S : List Nat → Prop}
    (h1 : Improves off t t1 S) (h2 : Improves off t1 t2 S) : Improves off t t2 S := by
  obtain ⟨_, hd, _⟩ := h1.same
  refine ⟨h1.same.trans_same h2.same, fun x hx => h2.mono x (h1.mono x hx), ?_⟩
  rcases h2.incumbent with ⟨e1, e2⟩ | ⟨s1, s2, s3⟩
  · rcases h1.incumbent with ⟨f1, f2⟩ | ⟨r1, r2, r3⟩
    · exact Or.inl ⟨e1.trans f1, e2.trans f2⟩
    · refine Or.inr ⟨by rw [e2]; exact r1, by rw [e1, e2]; exact r2, by rw [e2]; exact r3⟩
  · rw [hd] at s2 s3
    exact Or.inr ⟨s1, s2, fun hb => s3 (h1.mono _ hb)⟩

theorem Improves.widen {off : ℚ} {t t1 : TSPSolver} {S S2 : List Nat → Prop}
    (h : Improves off t t1 S) (hS : ∀ q, S q → S2 q) : Improves off t t1 S2 := by
  refine ⟨h.same, h.mono, ?_⟩
  rcases h.incumbent with h1 | ⟨s1, s2, s3⟩
  · exact Or.inl h1
  · exact Or.inr ⟨hS _ s1, s2, s3⟩

/-- The loop over the candidates on an arbitrary matrix, given what the
recursive calls do: every iteration returns with `visited` as it was. -/
theorem tryPoints_run (rt : Runtime) (fuel : Nat) (n : Nat) (d : Nat → Nat → ℚ) (off : ℚ)
    (path : List Nat) (visited : List Bool) (hp : path ≠ []) (hnd : path.Nodup)
    (hlt : ∀ x ∈ path, x < n) (hm : Marks n visited path) (hfuel : n < fuel + 1 + path.length)
    (ih : ∀ (t : TSPSolver) (path : List Nat) (visited : List Bool),
      (∀ row ∈ t.nearestNeighbors, ∀ x ∈ row, x < t.numPoints) →
      path ≠ [] → path.Nodup → (∀ x ∈ path, x < t.numPoints) →
      Marks t.numPoints visited path → t.numPoints < fuel + path.length →
      ∃ t1, bruteForceRecursive rt fuel t path
          (off + sumConsecutive t.distanceMatrix 0 path) visited = some (t1, visited) ∧
        Improves off t t1 (Extends t.numPoints path)) :
    ∀ (cands : List Nat), (∀ c ∈ cands, c < n ∧ c ∉ path) →
    ∀ (ts : TSPSolver), (∀ row ∈ ts.nearestNeighbors, ∀ x ∈ row, x < ts.numPoints) →
      ts.numPoints = n → ts.distanceMatrix = d →
      ∃ t1, cands.foldlM (tryPoint (bruteForceRecursive rt fuel) path
          (off + sumConsecutive d 0 path) (path.getLastD 0)) (ts, visited)
            = some (t1, visited) ∧
        Improves off ts t1 (Extends n path) := by
  intro cands
  induction cands with
  | nil =>
    intro _ ts _ _ _
    exact ⟨ts, rfl, Improves.nothing off ts _⟩
  | cons c cs ihc =>
    intro hc ts hrank hn hd
    obtain ⟨hcn, hcp⟩ := hc c (List.mem_cons_self _ _)
    have hcs : ∀ x ∈ cs, x < n ∧ x ∉ path := fun x hx => hc x (List.mem_cons_of_mem _ hx)
    have hnew : off + sumConsecutive d 0 path + ts.distanceMatrix (path.getLastD 0) c
        = off + sumConsecutive ts.distanceMatrix 0 (path ++ [c]) := by
      rw [hd, sumConsecutive_append_singleton d path hp c, add_assoc]
    have hextend : ∀ q, Extends n (path ++ [c]) q → Extends n path q := by
      rintro q ⟨rest, hq, htour⟩
      exact ⟨c :: rest, by rw [hq, List.append_assoc]; rfl, htour⟩
    have hstep : ∃ t2, tryPoint (bruteForceRecursive rt fuel) path
          (off + sumConsecutive d 0 path) (path.getLastD 0) (ts, visited) c
            = some (t2, visited) ∧
        Improves off ts t2 (Extends n path) := by
      by_cases hge : geBest (off + sumConsecutive d 0 path +
          ts.distanceMatrix (path.getLastD 0) c) ts.bestDistance = true
      · exact ⟨ts, by simp only [tryPoint]; rw [if_pos hge], Improves.nothing off ts _⟩
      · have hnd' : (path ++ [c]).Nodup := by
          rw [List.nodup_append]
          refine ⟨hnd, List.nodup_singleton c, ?_⟩
          intro x hx hx'
          rw [List.mem_singleton.1 hx'] at hx
          exact hcp hx
        have hlt' : ∀ x ∈ path ++ [c], x < ts.numPoints := by
          intro x hx
          rw [hn]
          rcases List.mem_append.1 hx with h | h
          · exact hlt x h
          · rw [List.mem_singleton.1 h]; exact hcn
        obtain ⟨t2, hrec, hres⟩ := ih ts (path ++ [c]) (visited.set c true) hrank (by simp)
          hnd' hlt' (by rw [hn]; exact hm.extend hcn)
          (by rw [hn, List.length_append, List.length_singleton]; omega)
        have hvis : visited.getD c false = false := by
          cases hv : visited.getD c false with
          | false => rfl
          | true => exact absurd ((hm.2 c hcn).1 hv) hcp
        refine ⟨t2, ?_, ?_⟩
        · simp only [tryPoint]
          rw [if_neg hge, hnew, hrec]
          simp only []
          rw [set_set_visited visited c (by rw [hm.1]; exact hcn) hvis]
        · rw [hn] at hres
          exact hres.widen hextend
    obtain ⟨t2, hstep2, hres2⟩ := hstep
    have hrank2 : ∀ row ∈ t2.nearestNeighbors, ∀ x ∈ row, x < t2.numPoints := by
      rw [hres2.same.1, hres2.same.2.2]
      exact hrank
    obtain ⟨t3, hfold, hres3⟩ := ihc hcs t2 hrank2 (hres2.same.1.trans hn)
      (hres2.same.2.1.trans hd)
    refine ⟨t3, ?_, hres2.chain hres3⟩
    rw [List.foldlM_cons, hstep2]
    exact hfold

/-- The search below a path on an arbitrary matrix and for an arbitrary
incumbent: with a depth budget of more than `n - len(path)` it returns, it
hands `visited` back as it received it, the incumbent distance does not grow,
and a changed incumbent is a complete tour through the path that is carried
with its own length, strictly below the incumbent distance at entry. -/
theorem bruteForceRecursive_run (rt : Runtime) (hrt : rt.Valid) (off : ℚ) :
    ∀ (fuel : Nat) (t : TSPSolver) (path : List Nat) (visited : List Bool),
      (∀ row ∈ t.nearestNeighbors, ∀ x ∈ row, x < t.numPoints) →
      path ≠ [] → path.Nodup → (∀ x ∈ path, x < t.numPoints) →
      Marks t.numPoints visited path → t.numPoints < fuel + path.length →
      ∃ t1, bruteForceRecursive rt fuel t path
          (off + sumConsecutive t.distanceMatrix 0 path) visited = some (t1, visited) ∧
        Improves off t t1 (Extends t.numPoints path) := by
  intro fuel
  induction fuel with
  | zero =>
    intro t path visited _ _ hnd hlt _ hfuel
    have := length_le_of_nodup hnd hlt
    omega
  | succ fuel ih =>
    intro t path visited hrank hp hnd hlt hm hfuel
    obtain ⟨lb, t1, hlb, hsame, hbp, hbd, hvc, hempty⟩ :=
      calculateLowerBound_frame rt hrt t path visited
    have hres0 : Improves off t t1 (Extends t.numPoints path) :=
      ⟨hsame, fun x hx => hbd ▸ hx, Or.inl ⟨hbd, hbp⟩⟩
    rw [bruteForceRecursive]
    simp only [hlb]
    by_cases hge : geBest lb t1.bestDistance = true
    · rw [if_pos hge]
      exact ⟨t1, rfl, hres0⟩
    · rw [if_neg hge]
      by_cases hlen : path.length = t1.numPoints
      · rw [if_pos hlen]
        have hlen' : path.length = t.numPoints := hlen.trans hsame.1
        have htour : IsTour t.numPoints path := isTour_of_nodup hnd hlt hlen'
        have hfinal : off + sumConsecutive t.distanceMatrix 0 path +
              t1.distanceMatrix (path.getLastD 0) (path.headD 0)
            = off + tourLength t.distanceMatrix path := by
          rw [hsame.2.1, tourLength, add_assoc]
        simp only [hfinal]
        by_cases hlt2 : ltBest (off + tourLength t.distanceMatrix path) t1.bestDistance = true
        · rw [if_pos hlt2]
          have hnb : ¬ Below t1.bestDistance (off + tourLength t.distanceMatrix path) :=
            (ltBest_eq_true_iff _ _).1 hlt2
          refine ⟨_, rfl, ⟨hsame.1, hsame.2.1, hsame.2.2⟩, ?_, Or.inr ⟨?_, rfl, ?_⟩⟩
          · rintro x ⟨b, hb, hbx⟩
            refine ⟨_, rfl, ?_⟩
            by_contra hcon
            rw [← hbd] at hb
            exact hnb ⟨b, hb, by linarith [lt_of_not_le hcon]⟩
          · exact ⟨[], by simp, htour⟩
          · rw [← hbd]
            exact hnb
        · rw [if_neg hlt2]
          exact ⟨_, rfl, ⟨hsame.1, hsame.2.1, hsame.2.2⟩, fun x hx => hbd ▸ hx,
            Or.inl ⟨hbd, hbp⟩⟩
      · rw [if_neg hlen]
        have hrank1 : ∀ row ∈ t1.nearestNeighbors, ∀ x ∈ row, x < t1.numPoints := by
          rw [hsame.1, hsame.2.2]
          exact hrank
        have hcands : ∀ c ∈ rt.sortSlice (t1.distanceMatrix (path.getLastD 0))
            (pointsToTryOf t1 (path.getLastD 0) visited), c < t.numPoints ∧ c ∉ path := by
          intro c hc
          have h1 := (hrt.sortSlice_perm _ _).subset hc
          rw [mem_pointsToTryOf hrank1, hsame.1] at h1
          exact (mem_unvisitedOf_of_marks hm).1 h1
        obtain ⟨t2, hfold, hres⟩ := tryPoints_run rt fuel t.numPoints t.distanceMatrix off path
          visited hp hnd hlt hm hfuel ih _ hcands t1 hrank1 hsame.1 hsame.2.1
        exact ⟨t2, hfold, hres0.chain hres⟩

/-! ## v2 returns on every matrix -/

theorem V2.multiStartGreedy_total (rt : Runtime) (hrt : rt.Valid) (t : TSPSolver)
    (hn : 0 < t.numPoints) :
    ∃ path dist, V2.multiStartGreedy rt t = some (path, dist) := by
  obtain ⟨res, hres, hprop⟩ := V2.rankedStartLoop_spec rt hrt t
    ((List.range t.numPoints).filter (fun s => s < 5))
    (fun s hs => List.mem_range.1 (List.mem_filter.1 hs).1) ([], none) (Or.inl rfl)
  have htour : IsTour t.numPoints res.1 := by
    rcases hprop with ⟨_, h⟩ | h
    · exfalso
      have h0 : 0 ∈ (List.range t.numPoints).filter (fun s => s < 5) :=
        List.mem_filter.2 ⟨List.mem_range.2 hn, by simp⟩
      rw [h] at h0
      cases h0
    · exact h
  have hne : res.1.length ≠ 0 := by
    rw [htour.length_eq]
    omega
  rw [V2.multiStartGreedy, hres]
  simp only [V2.twoOpt, hne, if_false]
  split_ifs
  · exact ⟨_, _, rfl⟩
  · exact ⟨_, _, rfl⟩

/-- A round of the adaptive search returns, whatever the matrix and the
ceiling are. -/
theorem V2.round_total (rt : Runtime) (hrt : rt.Valid) (t : TSPSolver)
    (hn : 0 < t.numPoints)
    (hrank : ∀ row ∈ t.nearestNeighbors, ∀ x ∈ row, x < t.numPoints) (C : ℚ) :
    ∃ t2, bruteForceRecursive rt (t.numPoints + 1)
        { t with bestPath := [], bestDistance := some C, visitedCount := 0, mstCache := [] }
        [0] 0 ((List.replicate t.numPoints false).set 0 true)
        = some (t2, (List.replicate t.numPoints false).set 0 true) ∧
      SameProblem t t2 := by
  obtain ⟨t2, hrun, hres⟩ := bruteForceRecursive_run rt hrt 0 (t.numPoints + 1)
    { t with bestPath := [], bestDistance := some C, visitedCount := 0, mstCache := [] }
    [0] ((List.replicate t.numPoints false).set 0 true) hrank (by simp) (by simp)
    (by simpa using hn) (marks_initial hn)
    (by simp only [List.length_singleton]; omega)
  have h0 : (0 : ℚ) + sumConsecutive t.distanceMatrix 0 [0] = 0 := by
    simp [sumConsecutive]
  simp only [h0] at hrun
  exact ⟨t2, hrun, hres.same⟩

theorem V2.adaptiveLoop_total (rt : Runtime) (hrt : rt.Valid) (gp : List Nat) (G s : ℚ) :
    ∀ (left : Nat) (t : TSPSolver) (C : ℚ) (bp : List Nat) (bd : ℚ) (fa : Bool),
      0 < t.numPoints → (∀ row ∈ t.nearestNeighbors, ∀ x ∈ row, x < t.numPoints) →
      ∃ res, V2.adaptiveLoop rt gp G s left t C bp bd fa = some res := by
  intro left
  induction left with
  | zero =>
    intro t C bp bd fa _ _
    exact ⟨_, rfl⟩
  | succ left ih =>
    intro t C bp bd fa hn hrank
    obtain ⟨t2, hround, hsame⟩ := V2.round_total rt hrt t hn hrank C
    have hn2 : 0 < t2.numPoints := by rw [hsame.1]; exact hn
    have hrank2 : ∀ row ∈ t2.nearestNeighbors, ∀ x ∈ row, x < t2.numPoints := by
      rw [hsame.1, hsame.2.2]
      exact hrank
    have hne : t.numPoints ≠ 0 := by omega
    rw [V2.adaptiveLoop]
    simp only [hne, if_false, hround]
    split_ifs
    · exact ih t2 _ _ _ _ hn2 hrank2
    · exact ⟨_, rfl⟩
    · exact ⟨_, rfl⟩
    · exact ih t2 _ _ _ _ hn2 hrank2

/-- The adaptive search of v2 returns on every matrix with at least one
vertex. -/
theorem V2.adaptiveSearch_total (rt : Runtime) (hrt : rt.Valid) (t : TSPSolver)
    (hn : 0 < t.numPoints)
    (hrank : ∀ row ∈ t.nearestNeighbors, ∀ x ∈ row, x < t.numPoints) :
    ∃ path dist, V2.adaptiveSearch rt t = some (path, dist) := by
  obtain ⟨gp, G, hg⟩ := V2.multiStartGreedy_total rt hrt t hn
  obtain ⟨res, hres⟩ := V2.adaptiveLoop_total rt hrt gp G (7 / 100) 200 t (G * (9 / 10)) gp G
    false hn hrank
  refine ⟨res.1, res.2, ?_⟩
  rw [V2.adaptiveSearch, hg]
  exact hres

/-! ## The candidate list of a call -/

theorem pointsToTry_fold_nodup (visited : List Bool) (l : List Nat) :
    ∀ (init : List Nat), init.Nodup →
      (l.foldl (fun pts i => if !visited.getD i false then
        (if pts.contains i then pts else pts ++ [i]) else pts) init).Nodup := by
  induction l with
  | nil => exact fun _ h => h
  | cons a l ih =>
    intro init hinit
    rw [List.foldl_cons]
    apply ih
    split_ifs with h1 h2
    · exact hinit
    · rw [List.nodup_append]
      refine ⟨hinit, List.nodup_singleton a, ?_⟩
      intro x hx hx'
      rw [List.mem_singleton.1 hx'] at hx
      apply h2
      simpa using hx
    · exact hinit

theorem pointsToTryOf_nodup {t : TSPSolver}
    (hnd : ∀ row ∈ t.nearestNeighbors, row.Nodup) (lastPoint : Nat) (visited : List Bool) :
    (pointsToTryOf t lastPoint visited).Nodup := by
  unfold pointsToTryOf
  apply pointsToTry_fold_nodup
  apply List.Nodup.filter
  by_cases h : lastPoint < t.nearestNeighbors.length
  · rw [List.getD_eq_getElem _ _ h]
    exact hnd _ (List.getElem_mem _)
  · rw [List.getD_eq_default _ _ (by omega)]
    exact List.nodup_nil

/-- The sorted candidate list of a call: every unvisited vertex exactly once,
nothing else, in ascending distance from the last vertex of the path. -/
theorem pointsToTry_spec (rt : Runtime) (hrt : rt.Valid) {t : TSPSolver}
    (hrank : ∀ row ∈ t.nearestNeighbors, ∀ x ∈ row, x < t.numPoints)
    (hnd : ∀ row ∈ t.nearestNeighbors, row.Nodup) (lastPoint : Nat) (visited : List Bool) :
    (rt.sortSlice (t.distanceMatrix lastPoint) (pointsToTryOf t lastPoint visited)).Perm
        (unvisitedOf t.numPoints visited) ∧
      (rt.sortSlice (t.distanceMatrix lastPoint) (pointsToTryOf t lastPoint visited)).Nodup ∧
      (rt.sortSlice (t.distanceMatrix lastPoint) (pointsToTryOf t lastPoint visited)).Pairwise
        (fun a b => t.distanceMatrix lastPoint a ≤ t.distanceMatrix lastPoint b) := by
  have hp := hrt.sortSlice_perm (t.distanceMatrix lastPoint) (pointsToTryOf t lastPoint visited)
  have h1 : (pointsToTryOf t lastPoint visited).Perm (unvisitedOf t.numPoints visited) :=
    (List.perm_ext_iff_of_nodup (pointsToTryOf_nodup hnd lastPoint visited)
      (unvisitedOf_nodup _ _)).2 (fun x => mem_pointsToTryOf hrank lastPoint visited x)
  exact ⟨hp.trans h1, hp.nodup_iff.2 (pointsToTryOf_nodup hnd lastPoint visited),
    hrt.sortSlice_sorted _ _⟩

/-! ## The neighbour ranking -/

theorem precomputeNearestNeighbors_getD (rt : Runtime) (n : Nat) (d : Nat → Nat → ℚ)
    {i : Nat} (hi : i < n) :
    (precomputeNearestNeighbors rt n d).getD i [] =
      if (rt.sortSlice (d i) (List.range n)).length > 10
      then ((rt.sortSlice (d i) (List.range n)).drop 1).take 10
      else (rt.sortSlice (d i) (List.range n)).drop 1 := by
  simp [precomputeNearestNeighbors, List.getD_eq_getElem?_getD, hi]

theorem precomputeNearestNeighbors_nodup (rt : Runtime) (hrt : rt.Valid) (n : Nat)
    (d : Nat → Nat → ℚ) : ∀ row ∈ precomputeNearestNeighbors rt n d, row.Nodup := by
  intro row hrow
  obtain ⟨i, _, rfl⟩ := List.mem_map.1 hrow
  have hnd : (rt.sortSlice (d i) (List.range n)).Nodup :=
    (hrt.sortSlice_perm _ _).nodup_iff.2 (List.nodup_range n)
  simp only
  split
  · exact (List.take_sublist 10 _).nodup ((List.drop_sublist 1 _).nodup hnd)
  · exact (List.drop_sublist 1 _).nodup hnd

/-! ## The neighbour ranking: size, order, and what is left out -/

/-- Both branches of `precomputeNearestNeighbors` keep the entries 1 to 10 of
the sorted slice. -/
theorem precomputeNearestNeighbors_row (rt : Runtime) (hrt : rt.Valid) (n : Nat)
    (d : Nat → Nat → ℚ) {i : Nat} (hi : i < n) :
    (precomputeNearestNeighbors rt n d).getD i [] =
      ((rt.sortSlice (d i) (List.range n)).drop 1).take 10 := by
  rw [precomputeNearestNeighbors_getD rt n d hi]
  have hlen : (rt.sortSlice (d i) (List.range n)).length = n := by
    rw [(hrt.sortSlice_perm _ _).length_eq, List.length_range]
  split_ifs with h
  · rfl
  · rw [List.take_of_length_le]
    rw [List.length_drop, hlen]
    rw [hlen] at h
    omega

/-- Size, entries and order of a row of the ranking, for every matrix. -/
theorem precomputeNearestNeighbors_shape (rt : Runtime) (hrt : rt.Valid) (n : Nat)
    (d : Nat → Nat → ℚ) {i : Nat} (hi : i < n) :
    ((precomputeNearestNeighbors rt n d).getD i []).length = min 10 (n - 1) ∧
      ((precomputeNearestNeighbors rt n d).getD i []).Nodup ∧
      (∀ x ∈ (precomputeNearestNeighbors rt n d).getD i [], x < n) ∧
      ((precomputeNearestNeighbors rt n d).getD i []).Pairwise (fun a b => d i a ≤ d i b) := by
  rw [precomputeNearestNeighbors_row rt hrt n d hi]
  have hperm := hrt.sortSlice_perm (d i) (List.range n)
  have hlen : (rt.sortSlice (d i) (List.range n)).length = n := by
    rw [hperm.length_eq, List.length_range]
  have hsub : (((rt.sortSlice (d i) (List.range n)).drop 1).take 10).Sublist
      (rt.sortSlice (d i) (List.range n)) :=
    (List.take_sublist 10 _).trans (List.drop_sublist 1 _)
  refine ⟨?_, ?_, ?_, ?_⟩
  · rw [List.length_take, List.length_drop, hlen]
  · exact hsub.nodup (hperm.nodup_iff.2 (List.nodup_range n))
  · intro x hx
    exact List.mem_range.1 (hperm.subset (hsub.subset hx))
  · exact (hrt.sortSlice_sorted (d i) (List.range n)).sublist hsub

/-- When the vertex `i` is strictly nearer to itself than every other vertex
is, the sort puts it first: the row does not contain `i`, and every other
vertex that is left out is at least as far as every listed vertex. -/
theorem precomputeNearestNeighbors_nearest (rt : Runtime) (hrt : rt.Valid) (n : Nat)
    (d : Nat → Nat → ℚ) {i : Nat} (hi : i < n)
    (hself : ∀ j, j < n → j ≠ i → d i i < d i j) :
    i ∉ (precomputeNearestNeighbors rt n d).getD i [] ∧
      ∀ j, j < n → j ≠ i → j ∉ (precomputeNearestNeighbors rt n d).getD i [] →
        ∀ x ∈ (precomputeNearestNeighbors rt n d).getD i [], d i x ≤ d i j := by
  rw [precomputeNearestNeighbors_row rt hrt n d hi]
  have hperm := hrt.sortSlice_perm (d i) (List.range n)
  have hsorted := hrt.sortSlice_sorted (d i) (List.range n)
  have hnd : (rt.sortSlice (d i) (List.range n)).Nodup :=
    hperm.nodup_iff.2 (List.nodup_range n)
  have hmem : ∀ x, x ∈ rt.sortSlice (d i) (List.range n) ↔ x < n := by
    intro x
    rw [hperm.mem_iff, List.mem_range]
  revert hsorted hnd hmem
  cases rt.sortSlice (d i) (List.range n) with
  | nil =>
    intro _ _ hmem
    exact absurd ((hmem i).2 hi) (List.not_mem_nil i)
  | cons h tl =>
    intro hsorted hnd hmem
    rw [List.pairwise_cons] at hsorted
    rw [List.nodup_cons] at hnd
    have hh : h = i := by
      by_contra hne
      have hhn : h < n := (hmem h).1 (List.mem_cons_self _ _)
      have hitl : i ∈ tl := by
        rcases List.mem_cons.1 ((hmem i).2 hi) with h1 | h1
        · exact absurd h1.symm hne
        · exact h1
      have h1 := hsorted.1 i hitl
      have h2 := hself h hhn hne
      linarith
    subst hh
    simp only [List.drop_succ_cons, List.drop_zero]
    refine ⟨fun hin => hnd.1 (List.mem_of_mem_take hin), ?_⟩
    intro j hj hji hjrow x hx
    have hjtl : j ∈ tl := by
      rcases List.mem_cons.1 ((hmem j).2 hj) with h1 | h1
      · exact absurd h1 hji
      · exact h1
    have hsplit : tl = tl.take 10 ++ tl.drop 10 := (List.take_append_drop 10 tl).symm
    have hjdrop : j ∈ tl.drop 10 := by
      rw [hsplit] at hjtl
      rcases List.mem_append.1 hjtl with h1 | h1
      · exact absurd h1 hjrow
      · exact h1
    have hpw := hsorted.2
    rw [hsplit, List.pairwise_append] at hpw
    exact hpw.2.2 x hx j hjdrop

/-! ## The greedy construction of v2 -/

/-- The choice of `nextPoint` in v2: an unvisited vertex, and a nearest one
when no unvisited vertex outside the ranking row is nearer than a listed
unvisited one. -/
theorem V2.nextPoint_nearest (rt : Runtime) (hrt : rt.Valid) (t : TSPSolver)
    (path unvisited : List Nat) (hU : unvisited ≠ [])
    (hrow : ∀ u ∈ unvisited, u ∉ t.nearestNeighbors.getD (path.getLastD 0) [] →
      ∀ x ∈ t.nearestNeighbors.getD (path.getLastD 0) [],
        t.distanceMatrix (path.getLastD 0) x ≤ t.distanceMatrix (path.getLastD 0) u) :
    ∀ u ∈ unvisited, t.distanceMatrix (path.getLastD 0) (nextPointOf
      (if (scanNearest t.distanceMatrix (path.getLastD 0)
            ((t.nearestNeighbors.getD (path.getLastD 0) []).filter
              (fun nb => unvisited.contains nb)) none).isNone then
          scanNearest t.distanceMatrix (path.getLastD 0) (rt.mapRange path unvisited)
            (scanNearest t.distanceMatrix (path.getLastD 0)
              ((t.nearestNeighbors.getD (path.getLastD 0) []).filter
                (fun nb => unvisited.contains nb)) none)
        else scanNearest t.distanceMatrix (path.getLastD 0)
            ((t.nearestNeighbors.getD (path.getLastD 0) []).filter
              (fun nb => unvisited.contains nb)) none))
      ≤ t.distanceMatrix (path.getLastD 0) u := by
  have hspec := scanNearest_spec t.distanceMatrix (path.getLastD 0)
    ((t.nearestNeighbors.getD (path.getLastD 0) []).filter (fun nb => unvisited.contains nb)) none
  have hmin := scanNearest_min t.distanceMatrix (path.getLastD 0)
    ((t.nearestNeighbors.getD (path.getLastD 0) []).filter (fun nb => unvisited.contains nb)) none
    (fun _ _ h => by cases h)
  revert hspec hmin
  cases hr : scanNearest t.distanceMatrix (path.getLastD 0)
    ((t.nearestNeighbors.getD (path.getLastD 0) []).filter
      (fun nb => unvisited.contains nb)) none with
  | none =>
    intro _ _ u hu
    simp only [Option.isNone_none, if_true]
    have hkeys : rt.mapRange path unvisited ≠ [] := by
      intro h
      have := (hrt.mapRange_perm path unvisited).length_eq
      rw [h] at this
      simp at this
      exact hU (List.length_eq_zero.1 this.symm)
    have hspec2 := scanNearest_spec t.distanceMatrix (path.getLastD 0)
      (rt.mapRange path unvisited) none
    have hmin2 := scanNearest_min t.distanceMatrix (path.getLastD 0)
      (rt.mapRange path unvisited) none (fun _ _ h => by cases h)
    revert hspec2 hmin2
    cases hr2 : scanNearest t.distanceMatrix (path.getLastD 0)
      (rt.mapRange path unvisited) none with
    | none =>
      intro hspec2 _
      exact absurd hspec2.1 hkeys
    | some pv =>
      obtain ⟨p, v⟩ := pv
      intro _ hmin2
      obtain ⟨hv, _, hall, _⟩ := hmin2 p v rfl
      have := hall u ((hrt.mapRange_perm path unvisited).symm.subset hu)
      rw [hv] at this
      exact this
  | some pv =>
    obtain ⟨p, v⟩ := pv
    intro hspec hmin u hu
    simp only [Option.isNone_some, Bool.false_eq_true, if_false]
    obtain ⟨hv, hp, hall, _⟩ := hmin p v rfl
    have hpmem : p ∈ (t.nearestNeighbors.getD (path.getLastD 0) []).filter
        (fun nb => unvisited.contains nb) := by
      rcases hp with h | h
      · exact h
      · cases h
    have hnp : nextPointOf (some (p, v)) = p := rfl
    rw [hnp]
    by_cases hin : u ∈ t.nearestNeighbors.getD (path.getLastD 0) []
    · have := hall u (List.mem_filter.2 ⟨hin, by simpa using hu⟩)
      rw [hv] at this
      exact this
    · exact hrow u hu hin p (List.mem_filter.1 hpmem).1

/-- The loop of v2 `multiStartGreedy` makes nearest-neighbour steps when, for
every vertex, no vertex outside its ranking row other than the vertex itself
is nearer than a listed one. -/
theorem V2.greedyLoop_nearest (rt : Runtime) (hrt : rt.Valid) (t : TSPSolver)
    (hrow : ∀ c, c < t.numPoints → ∀ u, u < t.numPoints → u ≠ c →
      u ∉ t.nearestNeighbors.getD c [] → ∀ x ∈ t.nearestNeighbors.getD c [],
        t.distanceMatrix c x ≤ t.distanceMatrix c u) :
    ∀ (fuel : Nat) (path unvisited : List Nat), path ≠ [] → (∀ x ∈ path, x < t.numPoints) →
      unvisited.Nodup → (∀ u, u ∈ unvisited ↔ u < t.numPoints ∧ u ∉ path) →
      unvisited.length ≤ fuel →
      ∃ q, V2.greedyLoop rt t fuel path unvisited = some q ∧
        NearestSteps t.numPoints t.distanceMatrix path q := by
  intro fuel
  induction fuel with
  | zero =>
    intro path unvisited _ _ _ _ hlen
    have : unvisited = [] := List.length_eq_zero.1 (by omega)
    subst this
    exact ⟨path, by simp [V2.greedyLoop], NearestSteps.done path⟩
  | succ fuel ih =>
    intro path unvisited hp hlt hnd hmem hlen
    by_cases hU : unvisited = []
    · subst hU
      exact ⟨path, by simp [V2.greedyLoop], NearestSteps.done path⟩
    · have hpos : unvisited.length > 0 := List.length_pos.2 hU
      have hc : path.getLastD 0 ∈ path := getLastD_mem hp
      have hrow2 : ∀ u ∈ unvisited, u ∉ t.nearestNeighbors.getD (path.getLastD 0) [] →
          ∀ x ∈ t.nearestNeighbors.getD (path.getLastD 0) [],
            t.distanceMatrix (path.getLastD 0) x ≤ t.distanceMatrix (path.getLastD 0) u := by
        intro u hu hnin x hx
        obtain ⟨hun, hup⟩ := (hmem u).1 hu
        have hne : u ≠ path.getLastD 0 := fun h => hup (h ▸ hc)
        exact hrow _ (hlt _ hc) u hun hne hnin x hx
      obtain ⟨np, hnpmem, hnpmin, hnp⟩ : ∃ np, np ∈ unvisited ∧
          (∀ u ∈ unvisited, t.distanceMatrix (path.getLastD 0) np
            ≤ t.distanceMatrix (path.getLastD 0) u) ∧ np = nextPointOf
          (if (scanNearest t.distanceMatrix (path.getLastD 0)
                ((t.nearestNeighbors.getD (path.getLastD 0) []).filter
                  (fun nb => unvisited.contains nb)) none).isNone then
              scanNearest t.distanceMatrix (path.getLastD 0) (rt.mapRange path unvisited)
                (scanNearest t.distanceMatrix (path.getLastD 0)
                  ((t.nearestNeighbors.getD (path.getLastD 0) []).filter
                    (fun nb => unvisited.contains nb)) none)
            else scanNearest t.distanceMatrix (path.getLastD 0)
                ((t.nearestNeighbors.getD (path.getLastD 0) []).filter
                  (fun nb => unvisited.contains nb)) none) :=
        ⟨_, V2.nextPoint_mem rt hrt t path unvisited hU,
          V2.nextPoint_nearest rt hrt t path unvisited hU hrow2, rfl⟩
      obtain ⟨hnpn, hnpp⟩ := (hmem np).1 hnpmem
      have hlt' : ∀ x ∈ path ++ [np], x < t.numPoints := by
        intro x hx
        rcases List.mem_append.1 hx with h | h
        · exact hlt x h
        · rw [List.mem_singleton.1 h]; exact hnpn
      have hmem' : ∀ u, u ∈ unvisited.erase np ↔ u < t.numPoints ∧ u ∉ path ++ [np] := by
        intro u
        rw [hnd.mem_erase_iff, hmem u, List.mem_append, List.mem_singleton]
        tauto
      obtain ⟨q, hrec, hsteps⟩ := ih (path ++ [np]) (unvisited.erase np) (by simp) hlt'
        (hnd.erase _) hmem' (by rw [List.length_erase_of_mem hnpmem]; omega)
      refine ⟨q, ?_, NearestSteps.step hnpn hnpp ?_ hsteps⟩
      · rw [V2.greedyLoop, if_pos hpos]
        simp only []
        rw [← hnp, hrec]
      · intro u hun hup
        exact hnpmin u ((hmem u).2 ⟨hun, hup⟩)

/-- A nearest-neighbour construction only appends to the path. -/
theorem NearestSteps.appends {n : Nat} {d : Nat → Nat → ℚ} {path q : List Nat}
    (h : NearestSteps n d path q) : ∃ rest, q = path ++ rest := by
  induction h with
  | done path => exact ⟨[], by simp⟩
  | step _ _ _ _ ih =>
    obtain ⟨rest, hq⟩ := ih
    exact ⟨_ :: rest, by rw [hq, List.append_assoc]; rfl⟩

/-! ## The instances of the scenarios -/

theorem collinearMatrix_symmetric : SymmetricOn 3 collinearMatrix := by
  intro i j hi hj
  interval_cases i <;> interval_cases j <;> decide!

theorem collinearMatrix_nonneg : NonnegOn 3 collinearMatrix := by
  intro i j hi hj
  interval_cases i <;> interval_cases j <;> decide!

theorem collinearMatrix_zeroDiag : ZeroDiagOn 3 collinearMatrix := by
  intro i hi
  interval_cases i <;> decide!

theorem twinMatrix_symmetric : SymmetricOn 3 twinMatrix := by
  intro i j hi hj
  interval_cases i <;> interval_cases j <;> decide!

theorem twinMatrix_nonneg : NonnegOn 3 twinMatrix := by
  intro i j hi hj
  interval_cases i <;> interval_cases j <;> decide!

theorem twinMatrix_zeroDiag : ZeroDiagOn 3 twinMatrix := by
  intro i hi
  interval_cases i <;> decide!

theorem triangleMatrix_positive : PositiveOff 3 triangleMatrix := by
  intro i j hi hj hij
  interval_cases i <;> interval_cases j <;> first | exact absurd rfl hij | decide!

/-- Every tour through the three collinear points has length 4. -/
theorem collinear_tour_length {q : List Nat} (h : IsTour 3 q) :
    tourLength collinearMatrix q = 4 := by
  obtain ⟨hlen, hlt, hnd⟩ := h.facts
  match q, hlen, hlt, hnd with
  | [a, b, c], _, hlt, hnd =>
    have ha : a < 3 := hlt a (by simp)
    have hb : b < 3 := hlt b (by simp)
    have hc : c < 3 := hlt c (by simp)
    interval_cases a <;> interval_cases b <;> interval_cases c <;>
      first
        | exact absurd hnd (by decide)
        | decide!

/-- With `math.Sqrt(1) = 1` and `math.Sqrt(4) = 2`, the distance matrix of the
three collinear points is `collinearMatrix`. -/
theorem calculateDistanceMatrix_collinear (sqrt : ℚ → ℚ) (h1 : sqrt 1 = 1) (h4 : sqrt 4 = 2) :
    calculateDistanceMatrix sqrt collinearPoints = collinearMatrix := by
  funext a b
  have hl : collinearPoints.length = 3 := rfl
  by_cases ha : a < 3
  · by_cases hb : b < 3
    · interval_cases a <;> interval_cases b <;>
        norm_num [calculateDistanceMatrix, collinearPoints, collinearMatrix, matrixOf, h1, h4]
    · have hb3 : 3 ≤ b := by omega
      have h5 : ¬ (a < b ∧ b < 3) := by omega
      have h6 : ¬ (b < a ∧ a < 3) := by omega
      simp only [calculateDistanceMatrix, hl]
      rw [if_neg h5, if_neg h6]
      interval_cases a <;>
        simp [collinearMatrix, matrixOf, List.getD_eq_getElem?_getD, List.getElem?_eq_none, hb3]
  · have ha3 : 3 ≤ a := by omega
    have h5 : ¬ (a < b ∧ b < 3) := by omega
    have h6 : ¬ (b < a ∧ a < 3) := by omega
    simp only [calculateDistanceMatrix, hl]
    rw [if_neg h5, if_neg h6]
    simp [collinearMatrix, matrixOf, List.getD_eq_getElem?_getD, List.getElem?_eq_none, ha3]

/-! ## 2-opt: what a pass without a move means -/

theorem V2.mem_twoOptPairs_iff {n i j : Nat} :
    (i, j) ∈ V2.twoOptPairs n ↔ 1 ≤ i ∧ i < j ∧ j + 1 < n := by
  constructor
  · exact V2.mem_twoOptPairs
  · rintro ⟨h1, h2, h3⟩
    simp only [V2.twoOptPairs, List.mem_flatMap, List.mem_map, List.mem_range'_1,
      Prod.mk.injEq]
    exact ⟨i, ⟨h1, by omega⟩, j, ⟨by omega, by omega⟩, rfl, rfl⟩

/-- The value `bestDelta` after a pass is at most its start value and at most
the delta of every pair of the pass. -/
theorem V2.twoOptPass_le (d : Nat → Nat → ℚ) (cur : List Nat) :
    ∀ (l : List (Nat × Nat)) (st : ℚ × Option (Nat × Nat)),
      (l.foldl (fun st ij =>
          if V2.twoOptDelta d cur ij.1 ij.2 < st.1 then (V2.twoOptDelta d cur ij.1 ij.2, some ij)
          else st) st).1 ≤ st.1 ∧
      ∀ p ∈ l, (l.foldl (fun st ij =>
          if V2.twoOptDelta d cur ij.1 ij.2 < st.1 then (V2.twoOptDelta d cur ij.1 ij.2, some ij)
          else st) st).1 ≤ V2.twoOptDelta d cur p.1 p.2 := by
  intro l
  induction l with
  | nil =>
    intro st
    exact ⟨le_refl _, fun p hp => absurd hp (List.not_mem_nil p)⟩
  | cons q rest ih =>
    intro st
    rw [List.foldl_cons]
    obtain ⟨h1, h2⟩ := ih (if V2.twoOptDelta d cur q.1 q.2 < st.1
      then (V2.twoOptDelta d cur q.1 q.2, some q) else st)
    have hstep : (if V2.twoOptDelta d cur q.1 q.2 < st.1
        then (V2.twoOptDelta d cur q.1 q.2, some q) else st).1 ≤ st.1 ∧
        (if V2.twoOptDelta d cur q.1 q.2 < st.1
        then (V2.twoOptDelta d cur q.1 q.2, some q) else st).1
          ≤ V2.twoOptDelta d cur q.1 q.2 := by
      by_cases hlt : V2.twoOptDelta d cur q.1 q.2 < st.1
      · rw [if_pos hlt]
        exact ⟨le_of_lt hlt, le_refl _⟩
      · rw [if_neg hlt]
        exact ⟨le_refl _, not_lt.1 hlt⟩
    refine ⟨le_trans h1 hstep.1, ?_⟩
    intro p hp
    rcases List.mem_cons.1 hp with rfl | hp
    · exact le_trans h1 hstep.2
    · exact h2 p hp

/-- A pass of `twoOpt` that records no move has seen no pair with a negative
delta. -/
theorem V2.twoOptPass_none {d : Nat → Nat → ℚ} {cur : List Nat}
    (h : (V2.twoOptPass d cur).2 = none) {i j : Nat} (hi : 1 ≤ i) (hij : i < j)
    (hj : j + 1 < cur.length) : 0 ≤ V2.twoOptDelta d cur i j := by
  have hfold := V2.twoOptPass_fold d cur (V2.twoOptPairs cur.length) (V2.twoOptPairs cur.length)
    (0, none) (fun _ hp => hp) rfl
  have hle := (V2.twoOptPass_le d cur (V2.twoOptPairs cur.length) (0, none)).2 (i, j)
    (V2.mem_twoOptPairs_iff.2 ⟨hi, hij, hj⟩)
  rw [V2.twoOptPass] at h
  rw [h] at hfold
  simp only at hfold
  rw [hfold] at hle
  exact hle

/-- When the loop of `twoOpt` ends with `improved == false`, a pass over the
path it returns records no move. -/
theorem V2.twoOptLoop_stops (d : Nat → Nat → ℚ) :
    ∀ (left : Nat) (cur : List Nat) (dist : ℚ), V2.twoOptImproved d left cur = false →
      (V2.twoOptPass d (V2.twoOptLoop d left cur dist).1).2 = none := by
  intro left
  induction left with
  | zero =>
    intro cur dist h
    simp [V2.twoOptImproved] at h
  | succ left ih =>
    intro cur dist h
    rw [V2.twoOptImproved] at h
    rw [V2.twoOptLoop]
    cases hpass : V2.twoOptPass d cur with
    | mk delta best =>
      rw [hpass] at h
      cases best with
      | none =>
        simp only
        rw [hpass]
      | some ij =>
        obtain ⟨i, j⟩ := ij
        simp only at h ⊢
        exact ih _ _ h

/-- The path returned by `twoOpt` when its loop ends with `improved == false`
cannot be shortened by a reversal that `twoOpt` examines. -/
theorem V2.twoOpt_inner_optimum {n : Nat} (t : TSPSolver)
    (hd : SymmetricOn n t.distanceMatrix) {path : List Nat} (h4 : 4 ≤ path.length)
    (hl : ∀ x ∈ path, x < n)
    (hstop : V2.twoOptImproved t.distanceMatrix 1000 path = false) :
    ∃ p dist, V2.twoOpt t path = some (p, dist) ∧ p.Perm path ∧
      (V2.twoOptPass t.distanceMatrix p).2 = none ∧
      ∀ i j, 1 ≤ i → i < j → j + 1 < p.length →
        0 ≤ V2.twoOptDelta t.distanceMatrix p i j ∧
        tourLength t.distanceMatrix p ≤ tourLength t.distanceMatrix (V2.reverseSegment p i j) := by
  have hlen0 : path.length ≠ 0 := by omega
  have hn4 : ¬ path.length < 4 := by omega
  obtain ⟨h1, _, _⟩ := V2.twoOptLoop_spec hd 1000 path (calculatePathDistance t path) hl
  have hnone := V2.twoOptLoop_stops t.distanceMatrix 1000 path (calculatePathDistance t path)
    hstop
  refine ⟨(V2.twoOptLoop t.distanceMatrix 1000 path (calculatePathDistance t path)).1,
    (V2.twoOptLoop t.distanceMatrix 1000 path (calculatePathDistance t path)).2,
    by simp only [V2.twoOpt, if_neg hlen0, if_neg hn4], h1, hnone, ?_⟩
  intro i j hi hij hj
  have hdelta := V2.twoOptPass_none hnone hi hij hj
  have hlen := V2.tourLength_reverseSegment hd _ (fun x hx => hl x (h1.subset hx)) i j hi hij hj
  exact ⟨hdelta, by rw [hlen]; linarith⟩

/-! ## The rounds of the adaptive search -/

/-- Without its log, `adaptiveLoopLog` is `adaptiveLoop`. -/
theorem V2.adaptiveLoopLog_erase (rt : Runtime) (gp : List Nat) (G s : ℚ) :
    ∀ (left : Nat) (t : TSPSolver) (C : ℚ) (bp : List Nat) (bd : ℚ) (fa : Bool),
      (V2.adaptiveLoopLog rt gp G s left t C bp bd fa).map Prod.fst
        = V2.adaptiveLoop rt gp G s left t C bp bd fa := by
  intro left
  induction left with
  | zero =>
    intro t C bp bd fa
    rfl
  | succ left ih =>
    intro t C bp bd fa
    rw [V2.adaptiveLoopLog, V2.adaptiveLoop]
    simp only []
    by_cases h0 : t.numPoints = 0
    · simp only [h0, if_true]
      rfl
    · simp only [h0, if_false]
      cases hround : bruteForceRecursive rt (t.numPoints + 1)
          { t with bestPath := [], bestDistance := some C, visitedCount := 0, mstCache := [] }
          [0] 0 ((List.replicate t.numPoints false).set 0 true) with
      | none => rfl
      | some r =>
        obtain ⟨t2, v2⟩ := r
        simp only []
        have hrest : Option.map Prod.fst
            (if fa = true then some ((bp, bd), [C], true)
              else if C * (1 + s) ≥ G then some ((gp, G), [C], true)
              else Option.map (fun r => (r.1, C :: r.2.1, r.2.2))
                (V2.adaptiveLoopLog rt gp G s left t2 (C * (1 + s)) bp bd fa)) =
            if fa = true then some (bp, bd)
              else if C * (1 + s) ≥ G then some (gp, G)
              else V2.adaptiveLoop rt gp G s left t2 (C * (1 + s)) bp bd fa := by
          by_cases h2 : fa = true
          · rw [if_pos h2, if_pos h2]
            rfl
          · rw [if_neg h2, if_neg h2]
            by_cases h3 : C * (1 + s) ≥ G
            · rw [if_pos h3, if_pos h3]
              rfl
            · rw [if_neg h3, if_neg h3, Option.map_map, ← ih]
              rfl
        cases hb : t2.bestDistance with
        | none =>
          simp only [Bool.false_eq_true, if_false]
          exact hrest
        | some b =>
          simp only [decide_eq_true_eq, Option.getD_some]
          by_cases h1 : b < C
          · rw [if_pos h1, if_pos h1, Option.map_map, ← ih]
            rfl
          · rw [if_neg h1, if_neg h1]
            exact hrest

theorem V2.adaptiveLoopLog_step (rt : Runtime) (gp : List Nat) (G s : ℚ) (left : Nat)
    (t : TSPSolver) (C : ℚ) (bp : List Nat) (bd : ℚ) (fa : Bool) (hn : 0 < t.numPoints)
    {t2 : TSPSolver} {v : ℚ}
    (hround : bruteForceRecursive rt (t.numPoints + 1)
        { t with bestPath := [], bestDistance := some C, visitedCount := 0, mstCache := [] }
        [0] 0 ((List.replicate t.numPoints false).set 0 true)
        = some (t2, (List.replicate t.numPoints false).set 0 true))
    (hv : t2.bestDistance = some v) :
    V2.adaptiveLoopLog rt gp G s (left + 1) t C bp bd fa =
      if v < C then
        (V2.adaptiveLoopLog rt gp G s left t2 (v * (1 - s)) t2.bestPath v true).map
          (fun r => (r.1, C :: r.2.1, r.2.2))
      else if fa then some ((bp, bd), [C], true)
      else if C * (1 + s) ≥ G then some ((gp, G), [C], true)
      else (V2.adaptiveLoopLog rt gp G s left t2 (C * (1 + s)) bp bd fa).map
          (fun r => (r.1, C :: r.2.1, r.2.2)) := by
  have hne : t.numPoints ≠ 0 := by omega
  rw [V2.adaptiveLoopLog]
  simp only [hne, if_false, hround, hv, Option.getD_some, decide_eq_true_eq]

/-- A round that cannot find anything below its ceiling ends the search from
inside the loop when a tour was found before. -/
theorem V2.adaptiveLoopLog_final (rt : Runtime) (hrt : rt.Valid) (gp : List Nat) (G s : ℚ)
    (left : Nat) (t : TSPSolver) (C : ℚ) (bp : List Nat) (bd : ℚ) (hn : 0 < t.numPoints)
    (hsymm : SymmetricOn t.numPoints t.distanceMatrix)
    (hnonneg : NonnegOn t.numPoints t.distanceMatrix)
    (hrank : ∀ row ∈ t.nearestNeighbors, ∀ x ∈ row, x < t.numPoints)
    (hC : ∀ q, IsTour t.numPoints q → C ≤ tourLength t.distanceMatrix q) :
    V2.adaptiveLoopLog rt gp G s (left + 1) t C bp bd true = some ((bp, bd), [C], true) := by
  obtain ⟨t2, v, hround, _, hv, hvle, hcov, hfound⟩ :=
    V2.round_spec rt hrt t hn hsymm hnonneg hrank C
  rw [V2.adaptiveLoopLog_step rt gp G s left t C bp bd true hn hround hv]
  have hnlt : ¬ v < C := by
    intro hlt
    obtain ⟨htour, hlen⟩ := hfound hlt
    have := hC _ htour
    rw [hlen] at this
    exact absurd hlt (not_lt.2 this)
  rw [if_neg hnlt]
  rfl

/-- The rounds of `adaptiveSearch` on a well-formed problem: the loop returns
from inside after one, two or three rounds, and the ceilings of the rounds are
`0.9 G`, then `0.963 G` or `0.93` times the length found, then `0.93` times
the length found in the second round. -/
theorem V2.adaptiveLoopLog_spec (rt : Runtime) (hrt : rt.Valid) (t : TSPSolver)
    (hn : 0 < t.numPoints) (hsymm : SymmetricOn t.numPoints t.distanceMatrix)
    (hnonneg : NonnegOn t.numPoints t.distanceMatrix)
    (hrank : ∀ row ∈ t.nearestNeighbors, ∀ x ∈ row, x < t.numPoints)
    (gp : List Nat) (hgp : IsTour t.numPoints gp) (left : Nat) :
    ∃ res ceilings, V2.adaptiveLoopLog rt gp (tourLength t.distanceMatrix gp) (7 / 100)
        (left + 3) t (tourLength t.distanceMatrix gp * (9 / 10)) gp
        (tourLength t.distanceMatrix gp) false = some (res, ceilings, true) ∧
      (ceilings = [tourLength t.distanceMatrix gp * (9 / 10)] ∨
        (∃ v, v < tourLength t.distanceMatrix gp * (9 / 10) ∧ 0 ≤ v ∧
          ceilings = [tourLength t.distanceMatrix gp * (9 / 10), v * (93 / 100)]) ∨
        (0 < tourLength t.distanceMatrix gp ∧
          ceilings = [tourLength t.distanceMatrix gp * (9 / 10),
            tourLength t.distanceMatrix gp * (963 / 1000)]) ∨
        (∃ v, v < tourLength t.distanceMatrix gp * (963 / 1000) ∧ 0 ≤ v ∧
          ceilings = [tourLength t.distanceMatrix gp * (9 / 10),
            tourLength t.distanceMatrix gp * (963 / 1000), v * (93 / 100)])) := by
  have hG0 : 0 ≤ tourLength t.distanceMatrix gp := tourLength_nonneg hnonneg hn hgp
  have e93 : ∀ v : ℚ, v * (1 - 7 / 100) = v * (93 / 100) := fun v => by ring
  have e963 : tourLength t.distanceMatrix gp * (9 / 10) * (1 + 7 / 100)
      = tourLength t.distanceMatrix gp * (963 / 1000) := by ring
  obtain ⟨t2, v1, hround1, hsame1, hv1, hv1le, hcov1, hfound1⟩ :=
    V2.round_spec rt hrt t hn hsymm hnonneg hrank (tourLength t.distanceMatrix gp * (9 / 10))
  have hn2 : 0 < t2.numPoints := by rw [hsame1.1]; exact hn
  have hsymm2 : SymmetricOn t2.numPoints t2.distanceMatrix := by
    rw [hsame1.1, hsame1.2.1]; exact hsymm
  have hnonneg2 : NonnegOn t2.numPoints t2.distanceMatrix := by
    rw [hsame1.1, hsame1.2.1]; exact hnonneg
  have hrank2 : ∀ row ∈ t2.nearestNeighbors, ∀ x ∈ row, x < t2.numPoints := by
    rw [hsame1.1, hsame1.2.2]; exact hrank
  rw [V2.adaptiveLoopLog_step rt gp _ _ (left + 2) t _ gp _ false hn hround1 hv1]
  by_cases hlt1 : v1 < tourLength t.distanceMatrix gp * (9 / 10)
  · obtain ⟨htour1, hlen1⟩ := hfound1 hlt1
    have hv0 : 0 ≤ v1 := hlen1 ▸ tourLength_nonneg hnonneg hn htour1
    rw [if_pos hlt1]
    have hfin := V2.adaptiveLoopLog_final rt hrt gp (tourLength t.distanceMatrix gp) (7 / 100)
      (left + 1) t2 (v1 * (1 - 7 / 100)) t2.bestPath v1 hn2 hsymm2 hnonneg2 hrank2
      (by
        intro q hq
        rw [hsame1.1] at hq
        rw [hsame1.2.1]
        have := hcov1 q hq
        linarith)
    rw [hfin]
    refine ⟨_, _, rfl, Or.inr (Or.inl ⟨v1, hlt1, hv0, ?_⟩)⟩
    rw [e93]
  · rw [if_neg hlt1]
    simp only [Bool.false_eq_true, if_false]
    by_cases hge : tourLength t.distanceMatrix gp * (9 / 10) * (1 + 7 / 100)
        ≥ tourLength t.distanceMatrix gp
    · rw [if_pos hge]
      exact ⟨_, _, rfl, Or.inl rfl⟩
    · rw [if_neg hge]
      have hGpos : 0 < tourLength t.distanceMatrix gp := by
        by_contra hcon
        apply hge
        have hz : tourLength t.distanceMatrix gp = 0 := le_antisymm (not_lt.1 hcon) hG0
        rw [hz]
        norm_num
      obtain ⟨t3, v2, hround2, hsame2, hv2, hv2le, hcov2, hfound2⟩ :=
        V2.round_spec rt hrt t2 hn2 hsymm2 hnonneg2 hrank2
          (tourLength t.distanceMatrix gp * (9 / 10) * (1 + 7 / 100))
      have hn3 : 0 < t3.numPoints := by rw [hsame2.1]; exact hn2
      have hsymm3 : SymmetricOn t3.numPoints t3.distanceMatrix := by
        rw [hsame2.1, hsame2.2.1]; exact hsymm2
      have hnonneg3 : NonnegOn t3.numPoints t3.distanceMatrix := by
        rw [hsame2.1, hsame2.2.1]; exact hnonneg2
      have hrank3 : ∀ row ∈ t3.nearestNeighbors, ∀ x ∈ row, x < t3.numPoints := by
        rw [hsame2.1, hsame2.2.2]; exact hrank2
      rw [hsame1.1, hsame1.2.1] at hcov2 hfound2
      rw [V2.adaptiveLoopLog_step rt gp _ _ (left + 1) t2 _ gp _ false hn2 hround2 hv2]
      by_cases hlt2 : v2 < tourLength t.distanceMatrix gp * (9 / 10) * (1 + 7 / 100)
      · obtain ⟨htour2, hlen2⟩ := hfound2 hlt2
        have hv0 : 0 ≤ v2 := hlen2 ▸ tourLength_nonneg hnonneg hn htour2
        rw [if_pos hlt2]
        have hfin := V2.adaptiveLoopLog_final rt hrt gp (tourLength t.distanceMatrix gp)
          (7 / 100) left t3 (v2 * (1 - 7 / 100)) t3.bestPath v2 hn3 hsymm3 hnonneg3 hrank3
          (by
            intro q hq
            rw [hsame2.1, hsame1.1] at hq
            rw [hsame2.2.1, hsame1.2.1]
            have := hcov2 q hq
            linarith)
        rw [hfin]
        refine ⟨_, _, rfl, Or.inr (Or.inr (Or.inr ⟨v2, by rw [← e963]; exact hlt2, hv0, ?_⟩))⟩
        simp only [Option.map_some', e93, e963]
      · rw [if_neg hlt2]
        simp only [Bool.false_eq_true, if_false]
        have hge3 : tourLength t.distanceMatrix gp * (9 / 10) * (1 + 7 / 100) * (1 + 7 / 100)
            ≥ tourLength t.distanceMatrix gp := by
          nlinarith
        rw [if_pos hge3]
        refine ⟨_, _, rfl, Or.inr (Or.inr (Or.inl ⟨hGpos, ?_⟩))⟩
        rw [e963]

/-! ## The search with a count of the incumbent replacements -/

/-- Without the count, the loop over the candidates is the loop of
`bruteForceRecursive`. -/
theorem tryPointsCount_erase
    (recC : TSPSolver → List Nat → ℚ → List Bool → Option (TSPSolver × List Bool × Nat))
    (rec : TSPSolver → List Nat → ℚ → List Bool → Option (TSPSolver × List Bool))
    (hrec : ∀ t p c v, (recC t p c v).map (fun r => (r.1, r.2.1)) = rec t p c v)
    (path : List Nat) (cd : ℚ) (last : Nat) :
    ∀ (cands : List Nat) (s : TSPSolver × List Bool × Nat),
      (cands.foldlM (tryPointCount recC path cd last) s).map (fun r => (r.1, r.2.1))
        = cands.foldlM (tryPoint rec path cd last) (s.1, s.2.1) := by
  intro cands
  induction cands with
  | nil =>
    intro s
    rfl
  | cons c cs ih =>
    intro s
    rw [List.foldlM_cons, List.foldlM_cons]
    simp only [tryPointCount, tryPoint]
    by_cases hge : geBest (cd + s.1.distanceMatrix last c) s.1.bestDistance = true
    · rw [if_pos hge, if_pos hge]
      exact ih s
    · rw [if_neg hge, if_neg hge]
      have h := hrec s.1 (path ++ [c]) (cd + s.1.distanceMatrix last c) (s.2.1.set c true)
      cases hc : recC s.1 (path ++ [c]) (cd + s.1.distanceMatrix last c) (s.2.1.set c true) with
      | none =>
        rw [hc] at h
        rw [← h]
        rfl
      | some r =>
        obtain ⟨t3, v3, k⟩ := r
        rw [hc] at h
        rw [← h]
        exact ih (t3, v3.set c false, s.2.2 + k)

/-- Without the count, `bruteForceRecursiveCount` is `bruteForceRecursive`. -/
theorem bruteForceRecursiveCount_erase (rt : Runtime) :
    ∀ (fuel : Nat) (t : TSPSolver) (path : List Nat) (cd : ℚ) (visited : List Bool),
      (bruteForceRecursiveCount rt fuel t path cd visited).map (fun r => (r.1, r.2.1))
        = bruteForceRecursive rt fuel t path cd visited := by
  intro fuel
  induction fuel with
  | zero =>
    intro t path cd visited
    rfl
  | succ fuel ih =>
    intro t path cd visited
    rw [bruteForceRecursiveCount, bruteForceRecursive]
    cases hlb : calculateLowerBound rt t path visited with
    | none => rfl
    | some r =>
      obtain ⟨lb, t1⟩ := r
      simp only []
      by_cases hge : geBest lb t1.bestDistance = true
      · rw [if_pos hge, if_pos hge]
        rfl
      · rw [if_neg hge, if_neg hge]
        by_cases hlen : path.length = t1.numPoints
        · rw [if_pos hlen, if_pos hlen]
          by_cases hlt : ltBest (cd + t1.distanceMatrix (path.getLastD 0) (path.headD 0))
              t1.bestDistance = true
          · rw [if_pos hlt, if_pos hlt]
            rfl
          · rw [if_neg hlt, if_neg hlt]
            rfl
        · rw [if_neg hlen, if_neg hlen]
          exact tryPointsCount_erase _ _ ih path cd (path.getLastD 0) _ (t1, visited, 0)

/-- The loop over the candidates with the count: what the counter
`visitedCount` gains is what the count gains. -/
theorem tryPointsCount_run (rt : Runtime) (fuel : Nat) (n : Nat) (d : Nat → Nat → ℚ)
    (path : List Nat) (visited : List Bool) (hp : path ≠ []) (hnd : path.Nodup)
    (hlt : ∀ x ∈ path, x < n) (hm : Marks n visited path) (hfuel : n < fuel + 1 + path.length)
    (ih : ∀ (t : TSPSolver) (path : List Nat) (visited : List Bool),
      (∀ row ∈ t.nearestNeighbors, ∀ x ∈ row, x < t.numPoints) →
      path ≠ [] → path.Nodup → (∀ x ∈ path, x < t.numPoints) →
      Marks t.numPoints visited path → t.numPoints < fuel + path.length →
      ∃ t1 k, bruteForceRecursiveCount rt fuel t path
          (sumConsecutive t.distanceMatrix 0 path) visited = some (t1, visited, k) ∧
        SameProblem t t1 ∧ t1.visitedCount = t.visitedCount + k) :
    ∀ (cands : List Nat), (∀ c ∈ cands, c < n ∧ c ∉ path) →
    ∀ (ts : TSPSolver) (k0 : Nat),
      (∀ row ∈ ts.nearestNeighbors, ∀ x ∈ row, x < ts.numPoints) →
      ts.numPoints = n → ts.distanceMatrix = d →
      ∃ t1 k, cands.foldlM (tryPointCount (bruteForceRecursiveCount rt fuel) path
          (sumConsecutive d 0 path) (path.getLastD 0)) (ts, visited, k0)
            = some (t1, visited, k) ∧
        SameProblem ts t1 ∧ t1.visitedCount + k0 = ts.visitedCount + k := by
  intro cands
  induction cands with
  | nil =>
    intro _ ts k0 _ _ _
    exact ⟨ts, k0, rfl, SameProblem.refl ts, rfl⟩
  | cons c cs ihc =>
    intro hc ts k0 hrank hn hd
    obtain ⟨hcn, hcp⟩ := hc c (List.mem_cons_self _ _)
    have hcs : ∀ x ∈ cs, x < n ∧ x ∉ path := fun x hx => hc x (List.mem_cons_of_mem _ hx)
    have hnew : sumConsecutive d 0 path + ts.distanceMatrix (path.getLastD 0) c
        = sumConsecutive ts.distanceMatrix 0 (path ++ [c]) := by
      rw [hd, sumConsecutive_append_singleton d path hp c]
    have hstep : ∃ t2 k2, tryPointCount (bruteForceRecursiveCount rt fuel) path
          (sumConsecutive d 0 path) (path.getLastD 0) (ts, visited, k0) c
            = some (t2, visited, k2) ∧
        SameProblem ts t2 ∧ t2.visitedCount + k0 = ts.visitedCount + k2 := by
      by_cases hge : geBest (sumConsecutive d 0 path +
          ts.distanceMatrix (path.getLastD 0) c) ts.bestDistance = true
      · exact ⟨ts, k0, by simp only [tryPointCount]; rw [if_pos hge], SameProblem.refl ts, rfl⟩
      · have hnd' : (path ++ [c]).Nodup := by
          rw [List.nodup_append]
          refine ⟨hnd, List.nodup_singleton c, ?_⟩
          intro x hx hx'
          rw [List.mem_singleton.1 hx'] at hx
          exact hcp hx
        have hlt' : ∀ x ∈ path ++ [c], x < ts.numPoints := by
          intro x hx
          rw [hn]
          rcases List.mem_append.1 hx with h | h
          · exact hlt x h
          · rw [List.mem_singleton.1 h]; exact hcn
        obtain ⟨t2, k, hrec, hsame, hcount⟩ := ih ts (path ++ [c]) (visited.set c true) hrank
          (by simp) hnd' hlt' (by rw [hn]; exact hm.extend hcn)
          (by rw [hn, List.length_append, List.length_singleton]; omega)
        have hvis : visited.getD c false = false := by
          cases hv : visited.getD c false with
          | false => rfl
          | true => exact absurd ((hm.2 c hcn).1 hv) hcp
        refine ⟨t2, k0 + k, ?_, hsame, by omega⟩
        simp only [tryPointCount]
        rw [if_neg hge, hnew, hrec]
        simp only []
        rw [set_set_visited visited c (by rw [hm.1]; exact hcn) hvis]
    obtain ⟨t2, k2, hstep2, hsame2, hcount2⟩ := hstep
    have hrank2 : ∀ row ∈ t2.nearestNeighbors, ∀ x ∈ row, x < t2.numPoints := by
      rw [hsame2.1, hsame2.2.2]
      exact hrank
    obtain ⟨t3, k3, hfold, hsame3, hcount3⟩ := ihc hcs t2 k2 hrank2 (hsame2.1.trans hn)
      (hsame2.2.1.trans hd)
    refine ⟨t3, k3, ?_, hsame2.trans_same hsame3, by omega⟩
    rw [List.foldlM_cons, hstep2]
    exact hfold

/-- The search with the count, started with `currentDistance` the length of
the path: it returns, and the counter `visitedCount` has grown by the number
of incumbent replacements. -/
theorem bruteForceRecursiveCount_run (rt : Runtime) (hrt : rt.Valid) :
    ∀ (fuel : Nat) (t : TSPSolver) (path : List Nat) (visited : List Bool),
      (∀ row ∈ t.nearestNeighbors, ∀ x ∈ row, x < t.numPoints) →
      path ≠ [] → path.Nodup → (∀ x ∈ path, x < t.numPoints) →
      Marks t.numPoints visited path → t.numPoints < fuel + path.length →
      ∃ t1 k, bruteForceRecursiveCount rt fuel t path
          (sumConsecutive t.distanceMatrix 0 path) visited = some (t1, visited, k) ∧
        SameProblem t t1 ∧ t1.visitedCount = t.visitedCount + k := by
  intro fuel
  induction fuel with
  | zero =>
    intro t path visited _ _ hnd hlt _ hfuel
    have := length_le_of_nodup hnd hlt
    omega
  | succ fuel ih =>
    intro t path visited hrank hp hnd hlt hm hfuel
    obtain ⟨lb, t1, hlb, hsame, hbp, hbd, hvc, hempty⟩ :=
      calculateLowerBound_frame rt hrt t path visited
    rw [bruteForceRecursiveCount]
    simp only [hlb]
    by_cases hge : geBest lb t1.bestDistance = true
    · rw [if_pos hge]
      exact ⟨t1, 0, rfl, hsame, by rw [hvc]; rfl⟩
    · rw [if_neg hge]
      by_cases hlen : path.length = t1.numPoints
      · rw [if_pos hlen]
        have hlen' : path.length = t.numPoints := hlen.trans hsame.1
        have htour : IsTour t.numPoints path := isTour_of_nodup hnd hlt hlen'
        have hU : unvisitedOf t.numPoints visited = [] := by
          apply List.eq_nil_iff_forall_not_mem.2
          intro i hi
          obtain ⟨hin, hip⟩ := (mem_unvisitedOf_of_marks hm).1 hi
          exact hip (htour.symm.subset (List.mem_range.2 hin))
        have hfinal : sumConsecutive t.distanceMatrix 0 path +
            t1.distanceMatrix (path.getLastD 0) (path.headD 0) = lb := by
          rw [hsame.2.1, hempty hU]
        have hlt2 : ltBest lb t1.bestDistance = true := by
          simpa [geBest] using hge
        simp only [hfinal]
        rw [if_pos hlt2]
        exact ⟨_, 1, rfl, ⟨hsame.1, hsame.2.1, hsame.2.2⟩, by simp only; rw [hvc]⟩
      · rw [if_neg hlen]
        have hrank1 : ∀ row ∈ t1.nearestNeighbors, ∀ x ∈ row, x < t1.numPoints := by
          rw [hsame.1, hsame.2.2]
          exact hrank
        have hcands : ∀ c ∈ rt.sortSlice (t1.distanceMatrix (path.getLastD 0))
            (pointsToTryOf t1 (path.getLastD 0) visited), c < t.numPoints ∧ c ∉ path := by
          intro c hc
          have h1 := (hrt.sortSlice_perm _ _).subset hc
          rw [mem_pointsToTryOf hrank1, hsame.1] at h1
          exact (mem_unvisitedOf_of_marks hm).1 h1
        obtain ⟨t2, k, hfold, hsame2, hcount⟩ := tryPointsCount_run rt fuel t.numPoints
          t.distanceMatrix path visited hp hnd hlt hm hfuel ih _ hcands t1 0 hrank1 hsame.1
          hsame.2.1
        exact ⟨t2, k, hfold, hsame.trans_same hsame2, by omega⟩

/-- A call on a complete path that passes the bound check: the final distance
is the lower bound, so it is below the incumbent distance, the incumbent is
replaced and the counter grows by one. -/
theorem bruteForceRecursiveCount_complete (rt : Runtime) (fuel : Nat) (t : TSPSolver)
    (path : List Nat) (visited : List Bool) (hm : Marks t.numPoints visited path)
    (hnd : path.Nodup) (hlt : ∀ x ∈ path, x < t.numPoints) (hlen : path.length = t.numPoints)
    {lb : ℚ} {t0 : TSPSolver} (hlb : calculateLowerBound rt t path visited = some (lb, t0))
    (hge : geBest lb t0.bestDistance = false) :
    t0 = t ∧ lb = calculatePathDistance t path ∧
      ltBest (calculatePartialDistance t path +
        t0.distanceMatrix (path.getLastD 0) (path.headD 0)) t0.bestDistance = true ∧
      bruteForceRecursiveCount rt (fuel + 1) t path (calculatePartialDistance t path) visited
        = some ({ t with visitedCount := t.visitedCount + 1,
                         bestDistance := some (calculatePathDistance t path),
                         bestPath := path }, visited, 1) := by
  have htour : IsTour t.numPoints path := isTour_of_nodup hnd hlt hlen
  have hU : (unvisitedOf t.numPoints visited).length = 0 := by
    apply List.length_eq_zero.2
    apply List.eq_nil_iff_forall_not_mem.2
    intro i hi
    obtain ⟨hin, hip⟩ := (mem_unvisitedOf_of_marks hm).1 hi
    exact hip (htour.symm.subset (List.mem_range.2 hin))
  have hlb2 : calculateLowerBound rt t path visited
      = some (calculatePathDistance t path, t) := by
    simp only [calculateLowerBound, hU, if_true]
    rfl
  rw [hlb2] at hlb
  cases hlb
  have hlt2 : ltBest (calculatePathDistance t path) t.bestDistance = true := by
    simpa [geBest] using hge
  refine ⟨rfl, rfl, hlt2, ?_⟩
  rw [bruteForceRecursiveCount]
  simp only [hlb2]
  rw [if_neg (by rw [hge]; exact Bool.false_ne_true), if_pos hlen]
  have hfinal : calculatePartialDistance t path +
      t.distanceMatrix (path.getLastD 0) (path.headD 0) = calculatePathDistance t path := rfl
  simp only [hfinal]
  rw [if_pos hlt2]

/-! ## float64 arithmetic on small whole numbers -/


theorem F64.bitLength_le : ∀ (fuel n b : Nat), n < 2 ^ b → F64.bitLength fuel n ≤ b := by
  intro fuel
  induction fuel with
  | zero => intro n b _; simp [F64.bitLength]
  | succ fuel ih =>
    intro n b h
    rw [F64.bitLength]
    split_ifs with h0
    · omega
    · have hb : 1 ≤ b := by
        by_contra hb
        have hb0 : b = 0 := by omega
        subst hb0
        simp at h
        exact h0 h
      have h2 : 2 ^ b = 2 * 2 ^ (b - 1) := by
        conv_lhs => rw [show b = (b - 1) + 1 by omega]
        rw [pow_succ]
        ring
      have h3 : n / 2 < 2 ^ (b - 1) := by omega
      have := ih (n / 2) (b - 1) h3
      omega

theorem F64.bitLength_pos {n : Nat} (h : 1 ≤ n) : 1 ≤ F64.bitLength n n := by
  cases n with
  | zero => omega
  | succ m => simp [F64.bitLength]

theorem F64.ilog2_natCast {k : Nat} (h1 : 1 ≤ k) (h2 : k < 2 ^ 53) :
    -1 ≤ F64.ilog2 (k : ℚ) ∧ F64.ilog2 (k : ℚ) ≤ 52 := by
  have hb1 : F64.bitLength 1 1 = 1 := by decide
  have hle := F64.bitLength_le k k 53 h2
  have hpos := F64.bitLength_pos h1
  unfold F64.ilog2
  simp only [Rat.num_natCast, Rat.den_natCast, Int.natAbs_ofNat, hb1]
  split_ifs <;> constructor <;> omega

theorem F64.pow2_nonpos {E : Int} (h : E ≤ 0) :
    F64.pow2 E = 1 / ((2 ^ (-E).toNat : Nat) : ℚ) := by
  unfold F64.pow2
  split_ifs with h0
  · have hE : E = 0 := le_antisymm h h0
    subst hE
    simp
  · rfl

theorem F64.natCast_lt_posInf {k : Nat} (h : k < 2 ^ 53) : (k : ℚ) < F64.posInf := by
  unfold F64.posInf
  exact Nat.cast_lt.2 (lt_trans h (Nat.pow_lt_pow_right (by decide) (by decide)))

theorem F64.roundPos_natCast {k : Nat} (h1 : 1 ≤ k) (h2 : k < 2 ^ 53) :
    F64.roundPos (k : ℚ) = k := by
  obtain ⟨hl, hu⟩ := F64.ilog2_natCast h1 h2
  have hE : max (F64.ilog2 (k : ℚ)) (-1022) - 52 ≤ 0 := by
    rw [max_eq_left (by omega)]
    omega
  unfold F64.roundPos
  rw [F64.pow2_nonpos hE]
  generalize (-(max (F64.ilog2 (k : ℚ)) (-1022) - 52)).toNat = s
  have hs : ((2 ^ s : Nat) : ℚ) ≠ 0 := by positivity
  have hy : (k : ℚ) / (1 / ((2 ^ s : Nat) : ℚ)) = ((k * 2 ^ s : Nat) : ℚ) := by
    push_cast
    field_simp
  have hv : ((k * 2 ^ s : Nat) : ℚ) * (1 / ((2 ^ s : Nat) : ℚ)) = k := by
    push_cast
    field_simp
  simp only [hy, Rat.num_natCast, Rat.den_natCast, Int.natAbs_ofNat, Nat.div_one, sub_self]
  have hhalf : (0 : ℚ) < 1 / 2 := by norm_num
  simp only [if_pos hhalf]
  rw [hv, if_neg (not_le.2 (F64.natCast_lt_posInf h2))]

theorem F64.roundNearest_intCast {z : ℤ} (h : |z| < 2 ^ 53) : F64.roundNearest (z : ℚ) = z := by
  unfold F64.roundNearest
  rcases lt_trichotomy z 0 with hz | hz | hz
  · have h0 : (z : ℚ) ≠ 0 := by exact_mod_cast hz.ne
    have hneg : ¬ (0 : ℚ) < z := by
      have : (z : ℚ) < 0 := by exact_mod_cast hz
      linarith
    rw [if_neg h0, if_neg hneg]
    obtain ⟨k, hk⟩ : ∃ k : Nat, -z = k := ⟨(-z).toNat, (Int.toNat_of_nonneg (by omega)).symm⟩
    have hk1 : 1 ≤ k := by omega
    have hk2 : k < 2 ^ 53 := by
      have : |z| = -z := abs_of_neg hz
      omega
    have hq : -(z : ℚ) = (k : ℚ) := by exact_mod_cast hk
    rw [hq, F64.roundPos_natCast hk1 hk2, ← hq]
    ring
  · subst hz
    simp
  · have h0 : (z : ℚ) ≠ 0 := by exact_mod_cast hz.ne'
    have hpos : (0 : ℚ) < z := by exact_mod_cast hz
    rw [if_neg h0, if_pos hpos]
    obtain ⟨k, hk⟩ : ∃ k : Nat, z = k := ⟨z.toNat, (Int.toNat_of_nonneg (by omega)).symm⟩
    have hk1 : 1 ≤ k := by omega
    have hk2 : k < 2 ^ 53 := by
      have : |z| = z := abs_of_pos hz
      omega
    have hq : (z : ℚ) = (k : ℚ) := by exact_mod_cast hk
    rw [hq, F64.roundPos_natCast hk1 hk2]

theorem F64.maxFloat64_gt : ((2 ^ 53 : Nat) : ℚ) < F64.maxFloat64 := by
  unfold F64.maxFloat64
  exact Nat.cast_lt.2 (by norm_num)

theorem F64.maxFloat64_lt_posInf : F64.maxFloat64 < F64.posInf := by
  unfold F64.maxFloat64 F64.posInf
  exact Nat.cast_lt.2 (by norm_num)

theorem F64.posInf_lt_nan : F64.posInf < F64.nan := by
  unfold F64.posInf F64.nan
  exact Nat.cast_lt.2 (by norm_num)

theorem F64.maxFloat64_ne_nan : F64.maxFloat64 ≠ F64.nan :=
  (lt_trans F64.maxFloat64_lt_posInf F64.posInf_lt_nan).ne

/-- A whole number of absolute value below `2^53` is a finite `float64` below
`math.MaxFloat64`. -/
theorem F64.intCast_finite {z : ℤ} (h : |z| < 2 ^ 53) :
    (z : ℚ) ≠ F64.nan ∧ (z : ℚ) ≠ F64.posInf ∧ (z : ℚ) ≠ F64.negInf ∧
      (z : ℚ) < F64.maxFloat64 := by
  have h1 : (z : ℚ) < ((2 ^ 53 : Nat) : ℚ) := by
    have : z < ((2 ^ 53 : Nat) : ℤ) := by
      have := (abs_lt.1 h).2
      exact_mod_cast this
    exact_mod_cast this
  have h2 : -((2 ^ 53 : Nat) : ℚ) < (z : ℚ) := by
    have : -((2 ^ 53 : Nat) : ℤ) < z := by
      have := (abs_lt.1 h).1
      exact_mod_cast this
    exact_mod_cast this
  have hm := F64.maxFloat64_gt
  have hp := F64.maxFloat64_lt_posInf
  have hn := F64.posInf_lt_nan
  have h53 : (0 : ℚ) ≤ ((2 ^ 53 : Nat) : ℚ) := Nat.cast_nonneg _
  refine ⟨by linarith, by linarith, ?_, by linarith⟩
  unfold F64.negInf
  unfold F64.posInf at hp
  intro e
  linarith

theorem F64.add_intCast {a b : ℤ} (ha : |a| < 2 ^ 53) (hb : |b| < 2 ^ 53)
    (hab : |a + b| < 2 ^ 53) : F64.add (a : ℚ) (b : ℚ) = ((a + b : ℤ) : ℚ) := by
  obtain ⟨a1, a2, a3, _⟩ := F64.intCast_finite ha
  obtain ⟨b1, b2, b3, _⟩ := F64.intCast_finite hb
  unfold F64.add
  rw [if_neg (by simp [a1, b1]), if_neg a2, if_neg a3, if_neg b2, if_neg b3]
  have : (a : ℚ) + (b : ℚ) = ((a + b : ℤ) : ℚ) := by push_cast; ring
  rw [this, F64.roundNearest_intCast hab]

theorem F64.neg_intCast {a : ℤ} (ha : |a| < 2 ^ 53) : F64.neg (a : ℚ) = ((-a : ℤ) : ℚ) := by
  unfold F64.neg
  rw [if_neg (F64.intCast_finite ha).1]
  push_cast
  ring

theorem F64.sub_intCast {a b : ℤ} (ha : |a| < 2 ^ 53) (hb : |b| < 2 ^ 53)
    (hab : |a - b| < 2 ^ 53) : F64.sub (a : ℚ) (b : ℚ) = ((a - b : ℤ) : ℚ) := by
  unfold F64.sub
  rw [F64.neg_intCast hb, F64.add_intCast ha (by simpa using hb) (by simpa [sub_eq_add_neg] using hab)]
  push_cast
  ring

theorem F64.lt_eq {x y : ℚ} (hx : x ≠ F64.nan) (hy : y ≠ F64.nan) :
    F64.lt x y = decide (x < y) := by
  simp [F64.lt, hx, hy]

theorem F64.ge_eq {x y : ℚ} (hx : x ≠ F64.nan) (hy : y ≠ F64.nan) :
    F64.ge x y = !decide (x < y) := by
  simp only [F64.ge, ne_eq, hx, not_false_eq_true, hy, true_and]
  by_cases h : x < y
  · simp [h, not_le.2 h]
  · simp [h, not_lt.1 h]

theorem F64.eq_eq {x y : ℚ} (hx : x ≠ F64.nan) (hy : y ≠ F64.nan) :
    F64.eq x y = decide (x = y) := by
  simp [F64.eq, hx, hy]

/-! ### Small natural numbers -/

theorem F64.Small.mono {a b : Nat} {x : ℚ} (h : F64.Small a x) (hab : a ≤ b) : F64.Small b x := by
  obtain ⟨k, hk, e⟩ := h
  exact ⟨k, le_trans hk hab, e⟩

theorem F64.Small.zero (B : Nat) : F64.Small B 0 := ⟨0, Nat.zero_le _, by simp⟩

theorem F64.Small.nonneg {B : Nat} {x : ℚ} (h : F64.Small B x) : 0 ≤ x := by
  obtain ⟨k, _, e⟩ := h
  rw [e]
  exact Nat.cast_nonneg k

theorem F64.Small.finite {B : Nat} {x : ℚ} (h : F64.Small B x) (hB : B < 2 ^ 53) :
    x ≠ F64.nan ∧ x ≠ F64.posInf ∧ x ≠ F64.negInf ∧ x < F64.maxFloat64 := by
  obtain ⟨k, hk, e⟩ := h
  have hz : |(k : ℤ)| < 2 ^ 53 := by
    rw [abs_of_nonneg (Int.natCast_nonneg k)]
    have : k < 2 ^ 53 := lt_of_le_of_lt hk hB
    exact_mod_cast this
  have := F64.intCast_finite hz
  rw [e]
  simpa using this

/-- The `float64` sum of two small natural numbers is exact. -/
theorem F64.Small.add_exact {a b : Nat} {x y : ℚ} (hx : F64.Small a x) (hy : F64.Small b y)
    (hab : a + b < 2 ^ 53) : F64.add x y = x + y ∧ F64.Small (a + b) (x + y) := by
  obtain ⟨k, hk, ex⟩ := hx
  obtain ⟨l, hl, ey⟩ := hy
  have h1 : |(k : ℤ)| < 2 ^ 53 := by
    rw [abs_of_nonneg (Int.natCast_nonneg k)]
    have : k < 2 ^ 53 := by omega
    exact_mod_cast this
  have h2 : |(l : ℤ)| < 2 ^ 53 := by
    rw [abs_of_nonneg (Int.natCast_nonneg l)]
    have : l < 2 ^ 53 := by omega
    exact_mod_cast this
  have h3 : |(k : ℤ) + (l : ℤ)| < 2 ^ 53 := by
    rw [abs_of_nonneg (by positivity)]
    have : k + l < 2 ^ 53 := by omega
    exact_mod_cast this
  have := F64.add_intCast h1 h2 h3
  refine ⟨?_, k + l, by omega, by rw [ex, ey]; push_cast; ring⟩
  rw [ex, ey]
  have e1 : ((k : ℤ) : ℚ) = (k : ℚ) := by simp
  have e2 : ((l : ℤ) : ℚ) = (l : ℚ) := by simp
  rw [e1, e2] at this
  rw [this]
  push_cast
  ring

/-! ## The float64 reading agrees with the exact one on small whole numbers:
distances and the lower bound -/


theorem sumConsecutive_float {n K : Nat} {d : Nat → Nat → ℚ}
    (hE : ∀ i j, i < n → j < n → F64.Small K (d i j)) :
    ∀ (path : List Nat) (B : Nat) (total : ℚ), (∀ x ∈ path, x < n) → F64.Small B total →
      B + (path.length - 1) * K < 2 ^ 53 →
      F64.sumConsecutive d total path = sumConsecutive d total path ∧
        F64.Small (B + (path.length - 1) * K) (sumConsecutive d total path) := by
  intro path
  induction path with
  | nil =>
    intro B total _ hB _
    exact ⟨rfl, hB.mono (Nat.le_add_right _ _)⟩
  | cons a rest ih =>
    intro B total hl hB hb
    cases rest with
    | nil => exact ⟨rfl, hB.mono (Nat.le_add_right _ _)⟩
    | cons b rest =>
      have ha : a < n := hl a (by simp)
      have hbn : b < n := hl b (by simp)
      have hlen : (a :: b :: rest).length - 1 = rest.length + 1 := by simp
      have hlen2 : (b :: rest).length - 1 = rest.length := by simp
      rw [hlen] at hb ⊢
      have hstep : B + K < 2 ^ 53 := by
        have : K ≤ (rest.length + 1) * K := Nat.le_mul_of_pos_left K (Nat.succ_pos _)
        omega
      obtain ⟨e1, s1⟩ := hB.add_exact (hE a b ha hbn) hstep
      have hrec := ih (B + K) (total + d a b) (fun x hx => hl x (List.mem_cons_of_mem _ hx)) s1
        (by rw [hlen2]; have : (rest.length + 1) * K = rest.length * K + K := by ring
            omega)
      rw [hlen2] at hrec
      have harith : B + K + rest.length * K = B + (rest.length + 1) * K := by ring
      rw [harith] at hrec
      simp only [F64.sumConsecutive, sumConsecutive]
      rw [e1]
      exact hrec

theorem getLastD_lt_of {n : Nat} {path : List Nat} (hn : 0 < n) (hl : ∀ x ∈ path, x < n) :
    path.getLastD 0 < n := by
  cases path with
  | nil => simpa using hn
  | cons a rest =>
    rw [List.getLastD_cons]
    by_cases h : rest = []
    · subst h
      simpa using hl a (by simp)
    · have : rest.getLastD a = rest.getLast h := by
        cases rest with
        | nil => exact absurd rfl h
        | cons b r => rw [List.getLastD_cons, List.getLast_eq_getLastD (a := b)]
      rw [this]
      exact hl _ (List.mem_cons_of_mem _ (List.getLast_mem h))

theorem headD_lt_of {n : Nat} {path : List Nat} (hn : 0 < n) (hl : ∀ x ∈ path, x < n) :
    path.headD 0 < n := by
  cases path with
  | nil => simpa using hn
  | cons a rest => simpa using hl a (by simp)

theorem getD_lt_of {n : Nat} {path : List Nat} (hn : 0 < n) (hl : ∀ x ∈ path, x < n)
    (i : Nat) : path.getD i 0 < n := by
  by_cases h : i < path.length
  · rw [List.getD_eq_getElem _ _ h]
    exact hl _ (List.getElem_mem h)
  · rw [List.getD_eq_default _ _ (not_lt.1 h)]
    exact hn

theorem calculatePartialDistance_float {K : Nat} (t : TSPSolver)
    (hE : ∀ i j, i < t.numPoints → j < t.numPoints → F64.Small K (t.distanceMatrix i j))
    {path : List Nat} (hl : ∀ x ∈ path, x < t.numPoints)
    (hb : (path.length - 1) * K < 2 ^ 53) :
    F64.calculatePartialDistance t path = calculatePartialDistance t path ∧
      F64.Small ((path.length - 1) * K) (calculatePartialDistance t path) := by
  have := sumConsecutive_float hE path 0 0 hl (F64.Small.zero 0) (by simpa using hb)
  simpa [F64.calculatePartialDistance, calculatePartialDistance] using this

/-- On a matrix of small natural numbers the `float64` tour length is the
exact one. -/
theorem calculatePathDistance_float {K : Nat} (t : TSPSolver) (hn : 0 < t.numPoints)
    (hE : ∀ i j, i < t.numPoints → j < t.numPoints → F64.Small K (t.distanceMatrix i j))
    {path : List Nat} (hl : ∀ x ∈ path, x < t.numPoints)
    (hb : (path.length + 1) * K < 2 ^ 53) :
    F64.calculatePathDistance t path = calculatePathDistance t path ∧
      F64.Small ((path.length + 1) * K) (calculatePathDistance t path) := by
  have h1 : (path.length - 1) * K + K ≤ (path.length + 1) * K := by
    have : (path.length + 1) * K = path.length * K + K := by ring
    have : (path.length - 1) * K ≤ path.length * K := Nat.mul_le_mul_right K (Nat.sub_le _ _)
    omega
  obtain ⟨e1, s1⟩ := sumConsecutive_float hE path 0 0 hl (F64.Small.zero 0)
    (by simp only [zero_add]; omega)
  simp only [zero_add] at s1
  obtain ⟨e2, s2⟩ := s1.add_exact
    (hE _ _ (getLastD_lt_of hn hl) (headD_lt_of hn hl)) (by omega)
  unfold F64.calculatePathDistance calculatePathDistance
  rw [e1, e2]
  exact ⟨rfl, s2.mono h1⟩

theorem kruskalLoop_float {K : Nat} (k : Nat) (idx : Nat → Nat) (hk : k * K < 2 ^ 53) :
    ∀ (edges : List Edge) (uf : UnionFind) (mst : ℚ) (used : Nat),
      (∀ e ∈ edges, F64.Small K e.Weight) → used ≤ k - 1 → F64.Small (used * K) mst →
      F64.kruskalLoop k idx edges uf mst used = kruskalLoop k idx edges uf mst used ∧
        ∀ v, kruskalLoop k idx edges uf mst used = some v → F64.Small (k * K) v := by
  intro edges
  induction edges with
  | nil =>
    intro uf mst used _ hu hs
    refine ⟨rfl, ?_⟩
    intro v hv
    simp only [kruskalLoop, Option.some.injEq] at hv
    rw [← hv]
    exact hs.mono (Nat.mul_le_mul_right K (by omega))
  | cons edge rest ih =>
    intro uf mst used hw hu hs
    have hrest : ∀ e ∈ rest, F64.Small K e.Weight := fun e he => hw e (List.mem_cons_of_mem _ he)
    simp only [F64.kruskalLoop, kruskalLoop]
    by_cases hfull : used = k - 1
    · rw [if_pos hfull, if_pos hfull]
      refine ⟨rfl, ?_⟩
      intro v hv
      simp only [Option.some.injEq] at hv
      rw [← hv]
      exact hs.mono (Nat.mul_le_mul_right K (by omega))
    · rw [if_neg hfull, if_neg hfull]
      cases h1 : uf.Find (idx edge.From) with
      | none => exact ⟨rfl, fun v hv => by simp at hv⟩
      | some r1 =>
        obtain ⟨uf1, r1⟩ := r1
        simp only []
        cases h2 : uf1.Find (idx edge.To) with
        | none => exact ⟨rfl, fun v hv => by simp at hv⟩
        | some r2 =>
          obtain ⟨uf2, r2⟩ := r2
          simp only []
          by_cases hr : r1 ≠ r2
          · rw [if_pos hr, if_pos hr]
            cases h3 : uf2.Union (idx edge.From) (idx edge.To) with
            | none => exact ⟨rfl, fun v hv => by simp at hv⟩
            | some uf3 =>
              simp only []
              have hlt : used + 1 ≤ k - 1 := by omega
              have hbound : used * K + K < 2 ^ 53 := by
                have : (used + 1) * K ≤ k * K := Nat.mul_le_mul_right K (by omega)
                have : (used + 1) * K = used * K + K := by ring
                omega
              obtain ⟨e1, s1⟩ := hs.add_exact (hw edge (List.mem_cons_self _ _)) hbound
              rw [e1]
              have hs2 : F64.Small ((used + 1) * K) (mst + edge.Weight) := by
                have : (used + 1) * K = used * K + K := by ring
                rw [this]
                exact s1
              exact ih uf3 (mst + edge.Weight) (used + 1) hrest hlt hs2
          · rw [if_neg hr, if_neg hr]
            exact ih uf2 mst used hrest hu hs

theorem kruskalCompute_float {n K : Nat} (rt : Runtime) (hrt : rt.Valid) {d : Nat → Nat → ℚ}
    (hE : ∀ i j, i < n → j < n → F64.Small K (d i j)) {points : List Nat}
    (hl : ∀ x ∈ points, x < n) (hk : points.length * K < 2 ^ 53) :
    F64.kruskalCompute rt d points = kruskalCompute rt d points ∧
      ∀ v, kruskalCompute rt d points = some v → F64.Small (points.length * K) v := by
  unfold F64.kruskalCompute kruskalCompute
  apply kruskalLoop_float points.length (pointToIndex points) hk
  · intro e he
    have hmem := (hrt.sortEdges_perm (allEdges d points)).subset he
    obtain ⟨h1, h2, h3⟩ := mem_allEdges hmem
    rw [h3]
    exact hE _ _ (hl _ h1) (hl _ h2)
  · exact Nat.zero_le _
  · simpa using F64.Small.zero 0

theorem calculateMSTKruskal_float {n K : Nat} (rt : Runtime) (hrt : rt.Valid) (t : TSPSolver)
    (hE : ∀ i j, i < n → j < n → F64.Small K (t.distanceMatrix i j))
    (hc : ∀ key v, t.mstCache.lookup key = some v → F64.Small (n * K) v)
    {points : List Nat} (hl : ∀ x ∈ points, x < n)
    (hlen : points.length ≤ n) (hk : n * K < 2 ^ 53) :
    F64.calculateMSTKruskal rt t points = calculateMSTKruskal rt t points ∧
      ∀ v t1, calculateMSTKruskal rt t points = some (v, t1) →
        F64.Small (n * K) v ∧
        ∀ key w, t1.mstCache.lookup key = some w → F64.Small (n * K) w := by
  unfold F64.calculateMSTKruskal calculateMSTKruskal
  by_cases h1 : points.length ≤ 1
  · rw [if_pos h1, if_pos h1]
    refine ⟨rfl, ?_⟩
    intro v t1 h
    simp only [Option.some.injEq, Prod.mk.injEq] at h
    obtain ⟨rfl, rfl⟩ := h
    exact ⟨F64.Small.zero _, hc⟩
  · rw [if_neg h1, if_neg h1]
    simp only []
    cases hlook : t.mstCache.lookup (sortInts points) with
    | some cached =>
      simp only []
      refine ⟨trivial, ?_⟩
      intro v t1 h
      simp only [Option.some.injEq, Prod.mk.injEq] at h
      obtain ⟨rfl, rfl⟩ := h
      exact ⟨hc _ _ hlook, hc⟩
    | none =>
      simp only []
      have hmem : ∀ x ∈ sortInts points, x < n :=
        fun x hx => hl x ((sortInts_perm points).subset hx)
      have hlen2 : (sortInts points).length * K < 2 ^ 53 := by
        rw [sortInts_length]
        exact lt_of_le_of_lt (Nat.mul_le_mul_right K hlen) hk
      obtain ⟨e, hs⟩ := kruskalCompute_float rt hrt hE hmem hlen2
      rw [e]
      cases hcomp : kruskalCompute rt t.distanceMatrix (sortInts points) with
      | none => exact ⟨rfl, fun v t1 h => by simp at h⟩
      | some mst =>
        simp only []
        refine ⟨trivial, ?_⟩
        intro v t1 h
        simp only [Option.some.injEq, Prod.mk.injEq] at h
        obtain ⟨rfl, rfl⟩ := h
        have hsm : F64.Small (n * K) mst := by
          have := hs mst hcomp
          rw [sortInts_length] at this
          exact this.mono (Nat.mul_le_mul_right K hlen)
        refine ⟨hsm, ?_⟩
        intro key w hw
        simp only [List.lookup_cons] at hw
        by_cases hkey : key == sortInts points
        · rw [hkey] at hw
          simp only [Option.some.injEq] at hw
          rw [← hw]
          exact hsm
        · simp only [Bool.not_eq_true] at hkey
          rw [hkey] at hw
          exact hc key w hw

theorem minDistTo_float {n K : Nat} {d : Nat → Nat → ℚ}
    (hE : ∀ i j, i < n → j < n → F64.Small K (d i j)) (hK : K < 2 ^ 53) {v : Nat} (hv : v < n) :
    ∀ (l : List Nat) (m : Option ℚ), (∀ x ∈ l, x < n) → (∀ b, m = some b → F64.Small K b) →
      F64.minDistTo d v l (m.getD F64.maxFloat64) = (minDistTo d v l m).getD F64.maxFloat64 ∧
        (∀ b, minDistTo d v l m = some b → F64.Small K b) ∧
        (l ≠ [] → ∃ b, minDistTo d v l m = some b) := by
  intro l
  induction l with
  | nil =>
    intro m _ hm
    exact ⟨rfl, hm, fun h => absurd rfl h⟩
  | cons point rest ih =>
    intro m hl hm
    have hp : point < n := hl point (by simp)
    have hs := hE v point hv hp
    obtain ⟨x1, _, _, x4⟩ := hs.finite hK
    have hcond : F64.lt (d v point) (m.getD F64.maxFloat64) = ltBest (d v point) m := by
      cases m with
      | none =>
        simp only [Option.getD_none, ltBest]
        rw [F64.lt_eq x1 F64.maxFloat64_ne_nan]
        simpa using x4
      | some b =>
        simp only [Option.getD_some, ltBest]
        exact F64.lt_eq x1 ((hm b rfl).finite hK).1
    simp only [F64.minDistTo, minDistTo]
    rw [hcond]
    have hnext : (if ltBest (d v point) m = true then d v point else m.getD F64.maxFloat64)
        = (if ltBest (d v point) m = true then some (d v point) else m).getD F64.maxFloat64 := by
      split_ifs <;> rfl
    rw [hnext]
    have hm2 : ∀ b, (if ltBest (d v point) m = true then some (d v point) else m) = some b →
        F64.Small K b := by
      intro b hb
      split_ifs at hb with hc
      · simp only [Option.some.injEq] at hb
        rw [← hb]
        exact hs
      · exact hm b hb
    obtain ⟨r1, r2, r3⟩ := ih _ (fun x hx => hl x (List.mem_cons_of_mem _ hx)) hm2
    refine ⟨r1, r2, fun _ => ?_⟩
    by_cases hrest : rest = []
    · subst hrest
      simp only [minDistTo]
      by_cases hc : ltBest (d v point) m = true
      · exact ⟨_, by rw [if_pos hc]⟩
      · rw [if_neg hc]
        cases m with
        | none => simp [ltBest] at hc
        | some b => exact ⟨b, rfl⟩
    · exact r3 hrest

theorem minConnectionToPath_float {K : Nat} (t : TSPSolver) (hn : 0 < t.numPoints)
    (hE : ∀ i j, i < t.numPoints → j < t.numPoints → F64.Small K (t.distanceMatrix i j))
    (hK : K + K < 2 ^ 53) {unvisited path : List Nat} (hu : ∀ x ∈ unvisited, x < t.numPoints)
    (hl : ∀ x ∈ path, x < t.numPoints) :
    F64.minConnectionToPath t unvisited path = minConnectionToPath t unvisited path ∧
      F64.Small (K + K) (minConnectionToPath t unvisited path) := by
  unfold F64.minConnectionToPath minConnectionToPath
  by_cases h0 : unvisited.length = 0
  · rw [if_pos h0, if_pos h0]
    exact ⟨rfl, F64.Small.zero _⟩
  · rw [if_neg h0, if_neg h0]
    have hne : unvisited ≠ [] := fun h => h0 (by rw [h]; rfl)
    have hK1 : K < 2 ^ 53 := by omega
    obtain ⟨a1, a2, a3⟩ := minDistTo_float hE hK1 (headD_lt_of hn hl) unvisited none hu
      (fun b h => by simp at h)
    obtain ⟨b1, b2, b3⟩ := minDistTo_float hE hK1 (getLastD_lt_of hn hl) unvisited none hu
      (fun b h => by simp at h)
    obtain ⟨x, hx⟩ := a3 hne
    obtain ⟨y, hy⟩ := b3 hne
    simp only [Option.getD_none] at a1 b1
    rw [a1, b1, hx, hy]
    simp only [Option.getD_some]
    exact (a2 x hx).add_exact (b2 y hy) hK

theorem unvisitedOf_lt (n : Nat) (visited : List Bool) : ∀ x ∈ unvisitedOf n visited, x < n := by
  intro x hx
  exact List.mem_range.1 (List.mem_filter.1 hx).1

theorem unvisitedOf_length_le (n : Nat) (visited : List Bool) :
    (unvisitedOf n visited).length ≤ n := by
  have := List.length_filter_le (fun i => !visited.getD i false) (List.range n)
  simpa [unvisitedOf] using this

/-- On a matrix of small natural numbers the `float64` lower bound is the exact
one; it changes nothing but the cache, and the cached values stay small. -/
theorem calculateLowerBound_float {K : Nat} (rt : Runtime) (hrt : rt.Valid) (t : TSPSolver)
    (hn : 0 < t.numPoints)
    (hE : ∀ i j, i < t.numPoints → j < t.numPoints → F64.Small K (t.distanceMatrix i j))
    (hK : (2 * t.numPoints + 4) * K < 2 ^ 53)
    (hc : ∀ key v, t.mstCache.lookup key = some v → F64.Small (t.numPoints * K) v)
    {path : List Nat} (hl : ∀ x ∈ path, x < t.numPoints) (hlen : path.length ≤ t.numPoints)
    (visited : List Bool) :
    F64.calculateLowerBound rt t path visited = calculateLowerBound rt t path visited ∧
      ∀ lb t1, calculateLowerBound rt t path visited = some (lb, t1) →
        F64.Small ((2 * t.numPoints + 4) * K) lb ∧
        ∀ key w, t1.mstCache.lookup key = some w → F64.Small (t.numPoints * K) w := by
  have hexp : (2 * t.numPoints + 4) * K = 2 * (t.numPoints * K) + 4 * K := by ring
  have hpl : (path.length - 1) * K ≤ t.numPoints * K :=
    Nat.mul_le_mul_right K (le_trans (Nat.sub_le _ _) hlen)
  obtain ⟨e1, s1⟩ := calculatePartialDistance_float t hE hl (by omega)
  unfold F64.calculateLowerBound calculateLowerBound
  simp only []
  rw [e1]
  by_cases h0 : (unvisitedOf t.numPoints visited).length = 0
  · rw [if_pos h0, if_pos h0]
    obtain ⟨e2, s2⟩ := s1.add_exact (hE _ _ (getLastD_lt_of hn hl) (headD_lt_of hn hl))
      (by omega)
    rw [e2]
    refine ⟨rfl, ?_⟩
    intro lb t1 h
    simp only [Option.some.injEq, Prod.mk.injEq] at h
    obtain ⟨rfl, rfl⟩ := h
    exact ⟨s2.mono (by omega), hc⟩
  · rw [if_neg h0, if_neg h0]
    obtain ⟨e3, s3⟩ := calculateMSTKruskal_float rt hrt t hE hc (unvisitedOf_lt _ visited)
      (unvisitedOf_length_le _ visited) (by omega)
    rw [e3]
    cases hm : calculateMSTKruskal rt t (unvisitedOf t.numPoints visited) with
    | none => exact ⟨rfl, fun lb t1 h => by simp at h⟩
    | some r =>
      obtain ⟨mst, t1⟩ := r
      simp only []
      obtain ⟨hsm, hc1⟩ := s3 mst t1 hm
      obtain ⟨v, t2, hcall, a1, a2, _, _, _, _, _⟩ :=
        calculateMSTKruskal_spec rt hrt t (unvisitedOf t.numPoints visited)
      rw [hm] at hcall
      simp only [Option.some.injEq, Prod.mk.injEq] at hcall
      obtain ⟨rfl, rfl⟩ := hcall
      have hE1 : ∀ i j, i < t1.numPoints → j < t1.numPoints →
          F64.Small K (t1.distanceMatrix i j) := by
        rw [a1, a2]
        exact hE
      have hu1 : ∀ x ∈ (if (unvisitedOf t.numPoints visited).length ≤ 1
          then unvisitedOf t.numPoints visited
          else sortInts (unvisitedOf t.numPoints visited)), x < t1.numPoints := by
        rw [a1]
        intro x hx
        split_ifs at hx
        · exact unvisitedOf_lt _ _ x hx
        · exact unvisitedOf_lt _ _ x ((sortInts_perm _).subset hx)
      obtain ⟨e4, s4⟩ := minConnectionToPath_float t1 (by rw [a1]; exact hn) hE1 (by omega) hu1
        (by rw [a1]; exact hl)
      rw [e4]
      obtain ⟨e5, s5⟩ := s1.add_exact hsm (by omega)
      rw [e5]
      obtain ⟨e6, s6⟩ := s5.add_exact s4 (by omega)
      rw [e6]
      refine ⟨rfl, ?_⟩
      intro lb t3 h
      simp only [Option.some.injEq, Prod.mk.injEq] at h
      obtain ⟨rfl, rfl⟩ := h
      exact ⟨s6.mono (by omega), hc1⟩

/-! ## The float64 reading agrees with the exact one on small whole numbers:
branch and bound -/


theorem ge_incumbent_float {B : Nat} {x : ℚ} (hx : F64.Small B x) (hB : B < 2 ^ 53)
    {t : TSPSolver} (ht : t.bestDistance ≠ some F64.nan) :
    F64.ge x (F64.incumbent t) = geBest x t.bestDistance := by
  obtain ⟨x1, _, _, x4⟩ := hx.finite hB
  unfold F64.incumbent geBest
  cases hb : t.bestDistance with
  | none =>
    simp only [Option.getD_none, ltBest]
    rw [F64.ge_eq x1 F64.maxFloat64_ne_nan]
    simp [x4]
  | some b =>
    simp only [Option.getD_some, ltBest]
    have hbn : b ≠ F64.nan := fun e => ht (by rw [hb, e])
    exact F64.ge_eq x1 hbn

theorem lt_incumbent_float {B : Nat} {x : ℚ} (hx : F64.Small B x) (hB : B < 2 ^ 53)
    {t : TSPSolver} (ht : t.bestDistance ≠ some F64.nan) :
    F64.lt x (F64.incumbent t) = ltBest x t.bestDistance := by
  obtain ⟨x1, _, _, x4⟩ := hx.finite hB
  unfold F64.incumbent
  cases hb : t.bestDistance with
  | none =>
    simp only [Option.getD_none, ltBest]
    rw [F64.lt_eq x1 F64.maxFloat64_ne_nan]
    simp [x4]
  | some b =>
    simp only [Option.getD_some, ltBest]
    have hbn : b ≠ F64.nan := fun e => ht (by rw [hb, e])
    exact F64.lt_eq x1 hbn

theorem F64.Tame.same {K : Nat} {t t1 : TSPSolver} (h : F64.Tame K t) (hs : SameProblem t t1)
    (hc : ∀ key v, t1.mstCache.lookup key = some v → F64.Small (t.numPoints * K) v)
    (hf : t1.bestDistance ≠ some F64.nan) : F64.Tame K t1 := by
  obtain ⟨s1, s2, s3⟩ := hs
  refine ⟨by rw [s1]; exact h.pos, by rw [s1, s2]; exact h.entries, by rw [s1]; exact h.bound,
    by rw [s1, s3]; exact h.ranking, by rw [s1]; exact hc, hf⟩

/-- The loop over the candidates, given that the recursive calls agree. -/
theorem tryPoints_float {K : Nat} (rt : Runtime) (fuel : Nat) (n : Nat) (path : List Nat)
    (cd : ℚ) (hcd : F64.Small (path.length * K) cd) (hl : ∀ x ∈ path, x < n)
    (hlen : path.length < n)
    (ih : ∀ (t : TSPSolver) (path : List Nat) (cd : ℚ) (visited : List Bool),
      F64.Tame K t → (∀ x ∈ path, x < t.numPoints) → path.length ≤ t.numPoints →
      F64.Small (path.length * K) cd →
      F64.bruteForceRecursive rt fuel t path cd visited
          = bruteForceRecursive rt fuel t path cd visited ∧
        ∀ t1 v1, bruteForceRecursive rt fuel t path cd visited = some (t1, v1) →
          SameProblem t t1 ∧ F64.Tame K t1) :
    ∀ (cands : List Nat), (∀ c ∈ cands, c < n) →
    ∀ (s : TSPSolver × List Bool), F64.Tame K s.1 → s.1.numPoints = n →
      cands.foldlM (F64.tryPoint (F64.bruteForceRecursive rt fuel) path cd (path.getLastD 0)) s
          = cands.foldlM (tryPoint (bruteForceRecursive rt fuel) path cd (path.getLastD 0)) s ∧
        ∀ r, cands.foldlM (tryPoint (bruteForceRecursive rt fuel) path cd (path.getLastD 0)) s
            = some r → SameProblem s.1 r.1 ∧ F64.Tame K r.1 := by
  intro cands
  induction cands with
  | nil =>
    intro _ s hs _
    refine ⟨rfl, ?_⟩
    intro r hr
    simp only [List.foldlM_nil, Option.pure_def, Option.some.injEq] at hr
    rw [← hr]
    exact ⟨SameProblem.refl _, hs⟩
  | cons c cs ihc =>
    intro hc s hs hn
    have hcn : c < n := hc c (List.mem_cons_self _ _)
    have hcs : ∀ x ∈ cs, x < n := fun x hx => hc x (List.mem_cons_of_mem _ hx)
    have hn0 : 0 < n := by rw [← hn]; exact hs.pos
    have hlast : path.getLastD 0 < n := getLastD_lt_of hn0 hl
    have hbound := hs.bound
    rw [hn] at hbound
    have hexp : (2 * n + 4) * K = 2 * (n * K) + 4 * K := by ring
    have hpl : path.length * K + K ≤ n * K := by
      have : (path.length + 1) * K ≤ n * K := Nat.mul_le_mul_right K hlen
      have : (path.length + 1) * K = path.length * K + K := by ring
      omega
    obtain ⟨e1, s1⟩ := hcd.add_exact
      (hs.entries (path.getLastD 0) c (by rw [hn]; exact hlast) (by rw [hn]; exact hcn))
      (by omega)
    have hstep : F64.tryPoint (F64.bruteForceRecursive rt fuel) path cd (path.getLastD 0) s c
          = tryPoint (bruteForceRecursive rt fuel) path cd (path.getLastD 0) s c ∧
        ∀ r, tryPoint (bruteForceRecursive rt fuel) path cd (path.getLastD 0) s c = some r →
          SameProblem s.1 r.1 ∧ F64.Tame K r.1 := by
      simp only [F64.tryPoint, tryPoint]
      rw [e1, ge_incumbent_float s1 (by omega) hs.finite]
      by_cases hge : geBest (cd + s.1.distanceMatrix (path.getLastD 0) c) s.1.bestDistance = true
      · rw [if_pos hge, if_pos hge]
        refine ⟨rfl, ?_⟩
        intro r hr
        simp only [Option.some.injEq] at hr
        rw [← hr]
        exact ⟨SameProblem.refl _, hs⟩
      · rw [if_neg hge, if_neg hge]
        have hl2 : ∀ x ∈ path ++ [c], x < s.1.numPoints := by
          intro x hx
          rw [hn]
          rcases List.mem_append.1 hx with h | h
          · exact hl x h
          · rw [List.mem_singleton.1 h]
            exact hcn
        have hlen2 : (path ++ [c]).length ≤ s.1.numPoints := by
          rw [hn, List.length_append, List.length_singleton]
          omega
        have hcd2 : F64.Small ((path ++ [c]).length * K)
            (cd + s.1.distanceMatrix (path.getLastD 0) c) := by
          rw [List.length_append, List.length_singleton]
          have : (path.length + 1) * K = path.length * K + K := by ring
          rw [this]
          exact s1
        obtain ⟨e2, p2⟩ := ih s.1 (path ++ [c]) (cd + s.1.distanceMatrix (path.getLastD 0) c)
          (s.2.set c true) hs hl2 hlen2 hcd2
        rw [e2]
        cases hrec : bruteForceRecursive rt fuel s.1 (path ++ [c])
            (cd + s.1.distanceMatrix (path.getLastD 0) c) (s.2.set c true) with
        | none => exact ⟨rfl, fun r hr => by simp at hr⟩
        | some res =>
          obtain ⟨t3, v3⟩ := res
          simp only []
          refine ⟨trivial, ?_⟩
          intro r hr
          simp only [Option.some.injEq] at hr
          rw [← hr]
          exact p2 t3 v3 hrec
    obtain ⟨e3, p3⟩ := hstep
    rw [List.foldlM_cons, List.foldlM_cons, e3]
    cases hst : tryPoint (bruteForceRecursive rt fuel) path cd (path.getLastD 0) s c with
    | none => exact ⟨rfl, fun r hr => by simp at hr⟩
    | some s2 =>
      obtain ⟨q1, q2⟩ := p3 s2 hst
      obtain ⟨e4, p4⟩ := ihc hcs s2 q2 (q1.1.trans hn)
      simp only [Option.bind_eq_bind, Option.some_bind]
      refine ⟨e4, ?_⟩
      intro r hr
      obtain ⟨r1, r2⟩ := p4 r hr
      exact ⟨q1.trans_same r1, r2⟩

/-- On a solver state with a matrix of small natural numbers, the `float64`
reading of `bruteForceRecursive` gives what the exact reading gives. -/
theorem bruteForceRecursive_float {K : Nat} (rt : Runtime) (hrt : rt.Valid) :
    ∀ (fuel : Nat) (t : TSPSolver) (path : List Nat) (cd : ℚ) (visited : List Bool),
      F64.Tame K t → (∀ x ∈ path, x < t.numPoints) → path.length ≤ t.numPoints →
      F64.Small (path.length * K) cd →
      F64.bruteForceRecursive rt fuel t path cd visited
          = bruteForceRecursive rt fuel t path cd visited ∧
        ∀ t1 v1, bruteForceRecursive rt fuel t path cd visited = some (t1, v1) →
          SameProblem t t1 ∧ F64.Tame K t1 := by
  intro fuel
  induction fuel with
  | zero =>
    intro t path cd visited _ _ _ _
    exact ⟨rfl, fun t1 v1 h => by simp [bruteForceRecursive] at h⟩
  | succ fuel ih =>
    intro t path cd visited ht hl hlen hcd
    have hexp : (2 * t.numPoints + 4) * K = 2 * (t.numPoints * K) + 4 * K := by ring
    have hbound := ht.bound
    have hplen : path.length * K ≤ t.numPoints * K := Nat.mul_le_mul_right K hlen
    obtain ⟨e1, p1⟩ := calculateLowerBound_float rt hrt t ht.pos ht.entries ht.bound ht.cache hl
      hlen visited
    obtain ⟨lb, t1, hlb, hsame, hbp, hbd, hvc, _⟩ := calculateLowerBound_frame rt hrt t path visited
    obtain ⟨slb, hc1⟩ := p1 lb t1 hlb
    have ht1 : F64.Tame K t1 := ht.same hsame hc1 (by rw [hbd]; exact ht.finite)
    rw [F64.bruteForceRecursive, bruteForceRecursive, e1]
    simp only [hlb]
    rw [ge_incumbent_float slb ht.bound ht1.finite]
    by_cases hge : geBest lb t1.bestDistance = true
    · rw [if_pos hge, if_pos hge]
      refine ⟨rfl, ?_⟩
      intro t2 v2 h
      simp only [Option.some.injEq, Prod.mk.injEq] at h
      rw [← h.1]
      exact ⟨hsame, ht1⟩
    · rw [if_neg hge, if_neg hge]
      by_cases hfull : path.length = t1.numPoints
      · rw [if_pos hfull, if_pos hfull]
        have hclose := ht1.entries (path.getLastD 0) (path.headD 0)
          (getLastD_lt_of ht1.pos (by rw [hsame.1]; exact hl))
          (headD_lt_of ht1.pos (by rw [hsame.1]; exact hl))
        obtain ⟨e2, s2⟩ := hcd.add_exact hclose (by omega)
        have hinc : F64.incumbent { t1 with visitedCount := t1.visitedCount + 1 }
            = F64.incumbent t1 := rfl
        simp only [hinc]
        rw [e2, lt_incumbent_float s2 (by omega) ht1.finite]
        by_cases hlt : ltBest (cd + t1.distanceMatrix (path.getLastD 0) (path.headD 0))
            t1.bestDistance = true
        · rw [if_pos hlt]
          refine ⟨rfl, ?_⟩
          intro t2 v2 h
          simp only [Option.some.injEq, Prod.mk.injEq] at h
          rw [← h.1]
          refine ⟨⟨hsame.1, hsame.2.1, hsame.2.2⟩, ?_⟩
          refine ⟨ht1.pos, ht1.entries, ht1.bound, ht1.ranking, ht1.cache, ?_⟩
          intro e
          simp only [Option.some.injEq] at e
          exact (s2.finite (by omega)).1 e
        · rw [if_neg hlt]
          refine ⟨rfl, ?_⟩
          intro t2 v2 h
          simp only [Option.some.injEq, Prod.mk.injEq] at h
          rw [← h.1]
          exact ⟨⟨hsame.1, hsame.2.1, hsame.2.2⟩,
            ⟨ht1.pos, ht1.entries, ht1.bound, ht1.ranking, ht1.cache, ht1.finite⟩⟩
      · rw [if_neg hfull, if_neg hfull]
        have hcands : ∀ c ∈ rt.sortSlice (t1.distanceMatrix (path.getLastD 0))
            (pointsToTryOf t1 (path.getLastD 0) visited), c < t1.numPoints := by
          intro c hc
          have h1 := (hrt.sortSlice_perm _ _).subset hc
          rw [mem_pointsToTryOf ht1.ranking] at h1
          exact unvisitedOf_lt _ _ c h1
        have hlen1 : path.length < t1.numPoints := by
          rw [hsame.1] at hfull ⊢
          omega
        obtain ⟨e3, p3⟩ := tryPoints_float rt fuel t1.numPoints path cd hcd
          (by rw [hsame.1]; exact hl) hlen1 ih _ hcands (t1, visited) ht1 rfl
        refine ⟨e3, ?_⟩
        intro t2 v2 h
        obtain ⟨r1, r2⟩ := p3 (t2, v2) h
        exact ⟨hsame.trans_same r1, r2⟩

/-! ## The float64 reading agrees with the exact one on small whole numbers:
greedy construction and v1 `bruteForce` -/


theorem scanNearest_float {n K : Nat} {d : Nat → Nat → ℚ}
    (hE : ∀ i j, i < n → j < n → F64.Small K (d i j)) (hK : K < 2 ^ 53) {cur : Nat}
    (hcur : cur < n) :
    ∀ (l : List Nat) (best : Option (Nat × ℚ)), (∀ x ∈ l, x < n) →
      (∀ p, best = some p → p.1 < n ∧ F64.Small K p.2) →
      F64.scanNearest d cur l (best.getD (0, F64.maxFloat64))
          = (scanNearest d cur l best).getD (0, F64.maxFloat64) ∧
        (∀ p, scanNearest d cur l best = some p → p.1 < n ∧ F64.Small K p.2) ∧
        (best = none → l = [] → scanNearest d cur l best = none) ∧
        (l ≠ [] → ∃ p, scanNearest d cur l best = some p) := by
  intro l
  induction l with
  | nil =>
    intro best _ hb
    exact ⟨rfl, hb, fun h _ => by rw [h]; rfl, fun h => absurd rfl h⟩
  | cons point rest ih =>
    intro best hl hb
    have hp : point < n := hl point (by simp)
    have hs := hE cur point hcur hp
    obtain ⟨x1, _, _, x4⟩ := hs.finite hK
    have hcond : F64.lt (d cur point) (best.getD (0, F64.maxFloat64)).2
        = ltBest (d cur point) (best.map Prod.snd) := by
      cases best with
      | none =>
        simp only [Option.getD_none, Option.map_none', ltBest]
        rw [F64.lt_eq x1 F64.maxFloat64_ne_nan]
        simpa using x4
      | some b =>
        simp only [Option.getD_some, Option.map_some', ltBest]
        exact F64.lt_eq x1 (((hb b rfl).2).finite hK).1
    simp only [F64.scanNearest, scanNearest]
    rw [hcond]
    have hnext : (if ltBest (d cur point) (best.map Prod.snd) = true then (point, d cur point)
          else best.getD (0, F64.maxFloat64))
        = (if ltBest (d cur point) (best.map Prod.snd) = true then some (point, d cur point)
          else best).getD (0, F64.maxFloat64) := by
      split_ifs <;> rfl
    rw [hnext]
    have hb2 : ∀ p, (if ltBest (d cur point) (best.map Prod.snd) = true
        then some (point, d cur point) else best) = some p → p.1 < n ∧ F64.Small K p.2 := by
      intro p hp2
      split_ifs at hp2 with hc
      · simp only [Option.some.injEq] at hp2
        rw [← hp2]
        exact ⟨hp, hs⟩
      · exact hb p hp2
    obtain ⟨r1, r2, _, r4⟩ := ih _ (fun x hx => hl x (List.mem_cons_of_mem _ hx)) hb2
    refine ⟨r1, r2, fun _ h => absurd h (List.cons_ne_nil _ _), fun _ => ?_⟩
    by_cases hrest : rest = []
    · subst hrest
      simp only [scanNearest]
      by_cases hc : ltBest (d cur point) (best.map Prod.snd) = true
      · exact ⟨_, by rw [if_pos hc]⟩
      · rw [if_neg hc]
        cases best with
        | none => simp [ltBest] at hc
        | some b => exact ⟨b, rfl⟩
    · exact r4 hrest

theorem nextPointOf_float (best : Option (Nat × ℚ)) :
    (best.getD (0, F64.maxFloat64)).1 = nextPointOf best := by
  cases best <;> rfl

theorem nextPointOf_lt {n : Nat} (hn : 0 < n) {best : Option (Nat × ℚ)}
    (h : ∀ p, best = some p → p.1 < n) : nextPointOf best < n := by
  cases best with
  | none => exact hn
  | some p => exact h p rfl

theorem V1.greedyLoop_float {n K : Nat} (rt : Runtime) (hrt : rt.Valid) {d : Nat → Nat → ℚ}
    (hn : 0 < n) (hE : ∀ i j, i < n → j < n → F64.Small K (d i j)) (hK : K < 2 ^ 53) :
    ∀ (fuel : Nat) (path unvisited : List Nat), (∀ x ∈ path, x < n) →
      (∀ x ∈ unvisited, x < n) →
      F64.V1.greedyLoop rt d fuel path unvisited = V1.greedyLoop rt d fuel path unvisited := by
  intro fuel
  induction fuel with
  | zero => intro path unvisited _ _; rfl
  | succ fuel ih =>
    intro path unvisited hl hu
    simp only [F64.V1.greedyLoop, V1.greedyLoop]
    by_cases h0 : unvisited.length > 0
    · rw [if_pos h0, if_pos h0]
      have hm : ∀ x ∈ rt.mapRange path unvisited, x < n :=
        fun x hx => hu x ((hrt.mapRange_perm path unvisited).subset hx)
      obtain ⟨e1, p1, _, _⟩ := scanNearest_float hE hK (getLastD_lt_of hn hl)
        (rt.mapRange path unvisited) none hm (fun p h => by simp at h)
      simp only [Option.getD_none] at e1
      rw [e1, nextPointOf_float]
      have hnext : nextPointOf (scanNearest d (path.getLastD 0) (rt.mapRange path unvisited) none)
          < n := nextPointOf_lt hn (fun p h => (p1 p h).1)
      apply ih
      · intro x hx
        rcases List.mem_append.1 hx with h | h
        · exact hl x h
        · rw [List.mem_singleton.1 h]
          exact hnext
      · intro x hx
        exact hu x (List.mem_of_mem_erase hx)
    · rw [if_neg h0, if_neg h0]

/-- The float result of a start loop: the pair with `math.MaxFloat64` for the
absent distance. -/
theorem V1.startLoop_float {K : Nat} (rt : Runtime) (hrt : rt.Valid) (t : TSPSolver)
    (hn : 0 < t.numPoints)
    (hE : ∀ i j, i < t.numPoints → j < t.numPoints → F64.Small K (t.distanceMatrix i j))
    (hK : (2 * t.numPoints + 4) * K < 2 ^ 53) :
    ∀ (starts : List Nat) (best : List Nat × Option ℚ), (∀ s ∈ starts, s < t.numPoints) →
      (∀ b, best.2 = some b → F64.Small ((t.numPoints + 1) * K) b) →
      F64.V1.startLoop rt t.numPoints t starts (best.1, best.2.getD F64.maxFloat64)
          = (V1.startLoop rt t starts best).map (fun r => (r.1, r.2.getD F64.maxFloat64)) ∧
        ∀ r, V1.startLoop rt t starts best = some r →
          ∀ b, r.2 = some b → F64.Small ((t.numPoints + 1) * K) b := by
  have hexp : (2 * t.numPoints + 4) * K = 2 * (t.numPoints * K) + 4 * K := by ring
  have hexp2 : (t.numPoints + 1) * K = t.numPoints * K + K := by ring
  intro starts
  induction starts with
  | nil =>
    intro best _ hb
    refine ⟨rfl, ?_⟩
    intro r hr
    simp only [V1.startLoop, Option.some.injEq] at hr
    rw [← hr]
    exact hb
  | cons s rest ih =>
    intro best hs hb
    have hsn : s < t.numPoints := hs s (by simp)
    simp only [F64.V1.startLoop, V1.startLoop]
    rw [V1.greedyLoop_float rt hrt hn hE (by omega) t.numPoints [s] _
      (fun x hx => by rw [List.mem_singleton.1 hx]; exact hsn)
      (fun x hx => List.mem_range.1 (List.mem_filter.1 hx).1)]
    obtain ⟨path, hrun, htour⟩ := V1.greedy_tour rt hrt t hsn
    rw [hrun]
    simp only []
    have hpl : ∀ x ∈ path, x < t.numPoints := fun x hx => List.mem_range.1 (htour.subset hx)
    have hplen : path.length = t.numPoints := by
      have := htour.length_eq
      simpa using this
    obtain ⟨e1, s1⟩ := calculatePathDistance_float t hn hE hpl (by rw [hplen]; omega)
    rw [hplen] at s1
    rw [e1]
    have hcond : F64.lt (calculatePathDistance t path) (best.2.getD F64.maxFloat64)
        = ltBest (calculatePathDistance t path) best.2 := by
      obtain ⟨x1, _, _, x4⟩ := s1.finite (by omega)
      cases hb2 : best.2 with
      | none =>
        simp only [Option.getD_none, ltBest]
        rw [F64.lt_eq x1 F64.maxFloat64_ne_nan]
        simpa using x4
      | some b =>
        simp only [Option.getD_some, ltBest]
        exact F64.lt_eq x1 ((hb b hb2).finite (by omega)).1
    rw [hcond]
    have hnext : (if ltBest (calculatePathDistance t path) best.2 = true
          then (path, calculatePathDistance t path) else (best.1, best.2.getD F64.maxFloat64))
        = ((if ltBest (calculatePathDistance t path) best.2 = true
          then (path, some (calculatePathDistance t path)) else best).1,
          (if ltBest (calculatePathDistance t path) best.2 = true
          then (path, some (calculatePathDistance t path)) else best).2.getD F64.maxFloat64) := by
      split_ifs <;> rfl
    rw [hnext]
    apply ih _ (fun x hx => hs x (List.mem_cons_of_mem _ hx))
    intro b hb3
    split_ifs at hb3 with hc
    · simp only [Option.some.injEq] at hb3
      rw [← hb3]
      exact s1
    · exact hb b hb3

/-- On a matrix of small natural numbers the `float64` reading of v1
`bruteForce` returns what the exact reading returns. -/
theorem V1.bruteForce_float {K : Nat} (rt : Runtime) (hrt : rt.Valid) (t : TSPSolver)
    (hn : 0 < t.numPoints)
    (hE : ∀ i j, i < t.numPoints → j < t.numPoints → F64.Small K (t.distanceMatrix i j))
    (hK : (2 * t.numPoints + 4) * K < 2 ^ 53)
    (hrank : ∀ row ∈ t.nearestNeighbors, ∀ x ∈ row, x < t.numPoints) :
    F64.V1.bruteForce rt t.numPoints t
      = (V1.bruteForce rt t).map (fun r => (r.1, r.2.getD F64.maxFloat64)) := by
  have hexp : (2 * t.numPoints + 4) * K = 2 * (t.numPoints * K) + 4 * K := by ring
  have hexp2 : (t.numPoints + 1) * K = t.numPoints * K + K := by ring
  unfold F64.V1.bruteForce V1.bruteForce F64.V1.multiStartGreedy V1.multiStartGreedy
  simp only []
  obtain ⟨e1, p1⟩ := V1.startLoop_float rt hrt
    { t with bestPath := [], bestDistance := none, visitedCount := 0, mstCache := [] } hn hE hK
    (List.range t.numPoints) ([], none) (fun s hs => List.mem_range.1 hs)
    (fun b h => by simp at h)
  simp only [Option.getD_none] at e1
  rw [e1]
  obtain ⟨gp, hg, _⟩ := V1.multiStartGreedy_spec rt hrt
    ({ t with bestPath := [], bestDistance := none, visitedCount := 0, mstCache := [] } : TSPSolver)
    hn
  unfold V1.multiStartGreedy at hg
  have hsm : F64.Small ((t.numPoints + 1) * K) (tourLength t.distanceMatrix gp) :=
    p1 _ hg _ rfl
  rw [hg]
  simp only [Option.map_some', Option.getD_some]
  rw [if_neg (Nat.pos_iff_ne_zero.1 hn), if_neg (Nat.pos_iff_ne_zero.1 hn)]
  generalize hG : tourLength t.distanceMatrix gp = G at hsm ⊢
  have htame : F64.Tame K
      ({ t with bestPath := gp, bestDistance := some G, visitedCount := 0, mstCache := [] } :
        TSPSolver) :=
    ⟨hn, hE, hK, hrank, fun key v h => by simp at h, fun e => by
      simp only [Option.some.injEq] at e
      exact (hsm.finite (by omega)).1 e⟩
  obtain ⟨e2, _⟩ := bruteForceRecursive_float rt hrt (t.numPoints + 1)
    ({ t with bestPath := gp, bestDistance := some G, visitedCount := 0, mstCache := [] } :
      TSPSolver)
    [0] 0 ((List.replicate t.numPoints false).set 0 true) htame
    (fun x hx => by rw [List.mem_singleton.1 hx]; exact hn)
    (by simpa using hn) (F64.Small.zero _)
  rw [e2]
  cases bruteForceRecursive rt (t.numPoints + 1)
    ({ t with bestPath := gp, bestDistance := some G, visitedCount := 0, mstCache := [] } :
      TSPSolver)
    [0] 0 ((List.replicate t.numPoints false).set 0 true) with
  | none => rfl
  | some r => rfl

/-! ## The float64 reading agrees with the exact one on small whole numbers:
2-opt and the construction of v2 -/


theorem F64.intBound {z : ℤ} {B : Nat} (h1 : -(B : ℤ) ≤ z) (h2 : z ≤ B) (hB : B < 2 ^ 53) :
    |z| < 2 ^ 53 := by
  have hB2 : (B : ℤ) < 2 ^ 53 := by exact_mod_cast hB
  exact abs_lt.2 ⟨by omega, by omega⟩

/-- The `float64` evaluation of `-x1 - x2 + x3 + x4` on small natural numbers
is exact. -/
theorem twoOptSum_float {K : Nat} {x1 x2 x3 x4 : ℚ} (h1 : F64.Small K x1) (h2 : F64.Small K x2)
    (h3 : F64.Small K x3) (h4 : F64.Small K x4) (hK : K + K < 2 ^ 53) :
    F64.add (F64.add (F64.sub (F64.neg x1) x2) x3) x4 = -x1 - x2 + x3 + x4 ∧
      ∃ z : ℤ, -((K + K : Nat) : ℤ) ≤ z ∧ z ≤ ((K + K : Nat) : ℤ) ∧ -x1 - x2 + x3 + x4 = z := by
  obtain ⟨k1, b1, rfl⟩ := h1
  obtain ⟨k2, b2, rfl⟩ := h2
  obtain ⟨k3, b3, rfl⟩ := h3
  obtain ⟨k4, b4, rfl⟩ := h4
  have c1 : ((k1 : ℕ) : ℚ) = ((k1 : ℤ) : ℚ) := by simp
  have c2 : ((k2 : ℕ) : ℚ) = ((k2 : ℤ) : ℚ) := by simp
  have c3 : ((k3 : ℕ) : ℚ) = ((k3 : ℤ) : ℚ) := by simp
  have c4 : ((k4 : ℕ) : ℚ) = ((k4 : ℤ) : ℚ) := by simp
  rw [c1, c2, c3, c4]
  have a1 : |(k1 : ℤ)| < 2 ^ 53 := F64.intBound (B := K + K) (by omega) (by omega) hK
  have a2 : |(k2 : ℤ)| < 2 ^ 53 := F64.intBound (B := K + K) (by omega) (by omega) hK
  have a3 : |(k3 : ℤ)| < 2 ^ 53 := F64.intBound (B := K + K) (by omega) (by omega) hK
  have a4 : |(k4 : ℤ)| < 2 ^ 53 := F64.intBound (B := K + K) (by omega) (by omega) hK
  have a5 : |-(k1 : ℤ)| < 2 ^ 53 := F64.intBound (B := K + K) (by omega) (by omega) hK
  have a6 : |-(k1 : ℤ) - k2| < 2 ^ 53 := F64.intBound (B := K + K) (by omega) (by omega) hK
  have a7 : |-(k1 : ℤ) - k2 + k3| < 2 ^ 53 :=
    F64.intBound (B := K + K) (by omega) (by omega) hK
  have a8 : |-(k1 : ℤ) - k2 + k3 + k4| < 2 ^ 53 :=
    F64.intBound (B := K + K) (by omega) (by omega) hK
  rw [F64.neg_intCast a1, F64.sub_intCast a5 a2 a6, F64.add_intCast a6 a3 a7,
    F64.add_intCast a7 a4 a8]
  refine ⟨by push_cast; ring, -(k1 : ℤ) - k2 + k3 + k4, by omega, by omega, by push_cast; ring⟩

theorem V2.twoOptDelta_float {n K : Nat} {d : Nat → Nat → ℚ} (hn : 0 < n)
    (hE : ∀ i j, i < n → j < n → F64.Small K (d i j)) (hK : K + K < 2 ^ 53) {cur : List Nat}
    (hl : ∀ x ∈ cur, x < n) (i j : Nat) :
    F64.V2.twoOptDelta d cur i j = V2.twoOptDelta d cur i j ∧
      ∃ z : ℤ, -((K + K : Nat) : ℤ) ≤ z ∧ z ≤ ((K + K : Nat) : ℤ) ∧
        V2.twoOptDelta d cur i j = z := by
  have g := fun k => getD_lt_of hn hl k
  exact twoOptSum_float (hE _ _ (g (i - 1)) (g i)) (hE _ _ (g j) (g (j + 1)))
    (hE _ _ (g (i - 1)) (g j)) (hE _ _ (g i) (g (j + 1))) hK

theorem V2.twoOptFold_float {n K : Nat} {d : Nat → Nat → ℚ} (hn : 0 < n)
    (hE : ∀ i j, i < n → j < n → F64.Small K (d i j)) (hK : K + K < 2 ^ 53) {cur : List Nat}
    (hl : ∀ x ∈ cur, x < n) :
    ∀ (l : List (Nat × Nat)) (st : ℚ × Option (Nat × Nat)),
      (∃ z : ℤ, -((K + K : Nat) : ℤ) ≤ z ∧ z ≤ ((K + K : Nat) : ℤ) ∧ st.1 = z) →
      l.foldl (fun st ij =>
          if F64.lt (F64.V2.twoOptDelta d cur ij.1 ij.2) st.1 = true
          then (F64.V2.twoOptDelta d cur ij.1 ij.2, some ij) else st) st
        = l.foldl (fun st ij =>
          if V2.twoOptDelta d cur ij.1 ij.2 < st.1 then (V2.twoOptDelta d cur ij.1 ij.2, some ij)
          else st) st := by
  intro l
  induction l with
  | nil => intro st _; rfl
  | cons ij rest ih =>
    intro st hst
    obtain ⟨e, z, z1, z2, hz⟩ := V2.twoOptDelta_float hn hE hK hl ij.1 ij.2
    obtain ⟨w, w1, w2, hw⟩ := hst
    have hd : V2.twoOptDelta d cur ij.1 ij.2 ≠ F64.nan := by
      rw [hz]
      exact (F64.intCast_finite (F64.intBound z1 z2 hK)).1
    have hs : st.1 ≠ F64.nan := by
      rw [hw]
      exact (F64.intCast_finite (F64.intBound w1 w2 hK)).1
    simp only [List.foldl_cons]
    rw [e, F64.lt_eq hd hs]
    simp only [decide_eq_true_eq]
    apply ih
    split_ifs
    · exact ⟨z, z1, z2, hz⟩
    · exact ⟨w, w1, w2, hw⟩

theorem V2.twoOptPass_float {n K : Nat} {d : Nat → Nat → ℚ} (hn : 0 < n)
    (hE : ∀ i j, i < n → j < n → F64.Small K (d i j)) (hK : K + K < 2 ^ 53) {cur : List Nat}
    (hl : ∀ x ∈ cur, x < n) : F64.V2.twoOptPass d cur = V2.twoOptPass d cur := by
  unfold F64.V2.twoOptPass V2.twoOptPass
  exact V2.twoOptFold_float hn hE hK hl _ (0, none) ⟨0, by omega, by omega, by simp⟩

theorem V2.twoOptImproved_float {n K : Nat} {d : Nat → Nat → ℚ} (hn : 0 < n)
    (hE : ∀ i j, i < n → j < n → F64.Small K (d i j)) (hK : K + K < 2 ^ 53) :
    ∀ (left : Nat) (cur : List Nat), (∀ x ∈ cur, x < n) →
      F64.V2.twoOptImproved d left cur = V2.twoOptImproved d left cur := by
  intro left
  induction left with
  | zero => intro cur _; rfl
  | succ left ih =>
    intro cur hl
    simp only [F64.V2.twoOptImproved, V2.twoOptImproved]
    rw [V2.twoOptPass_float hn hE hK hl]
    cases hp : V2.twoOptPass d cur with
    | mk delta sel =>
      cases sel with
      | none => rfl
      | some ij =>
        obtain ⟨i, j⟩ := ij
        simp only []
        obtain ⟨h1, h2, h3, _, _⟩ := V2.twoOptPass_some hp
        exact ih _ (fun x hx =>
          hl x ((V2.reverseSegment_perm cur i j (by omega) (by omega)).subset hx))

theorem V2.twoOptLoop_float {K : Nat} (t : TSPSolver) (hn : 0 < t.numPoints)
    (hsymm : SymmetricOn t.numPoints t.distanceMatrix)
    (hE : ∀ i j, i < t.numPoints → j < t.numPoints → F64.Small K (t.distanceMatrix i j)) :
    ∀ (left : Nat) (cur : List Nat), (∀ x ∈ cur, x < t.numPoints) →
      (cur.length + 1) * K + (K + K) < 2 ^ 53 →
      F64.V2.twoOptLoop t.distanceMatrix left cur (tourLength t.distanceMatrix cur)
        = V2.twoOptLoop t.distanceMatrix left cur (tourLength t.distanceMatrix cur) := by
  intro left
  induction left with
  | zero => intro cur _ _; rfl
  | succ left ih =>
    intro cur hl hb
    simp only [F64.V2.twoOptLoop, V2.twoOptLoop]
    rw [V2.twoOptPass_float hn hE (by omega) hl]
    cases hp : V2.twoOptPass t.distanceMatrix cur with
    | mk delta sel =>
      cases sel with
      | none => rfl
      | some ij =>
        obtain ⟨i, j⟩ := ij
        simp only []
        obtain ⟨h1, h2, h3, h4, _⟩ := V2.twoOptPass_some hp
        obtain ⟨m1, _, m3⟩ := V2.move_decreases hsymm hl hp
        have hl2 : ∀ x ∈ V2.reverseSegment cur i j, x < t.numPoints :=
          fun x hx => hl x (m3.subset hx)
        have hlen2 : (V2.reverseSegment cur i j).length = cur.length := m3.length_eq
        obtain ⟨_, sc⟩ := calculatePathDistance_float t hn hE hl (by omega)
        obtain ⟨_, sr⟩ := calculatePathDistance_float t hn hE hl2 (by rw [hlen2]; omega)
        rw [hlen2] at sr
        obtain ⟨_, z, z1, z2, hz⟩ := V2.twoOptDelta_float hn hE (by omega) hl i j
        rw [← h4] at hz
        obtain ⟨kc, bc, hc⟩ := sc
        obtain ⟨kr, br, hr⟩ := sr
        have hc2 : tourLength t.distanceMatrix cur = kc := hc
        have hr2 : tourLength t.distanceMatrix (V2.reverseSegment cur i j) = kr := hr
        have hsum : (kc : ℤ) + z = (kr : ℤ) := by
          have : ((kc : ℤ) : ℚ) + (z : ℚ) = ((kr : ℤ) : ℚ) := by
            rw [← hz]
            simp only [Int.cast_natCast]
            rw [← hc2, ← hr2]
            exact m1.symm
          exact_mod_cast this
        have hadd : F64.add (tourLength t.distanceMatrix cur) delta
            = tourLength t.distanceMatrix cur + delta := by
          rw [hc2, hz]
          have c1 : ((kc : ℕ) : ℚ) = ((kc : ℤ) : ℚ) := by simp
          rw [c1, F64.add_intCast
            (F64.intBound (B := (cur.length + 1) * K) (by omega) (by omega) (by omega))
            (F64.intBound z1 z2 (by omega))
            (by rw [hsum]
                exact F64.intBound (B := (cur.length + 1) * K) (by omega) (by omega) (by omega))]
          push_cast
          ring
        rw [hadd, ← m1]
        exact ih _ hl2 (by rw [hlen2]; exact hb)

/-- On a symmetric matrix of small natural numbers the `float64` reading of
`twoOpt` returns what the exact reading returns. -/
theorem V2.twoOpt_float {K : Nat} (t : TSPSolver) (hn : 0 < t.numPoints)
    (hsymm : SymmetricOn t.numPoints t.distanceMatrix)
    (hE : ∀ i j, i < t.numPoints → j < t.numPoints → F64.Small K (t.distanceMatrix i j))
    {path : List Nat} (hl : ∀ x ∈ path, x < t.numPoints)
    (hb : (path.length + 1) * K + (K + K) < 2 ^ 53) :
    F64.V2.twoOpt t path = V2.twoOpt t path := by
  obtain ⟨e1, _⟩ := calculatePathDistance_float t hn hE hl (by omega)
  unfold F64.V2.twoOpt V2.twoOpt
  rw [e1]
  by_cases h0 : path.length = 0
  · rw [if_pos h0, if_pos h0]
  · rw [if_neg h0, if_neg h0]
    by_cases h4 : path.length < 4
    · rw [if_pos h4, if_pos h4]
    · rw [if_neg h4, if_neg h4]
      exact congrArg some (V2.twoOptLoop_float t hn hsymm hE 1000 path hl hb)

theorem V2.rankedGreedyLoop_float {K : Nat} (rt : Runtime) (hrt : rt.Valid) (t : TSPSolver)
    (hn : 0 < t.numPoints)
    (hE : ∀ i j, i < t.numPoints → j < t.numPoints → F64.Small K (t.distanceMatrix i j))
    (hK : K < 2 ^ 53)
    (hrank : ∀ row ∈ t.nearestNeighbors, ∀ x ∈ row, x < t.numPoints) :
    ∀ (fuel : Nat) (path unvisited : List Nat), (∀ x ∈ path, x < t.numPoints) →
      (∀ x ∈ unvisited, x < t.numPoints) →
      F64.V2.greedyLoop rt t fuel path unvisited = V2.greedyLoop rt t fuel path unvisited := by
  intro fuel
  induction fuel with
  | zero => intro path unvisited _ _; rfl
  | succ fuel ih =>
    intro path unvisited hl hu
    simp only [F64.V2.greedyLoop, V2.greedyLoop]
    by_cases h0 : unvisited.length > 0
    · rw [if_pos h0, if_pos h0]
      have hcur := getLastD_lt_of hn hl
      have hm : ∀ x ∈ rt.mapRange path unvisited, x < t.numPoints :=
        fun x hx => hu x ((hrt.mapRange_perm path unvisited).subset hx)
      have hr : ∀ x ∈ (t.nearestNeighbors.getD (path.getLastD 0) []).filter
          (fun nb => unvisited.contains nb), x < t.numPoints := by
        intro x hx
        have hx1 := (List.mem_filter.1 hx).1
        by_cases hlt : path.getLastD 0 < t.nearestNeighbors.length
        · rw [List.getD_eq_getElem _ _ hlt] at hx1
          exact hrank _ (List.getElem_mem _) x hx1
        · rw [List.getD_eq_default _ _ (by omega)] at hx1
          cases hx1
      obtain ⟨e1, p1, q1, _⟩ := scanNearest_float hE hK hcur _ none hr (fun p h => by simp at h)
      simp only [Option.getD_none] at e1
      rw [e1]
      cases hranked : scanNearest t.distanceMatrix (path.getLastD 0)
          ((t.nearestNeighbors.getD (path.getLastD 0) []).filter
            (fun nb => unvisited.contains nb)) none with
      | none =>
        simp only [Option.getD_none, Option.isNone_none, if_true]
        rw [F64.eq_eq F64.maxFloat64_ne_nan F64.maxFloat64_ne_nan]
        simp only [decide_True, if_true]
        obtain ⟨e2, p2, _, _⟩ := scanNearest_float hE hK hcur (rt.mapRange path unvisited) none hm
          (fun p h => by simp at h)
        simp only [Option.getD_none] at e2
        rw [e2, nextPointOf_float]
        have hnext := nextPointOf_lt hn (fun p h => (p2 p h).1)
        apply ih
        · intro x hx
          rcases List.mem_append.1 hx with h | h
          · exact hl x h
          · rw [List.mem_singleton.1 h]
            exact hnext
        · intro x hx
          exact hu x (List.mem_of_mem_erase hx)
      | some b =>
        obtain ⟨b1, b2⟩ := p1 b hranked
        obtain ⟨x1, _, _, x4⟩ := b2.finite hK
        simp only [Option.getD_some, Option.isNone_some]
        rw [F64.eq_eq x1 F64.maxFloat64_ne_nan]
        have hne : ¬ b.2 = F64.maxFloat64 := x4.ne
        simp only [hne, decide_False, Bool.false_eq_true, if_false]
        have e3 : b.1 = nextPointOf (some b) := rfl
        rw [e3]
        apply ih
        · intro x hx
          rcases List.mem_append.1 hx with h | h
          · exact hl x h
          · rw [List.mem_singleton.1 h]
            exact b1
        · intro x hx
          exact hu x (List.mem_of_mem_erase hx)
    · rw [if_neg h0, if_neg h0]

theorem V2.rankedStartLoop_float {K : Nat} (rt : Runtime) (hrt : rt.Valid) (t : TSPSolver)
    (hn : 0 < t.numPoints)
    (hE : ∀ i j, i < t.numPoints → j < t.numPoints → F64.Small K (t.distanceMatrix i j))
    (hK : (2 * t.numPoints + 4) * K < 2 ^ 53)
    (hrank : ∀ row ∈ t.nearestNeighbors, ∀ x ∈ row, x < t.numPoints) :
    ∀ (starts : List Nat) (best : List Nat × Option ℚ), (∀ s ∈ starts, s < t.numPoints) →
      (∀ b, best.2 = some b → F64.Small ((t.numPoints + 1) * K) b) →
      ((∀ x ∈ best.1, x < t.numPoints) ∧ best.1.length ≤ t.numPoints) →
      F64.V2.startLoop rt t.numPoints t starts (best.1, best.2.getD F64.maxFloat64)
          = (V2.startLoop rt t starts best).map (fun r => (r.1, r.2.getD F64.maxFloat64)) ∧
        ∀ r, V2.startLoop rt t starts best = some r →
          (∀ x ∈ r.1, x < t.numPoints) ∧ r.1.length ≤ t.numPoints := by
  have hexp : (2 * t.numPoints + 4) * K = 2 * (t.numPoints * K) + 4 * K := by ring
  have hexp2 : (t.numPoints + 1) * K = t.numPoints * K + K := by ring
  intro starts
  induction starts with
  | nil =>
    intro best _ _ hp
    refine ⟨rfl, ?_⟩
    intro r hr
    simp only [V2.startLoop, Option.some.injEq] at hr
    rw [← hr]
    exact hp
  | cons s rest ih =>
    intro best hs hb hp
    have hsn : s < t.numPoints := hs s (by simp)
    simp only [F64.V2.startLoop, V2.startLoop]
    rw [V2.rankedGreedyLoop_float rt hrt t hn hE (by omega) hrank t.numPoints [s] _
      (fun x hx => by rw [List.mem_singleton.1 hx]; exact hsn)
      (fun x hx => List.mem_range.1 (List.mem_filter.1 hx).1)]
    obtain ⟨path, hrun, htour⟩ := V2.rankedGreedy_tour rt hrt t hsn
    rw [hrun]
    simp only []
    have hpl : ∀ x ∈ path, x < t.numPoints := fun x hx => List.mem_range.1 (htour.subset hx)
    have hplen : path.length = t.numPoints := by
      have := htour.length_eq
      simpa using this
    obtain ⟨e1, s1⟩ := calculatePathDistance_float t hn hE hpl (by rw [hplen]; omega)
    rw [hplen] at s1
    rw [e1]
    have hcond : F64.lt (calculatePathDistance t path) (best.2.getD F64.maxFloat64)
        = ltBest (calculatePathDistance t path) best.2 := by
      obtain ⟨x1, _, _, x4⟩ := s1.finite (by omega)
      cases hb2 : best.2 with
      | none =>
        simp only [Option.getD_none, ltBest]
        rw [F64.lt_eq x1 F64.maxFloat64_ne_nan]
        simpa using x4
      | some b =>
        simp only [Option.getD_some, ltBest]
        exact F64.lt_eq x1 ((hb b hb2).finite (by omega)).1
    rw [hcond]
    have hnext : (if ltBest (calculatePathDistance t path) best.2 = true
          then (path, calculatePathDistance t path) else (best.1, best.2.getD F64.maxFloat64))
        = ((if ltBest (calculatePathDistance t path) best.2 = true
          then (path, some (calculatePathDistance t path)) else best).1,
          (if ltBest (calculatePathDistance t path) best.2 = true
          then (path, some (calculatePathDistance t path)) else best).2.getD F64.maxFloat64) := by
      split_ifs <;> rfl
    rw [hnext]
    apply ih _ (fun x hx => hs x (List.mem_cons_of_mem _ hx))
    · intro b hb3
      split_ifs at hb3 with hc
      · simp only [Option.some.injEq] at hb3
        rw [← hb3]
        exact s1
      · exact hb b hb3
    · split_ifs
      · exact ⟨hpl, by rw [hplen]⟩
      · exact hp

/-- On a symmetric matrix of small natural numbers the `float64` reading of v2
`multiStartGreedy` returns what the exact reading returns. -/
theorem V2.multiStartGreedy_float {K : Nat} (rt : Runtime) (hrt : rt.Valid) (t : TSPSolver)
    (hn : 0 < t.numPoints) (hsymm : SymmetricOn t.numPoints t.distanceMatrix)
    (hE : ∀ i j, i < t.numPoints → j < t.numPoints → F64.Small K (t.distanceMatrix i j))
    (hK : (2 * t.numPoints + 4) * K < 2 ^ 53)
    (hrank : ∀ row ∈ t.nearestNeighbors, ∀ x ∈ row, x < t.numPoints) :
    F64.V2.multiStartGreedy rt t.numPoints t = V2.multiStartGreedy rt t := by
  have hexp : (2 * t.numPoints + 4) * K = 2 * (t.numPoints * K) + 4 * K := by ring
  unfold F64.V2.multiStartGreedy V2.multiStartGreedy
  obtain ⟨e1, p1⟩ := V2.rankedStartLoop_float rt hrt t hn hE hK hrank
    ((List.range t.numPoints).filter (fun s => s < 5)) ([], none)
    (fun s hs => List.mem_range.1 (List.mem_filter.1 hs).1) (fun b h => by simp at h)
    (And.intro (fun x hx => by cases hx) (Nat.zero_le _))
  simp only [Option.getD_none] at e1
  rw [e1]
  cases hg : V2.startLoop rt t ((List.range t.numPoints).filter (fun s => s < 5)) ([], none) with
  | none => rfl
  | some g =>
    obtain ⟨gp, gd⟩ := g
    simp only [Option.map_some']
    obtain ⟨q1, q2⟩ := p1 (gp, gd) hg
    have hb : (gp.length + 1) * K + (K + K) < 2 ^ 53 := by
      have : (gp.length + 1) * K ≤ (t.numPoints + 1) * K :=
        Nat.mul_le_mul_right K (Nat.succ_le_succ q2)
      have : (t.numPoints + 1) * K = t.numPoints * K + K := by ring
      omega
    exact V2.twoOpt_float t hn hsymm hE q1 hb

/-! ## The float64 reading of `adaptiveSearch` on small whole numbers -/


theorem F64.pow2_pos (k : Int) : 0 < F64.pow2 k := by
  unfold F64.pow2
  split_ifs <;> positivity

theorem F64.clamp_bounds (m : Nat) (q : ℚ) (hq : 0 < q) :
    0 ≤ (if F64.posInf ≤ (m : ℚ) * q then F64.posInf else (m : ℚ) * q) ∧
      (if F64.posInf ≤ (m : ℚ) * q then F64.posInf else (m : ℚ) * q) ≤ F64.posInf := by
  have hp : (0 : ℚ) ≤ F64.posInf := by
    unfold F64.posInf
    exact Nat.cast_nonneg _
  by_cases h1 : F64.posInf ≤ (m : ℚ) * q
  · rw [if_pos h1]
    exact ⟨hp, le_refl _⟩
  · rw [if_neg h1]
    exact ⟨mul_nonneg (Nat.cast_nonneg _) hq.le, (not_le.1 h1).le⟩

theorem F64.roundPos_bounds (a : ℚ) : 0 ≤ F64.roundPos a ∧ F64.roundPos a ≤ F64.posInf := by
  unfold F64.roundPos
  exact F64.clamp_bounds _ _ (F64.pow2_pos _)

theorem F64.roundNearest_ne_nan (x : ℚ) : F64.roundNearest x ≠ F64.nan := by
  have hn := F64.posInf_lt_nan
  have hp : (0 : ℚ) ≤ F64.posInf := by
    unfold F64.posInf
    exact Nat.cast_nonneg _
  unfold F64.roundNearest
  split_ifs
  · intro e
    rw [← e] at hn
    linarith
  · have := (F64.roundPos_bounds x).2
    intro e
    rw [e] at this
    linarith
  · have := (F64.roundPos_bounds (-x)).1
    intro e
    linarith

theorem F64.mul_ne_nan {x c : ℚ} (hx : x ≠ F64.nan) (hc : c ≠ F64.nan) (hc0 : c ≠ 0)
    (hcp : c ≠ F64.posInf) (hcn : c ≠ F64.negInf) : F64.mul x c ≠ F64.nan := by
  have hn := F64.posInf_lt_nan
  have hp : (0 : ℚ) < F64.posInf := by
    unfold F64.posInf
    exact Nat.cast_pos.2 (by positivity)
  unfold F64.mul
  rw [if_neg (by simp [hx, hc])]
  by_cases hinf : x = F64.posInf ∨ x = F64.negInf ∨ c = F64.posInf ∨ c = F64.negInf
  · rw [if_pos hinf]
    have hx0 : x ≠ 0 := by
      rcases hinf with h | h | h | h
      · rw [h]; exact hp.ne'
      · rw [h]; unfold F64.negInf; unfold F64.posInf at hp; linarith
      · exact absurd h hcp
      · exact absurd h hcn
    rw [if_neg (by simp [hx0, hc0])]
    split_ifs
    · exact hn.ne
    · unfold F64.negInf
      unfold F64.posInf at hp hn
      intro e
      rw [← e] at hn
      linarith
  · rw [if_neg hinf]
    exact F64.roundNearest_ne_nan _

/-- What a round of the adaptive search and the rounds after it return, in the
`float64` reading on a matrix of small natural numbers: the greedy pair, or
an optimal tour with its length. -/
theorem V2.adaptiveLoop_float {K : Nat} (rt : Runtime) (hrt : rt.Valid) (t0 : TSPSolver)
    (hn : 0 < t0.numPoints) (hsymm : SymmetricOn t0.numPoints t0.distanceMatrix)
    (hnonneg : NonnegOn t0.numPoints t0.distanceMatrix)
    (hE : ∀ i j, i < t0.numPoints → j < t0.numPoints → F64.Small K (t0.distanceMatrix i j))
    (hK : (2 * t0.numPoints + 4) * K < 2 ^ 53)
    (hrank : ∀ row ∈ t0.nearestNeighbors, ∀ x ∈ row, x < t0.numPoints)
    (gp : List Nat) (G up down : ℚ)
    (hup : up ≠ F64.nan ∧ up ≠ 0 ∧ up ≠ F64.posInf ∧ up ≠ F64.negInf)
    (hdown : down ≠ F64.nan ∧ down ≠ 0 ∧ down ≠ F64.posInf ∧ down ≠ F64.negInf) :
    ∀ (left : Nat) (t : TSPSolver) (thr : ℚ) (bestPath : List Nat) (bestDist : ℚ)
      (foundAny : Bool), SameProblem t0 t → thr ≠ F64.nan →
      ((bestPath, bestDist) = (gp, G) ∨
        (IsTour t0.numPoints bestPath ∧ tourLength t0.distanceMatrix bestPath = bestDist ∧
          ∀ q, IsTour t0.numPoints q → bestDist ≤ tourLength t0.distanceMatrix q)) →
      ∃ p r log, F64.V2.adaptiveLoop rt gp G up down left t thr bestPath bestDist foundAny
          = some ((p, r), log) ∧
        ((p, r) = (gp, G) ∨
          (IsTour t0.numPoints p ∧ tourLength t0.distanceMatrix p = r ∧
            ∀ q, IsTour t0.numPoints q → r ≤ tourLength t0.distanceMatrix q)) := by
  have hexp : (2 * t0.numPoints + 4) * K = 2 * (t0.numPoints * K) + 4 * K := by ring
  have hexp2 : (t0.numPoints + 1) * K = t0.numPoints * K + K := by ring
  intro left
  induction left with
  | zero =>
    intro t thr bestPath bestDist foundAny _ _ hinv
    exact ⟨bestPath, bestDist, [], rfl, hinv⟩
  | succ left ih =>
    intro t thr bestPath bestDist foundAny hsame hthr hinv
    obtain ⟨s1, s2, s3⟩ := hsame
    have hnt : 0 < t.numPoints := by rw [s1]; exact hn
    have hEt : ∀ i j, i < t.numPoints → j < t.numPoints → F64.Small K (t.distanceMatrix i j) := by
      rw [s1, s2]; exact hE
    have hrankt : ∀ row ∈ t.nearestNeighbors, ∀ x ∈ row, x < t.numPoints := by
      rw [s1, s3]; exact hrank
    obtain ⟨t2, v, hround, hsame2, hv, hvle, hcov, hfound⟩ := V2.round_spec rt hrt t hnt
      (by rw [s1, s2]; exact hsymm) (by rw [s1, s2]; exact hnonneg) hrankt thr
    have htame : F64.Tame K
        ({ t with bestPath := [], bestDistance := some thr, visitedCount := 0, mstCache := [] } :
          TSPSolver) :=
      ⟨hnt, hEt, by rw [s1]; exact hK, hrankt, fun key w h => by simp at h, fun e => by
        simp only [Option.some.injEq] at e
        exact hthr e⟩
    obtain ⟨e1, _⟩ := bruteForceRecursive_float rt hrt (t.numPoints + 1)
      ({ t with bestPath := [], bestDistance := some thr, visitedCount := 0, mstCache := [] } :
        TSPSolver)
      [0] 0 ((List.replicate t.numPoints false).set 0 true) htame
      (fun x hx => by rw [List.mem_singleton.1 hx]; exact hnt)
      (by simpa using hnt) (F64.Small.zero _)
    rw [s1, s2] at hcov hfound
    have hsame02 : SameProblem t0 t2 := ⟨hsame2.1.trans s1, hsame2.2.1.trans s2, hsame2.2.2.trans s3⟩
    have hinc : F64.incumbent t2 = v := by
      unfold F64.incumbent
      rw [hv]
      rfl
    have hvn : v ≠ F64.nan := by
      rcases lt_or_eq_of_le hvle with h | h
      · obtain ⟨h1, h2⟩ := hfound h
        have hpl : ∀ x ∈ t2.bestPath, x < t0.numPoints :=
          fun x hx => List.mem_range.1 (h1.subset hx)
        have hplen : t2.bestPath.length = t0.numPoints := by
          have := h1.length_eq
          simpa using this
        obtain ⟨_, sm⟩ := calculatePathDistance_float t0 hn hE hpl (by rw [hplen]; omega)
        have : calculatePathDistance t0 t2.bestPath = v := h2
        rw [this] at sm
        exact (sm.finite (by rw [hplen]; omega)).1
      · rw [h]
        exact hthr
    simp only [F64.V2.adaptiveLoop]
    rw [if_neg (Nat.pos_iff_ne_zero.1 hnt), e1, hround]
    simp only [hinc]
    rw [F64.lt_eq hvn hthr]
    by_cases hlt : v < thr
    · simp only [hlt, decide_True, if_true]
      obtain ⟨h1, h2⟩ := hfound hlt
      obtain ⟨p, r, log, hrun, hres⟩ := ih t2 (F64.mul v down) t2.bestPath v true hsame02
        (F64.mul_ne_nan hvn hdown.1 hdown.2.1 hdown.2.2.1 hdown.2.2.2)
        (Or.inr ⟨h1, h2, hcov⟩)
      exact ⟨p, r, thr :: log, by rw [hrun]; rfl, hres⟩
    · simp only [hlt, decide_False, Bool.false_eq_true, if_false]
      cases foundAny with
      | true => exact ⟨bestPath, bestDist, [thr], rfl, hinv⟩
      | false =>
        simp only [Bool.false_eq_true, if_false]
        by_cases hge : F64.ge (F64.mul thr up) G = true
        · rw [if_pos hge]
          exact ⟨gp, G, [thr], rfl, Or.inl rfl⟩
        · rw [if_neg hge]
          obtain ⟨p, r, log, hrun, hres⟩ := ih t2 (F64.mul thr up) bestPath bestDist false hsame02
            (F64.mul_ne_nan hthr hup.1 hup.2.1 hup.2.2.1 hup.2.2.2) hinv
          exact ⟨p, r, thr :: log, by rw [hrun]; rfl, hres⟩


theorem F64.up_finite : F64.add 1 (F64.roundNearest (7 / 100)) ≠ F64.nan ∧
    F64.add 1 (F64.roundNearest (7 / 100)) ≠ 0 ∧
    F64.add 1 (F64.roundNearest (7 / 100)) ≠ F64.posInf ∧
    F64.add 1 (F64.roundNearest (7 / 100)) ≠ F64.negInf := by
  decide!


theorem F64.down_finite : F64.sub 1 (F64.roundNearest (7 / 100)) ≠ F64.nan ∧
    F64.sub 1 (F64.roundNearest (7 / 100)) ≠ 0 ∧
    F64.sub 1 (F64.roundNearest (7 / 100)) ≠ F64.posInf ∧
    F64.sub 1 (F64.roundNearest (7 / 100)) ≠ F64.negInf := by
  decide!


theorem F64.ninety_finite : F64.roundNearest (9 / 10) ≠ F64.nan ∧
    F64.roundNearest (9 / 10) ≠ 0 ∧
    F64.roundNearest (9 / 10) ≠ F64.posInf ∧
    F64.roundNearest (9 / 10) ≠ F64.negInf := by
  decide!

/-- The `float64` reading of v2 `adaptiveSearch` on a symmetric, non-negative
matrix of small natural numbers: it returns, and what it returns is the pair
of `multiStartGreedy`, or an optimal tour with its length. -/
theorem V2.adaptiveSearch_float {K : Nat} (rt : Runtime) (hrt : rt.Valid) (t : TSPSolver)
    (hn : 0 < t.numPoints) (hsymm : SymmetricOn t.numPoints t.distanceMatrix)
    (hnonneg : NonnegOn t.numPoints t.distanceMatrix)
    (hE : ∀ i j, i < t.numPoints → j < t.numPoints → F64.Small K (t.distanceMatrix i j))
    (hK : (2 * t.numPoints + 4) * K < 2 ^ 53)
    (hrank : ∀ row ∈ t.nearestNeighbors, ∀ x ∈ row, x < t.numPoints) :
    ∃ p r gp, F64.V2.multiStartGreedy rt t.numPoints t
          = some (gp, tourLength t.distanceMatrix gp) ∧
      IsTour t.numPoints gp ∧
      F64.V2.adaptiveSearch rt t.numPoints t = some (p, r) ∧
      ((p, r) = (gp, tourLength t.distanceMatrix gp) ∨
        (IsTour t.numPoints p ∧ tourLength t.distanceMatrix p = r ∧
          ∀ q, IsTour t.numPoints q → r ≤ tourLength t.distanceMatrix q)) := by
  have hexp : (2 * t.numPoints + 4) * K = 2 * (t.numPoints * K) + 4 * K := by ring
  have hexp2 : (t.numPoints + 1) * K = t.numPoints * K + K := by ring
  obtain ⟨gp, hg, hgt⟩ := V2.multiStartGreedy_twoOpt_spec rt hrt t hn hsymm
  have hgf := V2.multiStartGreedy_float rt hrt t hn hsymm hE hK hrank
  rw [hg] at hgf
  have hpl : ∀ x ∈ gp, x < t.numPoints := fun x hx => List.mem_range.1 (hgt.subset hx)
  have hplen : gp.length = t.numPoints := by
    have := hgt.length_eq
    simpa using this
  obtain ⟨_, sm⟩ := calculatePathDistance_float t hn hE hpl (by rw [hplen]; omega)
  have hG : tourLength t.distanceMatrix gp ≠ F64.nan := (sm.finite (by rw [hplen]; omega)).1
  obtain ⟨p, r, log, hrun, hres⟩ := V2.adaptiveLoop_float rt hrt t hn hsymm hnonneg hE hK hrank
    gp (tourLength t.distanceMatrix gp) _ _ F64.up_finite F64.down_finite 200 t
    (F64.mul (tourLength t.distanceMatrix gp) (F64.roundNearest (9 / 10)))
    gp (tourLength t.distanceMatrix gp) false (SameProblem.refl t)
    (F64.mul_ne_nan hG F64.ninety_finite.1 F64.ninety_finite.2.1 F64.ninety_finite.2.2.1
      F64.ninety_finite.2.2.2)
    (Or.inl rfl)
  refine ⟨p, r, gp, hgf, hgt, ?_, hres⟩
  unfold F64.V2.adaptiveSearch F64.V2.adaptiveSearchLog
  rw [hgf]
  simp only []
  rw [hrun]
  rfl

/-! ## The instances of the float64 reading, and the cache -/



theorem decimalMatrix_symmetric : SymmetricOn 3 decimalMatrix := by
  intro i j hi hj
  interval_cases i <;> interval_cases j <;> decide!

theorem decimalMatrix_nonneg : NonnegOn 3 decimalMatrix := by
  intro i j hi hj
  interval_cases i <;> interval_cases j <;> decide!

theorem decimalMatrix_zeroDiag : ZeroDiagOn 3 decimalMatrix := by
  intro i hi
  interval_cases i <;> decide!

theorem hugeMatrix_symmetric : SymmetricOn 3 hugeMatrix := by
  intro i j hi hj
  interval_cases i <;> interval_cases j <;> decide!

theorem hugeMatrix_nonneg : NonnegOn 3 hugeMatrix := by
  intro i j hi hj
  interval_cases i <;> interval_cases j <;> decide!

theorem hugeMatrix_zeroDiag : ZeroDiagOn 3 hugeMatrix := by
  intro i hi
  interval_cases i <;> decide!

/-- Every entry of `hugeMatrix` is a finite `float64`, below
`math.MaxFloat64`. -/
theorem hugeMatrix_finite : ∀ i j, i < 3 → j < 3 → hugeMatrix i j < F64.maxFloat64 := by
  intro i j hi hj
  interval_cases i <;> interval_cases j <;> decide!

theorem maxMatrix_symmetric : SymmetricOn 3 maxMatrix := by
  intro i j hi hj
  interval_cases i <;> interval_cases j <;> decide!

theorem maxMatrix_nonneg : NonnegOn 3 maxMatrix := by
  intro i j hi hj
  interval_cases i <;> interval_cases j <;> decide!

theorem maxMatrix_zeroDiag : ZeroDiagOn 3 maxMatrix := by
  intro i hi
  interval_cases i <;> decide!

theorem driftMatrix_symmetric : SymmetricOn 4 driftMatrix := by
  intro i j hi hj
  interval_cases i <;> interval_cases j <;> decide!

theorem gapMatrix_exactOn : ExactOn 4 gapMatrix := by
  refine ⟨18, by norm_num, ?_⟩
  intro i j hi hj
  interval_cases i <;> interval_cases j <;>
    first
      | exact ⟨0, by decide, by decide!⟩
      | exact ⟨12, by decide, by decide!⟩
      | exact ⟨18, by decide, by decide!⟩
      | exact ⟨8, by decide, by decide!⟩
      | exact ⟨9, by decide, by decide!⟩
      | exact ⟨6, by decide, by decide!⟩
      | exact ⟨11, by decide, by decide!⟩

theorem triangleMatrix_exactOn : ExactOn 3 triangleMatrix := by
  refine ⟨5, by norm_num, ?_⟩
  intro i j hi hj
  interval_cases i <;> interval_cases j <;>
    first
      | exact ⟨0, by decide, by decide!⟩
      | exact ⟨3, by decide, by decide!⟩
      | exact ⟨4, by decide, by decide!⟩
      | exact ⟨5, by decide, by decide!⟩

/-- On a matrix of small natural numbers, a cache that the `float64` reading
reaches is one that the exact reading reaches, and its values are small. -/
theorem reachableCache_float {n K : Nat} {rt : Runtime} (hrt : rt.Valid) {d : Nat → Nat → ℚ}
    (hE : ∀ i j, i < n → j < n → F64.Small K (d i j)) (hk : n * K < 2 ^ 53)
    {c : List (List Nat × ℚ)} (h : F64.ReachableCache rt n d c) :
    ReachableCache rt n d c ∧ ∀ key v, c.lookup key = some v → F64.Small (n * K) v := by
  induction h with
  | empty => exact ⟨ReachableCache.empty, fun key v h => by simp at h⟩
  | @call t0 t1 S v _ hd hnd hlt hcall ih =>
    obtain ⟨ih1, ih2⟩ := ih
    obtain ⟨e, p⟩ := calculateMSTKruskal_float rt hrt t0 (by rw [hd]; exact hE) ih2 hlt
      (length_le_of_nodup hnd hlt) hk
    rw [e] at hcall
    exact ⟨ReachableCache.call ih1 hd hnd hlt hcall, (p v t1 hcall).2⟩

/-- With every distance equal to `math.MaxFloat64` the inner loop of v2
`multiStartGreedy` makes no progress from a path that ends in vertex 0: no
candidate is below `minDist`, `nextPoint` keeps its initial value 0, and the
set of unvisited vertices stays `{1, 2}`. -/
theorem V2.greedyLoop_stuck : ∀ (fuel : Nat) (path : List Nat), path.getLastD 0 = 0 →
    F64.V2.greedyLoop Runtime.ascending (solverOf Runtime.ascending 3 maxMatrix) fuel path [1, 2]
      = none := by
  intro fuel
  induction fuel with
  | zero => intro path _; rfl
  | succ fuel ih =>
    intro path hlast
    have h1 : F64.scanNearest maxMatrix 0
        (((solverOf Runtime.ascending 3 maxMatrix).nearestNeighbors.getD 0 []).filter
          (fun nb => [1, 2].contains nb)) (0, F64.maxFloat64) = (0, F64.maxFloat64) := by
      decide!
    have h2 : F64.scanNearest maxMatrix 0 [1, 2] (0, F64.maxFloat64) = (0, F64.maxFloat64) := by
      decide!
    have h3 : F64.eq F64.maxFloat64 F64.maxFloat64 = true := by decide!
    have hd : (solverOf Runtime.ascending 3 maxMatrix).distanceMatrix = maxMatrix := rfl
    have hm : Runtime.ascending.mapRange path [1, 2] = [1, 2] := rfl
    simp only [F64.V2.greedyLoop, hlast, hd, h1, hm, h2, h3, if_true, List.length_cons,
      List.length_nil, gt_iff_lt, Nat.zero_lt_succ]
    have he : List.erase [1, 2] 0 = [1, 2] := by decide
    rw [he]
    apply ih
    simp [List.getLastD_concat]

/-- On a matrix of small natural numbers the `float64` length of a tour is its
exact length. -/
theorem tourLength_float {K : Nat} (t : TSPSolver) (hn : 0 < t.numPoints)
    (hE : ∀ i j, i < t.numPoints → j < t.numPoints → F64.Small K (t.distanceMatrix i j))
    (hK : (2 * t.numPoints + 4) * K < 2 ^ 53) {q : List Nat} (hq : IsTour t.numPoints q) :
    F64.calculatePathDistance t q = tourLength t.distanceMatrix q ∧
      tourLength t.distanceMatrix q ≠ F64.nan := by
  have hexp : (2 * t.numPoints + 4) * K = 2 * (t.numPoints * K) + 4 * K := by ring
  have hexp2 : (t.numPoints + 1) * K = t.numPoints * K + K := by ring
  have hpl : ∀ x ∈ q, x < t.numPoints := fun x hx => List.mem_range.1 (hq.subset hx)
  have hplen : q.length = t.numPoints := by
    have := hq.length_eq
    simpa using this
  obtain ⟨e, sm⟩ := calculatePathDistance_float t hn hE hpl (by rw [hplen]; omega)
  exact ⟨e, (sm.finite (by rw [hplen]; omega)).1⟩

/-! ## The float64 reading of `adaptiveSearch` returns on small whole numbers -/


theorem F64.add_ne_nan {x y : ℚ} (hx : x ≠ F64.nan) (hy : y ≠ F64.nan)
    (hyp : y ≠ F64.posInf) (hyn : y ≠ F64.negInf) : F64.add x y ≠ F64.nan := by
  have hn := F64.posInf_lt_nan
  have hp : (0 : ℚ) < F64.posInf := by
    unfold F64.posInf
    exact Nat.cast_pos.2 (by positivity)
  have hneg : F64.negInf ≠ F64.nan := by
    unfold F64.negInf
    unfold F64.posInf at hp hn
    intro e
    rw [← e] at hn
    linarith
  unfold F64.add
  rw [if_neg (by simp [hx, hy])]
  split_ifs
  · exact hn.ne
  · exact hneg
  · exact F64.roundNearest_ne_nan _

theorem V2.twoOptLoop_finite_float {n K : Nat} {d : Nat → Nat → ℚ} (hn : 0 < n)
    (hE : ∀ i j, i < n → j < n → F64.Small K (d i j)) (hK : K + K < 2 ^ 53) :
    ∀ (left : Nat) (cur : List Nat) (cd : ℚ), (∀ x ∈ cur, x < n) → cd ≠ F64.nan →
      (F64.V2.twoOptLoop d left cur cd).2 ≠ F64.nan := by
  intro left
  induction left with
  | zero => intro cur cd _ hcd; exact hcd
  | succ left ih =>
    intro cur cd hl hcd
    simp only [F64.V2.twoOptLoop]
    rw [V2.twoOptPass_float hn hE hK hl]
    cases hp : V2.twoOptPass d cur with
    | mk delta sel =>
      cases sel with
      | none => exact hcd
      | some ij =>
        obtain ⟨i, j⟩ := ij
        simp only []
        obtain ⟨h1, h2, h3, h4, _⟩ := V2.twoOptPass_some hp
        obtain ⟨_, z, z1, z2, hz⟩ := V2.twoOptDelta_float hn hE hK hl i j
        rw [← h4] at hz
        obtain ⟨f1, f2, f3, _⟩ := F64.intCast_finite (F64.intBound z1 z2 hK)
        rw [← hz] at f1 f2 f3
        exact ih _ _
          (fun x hx => hl x ((V2.reverseSegment_perm cur i j (by omega) (by omega)).subset hx))
          (F64.add_ne_nan hcd f1 f2 f3)

theorem incumbent_ne_nan {t : TSPSolver} (h : t.bestDistance ≠ some F64.nan) :
    F64.incumbent t ≠ F64.nan := by
  unfold F64.incumbent
  cases hb : t.bestDistance with
  | none => exact F64.maxFloat64_ne_nan
  | some b =>
    intro e
    simp only [Option.getD_some] at e
    exact h (by rw [hb, e])

theorem V2.adaptiveLoop_total_float {K : Nat} (rt : Runtime) (hrt : rt.Valid) (gp : List Nat)
    (G up down : ℚ)
    (hup : up ≠ F64.nan ∧ up ≠ 0 ∧ up ≠ F64.posInf ∧ up ≠ F64.negInf)
    (hdown : down ≠ F64.nan ∧ down ≠ 0 ∧ down ≠ F64.posInf ∧ down ≠ F64.negInf) :
    ∀ (left : Nat) (t : TSPSolver) (thr : ℚ) (bp : List Nat) (bd : ℚ) (fa : Bool),
      0 < t.numPoints →
      (∀ i j, i < t.numPoints → j < t.numPoints → F64.Small K (t.distanceMatrix i j)) →
      (2 * t.numPoints + 4) * K < 2 ^ 53 →
      (∀ row ∈ t.nearestNeighbors, ∀ x ∈ row, x < t.numPoints) → thr ≠ F64.nan →
      ∃ res, F64.V2.adaptiveLoop rt gp G up down left t thr bp bd fa = some res := by
  intro left
  induction left with
  | zero =>
    intro t thr bp bd fa _ _ _ _ _
    exact ⟨_, rfl⟩
  | succ left ih =>
    intro t thr bp bd fa hn hE hK hrank hthr
    obtain ⟨t2, hround, _⟩ := V2.round_total rt hrt t hn hrank thr
    have htame : F64.Tame K
        ({ t with bestPath := [], bestDistance := some thr, visitedCount := 0, mstCache := [] } :
          TSPSolver) :=
      ⟨hn, hE, hK, hrank, fun key w h => by simp at h, fun e => by
        simp only [Option.some.injEq] at e
        exact hthr e⟩
    obtain ⟨e1, p1⟩ := bruteForceRecursive_float rt hrt (t.numPoints + 1)
      ({ t with bestPath := [], bestDistance := some thr, visitedCount := 0, mstCache := [] } :
        TSPSolver)
      [0] 0 ((List.replicate t.numPoints false).set 0 true) htame
      (fun x hx => by rw [List.mem_singleton.1 hx]; exact hn)
      (by simpa using hn) (F64.Small.zero _)
    obtain ⟨_, ht2⟩ := p1 t2 _ hround
    have hinc := incumbent_ne_nan ht2.finite
    simp only [F64.V2.adaptiveLoop]
    rw [if_neg (Nat.pos_iff_ne_zero.1 hn), e1, hround]
    simp only []
    split_ifs
    · obtain ⟨res, hres⟩ := ih t2 (F64.mul (F64.incumbent t2) down) t2.bestPath
        (F64.incumbent t2) true ht2.pos ht2.entries ht2.bound ht2.ranking
        (F64.mul_ne_nan hinc hdown.1 hdown.2.1 hdown.2.2.1 hdown.2.2.2)
      exact ⟨_, by rw [hres]; rfl⟩
    · exact ⟨_, rfl⟩
    · exact ⟨_, rfl⟩
    · obtain ⟨res, hres⟩ := ih t2 (F64.mul thr up) bp bd fa ht2.pos ht2.entries ht2.bound
        ht2.ranking (F64.mul_ne_nan hthr hup.1 hup.2.1 hup.2.2.1 hup.2.2.2)
      exact ⟨_, by rw [hres]; rfl⟩

/-- The `float64` reading of v2 `adaptiveSearch` returns on every matrix of
small natural numbers. -/
theorem V2.adaptiveSearch_total_float {K : Nat} (rt : Runtime) (hrt : rt.Valid) (t : TSPSolver)
    (hn : 0 < t.numPoints)
    (hE : ∀ i j, i < t.numPoints → j < t.numPoints → F64.Small K (t.distanceMatrix i j))
    (hK : (2 * t.numPoints + 4) * K < 2 ^ 53)
    (hrank : ∀ row ∈ t.nearestNeighbors, ∀ x ∈ row, x < t.numPoints) :
    ∃ path dist, F64.V2.adaptiveSearch rt t.numPoints t = some (path, dist) := by
  have hexp : (2 * t.numPoints + 4) * K = 2 * (t.numPoints * K) + 4 * K := by ring
  have hexp2 : (t.numPoints + 1) * K = t.numPoints * K + K := by ring
  obtain ⟨res, hres, hprop⟩ := V2.rankedStartLoop_spec rt hrt t
    ((List.range t.numPoints).filter (fun s => s < 5))
    (fun s hs => List.mem_range.1 (List.mem_filter.1 hs).1) ([], none) (Or.inl rfl)
  have htour : IsTour t.numPoints res.1 := by
    rcases hprop with ⟨_, h⟩ | h
    · exfalso
      have h0 : 0 ∈ (List.range t.numPoints).filter (fun s => s < 5) :=
        List.mem_filter.2 ⟨List.mem_range.2 hn, by simp⟩
      rw [h] at h0
      cases h0
    · exact h
  have hpl : ∀ x ∈ res.1, x < t.numPoints := fun x hx => List.mem_range.1 (htour.subset hx)
  have hplen : res.1.length = t.numPoints := by
    have := htour.length_eq
    simpa using this
  obtain ⟨e1, _⟩ := V2.rankedStartLoop_float rt hrt t hn hE hK hrank
    ((List.range t.numPoints).filter (fun s => s < 5)) ([], none)
    (fun s hs => List.mem_range.1 (List.mem_filter.1 hs).1) (fun b h => by simp at h)
    (And.intro (fun x hx => by cases hx) (Nat.zero_le _))
  simp only [Option.getD_none] at e1
  rw [hres] at e1
  obtain ⟨ec, sc⟩ := calculatePathDistance_float t hn hE hpl (by rw [hplen]; omega)
  have hcn : F64.calculatePathDistance t res.1 ≠ F64.nan := by
    rw [ec]
    exact (sc.finite (by rw [hplen]; omega)).1
  have hgreedy : ∃ gp G, F64.V2.multiStartGreedy rt t.numPoints t = some (gp, G) ∧
      G ≠ F64.nan := by
    unfold F64.V2.multiStartGreedy
    rw [e1]
    simp only [Option.map_some']
    unfold F64.V2.twoOpt
    rw [if_neg (by rw [hplen]; omega)]
    split_ifs
    · exact ⟨_, _, rfl, hcn⟩
    · exact ⟨_, _, rfl, V2.twoOptLoop_finite_float hn hE (by omega) 1000 res.1 _ hpl hcn⟩
  obtain ⟨gp, G, hg, hG⟩ := hgreedy
  obtain ⟨r, hr⟩ := V2.adaptiveLoop_total_float rt hrt gp G _ _ F64.up_finite F64.down_finite 200
    t (F64.mul G (F64.roundNearest (9 / 10))) gp G false hn hE hK hrank
    (F64.mul_ne_nan hG F64.ninety_finite.1 F64.ninety_finite.2.1 F64.ninety_finite.2.2.1
      F64.ninety_finite.2.2.2)
  refine ⟨r.1.1, r.1.2, ?_⟩
  unfold F64.V2.adaptiveSearch F64.V2.adaptiveSearchLog
  rw [hg]
  simp only []
  rw [hr]
  rfl

/-! ## Bounds on float64 rounding -/


theorem F64.pow2_eq_zpow (k : Int) : F64.pow2 k = (2 : ℚ) ^ k := by
  unfold F64.pow2
  split_ifs with h
  · obtain ⟨n, rfl⟩ := Int.eq_ofNat_of_zero_le h
    simp
  · have hk : k = -((-k).toNat : Int) := by
      rw [Int.toNat_of_nonneg (by omega)]
      ring
    conv_rhs => rw [hk]
    rw [zpow_neg, zpow_natCast]
    simp

theorem F64.bitLength_zero (fuel : Nat) : F64.bitLength fuel 0 = 0 := by
  cases fuel <;> simp [F64.bitLength]

theorem F64.bitLength_spec : ∀ (fuel n : Nat), 1 ≤ n → n ≤ fuel →
    2 ^ (F64.bitLength fuel n - 1) ≤ n ∧ n < 2 ^ F64.bitLength fuel n := by
  intro fuel
  induction fuel with
  | zero => intro n h1 h2; omega
  | succ fuel ih =>
    intro n h1 h2
    rw [F64.bitLength, if_neg (by omega)]
    by_cases h : n / 2 = 0
    · rw [h, F64.bitLength_zero]
      have : n = 1 := by omega
      subst this
      simp
    · obtain ⟨hl, hu⟩ := ih (n / 2) (by omega) (by omega)
      have hb : 1 ≤ F64.bitLength fuel (n / 2) := by
        by_contra hb
        have hb0 : F64.bitLength fuel (n / 2) = 0 := by omega
        rw [hb0] at hu
        simp at hu
        exact h hu
      have e1 : 2 ^ F64.bitLength fuel (n / 2)
          = 2 * 2 ^ (F64.bitLength fuel (n / 2) - 1) := by
        conv_lhs => rw [show F64.bitLength fuel (n / 2)
          = (F64.bitLength fuel (n / 2) - 1) + 1 by omega]
        rw [pow_succ]
        ring
      have e2 : 2 ^ (F64.bitLength fuel (n / 2) + 1)
          = 2 * 2 ^ F64.bitLength fuel (n / 2) := by
        rw [pow_succ]
        ring
      rw [Nat.add_sub_cancel, e2]
      constructor <;> omega

/-- The binary exponent is not too large: `2^(ilog2 x) ≤ x`. -/
theorem F64.pow2_ilog2_le {x : ℚ} (hx : 0 < x) : F64.pow2 (F64.ilog2 x) ≤ x := by
  unfold F64.ilog2
  simp only []
  split_ifs with h
  · exact h
  · have hnum : 0 < x.num := Rat.num_pos.2 hx
    have hN : 1 ≤ x.num.natAbs := by omega
    have hD : 1 ≤ x.den := x.den_pos
    obtain ⟨hl, _⟩ := F64.bitLength_spec x.num.natAbs x.num.natAbs hN (le_refl _)
    obtain ⟨_, hu⟩ := F64.bitLength_spec x.den x.den hD (le_refl _)
    have ha := F64.bitLength_pos hN
    generalize F64.bitLength x.num.natAbs x.num.natAbs = a at hl ha ⊢
    generalize F64.bitLength x.den x.den = b at hu ⊢
    have hk : (a : Int) - (b : Int) - 1 = ((a - 1 : Nat) : Int) - (b : Int) := by omega
    rw [F64.pow2_eq_zpow, hk, zpow_sub₀ (by norm_num), zpow_natCast, zpow_natCast]
    have hx2 : x = (x.num.natAbs : ℚ) / (x.den : ℚ) := by
      have h1 : (x.num.natAbs : ℚ) = (x.num : ℚ) := by
        rw [Nat.cast_natAbs, abs_of_nonneg hnum.le]
      rw [h1]
      exact (Rat.num_div_den x).symm
    rw [hx2]
    have hl2 : ((2 : ℚ) ^ (a - 1)) ≤ (x.num.natAbs : ℚ) := by exact_mod_cast hl
    have hu2 : (x.den : ℚ) ≤ (2 : ℚ) ^ b := by exact_mod_cast hu.le
    exact div_le_div₀ (Nat.cast_nonneg _) hl2 (by exact_mod_cast hD) hu2

/-- The whole part computed by `roundPos`. -/
theorem F64.floor_bounds {y : ℚ} (hy : 0 ≤ y) :
    ((y.num.natAbs / y.den : Nat) : ℚ) ≤ y ∧ y < ((y.num.natAbs / y.den : Nat) : ℚ) + 1 := by
  have hnum : 0 ≤ y.num := Rat.num_nonneg.2 hy
  have hf : ((y.num.natAbs / y.den : Nat) : Int) = ⌊y⌋ := by
    rw [Rat.floor_def, Int.natCast_div, Int.natAbs_of_nonneg hnum]
  have h1 := Int.floor_le y
  have h2 := Int.lt_floor_add_one y
  rw [← hf] at h1 h2
  constructor
  · exact_mod_cast h1
  · exact_mod_cast h2

/-- The shape of `roundPos a`: a whole number `m` of units `q`, at most half a
unit away from `a`, and not beyond a whole number of units that `a` does not
exceed. -/
theorem F64.roundPos_shape (a : ℚ) (ha : 0 < a) :
    ∃ m : Nat,
      F64.roundPos a
        = (if F64.posInf ≤ (m : ℚ) * F64.pow2 (max (F64.ilog2 a) (-1022) - 52) then F64.posInf
           else (m : ℚ) * F64.pow2 (max (F64.ilog2 a) (-1022) - 52)) ∧
      a / F64.pow2 (max (F64.ilog2 a) (-1022) - 52) - 1 / 2 ≤ (m : ℚ) ∧
      ∀ M : Nat, a / F64.pow2 (max (F64.ilog2 a) (-1022) - 52) ≤ (M : ℚ) → m ≤ M := by
  have hq := F64.pow2_pos (max (F64.ilog2 a) (-1022) - 52)
  generalize hqe : F64.pow2 (max (F64.ilog2 a) (-1022) - 52) = q at hq
  have hy : 0 ≤ a / q := (div_pos ha hq).le
  obtain ⟨hf1, hf2⟩ := F64.floor_bounds hy
  unfold F64.roundPos
  simp only [hqe]
  generalize ((a / q).num.natAbs / (a / q).den : Nat) = f at hf1 hf2 ⊢
  by_cases h1 : a / q - (f : ℚ) < 1 / 2
  · refine ⟨f, by simp only [if_pos h1], by linarith, fun M hM => ?_⟩
    have : (f : ℚ) ≤ (M : ℚ) := le_trans hf1 hM
    exact_mod_cast this
  · have hlt : ∀ M : Nat, a / q ≤ (M : ℚ) → f + 1 ≤ M := by
      intro M hM
      have : (f : ℚ) < (M : ℚ) := by linarith
      have : f < M := by exact_mod_cast this
      omega
    by_cases h2 : 1 / 2 < a / q - (f : ℚ)
    · refine ⟨f + 1, by simp only [if_neg h1, if_pos h2, Nat.cast_add, Nat.cast_one], ?_, hlt⟩
      push_cast
      linarith
    · by_cases h3 : f % 2 = 0
      · refine ⟨f, by simp only [if_neg h1, if_neg h2, if_pos h3], by linarith, fun M hM => ?_⟩
        have := hlt M hM
        omega
      · refine ⟨f + 1, by simp only [if_neg h1, if_neg h2, if_neg h3, Nat.cast_add,
          Nat.cast_one], ?_, hlt⟩
        push_cast
        linarith

theorem F64.roundNearest_nonneg {x : ℚ} (hx : 0 ≤ x) : 0 ≤ F64.roundNearest x := by
  unfold F64.roundNearest
  split_ifs with h1 h2
  · exact le_refl _
  · exact (F64.roundPos_bounds x).1
  · exact absurd (lt_of_le_of_ne hx (Ne.symm h1)) h2

/-- Rounding does not cross a whole number below `2^53`. -/
theorem F64.roundNearest_le_natCast {x : ℚ} {N : Nat} (h0 : 0 ≤ x) (hx : x ≤ (N : ℚ))
    (hN : N < 2 ^ 53) : F64.roundNearest x ≤ (N : ℚ) := by
  unfold F64.roundNearest
  split_ifs with h1 h2
  · exact Nat.cast_nonneg _
  · obtain ⟨m, hm, _, hM⟩ := F64.roundPos_shape x h2
    have he : F64.ilog2 x ≤ 52 := by
      by_contra hc
      have h53 : (53 : Int) ≤ F64.ilog2 x := by omega
      have hp := F64.pow2_ilog2_le h2
      rw [F64.pow2_eq_zpow] at hp
      have hmono : (2 : ℚ) ^ (53 : Int) ≤ (2 : ℚ) ^ F64.ilog2 x :=
        zpow_le_zpow_right₀ (by norm_num) h53
      have hN2 : (N : ℚ) < (2 : ℚ) ^ (53 : Int) := by
        have h3 : (N : ℚ) < ((2 ^ 53 : Nat) : ℚ) := Nat.cast_lt.2 hN
        have e : ((2 ^ 53 : Nat) : ℚ) = (2 : ℚ) ^ (53 : Int) := by norm_num
        rw [← e]
        exact h3
      linarith
    have hE : max (F64.ilog2 x) (-1022) - 52 ≤ 0 := by
      rcases le_total (F64.ilog2 x) (-1022) with h | h
      · rw [max_eq_right h]
        omega
      · rw [max_eq_left h]
        omega
    rw [F64.pow2_nonpos hE] at hm hM
    generalize (-(max (F64.ilog2 x) (-1022) - 52)).toNat = s at hm hM
    have hs : (0 : ℚ) < ((2 ^ s : Nat) : ℚ) := by positivity
    have hle : x / (1 / ((2 ^ s : Nat) : ℚ)) ≤ ((N * 2 ^ s : Nat) : ℚ) := by
      rw [div_div_eq_mul_div, div_one]
      push_cast
      exact mul_le_mul_of_nonneg_right hx (by positivity)
    have hmM := hM _ hle
    have hv : (m : ℚ) * (1 / ((2 ^ s : Nat) : ℚ)) ≤ (N : ℚ) := by
      have h3 : (m : ℚ) ≤ ((N * 2 ^ s : Nat) : ℚ) := Nat.cast_le.2 hmM
      rw [mul_one_div, div_le_iff₀ hs]
      push_cast at h3 ⊢
      exact h3
    rw [hm]
    split_ifs with hc
    · exact le_trans hc hv
    · exact hv
  · exact absurd (lt_of_le_of_ne h0 (Ne.symm h1)) h2

/-- Rounding loses at most the fraction `2^-53` of a number between `1/4` and
`2^60`. -/
theorem F64.roundNearest_ge {x : ℚ} (h1 : 1 / 4 ≤ x) (h2 : x ≤ 2 ^ 60) :
    x * (1 - 1 / 2 ^ 53) ≤ F64.roundNearest x := by
  have hx : 0 < x := by linarith
  unfold F64.roundNearest
  rw [if_neg hx.ne', if_pos hx]
  obtain ⟨m, hm, hlow, _⟩ := F64.roundPos_shape x hx
  have hq := F64.pow2_pos (max (F64.ilog2 x) (-1022) - 52)
  have hqx : F64.pow2 (max (F64.ilog2 x) (-1022) - 52) ≤ x / 2 ^ 52 := by
    rw [F64.pow2_eq_zpow, zpow_sub₀ (by norm_num)]
    have h52 : (2 : ℚ) ^ (52 : Int) = 2 ^ 52 := by norm_num
    rw [h52]
    apply div_le_div_of_nonneg_right _ (by positivity)
    rcases le_total (F64.ilog2 x) (-1022) with h | h
    · rw [max_eq_right h]
      have hmono : (2 : ℚ) ^ (-1022 : Int) ≤ (2 : ℚ) ^ (-2 : Int) :=
        zpow_le_zpow_right₀ (by norm_num) (by norm_num)
      have e : (2 : ℚ) ^ (-2 : Int) = 1 / 4 := by norm_num
      rw [e] at hmono
      exact le_trans hmono h1
    · rw [max_eq_left h, ← F64.pow2_eq_zpow]
      exact F64.pow2_ilog2_le hx
  generalize F64.pow2 (max (F64.ilog2 x) (-1022) - 52) = q at hm hlow hq hqx
  have hv : x * (1 - 1 / 2 ^ 53) ≤ (m : ℚ) * q := by
    have h3 : (x / q - 1 / 2) * q ≤ (m : ℚ) * q := mul_le_mul_of_nonneg_right hlow hq.le
    have h4 : (x / q - 1 / 2) * q = x - q / 2 := by
      field_simp
      ring
    rw [h4] at h3
    have h5 : q / 2 ≤ x / 2 ^ 53 := by
      have : x / 2 ^ 53 = x / 2 ^ 52 / 2 := by ring
      rw [this]
      linarith
    have h6 : x * (1 - 1 / 2 ^ 53) = x - x / 2 ^ 53 := by ring
    rw [h6]
    linarith
  rw [hm]
  split_ifs with hc
  · have hp : (2 : ℚ) ^ 60 ≤ F64.posInf := by
      unfold F64.posInf
      have : ((2 ^ 60 : Nat) : ℚ) ≤ ((2 ^ 1024 : Nat) : ℚ) :=
        Nat.cast_le.2 (Nat.pow_le_pow_right (by decide) (by decide))
      simpa using this
    have h7 : x * (1 - 1 / 2 ^ 53) ≤ x := by
      have : (0 : ℚ) ≤ x * (1 / 2 ^ 53) := by positivity
      linarith
    linarith
  · exact hv

/-- The `float64` product of two non-negative finite numbers is the rounded
product. -/
theorem F64.mul_eq_round {x y : ℚ} (hx0 : 0 ≤ x) (hx : x < F64.posInf) (hy0 : 0 ≤ y)
    (hy : y < F64.posInf) : F64.mul x y = F64.roundNearest (x * y) := by
  have hn := F64.posInf_lt_nan
  have hneg : F64.negInf < 0 := by
    unfold F64.negInf
    have : (0 : ℚ) < ((2 ^ 1024 : Nat) : ℚ) := Nat.cast_pos.2 (by positivity)
    linarith
  unfold F64.mul
  rw [if_neg (by
    rintro (h | h)
    · rw [h] at hx; linarith
    · rw [h] at hy; linarith)]
  rw [if_neg (by
    rintro (h | h | h | h)
    · rw [h] at hx; exact lt_irrefl _ hx
    · rw [h] at hx0; linarith
    · rw [h] at hy; exact lt_irrefl _ hy
    · rw [h] at hy0; linarith)]

theorem F64.constants_bounds :
    (1 / 2 ≤ F64.roundNearest (9 / 10) ∧ F64.roundNearest (9 / 10) ≤ 1) ∧
      (1 ≤ F64.add 1 (F64.roundNearest (7 / 100)) ∧
        F64.add 1 (F64.roundNearest (7 / 100)) ≤ 2) ∧
      (0 ≤ F64.sub 1 (F64.roundNearest (7 / 100)) ∧
        F64.sub 1 (F64.roundNearest (7 / 100)) ≤ 1) ∧
      1 ≤ F64.roundNearest (9 / 10) * F64.add 1 (F64.roundNearest (7 / 100)) *
        F64.add 1 (F64.roundNearest (7 / 100)) *
        ((1 - 1 / 2 ^ 53) * (1 - 1 / 2 ^ 53) * (1 - 1 / 2 ^ 53)) := by
  decide!

/-! ## The rounds of the float64 adaptive search on small whole numbers -/


theorem tourLength_small {K : Nat} (t : TSPSolver) (hn : 0 < t.numPoints)
    (hE : ∀ i j, i < t.numPoints → j < t.numPoints → F64.Small K (t.distanceMatrix i j))
    (hK : (2 * t.numPoints + 4) * K < 2 ^ 53) {q : List Nat} (hq : IsTour t.numPoints q) :
    ∃ g : Nat, g < 2 ^ 53 ∧ tourLength t.distanceMatrix q = (g : ℚ) := by
  have hexp : (2 * t.numPoints + 4) * K = 2 * (t.numPoints * K) + 4 * K := by ring
  have hexp2 : (t.numPoints + 1) * K = t.numPoints * K + K := by ring
  have hpl : ∀ x ∈ q, x < t.numPoints := fun x hx => List.mem_range.1 (hq.subset hx)
  have hplen : q.length = t.numPoints := by
    have := hq.length_eq
    simpa using this
  obtain ⟨_, g, hg, e⟩ := calculatePathDistance_float t hn hE hpl (by rw [hplen]; omega)
  rw [hplen] at hg
  exact ⟨g, by omega, e⟩

theorem F64.lt_posInf_of_le {x : ℚ} {N : Nat} (hx : x ≤ (N : ℚ)) (hN : N < 2 ^ 53) :
    x < F64.posInf :=
  lt_of_le_of_lt hx (F64.natCast_lt_posInf hN)

/-- One iteration of the loop of `adaptiveSearch` in the `float64` reading on
a matrix of small natural numbers: the round returns the minimum `v` of its
ceiling and the shortest tour, and the loop goes on as the code says. -/
theorem V2.adaptiveLoop_step_float {K : Nat} (rt : Runtime) (hrt : rt.Valid) (t0 : TSPSolver)
    (hn : 0 < t0.numPoints) (hsymm : SymmetricOn t0.numPoints t0.distanceMatrix)
    (hnonneg : NonnegOn t0.numPoints t0.distanceMatrix)
    (hE : ∀ i j, i < t0.numPoints → j < t0.numPoints → F64.Small K (t0.distanceMatrix i j))
    (hK : (2 * t0.numPoints + 4) * K < 2 ^ 53)
    (hrank : ∀ row ∈ t0.nearestNeighbors, ∀ x ∈ row, x < t0.numPoints)
    (gp : List Nat) (G up down : ℚ) (left : Nat) (t : TSPSolver) (thr : ℚ)
    (bestPath : List Nat) (bestDist : ℚ) (foundAny : Bool) (hsame : SameProblem t0 t)
    (hthr : thr ≠ F64.nan) :
    ∃ t2 v, SameProblem t0 t2 ∧
      bruteForceRecursive rt (t.numPoints + 1)
        { t with bestPath := [], bestDistance := some thr, visitedCount := 0, mstCache := [] }
        [0] 0 ((List.replicate t.numPoints false).set 0 true)
        = some (t2, (List.replicate t.numPoints false).set 0 true) ∧
      t2.bestDistance = some v ∧ v ≤ thr ∧ v ≠ F64.nan ∧
      (∀ q, IsTour t0.numPoints q → v ≤ tourLength t0.distanceMatrix q) ∧
      (v < thr → IsTour t0.numPoints t2.bestPath ∧
        tourLength t0.distanceMatrix t2.bestPath = v) ∧
      F64.V2.adaptiveLoop rt gp G up down (left + 1) t thr bestPath bestDist foundAny
        = if v < thr then
            (F64.V2.adaptiveLoop rt gp G up down left t2 (F64.mul v down) t2.bestPath v true).map
              (fun r => (r.1, thr :: r.2))
          else if foundAny = true then some ((bestPath, bestDist), [thr])
          else if F64.ge (F64.mul thr up) G = true then some ((gp, G), [thr])
          else
            (F64.V2.adaptiveLoop rt gp G up down left t2 (F64.mul thr up) bestPath bestDist
              foundAny).map (fun r => (r.1, thr :: r.2)) := by
  have hexp : (2 * t0.numPoints + 4) * K = 2 * (t0.numPoints * K) + 4 * K := by ring
  have hexp2 : (t0.numPoints + 1) * K = t0.numPoints * K + K := by ring
  obtain ⟨s1, s2, s3⟩ := hsame
  have hnt : 0 < t.numPoints := by rw [s1]; exact hn
  have hEt : ∀ i j, i < t.numPoints → j < t.numPoints → F64.Small K (t.distanceMatrix i j) := by
    rw [s1, s2]; exact hE
  have hrankt : ∀ row ∈ t.nearestNeighbors, ∀ x ∈ row, x < t.numPoints := by
    rw [s1, s3]; exact hrank
  obtain ⟨t2, v, hround, hsame2, hv, hvle, hcov, hfound⟩ := V2.round_spec rt hrt t hnt
    (by rw [s1, s2]; exact hsymm) (by rw [s1, s2]; exact hnonneg) hrankt thr
  have htame : F64.Tame K
      ({ t with bestPath := [], bestDistance := some thr, visitedCount := 0, mstCache := [] } :
        TSPSolver) :=
    ⟨hnt, hEt, by rw [s1]; exact hK, hrankt, fun key w h => by simp at h, fun e => by
      simp only [Option.some.injEq] at e
      exact hthr e⟩
  obtain ⟨e1, _⟩ := bruteForceRecursive_float rt hrt (t.numPoints + 1)
    ({ t with bestPath := [], bestDistance := some thr, visitedCount := 0, mstCache := [] } :
      TSPSolver)
    [0] 0 ((List.replicate t.numPoints false).set 0 true) htame
    (fun x hx => by rw [List.mem_singleton.1 hx]; exact hnt)
    (by simpa using hnt) (F64.Small.zero _)
  rw [s1, s2] at hcov hfound
  have hsame02 : SameProblem t0 t2 := ⟨hsame2.1.trans s1, hsame2.2.1.trans s2, hsame2.2.2.trans s3⟩
  have hinc : F64.incumbent t2 = v := by
    unfold F64.incumbent
    rw [hv]
    rfl
  have hvn : v ≠ F64.nan := by
    rcases lt_or_eq_of_le hvle with h | h
    · obtain ⟨h1, h2⟩ := hfound h
      have := (tourLength_float t0 hn hE hK h1).2
      rw [h2] at this
      exact this
    · rw [h]
      exact hthr
  refine ⟨t2, v, hsame02, hround, hv, hvle, hvn, hcov, hfound, ?_⟩
  simp only [F64.V2.adaptiveLoop]
  rw [if_neg (Nat.pos_iff_ne_zero.1 hnt), e1, hround]
  simp only [hinc]
  rw [F64.lt_eq hvn hthr]
  by_cases hlt : v < thr
  · simp only [hlt, decide_True, if_true]
  · simp only [hlt, decide_False, Bool.false_eq_true, if_false]

/-- After a round has found the shortest tour, the next round finds nothing
and the loop returns. -/
theorem V2.adaptiveLoop_found_float {K : Nat} (rt : Runtime) (hrt : rt.Valid) (t0 : TSPSolver)
    (hn : 0 < t0.numPoints) (hsymm : SymmetricOn t0.numPoints t0.distanceMatrix)
    (hnonneg : NonnegOn t0.numPoints t0.distanceMatrix)
    (hE : ∀ i j, i < t0.numPoints → j < t0.numPoints → F64.Small K (t0.distanceMatrix i j))
    (hK : (2 * t0.numPoints + 4) * K < 2 ^ 53)
    (hrank : ∀ row ∈ t0.nearestNeighbors, ∀ x ∈ row, x < t0.numPoints)
    (gp : List Nat) (G up down : ℚ) (hdown : 0 ≤ down ∧ down ≤ 1) (left : Nat) (t : TSPSolver)
    (hsame : SameProblem t0 t) (bp : List Nat) (v : ℚ) (hbp : IsTour t0.numPoints bp)
    (hlen : tourLength t0.distanceMatrix bp = v)
    (hopt : ∀ q, IsTour t0.numPoints q → v ≤ tourLength t0.distanceMatrix q) :
    F64.mul v down ≤ v ∧
      F64.V2.adaptiveLoop rt gp G up down (left + 1) t (F64.mul v down) bp v true
        = some ((bp, v), [F64.mul v down]) := by
  obtain ⟨g, hg, hge⟩ := tourLength_small t0 hn hE hK hbp
  rw [hlen] at hge
  have hv0 : 0 ≤ v := by rw [hge]; exact Nat.cast_nonneg _
  have hmul : F64.mul v down = F64.roundNearest (v * down) :=
    F64.mul_eq_round hv0 (F64.lt_posInf_of_le (le_of_eq hge) hg) hdown.1
      (F64.lt_posInf_of_le (N := 1) (by simpa using hdown.2) (by norm_num))
  have hle : F64.mul v down ≤ v := by
    rw [hmul]
    conv_rhs => rw [hge]
    refine F64.roundNearest_le_natCast (mul_nonneg hv0 hdown.1) ?_ hg
    rw [← hge]
    exact mul_le_of_le_one_right hv0 hdown.2
  have hnan : F64.mul v down ≠ F64.nan := by
    rw [hmul]
    exact F64.roundNearest_ne_nan _
  obtain ⟨t2, w, _, _, _, hwle, _, _, hfound, hstep⟩ := V2.adaptiveLoop_step_float rt hrt t0 hn hsymm
    hnonneg hE hK hrank gp G up down left t (F64.mul v down) bp v true hsame hnan
  refine ⟨hle, ?_⟩
  rw [hstep]
  have hnot : ¬ w < F64.mul v down := by
    intro h
    obtain ⟨h1, h2⟩ := hfound h
    have := hopt _ h1
    rw [h2] at this
    linarith
  rw [if_neg hnot, if_pos rfl]

/-- The rounds of the loop of `adaptiveSearch` in the `float64` reading on a
matrix of small natural numbers, for constants in the ranges of `0.90`,
`1.0 + 0.07` and `1.0 - 0.07`: at most three rounds, none with a ceiling above
the greedy distance. -/
theorem V2.adaptiveLoop_rounds_float {K : Nat} (rt : Runtime) (hrt : rt.Valid) (t : TSPSolver)
    (hn : 0 < t.numPoints) (hsymm : SymmetricOn t.numPoints t.distanceMatrix)
    (hnonneg : NonnegOn t.numPoints t.distanceMatrix)
    (hE : ∀ i j, i < t.numPoints → j < t.numPoints → F64.Small K (t.distanceMatrix i j))
    (hK : (2 * t.numPoints + 4) * K < 2 ^ 53)
    (hrank : ∀ row ∈ t.nearestNeighbors, ∀ x ∈ row, x < t.numPoints)
    (gp : List Nat) (hgp : IsTour t.numPoints gp) (c up down : ℚ)
    (hc : 1 / 2 ≤ c ∧ c ≤ 1) (hup : 1 ≤ up ∧ up ≤ 2) (hdown : 0 ≤ down ∧ down ≤ 1)
    (hprod : 1 ≤ c * up * up * ((1 - 1 / 2 ^ 53) * (1 - 1 / 2 ^ 53) * (1 - 1 / 2 ^ 53)))
    (left : Nat) :
    ∃ p r log,
      F64.V2.adaptiveLoop rt gp (tourLength t.distanceMatrix gp) up down (left + 3) t
          (F64.mul (tourLength t.distanceMatrix gp) c) gp (tourLength t.distanceMatrix gp) false
        = some ((p, r), log) ∧
      (log = [F64.mul (tourLength t.distanceMatrix gp) c] ∨
        (∃ v, v < F64.mul (tourLength t.distanceMatrix gp) c ∧
          log = [F64.mul (tourLength t.distanceMatrix gp) c, F64.mul v down]) ∨
        log = [F64.mul (tourLength t.distanceMatrix gp) c,
          F64.mul (F64.mul (tourLength t.distanceMatrix gp) c) up] ∨
        (∃ v, v < F64.mul (F64.mul (tourLength t.distanceMatrix gp) c) up ∧
          log = [F64.mul (tourLength t.distanceMatrix gp) c,
            F64.mul (F64.mul (tourLength t.distanceMatrix gp) c) up, F64.mul v down])) ∧
      ∀ x ∈ log, x ≤ tourLength t.distanceMatrix gp := by
  obtain ⟨g, hg, hGe⟩ := tourLength_small t hn hE hK hgp
  have hGnan : tourLength t.distanceMatrix gp ≠ F64.nan := (tourLength_float t hn hE hK hgp).2
  generalize tourLength t.distanceMatrix gp = G at hGe hGnan ⊢
  have hG0 : 0 ≤ G := by rw [hGe]; exact Nat.cast_nonneg _
  have hGinf : G < F64.posInf := F64.lt_posInf_of_le (le_of_eq hGe) hg
  have hc0 : 0 ≤ c := by linarith [hc.1]
  have hup0 : 0 ≤ up := by linarith [hup.1]
  have hupinf : up < F64.posInf :=
    F64.lt_posInf_of_le (N := 2) (by simpa using hup.2) (by norm_num)
  -- the first ceiling
  have h1 : F64.mul G c = F64.roundNearest (G * c) :=
    F64.mul_eq_round hG0 hGinf hc0
      (F64.lt_posInf_of_le (N := 1) (by simpa using hc.2) (by norm_num))
  have h1le : F64.mul G c ≤ G := by
    rw [h1]
    conv_rhs => rw [hGe]
    refine F64.roundNearest_le_natCast (mul_nonneg hG0 hc0) ?_ hg
    rw [← hGe]
    exact mul_le_of_le_one_right hG0 hc.2
  have h1nn : 0 ≤ F64.mul G c := by
    rw [h1]
    exact F64.roundNearest_nonneg (mul_nonneg hG0 hc0)
  have h1nan : F64.mul G c ≠ F64.nan := by
    rw [h1]
    exact F64.roundNearest_ne_nan _
  have h1inf : F64.mul G c < F64.posInf := lt_of_le_of_lt h1le hGinf
  generalize F64.mul G c = c1 at h1 h1le h1nn h1nan h1inf ⊢
  -- the second ceiling
  have h2 : F64.mul c1 up = F64.roundNearest (c1 * up) :=
    F64.mul_eq_round h1nn h1inf hup0 hupinf
  have h2nn : 0 ≤ F64.mul c1 up := by
    rw [h2]
    exact F64.roundNearest_nonneg (mul_nonneg h1nn hup0)
  have h2nan : F64.mul c1 up ≠ F64.nan := by
    rw [h2]
    exact F64.roundNearest_ne_nan _
  generalize hc2 : F64.mul c1 up = c2 at h2 h2nn h2nan ⊢
  obtain ⟨t2, v, hsame2, _, _, _, _, hcov, hfound, hstep⟩ := V2.adaptiveLoop_step_float rt hrt t hn
    hsymm hnonneg hE hK hrank gp G up down (left + 2) t c1 gp G false (SameProblem.refl t) h1nan
  rw [hc2] at hstep
  rw [hstep]
  by_cases hlt : v < c1
  · rw [if_pos hlt]
    obtain ⟨hbp, hlen⟩ := hfound hlt
    obtain ⟨hle, hrun⟩ := V2.adaptiveLoop_found_float rt hrt t hn hsymm hnonneg hE hK hrank gp G
      up down hdown (left + 1) t2 hsame2 t2.bestPath v hbp hlen hcov
    rw [hrun]
    refine ⟨t2.bestPath, v, _, rfl, Or.inr (Or.inl ⟨v, hlt, rfl⟩), ?_⟩
    intro x hx
    simp only [List.mem_cons, List.mem_singleton, List.not_mem_nil, or_false] at hx
    rcases hx with hx | hx <;> rw [hx] <;> linarith
  · rw [if_neg hlt, if_neg (by simp)]
    by_cases hge : F64.ge c2 G = true
    · rw [if_pos hge]
      refine ⟨gp, G, _, rfl, Or.inl rfl, ?_⟩
      intro x hx
      simp only [List.mem_singleton] at hx
      rw [hx]
      exact h1le
    · rw [if_neg hge]
      have hc2lt : c2 < G := by
        rw [F64.ge_eq h2nan hGnan] at hge
        simpa using hge
      have h2inf : c2 < F64.posInf := lt_trans hc2lt hGinf
      have h3 : F64.mul c2 up = F64.roundNearest (c2 * up) :=
        F64.mul_eq_round h2nn h2inf hup0 hupinf
      have h3nan : F64.mul c2 up ≠ F64.nan := by
        rw [h3]
        exact F64.roundNearest_ne_nan _
      obtain ⟨t3, v2, hsame3, _, _, _, _, hcov2, hfound2, hstep2⟩ := V2.adaptiveLoop_step_float rt hrt
        t hn hsymm hnonneg hE hK hrank gp G up down (left + 1) t2 c2 gp G false hsame2 h2nan
      rw [hstep2]
      by_cases hlt2 : v2 < c2
      · rw [if_pos hlt2]
        obtain ⟨hbp, hlen⟩ := hfound2 hlt2
        obtain ⟨hle, hrun⟩ := V2.adaptiveLoop_found_float rt hrt t hn hsymm hnonneg hE hK hrank
          gp G up down hdown left t3 hsame3 t3.bestPath v2 hbp hlen hcov2
        rw [hrun]
        refine ⟨t3.bestPath, v2, _, rfl, Or.inr (Or.inr (Or.inr ⟨v2, hlt2, rfl⟩)), ?_⟩
        intro x hx
        simp only [List.mem_cons, List.mem_singleton, List.not_mem_nil, or_false] at hx
        rcases hx with hx | hx | hx <;> rw [hx] <;> linarith
      · rw [if_neg hlt2, if_neg (by simp)]
        have hg1 : 1 ≤ g := by
          by_contra h0
          have : g = 0 := by omega
          rw [this] at hGe
          rw [hGe] at hc2lt
          simp only [Nat.cast_zero] at hc2lt
          linarith
        have hG1 : 1 ≤ G := by
          rw [hGe]
          exact_mod_cast hg1
        have hG53 : G ≤ 2 ^ 53 := by
          rw [hGe]
          exact_mod_cast hg.le
        have hw : (0 : ℚ) ≤ 1 - 1 / 2 ^ 53 := by norm_num
        have hw2 : (1 / 2 : ℚ) ≤ 1 - 1 / 2 ^ 53 := by norm_num
        have hupw : 0 ≤ up * (1 - 1 / 2 ^ 53) := mul_nonneg hup0 hw
        -- the three roundings lose little
        have hbig : (2 : ℚ) ^ 53 * 2 ≤ 2 ^ 60 := by norm_num
        have quarter : ∀ z : ℚ, 1 / 2 ≤ z → 1 / 4 ≤ z * (1 - 1 / 2 ^ 53) := by
          intro z hz
          have := mul_le_mul hz hw2 (by norm_num) (by linarith)
          linarith
        have x1 : 1 / 2 ≤ G * c := by
          have := mul_le_mul hG1 hc.1 (by norm_num) hG0
          linarith
        have x1u : G * c ≤ 2 ^ 60 := by
          have := mul_le_mul hG53 hc.2 hc0 (by norm_num)
          linarith
        have a1 : G * c * (1 - 1 / 2 ^ 53) ≤ c1 := by
          rw [h1]
          exact F64.roundNearest_ge (by linarith) x1u
        have y1 : 1 / 4 ≤ c1 := le_trans (quarter _ x1) a1
        have x2 : c1 ≤ c1 * up := le_mul_of_one_le_right h1nn hup.1
        have x2u : c1 * up ≤ 2 ^ 60 := by
          have := mul_le_mul (le_trans h1le hG53) hup.2 hup0 (by norm_num)
          linarith
        have a2 : c1 * up * (1 - 1 / 2 ^ 53) ≤ c2 := by
          rw [h2]
          exact F64.roundNearest_ge (by linarith) x2u
        have y2 : 1 / 4 ≤ c2 := by
          have h5 : 1 / 2 ≤ c1 * up := by
            have h6 : G * c * (1 - 1 / 2 ^ 53) * up ≤ c1 * up :=
              mul_le_mul_of_nonneg_right a1 hup0
            have h7 : G * c * (1 - 1 / 2 ^ 53) * up = G * c * (up * (1 - 1 / 2 ^ 53)) := by ring
            have h8 : (1 : ℚ) ≤ up * (1 - 1 / 2 ^ 53) ∨ up * (1 - 1 / 2 ^ 53) < 1 := le_or_lt _ _
            rcases h8 with h8 | h8
            · have := mul_le_mul x1 h8 (by norm_num) (by linarith)
              linarith
            · exfalso
              have h9 : c * up * up * ((1 - 1 / 2 ^ 53) * (1 - 1 / 2 ^ 53) * (1 - 1 / 2 ^ 53))
                  = c * (1 - 1 / 2 ^ 53) * (up * (1 - 1 / 2 ^ 53)) * (up * (1 - 1 / 2 ^ 53)) := by
                ring
              rw [h9] at hprod
              have hcw : c * (1 - 1 / 2 ^ 53) ≤ 1 := by
                have := mul_le_mul hc.2 (show (1 : ℚ) - 1 / 2 ^ 53 ≤ 1 by norm_num) hw
                  (by norm_num)
                linarith
              have hcw0 : 0 ≤ c * (1 - 1 / 2 ^ 53) := mul_nonneg hc0 hw
              have i1 : c * (1 - 1 / 2 ^ 53) * (up * (1 - 1 / 2 ^ 53)) ≤ 1 * 1 :=
                mul_le_mul hcw h8.le hupw (by norm_num)
              have i2 : c * (1 - 1 / 2 ^ 53) * (up * (1 - 1 / 2 ^ 53)) * (up * (1 - 1 / 2 ^ 53))
                  < 1 * 1 :=
                mul_lt_mul' (by linarith) h8 hupw (by norm_num)
              linarith
          exact le_trans (quarter _ h5) a2
        have x3 : c2 ≤ c2 * up := le_mul_of_one_le_right h2nn hup.1
        have x3u : c2 * up ≤ 2 ^ 60 := by
          have := mul_le_mul (le_trans hc2lt.le hG53) hup.2 hup0 (by norm_num)
          linarith
        have a3 : c2 * up * (1 - 1 / 2 ^ 53) ≤ F64.mul c2 up := by
          rw [h3]
          exact F64.roundNearest_ge (by linarith) x3u
        have b0 : G ≤ G * (c * up * up *
            ((1 - 1 / 2 ^ 53) * (1 - 1 / 2 ^ 53) * (1 - 1 / 2 ^ 53))) :=
          le_mul_of_one_le_right hG0 hprod
        have b1 : G * c * (1 - 1 / 2 ^ 53) * (up * (1 - 1 / 2 ^ 53)) * (up * (1 - 1 / 2 ^ 53))
            ≤ c1 * (up * (1 - 1 / 2 ^ 53)) * (up * (1 - 1 / 2 ^ 53)) :=
          mul_le_mul_of_nonneg_right (mul_le_mul_of_nonneg_right a1 hupw) hupw
        have b2 : c1 * up * (1 - 1 / 2 ^ 53) * (up * (1 - 1 / 2 ^ 53))
            ≤ c2 * (up * (1 - 1 / 2 ^ 53)) :=
          mul_le_mul_of_nonneg_right a2 hupw
        have hfin : G ≤ F64.mul c2 up := by
          have e0 : G * (c * up * up *
              ((1 - 1 / 2 ^ 53) * (1 - 1 / 2 ^ 53) * (1 - 1 / 2 ^ 53)))
              = G * c * (1 - 1 / 2 ^ 53) * (up * (1 - 1 / 2 ^ 53)) * (up * (1 - 1 / 2 ^ 53)) := by
            ring
          have e1 : c1 * (up * (1 - 1 / 2 ^ 53)) * (up * (1 - 1 / 2 ^ 53))
              = c1 * up * (1 - 1 / 2 ^ 53) * (up * (1 - 1 / 2 ^ 53)) := by ring
          have e2 : c2 * (up * (1 - 1 / 2 ^ 53)) = c2 * up * (1 - 1 / 2 ^ 53) := by ring
          rw [e0] at b0
          rw [e1] at b1
          rw [e2] at b2
          exact le_trans b0 (le_trans b1 (le_trans b2 a3))
        have hge3 : F64.ge (F64.mul c2 up) G = true := by
          rw [F64.ge_eq h3nan hGnan]
          simpa using hfin
        rw [if_pos hge3]
        refine ⟨gp, G, _, rfl, Or.inr (Or.inr (Or.inl rfl)), ?_⟩
        intro x hx
        simp only [List.mem_cons, List.mem_singleton, List.not_mem_nil, or_false] at hx
        rcases hx with hx | hx <;> rw [hx] <;> linarith

/-- The rounds of v2 `adaptiveSearch` in the `float64` reading on a symmetric,
non-negative matrix of small natural numbers: one, two or three rounds, with
the ceilings the code computes, none above the greedy distance. -/
theorem V2.adaptiveSearchLog_float {K : Nat} (rt : Runtime) (hrt : rt.Valid) (t : TSPSolver)
    (hn : 0 < t.numPoints) (hsymm : SymmetricOn t.numPoints t.distanceMatrix)
    (hnonneg : NonnegOn t.numPoints t.distanceMatrix)
    (hE : ∀ i j, i < t.numPoints → j < t.numPoints → F64.Small K (t.distanceMatrix i j))
    (hK : (2 * t.numPoints + 4) * K < 2 ^ 53)
    (hrank : ∀ row ∈ t.nearestNeighbors, ∀ x ∈ row, x < t.numPoints) :
    ∃ p r gp G log,
      F64.V2.multiStartGreedy rt t.numPoints t = some (gp, G) ∧
      F64.V2.adaptiveSearchLog rt t.numPoints t = some ((p, r), log) ∧
      F64.V2.adaptiveSearch rt t.numPoints t = some (p, r) ∧
      (log = [F64.mul G (F64.roundNearest (9 / 10))] ∨
        (∃ v, v < F64.mul G (F64.roundNearest (9 / 10)) ∧
          log = [F64.mul G (F64.roundNearest (9 / 10)),
            F64.mul v (F64.sub 1 (F64.roundNearest (7 / 100)))]) ∨
        log = [F64.mul G (F64.roundNearest (9 / 10)),
          F64.mul (F64.mul G (F64.roundNearest (9 / 10)))
            (F64.add 1 (F64.roundNearest (7 / 100)))] ∨
        (∃ v, v < F64.mul (F64.mul G (F64.roundNearest (9 / 10)))
              (F64.add 1 (F64.roundNearest (7 / 100))) ∧
          log = [F64.mul G (F64.roundNearest (9 / 10)),
            F64.mul (F64.mul G (F64.roundNearest (9 / 10)))
              (F64.add 1 (F64.roundNearest (7 / 100))),
            F64.mul v (F64.sub 1 (F64.roundNearest (7 / 100)))])) ∧
      ∀ x ∈ log, x ≤ G := by
  obtain ⟨gp, hg, hgt⟩ := V2.multiStartGreedy_twoOpt_spec rt hrt t hn hsymm
  have hgf := V2.multiStartGreedy_float rt hrt t hn hsymm hE hK hrank
  rw [hg] at hgf
  obtain ⟨h9, hup, hdown, hprod⟩ := F64.constants_bounds
  obtain ⟨p, r, log, hrun, hpat, hbound⟩ := V2.adaptiveLoop_rounds_float rt hrt t hn hsymm
    hnonneg hE hK hrank gp hgt _ _ _ h9 hup hdown hprod 197
  have hlog : F64.V2.adaptiveSearchLog rt t.numPoints t = some ((p, r), log) := by
    unfold F64.V2.adaptiveSearchLog
    rw [hgf]
    exact hrun
  refine ⟨p, r, gp, _, log, hgf, hlog, ?_, hpat, hbound⟩
  unfold F64.V2.adaptiveSearch
  rw [hlog]
  rfl

/-! ## Run independence of the float64 reading on tie-free matrices -/


/-- On a tie-free matrix of small natural numbers the loop of `adaptiveSearch`
in the `float64` reading does not depend on the behaviour of the runtime. -/
theorem V2.adaptiveLoop_unique_float {K : Nat} {rt1 rt2 : Runtime} (h1 : rt1.Valid)
    (h2 : rt2.Valid) (t0 : TSPSolver) (hn : 0 < t0.numPoints)
    (hsymm : SymmetricOn t0.numPoints t0.distanceMatrix)
    (hnonneg : NonnegOn t0.numPoints t0.distanceMatrix)
    (hE : ∀ i j, i < t0.numPoints → j < t0.numPoints → F64.Small K (t0.distanceMatrix i j))
    (hK : (2 * t0.numPoints + 4) * K < 2 ^ 53)
    (hrank : ∀ row ∈ t0.nearestNeighbors, ∀ x ∈ row, x < t0.numPoints)
    (htf : TieFree t0.numPoints t0.distanceMatrix)
    (gp : List Nat) (G up down : ℚ)
    (hup : up ≠ F64.nan ∧ up ≠ 0 ∧ up ≠ F64.posInf ∧ up ≠ F64.negInf)
    (hdown : down ≠ F64.nan ∧ down ≠ 0 ∧ down ≠ F64.posInf ∧ down ≠ F64.negInf) :
    ∀ (left : Nat) (t : TSPSolver) (thr : ℚ) (bestPath : List Nat) (bestDist : ℚ)
      (foundAny : Bool), SameProblem t0 t → thr ≠ F64.nan →
      F64.V2.adaptiveLoop rt1 gp G up down left t thr bestPath bestDist foundAny
        = F64.V2.adaptiveLoop rt2 gp G up down left t thr bestPath bestDist foundAny := by
  intro left
  induction left with
  | zero => intro t thr bestPath bestDist foundAny _ _; rfl
  | succ left ih =>
    intro t thr bestPath bestDist foundAny hsame hthr
    obtain ⟨t2, v, hsame2, hround, hv, _, hvn, _, _, hstep⟩ := V2.adaptiveLoop_step_float rt1 h1
      t0 hn hsymm hnonneg hE hK hrank gp G up down left t thr bestPath bestDist foundAny hsame
      hthr
    obtain ⟨t3, w, _, hround3, hw, _, _, _, _, hstep3⟩ := V2.adaptiveLoop_step_float rt2 h2
      t0 hn hsymm hnonneg hE hK hrank gp G up down left t thr bestPath bestDist foundAny hsame
      hthr
    obtain ⟨s1, s2, s3⟩ := hsame
    have hu := (bruteForceRecursive_unique h1 h2 hsymm htf hrank (t.numPoints + 1)
      ({ t with bestPath := [], bestDistance := some thr, visitedCount := 0, mstCache := [] } :
        TSPSolver)
      [0] 0 ((List.replicate t.numPoints false).set 0 true) s1 s2 s3
      (by simp only [List.getLastD_cons, List.getLastD_nil]; exact hn)).1
    rw [hround, hround3] at hu
    simp only [Option.some.injEq, Prod.mk.injEq, and_true] at hu
    subst hu
    rw [hv] at hw
    simp only [Option.some.injEq] at hw
    subst hw
    rw [hstep, hstep3]
    by_cases hlt : v < thr
    · rw [if_pos hlt, if_pos hlt, ih t2 _ _ _ _ hsame2
        (F64.mul_ne_nan hvn hdown.1 hdown.2.1 hdown.2.2.1 hdown.2.2.2)]
    · rw [if_neg hlt, if_neg hlt]
      by_cases hf : foundAny = true
      · rw [if_pos hf, if_pos hf]
      · rw [if_neg hf, if_neg hf]
        by_cases hge : F64.ge (F64.mul thr up) G = true
        · rw [if_pos hge, if_pos hge]
        · rw [if_neg hge, if_neg hge, ih t2 _ _ _ _ hsame2
            (F64.mul_ne_nan hthr hup.1 hup.2.1 hup.2.2.1 hup.2.2.2)]

/-- On a tie-free matrix of small natural numbers v2 `adaptiveSearch` in the
`float64` reading does not depend on the behaviour of the runtime. -/
theorem V2.adaptiveSearch_unique_float {K : Nat} {rt1 rt2 : Runtime} (h1 : rt1.Valid)
    (h2 : rt2.Valid) (t : TSPSolver) (hn : 0 < t.numPoints)
    (hsymm : SymmetricOn t.numPoints t.distanceMatrix)
    (hnonneg : NonnegOn t.numPoints t.distanceMatrix)
    (hE : ∀ i j, i < t.numPoints → j < t.numPoints → F64.Small K (t.distanceMatrix i j))
    (hK : (2 * t.numPoints + 4) * K < 2 ^ 53)
    (hrank : ∀ row ∈ t.nearestNeighbors, ∀ x ∈ row, x < t.numPoints)
    (htf : TieFree t.numPoints t.distanceMatrix) :
    F64.V2.adaptiveSearch rt1 t.numPoints t = F64.V2.adaptiveSearch rt2 t.numPoints t := by
  obtain ⟨gp, hg, hgt⟩ := V2.multiStartGreedy_twoOpt_spec rt2 h2 t hn hsymm
  have e2 := V2.multiStartGreedy_float rt2 h2 t hn hsymm hE hK hrank
  have e1 := V2.multiStartGreedy_float rt1 h1 t hn hsymm hE hK hrank
  rw [V2.multiStartGreedy_twoOpt_unique h1 h2 t htf, hg] at e1
  rw [hg] at e2
  have hG : tourLength t.distanceMatrix gp ≠ F64.nan := (tourLength_float t hn hE hK hgt).2
  unfold F64.V2.adaptiveSearch F64.V2.adaptiveSearchLog
  rw [e1, e2]
  simp only []
  rw [V2.adaptiveLoop_unique_float h1 h2 t hn hsymm hnonneg hE hK hrank htf gp _ _ _
    F64.up_finite F64.down_finite 200 t _ gp _ false (SameProblem.refl t)
    (F64.mul_ne_nan hG F64.ninety_finite.1 F64.ninety_finite.2.1 F64.ninety_finite.2.2.1
      F64.ninety_finite.2.2.2)]

/-! ## The claims of the specification -/

/-- C1, as stated, fails in `float64`: on the symmetric, non-negative,
zero-diagonal matrix `decimalMatrix` (the `float64` values of 0.1, 0.2 and
0.3) v1 `bruteForce` returns the path `[0, 1, 2]` with the distance
`0.6000000000000001`, which is `1351079888211149 / 2^51`: the greedy tour is
summed as `(0.1 + 0.2) + 0.3`, and the bound of the branch `[0, 2]`,
`0.3 + 0 + (0.1 + 0.2)`, rounds to the same number, so the branch is cut off.
The permutation `[0, 2, 1]` has the closed-tour length `(0.3 + 0.2) + 0.1`,
which is `0.6 = 5404319552844595 / 2^53` and less than the returned
distance. -/
theorem V1.bruteForce_rounding :
    Runtime.ascending.Valid ∧ SymmetricOn 3 decimalMatrix ∧ NonnegOn 3 decimalMatrix ∧
      ZeroDiagOn 3 decimalMatrix ∧
      F64.V1.bruteForce Runtime.ascending 3 (solverOf Runtime.ascending 3 decimalMatrix)
        = some ([0, 1, 2], 1351079888211149 / 2251799813685248) ∧
      (F64.calculateLowerBound Runtime.ascending (solverOf Runtime.ascending 3 decimalMatrix)
        [0, 2] [true, false, true]).map Prod.fst = some (1351079888211149 / 2251799813685248) ∧
      [0, 2, 1].Perm (List.range 3) ∧
      F64.calculatePathDistance (solverOf Runtime.ascending 3 decimalMatrix) [0, 2, 1]
        = 5404319552844595 / 9007199254740992 ∧
      F64.lt (5404319552844595 / 9007199254740992) (1351079888211149 / 2251799813685248)
        = true :=
  ⟨Runtime.ascending_valid, decimalMatrix_symmetric, decimalMatrix_nonneg,
    decimalMatrix_zeroDiag, by decide!, by decide!, by decide, by decide!, by decide!⟩

/-- C1, amended: v1 `bruteForce` is exact where its `float64` arithmetic is.
For every behaviour of the Go runtime, every `n ≥ 2` and every symmetric,
non-negative, zero-diagonal distance matrix whose entries are natural numbers
not above some `K` with `(2 n + 4) K < 2^53`, `bruteForce` (in the `float64`
reading) returns a path and a distance; the distance is at most the
closed-tour length (`calculatePathDistance`) of every permutation of the
vertices `0..n-1`, and it is attained by the returned path, which is such a
permutation. -/
theorem V1.bruteForce_exact (rt : Runtime) (hrt : rt.Valid) (n : Nat) (d : Nat → Nat → ℚ)
    (hn : 2 ≤ n) (hsymm : SymmetricOn n d) (hnonneg : NonnegOn n d) (_hzero : ZeroDiagOn n d)
    (hex : ExactOn n d) :
    ∃ path dist, F64.V1.bruteForce rt n (solverOf rt n d) = some (path, dist) ∧
      (∀ q : List Nat, q.Perm (List.range n) →
        dist ≤ F64.calculatePathDistance (solverOf rt n d) q) ∧
      F64.calculatePathDistance (solverOf rt n d) path = dist ∧ path.Perm (List.range n) := by
  obtain ⟨K, hK, hE⟩ := hex
  have h0 : 0 < (solverOf rt n d).numPoints := Nat.lt_of_lt_of_le (by decide) hn
  obtain ⟨path, dist, _, _, hrun, _, _, _, htour, hlen, _, hmin⟩ :=
    V1.bruteForce_spec rt hrt (solverOf rt n d) h0 hsymm hnonneg (solverOf_ranking rt hrt n d)
  have hf := V1.bruteForce_float rt hrt (solverOf rt n d) h0 hE hK (solverOf_ranking rt hrt n d)
  rw [hrun] at hf
  have hlenf : ∀ q : List Nat, q.Perm (List.range n) →
      F64.calculatePathDistance (solverOf rt n d) q = tourLength d q :=
    fun q hq => (tourLength_float (solverOf rt n d) h0 hE hK hq).1
  refine ⟨path, dist, hf, fun q hq => ?_, ?_, htour⟩
  · rw [hlenf q hq]
    exact hmin q hq
  · rw [hlenf path htour]
    exact hlen

/-- C1, amended, on the four-vertex instance `gapMatrix`. -/
theorem V1.bruteForce_exact_witness :
    ∃ path dist, F64.V1.bruteForce Runtime.ascending 4 (solverOf Runtime.ascending 4 gapMatrix)
        = some (path, dist) ∧
      (∀ q : List Nat, q.Perm (List.range 4) →
        dist ≤ F64.calculatePathDistance (solverOf Runtime.ascending 4 gapMatrix) q) ∧
      F64.calculatePathDistance (solverOf Runtime.ascending 4 gapMatrix) path = dist ∧
      path.Perm (List.range 4) :=
  V1.bruteForce_exact Runtime.ascending Runtime.ascending_valid 4 gapMatrix (by decide)
    gapMatrix_symmetric gapMatrix_nonneg gapMatrix_zeroDiag gapMatrix_exactOn

/-- C2: the code does not do what the claim says. On the symmetric,
non-negative, zero-diagonal matrix `gapMatrix` with `n = 4`, v2
`adaptiveSearch` returns the tour `[0, 3, 1, 2]` of length 41, in the exact
and in the `float64` reading, while the unbounded search of v1 `bruteForce`
returns the tour `[0, 3, 2, 1]` of length 40 on the same matrix: the result
of `adaptiveSearch` is not the minimum closed-tour length. -/
theorem V2.adaptiveSearch_not_minimum :
    Runtime.ascending.Valid ∧ SymmetricOn 4 gapMatrix ∧ NonnegOn 4 gapMatrix ∧
      ZeroDiagOn 4 gapMatrix ∧
      V2.adaptiveSearch Runtime.ascending (solverOf Runtime.ascending 4 gapMatrix)
        = some ([0, 3, 1, 2], 41) ∧
      F64.V2.adaptiveSearch Runtime.ascending 4 (solverOf Runtime.ascending 4 gapMatrix)
        = some ([0, 3, 1, 2], 41) ∧
      V1.bruteForce Runtime.ascending (solverOf Runtime.ascending 4 gapMatrix)
        = some ([0, 3, 2, 1], some 40) ∧
      F64.V1.bruteForce Runtime.ascending 4 (solverOf Runtime.ascending 4 gapMatrix)
        = some ([0, 3, 2, 1], 40) ∧
      [0, 3, 2, 1].Perm (List.range 4) ∧
      calculatePathDistance (solverOf Runtime.ascending 4 gapMatrix) [0, 3, 2, 1] = 40 :=
  ⟨Runtime.ascending_valid, gapMatrix_symmetric, gapMatrix_nonneg, gapMatrix_zeroDiag,
    by decide!, by decide!, by decide!, by decide!, by decide, by decide!⟩

/-- C3: the search result is no longer than the construction heuristic. For
every `n ≥ 2` and every symmetric, non-negative, zero-diagonal matrix, v1
`bruteForce` and v1 `multiStartGreedy` both return and the distance of the
first is at most the distance of the second; likewise v2 `adaptiveSearch` and
v2 `multiStartGreedy` (greedy + 2-opt). -/
theorem search_le_heuristic (rt : Runtime) (hrt : rt.Valid) (n : Nat) (d : Nat → Nat → ℚ)
    (hn : 2 ≤ n) (hsymm : SymmetricOn n d) (hnonneg : NonnegOn n d) (_hzero : ZeroDiagOn n d) :
    (∃ path dist gpath gdist,
      V1.bruteForce rt (solverOf rt n d) = some (path, some dist) ∧
      V1.multiStartGreedy rt (solverOf rt n d) = some (gpath, some gdist) ∧ dist ≤ gdist) ∧
    (∃ path dist gpath gdist,
      V2.adaptiveSearch rt (solverOf rt n d) = some (path, dist) ∧
      V2.multiStartGreedy rt (solverOf rt n d) = some (gpath, gdist) ∧ dist ≤ gdist) := by
  have h0 : 0 < (solverOf rt n d).numPoints := Nat.lt_of_lt_of_le (by decide) hn
  obtain ⟨path, dist, gpath, gdist, hrun, hg, _, _, _, _, hle, _⟩ :=
    V1.bruteForce_spec rt hrt (solverOf rt n d) h0 hsymm hnonneg (solverOf_ranking rt hrt n d)
  obtain ⟨p, r, gp, G, hrun2, hg2, _, _, _, _, hle2, _, _⟩ :=
    V2.adaptiveSearch_spec rt hrt (solverOf rt n d) h0 hsymm hnonneg
      (solverOf_ranking rt hrt n d)
  exact ⟨⟨path, dist, gpath, gdist, hrun, hg, hle⟩, ⟨p, r, gp, G, hrun2, hg2, hle2⟩⟩

/-- C3 on the four-vertex instance `tieMatrix`. -/
theorem search_le_heuristic_witness :
    (∃ path dist gpath gdist,
      V1.bruteForce Runtime.ascending (solverOf Runtime.ascending 4 tieMatrix)
        = some (path, some dist) ∧
      V1.multiStartGreedy Runtime.ascending (solverOf Runtime.ascending 4 tieMatrix)
        = some (gpath, some gdist) ∧ dist ≤ gdist) ∧
    (∃ path dist gpath gdist,
      V2.adaptiveSearch Runtime.ascending (solverOf Runtime.ascending 4 tieMatrix)
        = some (path, dist) ∧
      V2.multiStartGreedy Runtime.ascending (solverOf Runtime.ascending 4 tieMatrix)
        = some (gpath, gdist) ∧ dist ≤ gdist) :=
  search_le_heuristic Runtime.ascending Runtime.ascending_valid 4 tieMatrix (by decide)
    tieMatrix_symmetric tieMatrix_nonneg tieMatrix_zeroDiag

/-- C4, as stated, fails when sums overflow: on the symmetric, non-negative,
zero-diagonal matrix `hugeMatrix`, whose entries are finite (`2^1023`, below
`math.MaxFloat64`), every tour length is `+Inf`, so no tour is below the
initial `bestDist = math.MaxFloat64`: v1 `bruteForce` returns the empty path,
and in v2 the start loop of `multiStartGreedy` leaves `bestPath` empty, on
which `twoOpt` panics, so `adaptiveSearch` returns nothing. -/
theorem search_overflow :
    Runtime.ascending.Valid ∧ SymmetricOn 3 hugeMatrix ∧ NonnegOn 3 hugeMatrix ∧
      ZeroDiagOn 3 hugeMatrix ∧ (∀ i j, i < 3 → j < 3 → hugeMatrix i j < F64.maxFloat64) ∧
      F64.calculatePathDistance (solverOf Runtime.ascending 3 hugeMatrix) [0, 1, 2] = F64.posInf ∧
      F64.V1.bruteForce Runtime.ascending 3 (solverOf Runtime.ascending 3 hugeMatrix)
        = some ([], F64.maxFloat64) ∧
      F64.V2.startLoop Runtime.ascending 3 (solverOf Runtime.ascending 3 hugeMatrix) [0, 1, 2]
        ([], F64.maxFloat64) = some ([], F64.maxFloat64) ∧
      F64.V2.twoOpt (solverOf Runtime.ascending 3 hugeMatrix) [] = none ∧
      F64.V2.adaptiveSearch Runtime.ascending 3 (solverOf Runtime.ascending 3 hugeMatrix)
        = none :=
  ⟨Runtime.ascending_valid, hugeMatrix_symmetric, hugeMatrix_nonneg, hugeMatrix_zeroDiag,
    hugeMatrix_finite, by decide!, by decide!, by decide!, by decide!, by decide!⟩

/-- C4, amended: the path returned by the search is a permutation of all
vertices where no sum overflows. For every `n ≥ 2` and every symmetric,
non-negative, zero-diagonal matrix whose entries are natural numbers not above
some `K` with `(2 n + 4) K < 2^53`, v1 `bruteForce` and v2 `adaptiveSearch`
(in the `float64` reading) return a path of length `n` whose entries are all
in `[0, n)` and in which no vertex occurs twice. -/
theorem search_path_valid (rt : Runtime) (hrt : rt.Valid) (n : Nat) (d : Nat → Nat → ℚ)
    (hn : 2 ≤ n) (hsymm : SymmetricOn n d) (hnonneg : NonnegOn n d) (_hzero : ZeroDiagOn n d)
    (hex : ExactOn n d) :
    (∃ path dist, F64.V1.bruteForce rt n (solverOf rt n d) = some (path, dist) ∧
      path.length = n ∧ (∀ x ∈ path, x < n) ∧ path.Nodup) ∧
    (∃ path dist, F64.V2.adaptiveSearch rt n (solverOf rt n d) = some (path, dist) ∧
      path.length = n ∧ (∀ x ∈ path, x < n) ∧ path.Nodup) := by
  obtain ⟨K, hK, hE⟩ := hex
  have h0 : 0 < (solverOf rt n d).numPoints := Nat.lt_of_lt_of_le (by decide) hn
  obtain ⟨path, dist, _, _, hrun, _, _, _, htour, _⟩ :=
    V1.bruteForce_spec rt hrt (solverOf rt n d) h0 hsymm hnonneg (solverOf_ranking rt hrt n d)
  have hf := V1.bruteForce_float rt hrt (solverOf rt n d) h0 hE hK (solverOf_ranking rt hrt n d)
  rw [hrun] at hf
  obtain ⟨p, r, gp, _, hgt, hrun2, hres⟩ := V2.adaptiveSearch_float rt hrt (solverOf rt n d) h0
    hsymm hnonneg hE hK (solverOf_ranking rt hrt n d)
  have htour2 : IsTour n p := by
    rcases hres with h | h
    · simp only [Prod.mk.injEq] at h
      rw [h.1]
      exact hgt
    · exact h.1
  exact ⟨⟨path, dist, hf, IsTour.facts htour⟩, ⟨p, r, hrun2, IsTour.facts htour2⟩⟩

/-- C4, amended, on the three-vertex instance `triangleMatrix`, with descending
map iteration. -/
theorem search_path_valid_witness :
    (∃ path dist, F64.V1.bruteForce Runtime.descending 3
        (solverOf Runtime.descending 3 triangleMatrix) = some (path, dist) ∧
      path.length = 3 ∧ (∀ x ∈ path, x < 3) ∧ path.Nodup) ∧
    (∃ path dist, F64.V2.adaptiveSearch Runtime.descending 3
        (solverOf Runtime.descending 3 triangleMatrix) = some (path, dist) ∧
      path.length = 3 ∧ (∀ x ∈ path, x < 3) ∧ path.Nodup) :=
  search_path_valid Runtime.descending Runtime.descending_valid 3 triangleMatrix (by decide)
    triangleMatrix_symmetric triangleMatrix_nonneg triangleMatrix_zeroDiag
    triangleMatrix_exactOn

/-- C5, as stated, fails in its equation: on two vertices at distance 1 and
the complete path `[0, 1]`, with both vertices marked, `calculateLowerBound`
returns 2 (the closed length of the path), whereas `calculateMSTKruskal`
returns 0 for the empty slice of unvisited vertices and
`partialDistance + mstWeight + minConnectionToPath` is `1 + 0 + 0 = 1`. -/
theorem calculateLowerBound_complete_path :
    SymmetricOn 2 pairMatrix ∧ [0, 1].Nodup ∧ Marks 2 [true, true] [0, 1] ∧
      unvisitedOf 2 [true, true] = [] ∧
      (calculateLowerBound Runtime.ascending (solverOf Runtime.ascending 2 pairMatrix) [0, 1]
        [true, true]).map Prod.fst = some 2 ∧
      (calculateMSTKruskal Runtime.ascending (solverOf Runtime.ascending 2 pairMatrix)
        (unvisitedOf 2 [true, true])).map Prod.fst = some 0 ∧
      calculatePartialDistance (solverOf Runtime.ascending 2 pairMatrix) [0, 1] + 0 +
        minConnectionToPath (solverOf Runtime.ascending 2 pairMatrix)
          (unvisitedOf 2 [true, true]) [0, 1] = 1 := by
  refine ⟨pairMatrix_symmetric, by decide, ⟨rfl, ?_⟩, by decide, by decide!, by decide!,
    by decide!⟩
  intro i hi
  interval_cases i <;> simp

/-- C5, amended: the bound used for pruning is admissible where the
`float64` arithmetic is exact. For every symmetric matrix whose entries are
natural numbers not above some `K` with `(2 n + 4) K < 2^53`, every cache
state reachable within one episode, every non-empty duplicate-free path `p` of
vertices and `visited` marking exactly the vertices of `p`,
`calculateLowerBound` (in the `float64` reading) returns a value that is at
most the closed-tour length of every complete tour with prefix `p`.  While a
vertex is unvisited the value is
`partialDistance(p) + mstWeight(unvisited) + minConnectionToPath(unvisited, p)`
with `mstWeight` the value returned by `calculateMSTKruskal`; when no vertex is
unvisited it is the closed-tour length of `p` itself. -/
theorem calculateLowerBound_admissible (rt : Runtime) (hrt : rt.Valid) (t : TSPSolver)
    (hsymm : SymmetricOn t.numPoints t.distanceMatrix)
    (hex : ExactOn t.numPoints t.distanceMatrix)
    (hcache : F64.ReachableCache rt t.numPoints t.distanceMatrix t.mstCache)
    (p : List Nat) (visited : List Bool) (hp : p ≠ []) (hnd : p.Nodup)
    (hl : ∀ x ∈ p, x < t.numPoints) (hm : Marks t.numPoints visited p) :
    ∃ lb t1, F64.calculateLowerBound rt t p visited = some (lb, t1) ∧
      (∀ rest : List Nat, (p ++ rest).Perm (List.range t.numPoints) →
        lb ≤ F64.calculatePathDistance t (p ++ rest)) ∧
      (unvisitedOf t.numPoints visited ≠ [] →
        ∃ mst, F64.calculateMSTKruskal rt t (unvisitedOf t.numPoints visited) = some (mst, t1) ∧
          lb = F64.add (F64.add (F64.calculatePartialDistance t p) mst)
            (F64.minConnectionToPath t (unvisitedOf t.numPoints visited) p)) ∧
      (unvisitedOf t.numPoints visited = [] → lb = F64.calculatePathDistance t p) := by
  obtain ⟨K, hK, hE⟩ := hex
  have hexp : (2 * t.numPoints + 4) * K = 2 * (t.numPoints * K) + 4 * K := by ring
  have hn : 0 < t.numPoints := by
    cases p with
    | nil => exact absurd rfl hp
    | cons a rest => exact Nat.lt_of_le_of_lt (Nat.zero_le a) (hl a (by simp))
  have hlen : p.length ≤ t.numPoints := length_le_of_nodup hnd hl
  have hplK : (p.length - 1) * K ≤ t.numPoints * K :=
    Nat.mul_le_mul_right K (le_trans (Nat.sub_le _ _) hlen)
  have hplK2 : (p.length + 1) * K ≤ t.numPoints * K + K := by
    have : (p.length + 1) * K = p.length * K + K := by ring
    have : p.length * K ≤ t.numPoints * K := Nat.mul_le_mul_right K hlen
    omega
  obtain ⟨hreach, hsmall⟩ := reachableCache_float hrt hE (by omega) hcache
  obtain ⟨lb, t1, hcall, _, _, _, _, _, hfull, hpart, hadm⟩ :=
    calculateLowerBound_spec rt hrt t hsymm hreach.cacheOK hp hm
  obtain ⟨e, _⟩ := calculateLowerBound_float rt hrt t hn hE hK hsmall hl hlen visited
  refine ⟨lb, t1, by rw [e]; exact hcall, ?_, ?_, ?_⟩
  · intro rest hperm
    rw [(tourLength_float t hn hE hK hperm).1]
    exact hadm rest hperm
  · intro hU
    obtain ⟨m, hm1, hm2⟩ := hpart hU
    obtain ⟨e1, p1⟩ := calculateMSTKruskal_float rt hrt t hE hsmall (unvisitedOf_lt _ visited)
      (unvisitedOf_length_le _ visited) (by omega)
    obtain ⟨e2, s2⟩ := calculatePartialDistance_float t hE hl (by omega)
    obtain ⟨e3, s3⟩ := minConnectionToPath_float t hn hE (by omega) (unvisitedOf_lt _ visited) hl
    obtain ⟨e4, s4⟩ := s2.add_exact (p1 m t1 hm1).1 (by omega)
    obtain ⟨e5, _⟩ := s4.add_exact s3 (by omega)
    refine ⟨m, by rw [e1]; exact hm1, ?_⟩
    rw [e2, e3, e4, e5]
    exact hm2
  · intro hU
    rw [(calculatePathDistance_float t hn hE hl (by omega)).1]
    exact (hfull hU).1

/-- C5, amended, on the instance `triangleMatrix` with the path `[0]`. -/
theorem calculateLowerBound_admissible_witness :
    ∃ lb t1, F64.calculateLowerBound Runtime.ascending
        (solverOf Runtime.ascending 3 triangleMatrix) [0] [true, false, false] = some (lb, t1) ∧
      (∀ rest : List Nat, ([0] ++ rest).Perm (List.range 3) →
        lb ≤ F64.calculatePathDistance (solverOf Runtime.ascending 3 triangleMatrix)
          ([0] ++ rest)) ∧
      (unvisitedOf 3 [true, false, false] ≠ [] →
        ∃ mst, F64.calculateMSTKruskal Runtime.ascending
            (solverOf Runtime.ascending 3 triangleMatrix) (unvisitedOf 3 [true, false, false])
            = some (mst, t1) ∧
          lb = F64.add (F64.add
              (F64.calculatePartialDistance (solverOf Runtime.ascending 3 triangleMatrix) [0]) mst)
            (F64.minConnectionToPath (solverOf Runtime.ascending 3 triangleMatrix)
              (unvisitedOf 3 [true, false, false]) [0])) ∧
      (unvisitedOf 3 [true, false, false] = [] →
        lb = F64.calculatePathDistance (solverOf Runtime.ascending 3 triangleMatrix) [0]) :=
  calculateLowerBound_admissible Runtime.ascending Runtime.ascending_valid
    (solverOf Runtime.ascending 3 triangleMatrix) triangleMatrix_symmetric
    triangleMatrix_exactOn F64.ReachableCache.empty
    [0] [true, false, false] (by decide) (by decide) (by decide)
    ⟨rfl, fun i (hi : i < 3) => by interval_cases i <;> simp⟩

/-- C6: `calculateMSTKruskal` returns the exact minimum spanning tree weight.
For every symmetric matrix, every duplicate-free list `S` of valid vertex
indices and every cache state reachable within one episode, the call returns;
its value is 0 when `|S| ≤ 1` and otherwise the minimum, over all spanning
trees of the complete graph on `S`, of the sum of the edge weights, attained
by some spanning tree; and every value stored in `mstCache` afterwards is the
minimum spanning tree weight of the subset its key denotes. -/
theorem calculateMSTKruskal_exact (rt : Runtime) (hrt : rt.Valid) (t : TSPSolver)
    (hsymm : SymmetricOn t.numPoints t.distanceMatrix)
    (hcache : ReachableCache rt t.numPoints t.distanceMatrix t.mstCache)
    (S : List Nat) (hnd : S.Nodup) (hlt : ∀ x ∈ S, x < t.numPoints) :
    ∃ v t1, calculateMSTKruskal rt t S = some (v, t1) ∧
      (S.length ≤ 1 → v = 0) ∧
      (2 ≤ S.length → IsMSTWeight t.distanceMatrix S v) ∧
      ∀ (key : List Nat) (w : ℚ), t1.mstCache.lookup key = some w →
        IsMSTWeight t.distanceMatrix key w := by
  obtain ⟨v, t1, hcall, _, _, _, _, _, _, hsmall, hbig⟩ := calculateMSTKruskal_spec rt hrt t S
  have hok1 := (calculateMSTKruskal_cacheOK rt hcache.cacheOK hnd hlt hcall).1
  refine ⟨v, t1, hcall, fun h => (hsmall h).1, ?_, fun key w hlook => hok1.isMST hrt hsymm hlook⟩
  intro h2
  exact (hok1.isMST hrt hsymm (hbig h2).1).perm (sortInts_perm S)

/-- C6 on the instance `gapMatrix` with the subset `[3, 1, 2]` and the empty
cache. -/
theorem calculateMSTKruskal_exact_witness :
    ∃ v t1, calculateMSTKruskal Runtime.ascending (solverOf Runtime.ascending 4 gapMatrix)
        [3, 1, 2] = some (v, t1) ∧
      ([3, 1, 2].length ≤ 1 → v = 0) ∧
      (2 ≤ [3, 1, 2].length → IsMSTWeight gapMatrix [3, 1, 2] v) ∧
      ∀ (key : List Nat) (w : ℚ), t1.mstCache.lookup key = some w →
        IsMSTWeight gapMatrix key w :=
  calculateMSTKruskal_exact Runtime.ascending Runtime.ascending_valid
    (solverOf Runtime.ascending 4 gapMatrix) gapMatrix_symmetric ReachableCache.empty
    [3, 1, 2] (by decide) (by decide)

/-- C7: `calculateMSTKruskal` is invariant under permutation of its input and
stable across repeated calls. For every two lists `S` and `S2` that are
permutations of each other and every solver state (so every cache state), the
calls on `S` and on `S2` return the same value; a second call, on `S` or on
`S2`, made on the state the first call left behind returns the identical value
and changes nothing; and for `|S| ≥ 2` that value is the cache entry keyed by
the sorted subset. -/
theorem calculateMSTKruskal_invariant (rt : Runtime) (hrt : rt.Valid) (t : TSPSolver)
    (S S2 : List Nat) (hperm : S.Perm S2) :
    ∃ v t1, calculateMSTKruskal rt t S = some (v, t1) ∧
      calculateMSTKruskal rt t S2 = some (v, t1) ∧
      calculateMSTKruskal rt t1 S = some (v, t1) ∧
      calculateMSTKruskal rt t1 S2 = some (v, t1) ∧
      (2 ≤ S.length → t1.mstCache.lookup (sortInts S) = some v) := by
  obtain ⟨v, t1, hcall, _, _, _, _, _, _, _, hbig⟩ := calculateMSTKruskal_spec rt hrt t S
  have hagain := calculateMSTKruskal_again rt hrt hcall
  exact ⟨v, t1, hcall, (calculateMSTKruskal_perm rt t hperm).trans hcall, hagain,
    (calculateMSTKruskal_perm rt t1 hperm).trans hagain, fun h2 => (hbig h2).1⟩

/-- C7 on the instance `gapMatrix` with the subsets `[3, 1, 2]` and
`[2, 3, 1]`. -/
theorem calculateMSTKruskal_invariant_witness :
    ∃ v t1, calculateMSTKruskal Runtime.ascending (solverOf Runtime.ascending 4 gapMatrix)
        [3, 1, 2] = some (v, t1) ∧
      calculateMSTKruskal Runtime.ascending (solverOf Runtime.ascending 4 gapMatrix)
        [2, 3, 1] = some (v, t1) ∧
      calculateMSTKruskal Runtime.ascending t1 [3, 1, 2] = some (v, t1) ∧
      calculateMSTKruskal Runtime.ascending t1 [2, 3, 1] = some (v, t1) ∧
      (2 ≤ [3, 1, 2].length → t1.mstCache.lookup (sortInts [3, 1, 2]) = some v) :=
  calculateMSTKruskal_invariant Runtime.ascending Runtime.ascending_valid
    (solverOf Runtime.ascending 4 gapMatrix) [3, 1, 2] [2, 3, 1] (by decide)

/-- C8, as stated, fails in `float64`: on the symmetric matrix `driftMatrix`
(the `float64` values of `d01 = 0.3`, `d02 = 0.2`, `d03 = 0.5`, `d12 = 0.7`,
`d13 = 0.4`, `d23 = 0.3`) and the input path `[0, 2, 1, 3]`, the first pass
of v2 `twoOpt` computes `delta = -2^-53` for the pair `(1, 2)` and applies the
reversal, and `twoOpt` returns `[0, 1, 2, 3]`.  The closed-tour length
(`calculatePathDistance`) of the input is `1.7999999999999998`, that of the
returned path is `1.8`: the reversal lengthened the tour, and the returned
path is longer than the input. -/
theorem V2.twoOpt_lengthens :
    SymmetricOn 4 driftMatrix ∧ [0, 2, 1, 3].Perm (List.range 4) ∧
      F64.V2.twoOptPass driftMatrix [0, 2, 1, 3] = (-1 / 9007199254740992, some (1, 2)) ∧
      V2.reverseSegment [0, 2, 1, 3] 1 2 = [0, 1, 2, 3] ∧
      F64.V2.twoOpt (solverOf Runtime.ascending 4 driftMatrix) [0, 2, 1, 3]
        = some ([0, 1, 2, 3], 2026619832316723 / 1125899906842624) ∧
      F64.calculatePathDistance (solverOf Runtime.ascending 4 driftMatrix) [0, 2, 1, 3]
        = 2026619832316723 / 1125899906842624 ∧
      F64.calculatePathDistance (solverOf Runtime.ascending 4 driftMatrix) [0, 1, 2, 3]
        = 8106479329266893 / 4503599627370496 ∧
      F64.lt (2026619832316723 / 1125899906842624) (8106479329266893 / 4503599627370496)
        = true :=
  ⟨driftMatrix_symmetric, by decide, by decide!, by decide, by decide!, by decide!, by decide!,
    by decide!⟩

/-- C8, amended: 2-opt never lengthens a tour where the `float64` arithmetic
is exact. For every symmetric matrix whose entries are natural numbers not
above some `K` with `(2 n + 4) K < 2^53` and every input path that is a
permutation of the vertices, v2 `twoOpt` (in the `float64` reading) returns
when the path is not empty, and whenever it returns, the closed-tour length
(`calculatePathDistance`) of the returned path is at most that of the input
path, the returned path is a permutation of the input path and the returned
distance is its closed-tour length.  Every reversal `twoOpt` applies strictly
decreases the closed-tour length: whenever a pass over a current path that is
a permutation of the input selects a pair `(i, j)`, the path after
`reverseSegment` is strictly shorter. -/
theorem V2.twoOpt_never_lengthens (t : TSPSolver)
    (hsymm : SymmetricOn t.numPoints t.distanceMatrix)
    (hex : ExactOn t.numPoints t.distanceMatrix) (path : List Nat)
    (hperm : path.Perm (List.range t.numPoints)) :
    (path ≠ [] → ∃ p dist, F64.V2.twoOpt t path = some (p, dist)) ∧
    (∀ (p : List Nat) (dist : ℚ), F64.V2.twoOpt t path = some (p, dist) →
      F64.calculatePathDistance t p ≤ F64.calculatePathDistance t path ∧ p.Perm path ∧
        dist = F64.calculatePathDistance t p) ∧
    ∀ (cur : List Nat) (delta : ℚ) (i j : Nat), cur.Perm path →
      F64.V2.twoOptPass t.distanceMatrix cur = (delta, some (i, j)) →
      F64.calculatePathDistance t (V2.reverseSegment cur i j)
        < F64.calculatePathDistance t cur := by
  obtain ⟨K, hK, hE⟩ := hex
  have hexp : (2 * t.numPoints + 4) * K = 2 * (t.numPoints * K) + 4 * K := by ring
  have hl : ∀ x ∈ path, x < t.numPoints := fun x hx => List.mem_range.1 (hperm.subset hx)
  have hplen : path.length = t.numPoints := by
    have := hperm.length_eq
    simpa using this
  by_cases hn : t.numPoints = 0
  · have hnil : path = [] := by
      rw [hn] at hplen
      exact List.length_eq_zero.1 hplen
    subst hnil
    refine ⟨fun h => absurd rfl h, ?_, ?_⟩
    · intro p dist h
      simp [F64.V2.twoOpt] at h
    · intro cur delta i j hcur hpass
      have hc : cur = [] := List.Perm.eq_nil hcur
      subst hc
      simp [F64.V2.twoOptPass, TspOracle.V2.twoOptPairs] at hpass
  · have h0 : 0 < t.numPoints := Nat.pos_of_ne_zero hn
    have hb : (path.length + 1) * K + (K + K) < 2 ^ 53 := by
      rw [hplen]
      have : (t.numPoints + 1) * K = t.numPoints * K + K := by ring
      omega
    have hfloat := V2.twoOpt_float t h0 hsymm hE hl hb
    have hlenf : ∀ q : List Nat, q.Perm path →
        F64.calculatePathDistance t q = tourLength t.distanceMatrix q :=
      fun q hq => (tourLength_float t h0 hE hK (hq.trans hperm)).1
    refine ⟨?_, ?_, ?_⟩
    · intro hne
      obtain ⟨p, dist, hrun, _⟩ := V2.twoOpt_spec t hsymm hne hl
      exact ⟨p, dist, by rw [hfloat]; exact hrun⟩
    · intro p dist hrun
      rw [hfloat] at hrun
      have hne : path ≠ [] := by
        intro h
        rw [h] at hrun
        simp [TspOracle.V2.twoOpt] at hrun
      obtain ⟨p2, dist2, hrun2, h1, h2, h3⟩ := V2.twoOpt_spec t hsymm hne hl
      rw [hrun] at hrun2
      cases hrun2
      rw [hlenf p h1, hlenf path (List.Perm.refl _)]
      exact ⟨h3, h1, h2⟩
    · intro cur delta i j hcur hpass
      have hlc : ∀ x ∈ cur, x < t.numPoints := fun x hx => hl x (hcur.subset hx)
      rw [V2.twoOptPass_float h0 hE (by omega) hlc] at hpass
      obtain ⟨_, m2, m3⟩ := V2.move_decreases hsymm hlc hpass
      rw [hlenf _ (m3.trans hcur), hlenf cur hcur]
      exact m2

/-- C8, amended, on the instance `gapMatrix` with the input path
`[0, 1, 2, 3]`. -/
theorem V2.twoOpt_never_lengthens_witness :
    ([0, 1, 2, 3] ≠ [] → ∃ p dist,
      F64.V2.twoOpt (solverOf Runtime.ascending 4 gapMatrix) [0, 1, 2, 3] = some (p, dist)) ∧
    (∀ (p : List Nat) (dist : ℚ),
      F64.V2.twoOpt (solverOf Runtime.ascending 4 gapMatrix) [0, 1, 2, 3] = some (p, dist) →
      F64.calculatePathDistance (solverOf Runtime.ascending 4 gapMatrix) p
        ≤ F64.calculatePathDistance (solverOf Runtime.ascending 4 gapMatrix) [0, 1, 2, 3] ∧
        p.Perm [0, 1, 2, 3] ∧
        dist = F64.calculatePathDistance (solverOf Runtime.ascending 4 gapMatrix) p) ∧
    ∀ (cur : List Nat) (delta : ℚ) (i j : Nat), cur.Perm [0, 1, 2, 3] →
      F64.V2.twoOptPass gapMatrix cur = (delta, some (i, j)) →
      F64.calculatePathDistance (solverOf Runtime.ascending 4 gapMatrix)
          (V2.reverseSegment cur i j)
        < F64.calculatePathDistance (solverOf Runtime.ascending 4 gapMatrix) cur :=
  V2.twoOpt_never_lengthens (solverOf Runtime.ascending 4 gapMatrix) gapMatrix_symmetric
    gapMatrix_exactOn [0, 1, 2, 3] (by decide)

/-- C9, as stated, fails: for `n = 1` the core, `NewTSPSolver` followed by
`bruteForce`, reports no failure and returns the tour `[0]` with distance 0. -/
theorem core_accepts_single_point :
    V1.bruteForce Runtime.ascending
      (NewTSPSolver Runtime.ascending (fun x => x) [{ X := 0, Y := 0 }])
      = some ([0], some 0) := by
  decide!

/-- C9, amended: the input validation is in the shell, not in the core. For
every `n < 3`, so for `n = 0` and `n = 1`, `main` stops before the solver is
built, with exit status 1 and the message "Error: Minimum 3 dots required".
The core itself validates nothing: on a single point `NewTSPSolver` followed by
`bruteForce` returns the tour `[0]` with distance 0. -/
theorem validation_in_shell (numPoints : Int) (h : numPoints < 3) :
    mainGuard numPoints = some (1, "Error: Minimum 3 dots required") ∧
    ∀ (rt : Runtime) (sqrt : ℚ → ℚ) (p : Point),
      V1.bruteForce rt (NewTSPSolver rt sqrt [p]) = some ([0], some 0) :=
  ⟨by simp [mainGuard, h], fun rt sqrt p => V1.bruteForce_single rt sqrt p⟩

/-- C9, amended, at `n = 1`. -/
theorem validation_in_shell_witness :
    mainGuard 1 = some (1, "Error: Minimum 3 dots required") ∧
    ∀ (rt : Runtime) (sqrt : ℚ → ℚ) (p : Point),
      V1.bruteForce rt (NewTSPSolver rt sqrt [p]) = some ([0], some 0) :=
  validation_in_shell 1 (by decide)

/-- C10, as stated, fails: for the four points `(1,0)`, `(2,0)`, `(0,0)`,
`(3,0)` of the plane, whose distance matrix is
`[[0,1,1,2],[1,0,2,1],[1,2,0,3],[2,1,3,0]]` (the square root is exact on 1, 4
and 9), the vertices 1 and 2 are equally far from vertex 0, and v1
`bruteForce` returns the tour `[0, 1, 3, 2]` when the map over the unvisited
vertices is iterated in ascending order and the tour `[0, 2, 1, 3]` when it is
iterated in descending order, in the exact and in the `float64` reading; the
distance is 6 in both runs. -/
theorem tour_depends_on_map_order :
    Runtime.ascending.Valid ∧ Runtime.descending.Valid ∧
      (∀ i j, i < 4 → j < 4 →
        (NewTSPSolver Runtime.ascending
          (fun y : ℚ => if y = 9 then (3 : ℚ) else if y = 4 then 2 else if y = 1 then 1 else 0)
          linePoints).distanceMatrix i j = lineMatrix i j) ∧
      V1.bruteForce Runtime.ascending (NewTSPSolver Runtime.ascending
        (fun y : ℚ => if y = 9 then (3 : ℚ) else if y = 4 then 2 else if y = 1 then 1 else 0)
        linePoints) = some ([0, 1, 3, 2], some 6) ∧
      V1.bruteForce Runtime.descending (NewTSPSolver Runtime.descending
        (fun y : ℚ => if y = 9 then (3 : ℚ) else if y = 4 then 2 else if y = 1 then 1 else 0)
        linePoints) = some ([0, 2, 1, 3], some 6) ∧
      F64.V1.bruteForce Runtime.ascending 4 (NewTSPSolver Runtime.ascending
        (fun y : ℚ => if y = 9 then (3 : ℚ) else if y = 4 then 2 else if y = 1 then 1 else 0)
        linePoints) = some ([0, 1, 3, 2], 6) ∧
      F64.V1.bruteForce Runtime.descending 4 (NewTSPSolver Runtime.descending
        (fun y : ℚ => if y = 9 then (3 : ℚ) else if y = 4 then 2 else if y = 1 then 1 else 0)
        linePoints) = some ([0, 2, 1, 3], 6) := by
  refine ⟨Runtime.ascending_valid, Runtime.descending_valid, ?_, by decide!, by decide!,
    by decide!, by decide!⟩
  intro i j hi hj
  interval_cases i <;> interval_cases j <;> decide!

/-- C10, amended: for the same symmetric, non-negative, zero-diagonal matrix
with `n ≥ 2` in which no two vertices are equally far from a vertex, any two
runs return the same result, tour and distance, for v1 `bruteForce` and for
v2 `adaptiveSearch`, whatever the map iteration and the sorts choose.  This is
shown in the exact reading for every such matrix, and in the `float64`
reading for the matrices whose entries are natural numbers not above some `K`
with `(2 n + 4) K < 2^53`. -/
theorem solve_run_independent (rt1 rt2 : Runtime) (h1 : rt1.Valid) (h2 : rt2.Valid)
    (n : Nat) (d : Nat → Nat → ℚ) (hn : 2 ≤ n) (hsymm : SymmetricOn n d)
    (hnonneg : NonnegOn n d) (_hzero : ZeroDiagOn n d) (htf : TieFree n d) :
    (V1.bruteForce rt1 (solverOf rt1 n d) = V1.bruteForce rt2 (solverOf rt2 n d) ∧
      V2.adaptiveSearch rt1 (solverOf rt1 n d) = V2.adaptiveSearch rt2 (solverOf rt2 n d)) ∧
    (ExactOn n d →
      F64.V1.bruteForce rt1 n (solverOf rt1 n d) = F64.V1.bruteForce rt2 n (solverOf rt2 n d) ∧
      F64.V2.adaptiveSearch rt1 n (solverOf rt1 n d)
        = F64.V2.adaptiveSearch rt2 n (solverOf rt2 n d)) := by
  have h0 : 0 < (solverOf rt2 n d).numPoints := Nat.lt_of_lt_of_le (by decide) hn
  rw [solverOf_unique h1 h2 htf]
  have hv1 := V1.bruteForce_unique h1 h2 (solverOf rt2 n d) hsymm htf (solverOf_ranking rt2 h2 n d)
  refine ⟨⟨hv1, V2.adaptiveSearch_unique h1 h2 (solverOf rt2 n d) hsymm htf
    (solverOf_ranking rt2 h2 n d)⟩, ?_⟩
  rintro ⟨K, hK, hE⟩
  constructor
  · have e1 := V1.bruteForce_float rt1 h1 (solverOf rt2 n d) h0 hE hK
      (solverOf_ranking rt2 h2 n d)
    have e2 := V1.bruteForce_float rt2 h2 (solverOf rt2 n d) h0 hE hK
      (solverOf_ranking rt2 h2 n d)
    rw [hv1] at e1
    exact e1.trans e2.symm
  · exact V2.adaptiveSearch_unique_float h1 h2 (solverOf rt2 n d) h0 hsymm hnonneg hE hK
      (solverOf_ranking rt2 h2 n d) htf

/-- C10, amended, on the tie-free instance `gapMatrix` with ascending and
descending map iteration, in the `float64` reading. -/
theorem solve_run_independent_witness :
    F64.V1.bruteForce Runtime.ascending 4 (solverOf Runtime.ascending 4 gapMatrix)
      = F64.V1.bruteForce Runtime.descending 4 (solverOf Runtime.descending 4 gapMatrix) ∧
    F64.V2.adaptiveSearch Runtime.ascending 4 (solverOf Runtime.ascending 4 gapMatrix)
      = F64.V2.adaptiveSearch Runtime.descending 4 (solverOf Runtime.descending 4 gapMatrix) :=
  (solve_run_independent Runtime.ascending Runtime.descending Runtime.ascending_valid
    Runtime.descending_valid 4 gapMatrix (by decide) gapMatrix_symmetric gapMatrix_nonneg
    gapMatrix_zeroDiag gapMatrix_tieFree).2 gapMatrix_exactOn

/-! ## The claims of the specification: termination, invariants, scenarios -/

/-- C11, as stated, fails when a distance is `math.MaxFloat64`: on the
symmetric, non-negative, zero-diagonal matrix `maxMatrix`, in the inner loop
of v2 `multiStartGreedy` from the start vertex 0 no candidate passes
`dist < minDist`, neither in the scan of the ranking nor in the scan of the
map, `nextPoint` keeps its initial value 0, `delete(unvisited, 0)` removes
nothing and `len(unvisited)` stays 2: the loop does not end within any number
of iterations, and `adaptiveSearch`, which calls `multiStartGreedy` first,
does not return. -/
theorem V2.greedy_never_ends :
    Runtime.ascending.Valid ∧ SymmetricOn 3 maxMatrix ∧ NonnegOn 3 maxMatrix ∧
      ZeroDiagOn 3 maxMatrix ∧
      (∀ fuel : Nat, F64.V2.greedyLoop Runtime.ascending
        (solverOf Runtime.ascending 3 maxMatrix) fuel [0] [1, 2] = none) ∧
      (∀ fuel : Nat, F64.V2.adaptiveSearch Runtime.ascending fuel
        (solverOf Runtime.ascending 3 maxMatrix) = none) := by
  refine ⟨Runtime.ascending_valid, maxMatrix_symmetric, maxMatrix_nonneg, maxMatrix_zeroDiag,
    fun fuel => V2.greedyLoop_stuck fuel [0] rfl, ?_⟩
  intro fuel
  have hstarts : (List.range (solverOf Runtime.ascending 3 maxMatrix).numPoints).filter
      (fun s => s < 5) = [0, 1, 2] := by decide
  have hunv : (List.range (solverOf Runtime.ascending 3 maxMatrix).numPoints).filter
      (fun i => i ≠ 0) = [1, 2] := by decide
  unfold F64.V2.adaptiveSearch F64.V2.adaptiveSearchLog F64.V2.multiStartGreedy
  rw [hstarts]
  simp only [F64.V2.startLoop, hunv, V2.greedyLoop_stuck fuel [0] rfl]
  rfl

/-- C11, amended: the search terminates where the distances are far from
`math.MaxFloat64`. For every `n ≥ 1`, every distance matrix and every
incumbent (the solver state is arbitrary but for a ranking that lists vertices
only), `bruteForceRecursive` started at path `[0]` with only vertex 0 marked
visited returns whenever its recursion depth budget is at least `n`, so the
recursion is never deeper than `n`; and when the entries of the matrix are
natural numbers not above some `K` with `(2 n + 4) K < 2^53`, v2
`adaptiveSearch` (in the `float64` reading, with `n` iterations granted to
each inner loop of `multiStartGreedy`) returns. -/
theorem search_terminates (rt : Runtime) (hrt : rt.Valid) (t : TSPSolver)
    (hn : 1 ≤ t.numPoints)
    (hrank : ∀ row ∈ t.nearestNeighbors, ∀ x ∈ row, x < t.numPoints)
    (fuel : Nat) (hfuel : t.numPoints ≤ fuel) :
    (∃ t1 visited1, bruteForceRecursive rt fuel t [0] 0
        ((List.replicate t.numPoints false).set 0 true) = some (t1, visited1)) ∧
      (ExactOn t.numPoints t.distanceMatrix →
        ∃ path dist, F64.V2.adaptiveSearch rt t.numPoints t = some (path, dist)) := by
  obtain ⟨t1, hrun, _⟩ := bruteForceRecursive_run rt hrt 0 fuel t [0]
    ((List.replicate t.numPoints false).set 0 true) hrank (by simp) (by simp)
    (by simpa using hn) (marks_initial hn)
    (by simp only [List.length_singleton]; omega)
  have h0 : (0 : ℚ) + sumConsecutive t.distanceMatrix 0 [0] = 0 := by
    simp [sumConsecutive]
  rw [h0] at hrun
  refine ⟨⟨t1, _, hrun⟩, ?_⟩
  rintro ⟨K, hK, hE⟩
  exact V2.adaptiveSearch_total_float rt hrt t hn hE hK hrank

/-- C11, amended, on the three-vertex instance `triangleMatrix` with no
incumbent (`math.MaxFloat64`) and a depth budget of 3. -/
theorem search_terminates_witness :
    (∃ t1 visited1, bruteForceRecursive Runtime.ascending 3
        { solverOf Runtime.ascending 3 triangleMatrix with bestDistance := none } [0] 0
        ((List.replicate 3 false).set 0 true) = some (t1, visited1)) ∧
      ∃ path dist, F64.V2.adaptiveSearch Runtime.ascending 3
        { solverOf Runtime.ascending 3 triangleMatrix with bestDistance := none }
        = some (path, dist) :=
  have h := search_terminates Runtime.ascending Runtime.ascending_valid
    { solverOf Runtime.ascending 3 triangleMatrix with bestDistance := none }
    (by decide) (solverOf_ranking Runtime.ascending Runtime.ascending_valid 3 triangleMatrix)
    3 (le_refl 3)
  ⟨h.1, h.2 triangleMatrix_exactOn⟩

/-- C12: for every list of `n` points, the matrix that `calculateDistanceMatrix`
returns has `n` rows of `n` entries, is symmetric, has a zero diagonal and has
no negative entry (`math.Sqrt` returns no negative number); its entries are
those of the lookup function `calculateDistanceMatrix` of the model. -/
theorem calculateDistanceMatrix_invariants (sqrt : ℚ → ℚ)
    (hsqrt : ∀ x, 0 ≤ x → 0 ≤ sqrt x) (points : List Point) :
    (calculateDistanceMatrixRows sqrt points).length = points.length ∧
      (∀ row ∈ calculateDistanceMatrixRows sqrt points, row.length = points.length) ∧
      (∀ i j, matrixOf (calculateDistanceMatrixRows sqrt points) i j
        = matrixOf (calculateDistanceMatrixRows sqrt points) j i) ∧
      (∀ i, matrixOf (calculateDistanceMatrixRows sqrt points) i i = 0) ∧
      (∀ i j, 0 ≤ matrixOf (calculateDistanceMatrixRows sqrt points) i j) ∧
      ∀ i j, matrixOf (calculateDistanceMatrixRows sqrt points) i j
        = calculateDistanceMatrix sqrt points i j := by
  obtain ⟨h1, h2, h3⟩ := calculateDistanceMatrixRows_spec sqrt points
  refine ⟨h1, h2, ?_, ?_, ?_, h3⟩
  · intro i j
    rw [h3, h3]
    exact calculateDistanceMatrix_symm sqrt points i j
  · intro i
    rw [h3]
    exact calculateDistanceMatrix_diag sqrt points i
  · intro i j
    rw [h3]
    exact calculateDistanceMatrix_nonneg sqrt hsqrt points i j

/-- C12 on the three collinear points, with a square root that is exact on 1
and 4. -/
theorem calculateDistanceMatrix_invariants_witness :
    (∀ x : ℚ, 0 ≤ x → 0 ≤ (fun y : ℚ => if y = 4 then (2 : ℚ) else if y = 1 then 1 else 0) x) ∧
      calculateDistanceMatrixRows
        (fun y : ℚ => if y = 4 then (2 : ℚ) else if y = 1 then 1 else 0) collinearPoints
        = [[0, 1, 2], [1, 0, 1], [2, 1, 0]] ∧
      (calculateDistanceMatrixRows
        (fun y : ℚ => if y = 4 then (2 : ℚ) else if y = 1 then 1 else 0)
          collinearPoints).length = collinearPoints.length ∧
      ∀ i j, 0 ≤ matrixOf (calculateDistanceMatrixRows
        (fun y : ℚ => if y = 4 then (2 : ℚ) else if y = 1 then 1 else 0) collinearPoints) i j :=
  have hsqrt : ∀ x : ℚ, 0 ≤ x →
      0 ≤ (fun y : ℚ => if y = 4 then (2 : ℚ) else if y = 1 then 1 else 0) x := by
    intro x _
    simp only
    split_ifs <;> norm_num
  ⟨hsqrt, by decide!,
    (calculateDistanceMatrix_invariants _ hsqrt collinearPoints).1,
    (calculateDistanceMatrix_invariants _ hsqrt collinearPoints).2.2.2.2.1⟩

/-- C15: `calculateTotalPermutations` never overflows `int64`: it returns 1
for `n ≤ 1`, exactly `n!` for `2 ≤ n ≤ 20`, where `n!` is at most
`math.MaxInt64` so that the `int64` products of the loop do not wrap around,
and the sentinel `math.MaxInt64` for `n > 20`. -/
theorem calculateTotalPermutations_exact (n : Int) :
    (n ≤ 1 → calculateTotalPermutations n = 1) ∧
      (2 ≤ n → n ≤ 20 →
        calculateTotalPermutations n = (n.toNat.factorial : Int) ∧
          (n.toNat.factorial : Int) ≤ maxInt64 ∧
          (List.range' 2 (n.toNat - 1)).foldl (fun result i => result * (i : Int)) 1
            = calculateTotalPermutations n) ∧
      (20 < n → calculateTotalPermutations n = maxInt64) := by
  refine ⟨calculateTotalPermutations_small n, ?_, calculateTotalPermutations_large n⟩
  intro h2 h20
  refine ⟨(calculateTotalPermutations_mid n h2 h20).1,
    (calculateTotalPermutations_mid n h2 h20).2, ?_⟩
  interval_cases n <;> decide

/-- C15 at `n = 20`, the largest argument below the sentinel, and at `n = 21`. -/
theorem calculateTotalPermutations_exact_witness :
    calculateTotalPermutations 20 = 2432902008176640000 ∧
      calculateTotalPermutations 21 = 9223372036854775807 ∧
      calculateTotalPermutations 1 = 1 :=
  ⟨((calculateTotalPermutations_exact 20).2.1 (by decide) (by decide)).1.trans (by decide),
    ((calculateTotalPermutations_exact 21).2.2 (by decide)).trans (by decide),
    (calculateTotalPermutations_exact 1).1 (by decide)⟩

/-- C16: the scenario of the three collinear points `(0,0)`, `(1,0)`, `(2,0)`.
Their distance matrix is `[[0,1,2],[1,0,1],[2,1,0]]` (for a square root that
is exact on 1 and 4), and on it v1 `bruteForce` and v2 `adaptiveSearch` both
return the length 4, which is the optimal tour length, together with a path
that is a permutation of `{0, 1, 2}`. -/
theorem collinear_scenario (rt : Runtime) (hrt : rt.Valid) (sqrt : ℚ → ℚ)
    (h1 : sqrt 1 = 1) (h4 : sqrt 4 = 2) :
    (NewTSPSolver rt sqrt collinearPoints).numPoints = 3 ∧
      (NewTSPSolver rt sqrt collinearPoints).distanceMatrix
        = matrixOf [[0, 1, 2], [1, 0, 1], [2, 1, 0]] ∧
      (∃ path, V1.bruteForce rt (NewTSPSolver rt sqrt collinearPoints) = some (path, some 4) ∧
        path.Perm (List.range 3) ∧
        calculatePathDistance (NewTSPSolver rt sqrt collinearPoints) path = 4) ∧
      (∃ path, V2.adaptiveSearch rt (NewTSPSolver rt sqrt collinearPoints) = some (path, 4) ∧
        path.Perm (List.range 3) ∧
        calculatePathDistance (NewTSPSolver rt sqrt collinearPoints) path = 4) ∧
      ∀ q : List Nat, q.Perm (List.range 3) →
        4 ≤ calculatePathDistance (NewTSPSolver rt sqrt collinearPoints) q := by
  have hsolver : NewTSPSolver rt sqrt collinearPoints = solverOf rt 3 collinearMatrix := by
    have hl : collinearPoints.length = 3 := rfl
    rw [NewTSPSolver, calculateDistanceMatrix_collinear sqrt h1 h4, hl]
  rw [hsolver]
  have h0 : 0 < (solverOf rt 3 collinearMatrix).numPoints := show 0 < 3 by decide
  obtain ⟨path, dist, _, _, hrun, _, _, _, htour, hlen, _, _⟩ :=
    V1.bruteForce_spec rt hrt (solverOf rt 3 collinearMatrix) h0 collinearMatrix_symmetric
      collinearMatrix_nonneg (solverOf_ranking rt hrt 3 collinearMatrix)
  obtain ⟨p, r, _, _, hrun2, _, _, _, htour2, hlen2, _⟩ :=
    V2.adaptiveSearch_spec rt hrt (solverOf rt 3 collinearMatrix) h0 collinearMatrix_symmetric
      collinearMatrix_nonneg (solverOf_ranking rt hrt 3 collinearMatrix)
  have e1 : dist = 4 := by rw [← hlen]; exact collinear_tour_length htour
  have e2 : r = 4 := by rw [← hlen2]; exact collinear_tour_length htour2
  subst e1 e2
  refine ⟨rfl, rfl, ⟨path, hrun, htour, collinear_tour_length htour⟩,
    ⟨p, hrun2, htour2, collinear_tour_length htour2⟩, ?_⟩
  intro q hq
  exact le_of_eq (collinear_tour_length hq).symm

/-- C16 with stable sorts, ascending map iteration and a square root that is
exact on 1 and 4. -/
theorem collinear_scenario_witness :
    (∃ path, V1.bruteForce Runtime.ascending (NewTSPSolver Runtime.ascending
        (fun y : ℚ => if y = 4 then (2 : ℚ) else if y = 1 then 1 else 0) collinearPoints)
          = some (path, some 4) ∧ path.Perm (List.range 3)) ∧
      ∃ path, V2.adaptiveSearch Runtime.ascending (NewTSPSolver Runtime.ascending
        (fun y : ℚ => if y = 4 then (2 : ℚ) else if y = 1 then 1 else 0) collinearPoints)
          = some (path, 4) ∧ path.Perm (List.range 3) :=
  have h := collinear_scenario Runtime.ascending Runtime.ascending_valid
    (fun y : ℚ => if y = 4 then (2 : ℚ) else if y = 1 then 1 else 0) (by norm_num) (by norm_num)
  ⟨h.2.2.1.imp (fun _ hp => ⟨hp.1, hp.2.1⟩), h.2.2.2.1.imp (fun _ hp => ⟨hp.1, hp.2.1⟩)⟩

/-- C14: union-find maintains the partition. For every structure that arises
from `NewUnionFind k` by calls of `Find` and `Union` with indices in `[0, k)`
and all `x, y` in `[0, k)`: `Find x` returns, its result `r` is a
representative in `[0, k)` with `Find r = r` before and after the call, and
the call changes the outcome of no comparison `Find a == Find b`;
`Union x y` returns, and afterwards `Find a == Find b` holds exactly when it
held before or one of `a, b` was connected to `x` and the other to `y`; and
when `x` and `y` were connected already, `Union x y` is the structure left by
the two `Find` calls: `rank` is unchanged and every `parent` entry either is
unchanged or has become the root of its index. -/
theorem UnionFind.partition_maintained (k : Nat) (uf : UnionFind)
    (h : UnionFind.Reachable k uf) (x y : Nat) (hx : x < k) (hy : y < k) :
    (∃ uf1 r, uf.Find x = some (uf1, r) ∧ r < k ∧ uf.sameSet x r = some true ∧
        (∃ uf0, uf.Find r = some (uf0, r)) ∧ (∃ uf2, uf1.Find r = some (uf2, r)) ∧
        ∀ a b, a < k → b < k → uf1.sameSet a b = uf.sameSet a b) ∧
      ∃ uf3, uf.Union x y = some uf3 ∧
        (∀ a b, a < k → b < k →
          (uf3.sameSet a b = some true ↔
            uf.sameSet a b = some true ∨
              (uf.sameSet a x = some true ∧ uf.sameSet b y = some true) ∨
              (uf.sameSet a y = some true ∧ uf.sameSet b x = some true))) ∧
        (uf.sameSet x y = some true →
          (∃ uf1 r, uf.Find x = some (uf1, r) ∧ uf1.Find y = some (uf3, r)) ∧
            uf3.rank = uf.rank ∧
            ∀ a, uf3.parent[a]? = uf.parent[a]? ∨
              ∃ s, uf.RootOf a s ∧ uf3.parent[a]? = some s) := by
  obtain ⟨hI, hlen⟩ := h.inv
  have hxl : x < uf.parent.length := by rw [hlen]; exact hx
  have hyl : y < uf.parent.length := by rw [hlen]; exact hy
  obtain ⟨uf1, r, hfind, hroot, hI1, hrank1, hlen1, hroots1⟩ := UnionFind.Find_spec hI hxl
  have hrl : r < uf.parent.length := hroot.root_lt
  have hyl1 : y < uf1.parent.length := by rw [hlen1]; exact hyl
  obtain ⟨uf2, r2, hfind2, hroot2, hI2, hrank2, hlen2, hroots2⟩ := UnionFind.Find_spec hI1 hyl1
  obtain ⟨uf3, hunion, hI3, hlen3, hconn3⟩ := UnionFind.Union_spec hI hxl hyl
  refine ⟨⟨uf1, r, hfind, by rw [← hlen]; exact hrl, ?_, UnionFind.Find_root hI hroot,
    UnionFind.Find_root hI1 ((hroots1 x r).2 hroot), ?_⟩, uf3, hunion, ?_, ?_⟩
  · exact (UnionFind.sameSet_iff hI hxl hrl).2
      ⟨r, hroot, UnionFind.RootOf.self_of_root hroot.is_root⟩
  · intro a b ha hb
    exact UnionFind.sameSet_congr hI hI1 hlen1 (UnionFind.conn_congr hroots1)
      (by rw [hlen]; exact ha) (by rw [hlen]; exact hb)
  · intro a b ha hb
    have hal : a < uf.parent.length := by rw [hlen]; exact ha
    have hbl : b < uf.parent.length := by rw [hlen]; exact hb
    rw [UnionFind.sameSet_iff hI3 (by rw [hlen3]; exact hal) (by rw [hlen3]; exact hbl),
      UnionFind.sameSet_iff hI hal hbl, UnionFind.sameSet_iff hI hal hxl,
      UnionFind.sameSet_iff hI hbl hyl, UnionFind.sameSet_iff hI hal hyl,
      UnionFind.sameSet_iff hI hbl hxl, hconn3 a b]
    constructor
    · rintro (h1 | ⟨h1, h2⟩ | ⟨h1, h2⟩)
      · exact Or.inl h1
      · exact Or.inr (Or.inl ⟨h1, h2.symm⟩)
      · exact Or.inr (Or.inr ⟨h1, h2.symm⟩)
    · rintro (h1 | ⟨h1, h2⟩ | ⟨h1, h2⟩)
      · exact Or.inl h1
      · exact Or.inr (Or.inl ⟨h1, h2.symm⟩)
      · exact Or.inr (Or.inr ⟨h1, h2.symm⟩)
  · intro hsame
    have hconn : uf.Conn x y := (UnionFind.sameSet_iff hI hxl hyl).1 hsame
    have hroot2' : uf.RootOf y r2 := (hroots1 y r2).1 hroot2
    have hr : r = r2 := by
      obtain ⟨s, hs1, hs2⟩ := hconn
      rw [hroot.unique hs1, hroot2'.unique hs2]
    subst hr
    have hu : uf.Union x y = some uf2 := by
      simp [UnionFind.Union, hfind, hfind2]
    rw [hunion] at hu
    cases hu
    refine ⟨⟨uf1, r, hfind, hfind2⟩, hrank2.trans hrank1, ?_⟩
    intro a
    rcases UnionFind.Find_parent hI1 hyl1 hfind2 a with h2 | ⟨s, hs, h2⟩
    · rcases UnionFind.Find_parent hI hxl hfind a with h1 | ⟨s, hs, h1⟩
      · exact Or.inl (h2.trans h1)
      · exact Or.inr ⟨s, hs, h2.trans h1⟩
    · exact Or.inr ⟨s, (hroots1 a s).1 hs, h2⟩

/-- C14 on the structure that `Union 0 1` leaves behind on three elements, for
`x = 1` and `y = 2`. -/
theorem UnionFind.partition_maintained_witness :
    UnionFind.Reachable 3 { parent := [0, 0, 2], rank := [1, 0, 0] } ∧
      (∃ uf1 r, UnionFind.Find { parent := [0, 0, 2], rank := [1, 0, 0] } 1 = some (uf1, r) ∧
        r < 3) ∧
      ∃ uf3, UnionFind.Union { parent := [0, 0, 2], rank := [1, 0, 0] } 1 2 = some uf3 ∧
        uf3.sameSet 0 2 = some true :=
  have hreach : UnionFind.Reachable 3 { parent := [0, 0, 2], rank := [1, 0, 0] } :=
    UnionFind.Reachable.union (x := 0) (y := 1) UnionFind.Reachable.init (by decide) (by decide)
      (by decide)
  have h := UnionFind.partition_maintained 3 _ hreach 1 2 (by decide) (by decide)
  ⟨hreach, h.1.imp (fun _ h1 => h1.imp (fun _ h2 => ⟨h2.1, h2.2.1⟩)),
    h.2.imp (fun _ h3 => ⟨h3.1, (h3.2.1 0 2 (by decide) (by decide)).2
      (Or.inr (Or.inl ⟨by decide, by decide⟩))⟩)⟩

/-- C13: the code does not do what the claim says on coincident points. On
the symmetric, non-negative, zero-diagonal matrix `twinMatrix` (vertices 0 and
1 at distance 0, vertex 2 at distance 1 from both) and with a stable sort,
the ranking of vertex 1 is `[1, 2]`: `precomputeNearestNeighbors` drops the
first entry of the sorted row, which is vertex 0 here, so the ranking contains
vertex 1 itself and leaves out vertex 0 although vertex 0 is nearer to vertex
1 than the listed vertex 2. -/
theorem ranking_lists_vertex_itself :
    Runtime.ascending.Valid ∧ SymmetricOn 3 twinMatrix ∧ NonnegOn 3 twinMatrix ∧
      ZeroDiagOn 3 twinMatrix ∧
      (precomputeNearestNeighbors Runtime.ascending 3 twinMatrix).getD 1 [] = [1, 2] ∧
      1 ∈ (precomputeNearestNeighbors Runtime.ascending 3 twinMatrix).getD 1 [] ∧
      0 ∉ (precomputeNearestNeighbors Runtime.ascending 3 twinMatrix).getD 1 [] ∧
      2 ∈ (precomputeNearestNeighbors Runtime.ascending 3 twinMatrix).getD 1 [] ∧
      twinMatrix 1 0 < twinMatrix 1 2 :=
  ⟨Runtime.ascending_valid, twinMatrix_symmetric, twinMatrix_nonneg, twinMatrix_zeroDiag,
    by decide!, by decide!, by decide!, by decide!, by decide!⟩

/-- The ranking away from coincident points: for every symmetric,
non-negative, zero-diagonal distance matrix and every vertex `i`, the ranking
`nearestNeighbors[i]` built by `precomputeNearestNeighbors` has exactly
`min(10, n-1)` entries, contains no vertex twice and is sorted by ascending
distance from `i`; and when every other vertex is at a positive distance from
`i`, it does not contain `i` itself and every vertex other than `i` that is
left out is at least as far from `i` as every listed vertex. -/
theorem precomputeNearestNeighbors_ranking (rt : Runtime) (hrt : rt.Valid) (n : Nat)
    (d : Nat → Nat → ℚ) (_hsymm : SymmetricOn n d) (_hnonneg : NonnegOn n d)
    (hzero : ZeroDiagOn n d) (i : Nat) (hi : i < n) :
    ((precomputeNearestNeighbors rt n d).getD i []).length = min 10 (n - 1) ∧
      ((precomputeNearestNeighbors rt n d).getD i []).Nodup ∧
      ((precomputeNearestNeighbors rt n d).getD i []).Pairwise (fun a b => d i a ≤ d i b) ∧
      ((∀ j, j < n → j ≠ i → 0 < d i j) →
        i ∉ (precomputeNearestNeighbors rt n d).getD i [] ∧
        ∀ j, j < n → j ≠ i → j ∉ (precomputeNearestNeighbors rt n d).getD i [] →
          ∀ x ∈ (precomputeNearestNeighbors rt n d).getD i [], d i x ≤ d i j) := by
  obtain ⟨h1, h2, _, h4⟩ := precomputeNearestNeighbors_shape rt hrt n d hi
  refine ⟨h1, h2, h4, ?_⟩
  intro hpos
  apply precomputeNearestNeighbors_nearest rt hrt n d hi
  intro j hj hji
  rw [hzero i hi]
  exact hpos j hj hji

/-- C20: the code does not do what the claim says on coincident points. On
the symmetric, non-negative, zero-diagonal matrix `twinMatrix` and with a
stable sort, the ranking of vertex 1 is `[1, 2]`, and the construction of v2
`multiStartGreedy` from the start vertex 1 is `[1, 2, 0]`, in the exact and
in the `float64` reading: its first step goes to vertex 2 at distance 1
although the unvisited vertex 0 is at distance 0, so the path is not a
nearest-neighbour construction.  The full scan of v1 `multiStartGreedy` goes
to vertex 0 first on the same matrix. -/
theorem greedy_skips_nearest :
    Runtime.ascending.Valid ∧ SymmetricOn 3 twinMatrix ∧ NonnegOn 3 twinMatrix ∧
      ZeroDiagOn 3 twinMatrix ∧
      1 ∈ (List.range 3).filter (fun s => s < 5) ∧
      V2.greedyLoop Runtime.ascending (solverOf Runtime.ascending 3 twinMatrix) 3 [1]
        ((List.range 3).filter (fun i => i ≠ 1)) = some [1, 2, 0] ∧
      F64.V2.greedyLoop Runtime.ascending (solverOf Runtime.ascending 3 twinMatrix) 3 [1]
        ((List.range 3).filter (fun i => i ≠ 1)) = some [1, 2, 0] ∧
      V1.greedyLoop Runtime.ascending twinMatrix 3 [1]
        ((List.range 3).filter (fun i => i ≠ 1)) = some [1, 0, 2] ∧
      twinMatrix 1 0 < twinMatrix 1 2 ∧
      ¬ NearestSteps 3 twinMatrix [1] [1, 2, 0] := by
  refine ⟨Runtime.ascending_valid, twinMatrix_symmetric, twinMatrix_nonneg,
    twinMatrix_zeroDiag, by decide, by decide!, by decide!, by decide!, by decide!, ?_⟩
  intro h
  cases h with
  | step hx hnot hmin hrest =>
    obtain ⟨rest, hq⟩ := hrest.appends
    simp only [List.singleton_append, List.cons_append, List.nil_append, List.cons.injEq,
      true_and] at hq
    have h2 := hmin 0 (by decide) (by decide)
    rw [← hq.1] at h2
    exact absurd h2 (by decide!)

/-- The construction of v2 away from coincident points: for every symmetric,
non-negative, zero-diagonal distance matrix in which every two different
vertices are at a positive distance, and every start vertex that v2
`multiStartGreedy` tries, the construction returns a path through all
vertices in which each step extends the path with an unvisited vertex whose
distance from the current last vertex is minimal among all unvisited
vertices, also when the choice is made from the 10-entry neighbour ranking
instead of the full linear scan. -/
theorem V2.multiStartGreedy_nearest (rt : Runtime) (hrt : rt.Valid) (n : Nat)
    (d : Nat → Nat → ℚ) (_hsymm : SymmetricOn n d) (_hnonneg : NonnegOn n d)
    (hzero : ZeroDiagOn n d) (hpos : PositiveOff n d) (s : Nat)
    (hs : s ∈ (List.range n).filter (fun s => s < 5)) :
    ∃ path, V2.greedyLoop rt (solverOf rt n d) n [s]
        ((List.range n).filter (fun i => i ≠ s)) = some path ∧
      NearestSteps n d [s] path ∧ path.Perm (List.range n) := by
  have hsn : s < n := List.mem_range.1 (List.mem_filter.1 hs).1
  have hrow : ∀ c, c < (solverOf rt n d).numPoints → ∀ u, u < (solverOf rt n d).numPoints →
      u ≠ c → u ∉ (solverOf rt n d).nearestNeighbors.getD c [] →
      ∀ x ∈ (solverOf rt n d).nearestNeighbors.getD c [],
        (solverOf rt n d).distanceMatrix c x ≤ (solverOf rt n d).distanceMatrix c u := by
    intro c hc u hu huc hnin x hx
    have hself : ∀ j, j < n → j ≠ c → d c c < d c j := by
      intro j hj hjc
      rw [hzero c hc]
      exact hpos c j hc hj (fun e => hjc e.symm)
    exact (precomputeNearestNeighbors_nearest rt hrt n d hc hself).2 u hu huc hnin x hx
  obtain ⟨q, hrun, hsteps⟩ := V2.greedyLoop_nearest rt hrt (solverOf rt n d) hrow n [s]
    ((List.range n).filter (fun i => i ≠ s)) (by simp)
    (fun x hx => by rw [List.mem_singleton.1 hx]; exact hsn)
    ((List.nodup_range n).filter _)
    (fun u => by
      show u ∈ (List.range n).filter (fun i => i ≠ s) ↔ u < n ∧ u ∉ [s]
      simp [List.mem_filter, List.mem_range])
    (by
      have := List.length_filter_le (fun i => decide (i ≠ s)) (List.range n)
      simpa using this)
  obtain ⟨path, hrun2, htour⟩ := V2.rankedGreedy_tour rt hrt (solverOf rt n d) hsn
  have hrun3 : V2.greedyLoop rt (solverOf rt n d) n [s]
      ((List.range n).filter (fun i => i ≠ s)) = some path := hrun2
  rw [hrun] at hrun3
  cases hrun3
  exact ⟨q, hrun, hsteps, htour⟩

/-- C17: branching is complete. In every call of `bruteForceRecursive` whose
`visited` slice marks exactly the vertices of the path (the ranking lists
vertices only and no vertex twice in a row, as `precomputeNearestNeighbors`
builds it), the lower bound returns; the candidate list `pointsToTry` contains
a vertex exactly when it is an unvisited vertex, that is a vertex below `n`
that is not on the path, it contains no vertex twice, and it is ordered by
ascending distance from the last vertex of the path; when the call is not
pruned and the path is incomplete, the call is the loop over exactly this
list; and the loop body leaves the state alone when the incumbent test
`newDistance >= bestDistance` holds and otherwise recurses on the path
extended by the candidate. -/
theorem pointsToTry_complete (rt : Runtime) (hrt : rt.Valid) (t : TSPSolver)
    (hrank : ∀ row ∈ t.nearestNeighbors, ∀ x ∈ row, x < t.numPoints)
    (hnd : ∀ row ∈ t.nearestNeighbors, row.Nodup)
    (path : List Nat) (visited : List Bool) (hm : Marks t.numPoints visited path) :
    ∃ lb t1, calculateLowerBound rt t path visited = some (lb, t1) ∧
      (∀ x, x ∈ rt.sortSlice (t1.distanceMatrix (path.getLastD 0))
          (pointsToTryOf t1 (path.getLastD 0) visited) ↔
        x < t.numPoints ∧ visited.getD x false = false) ∧
      (∀ x, x ∈ rt.sortSlice (t1.distanceMatrix (path.getLastD 0))
          (pointsToTryOf t1 (path.getLastD 0) visited) ↔ x < t.numPoints ∧ x ∉ path) ∧
      (rt.sortSlice (t1.distanceMatrix (path.getLastD 0))
        (pointsToTryOf t1 (path.getLastD 0) visited)).Nodup ∧
      (rt.sortSlice (t1.distanceMatrix (path.getLastD 0))
        (pointsToTryOf t1 (path.getLastD 0) visited)).Pairwise
          (fun a b => t.distanceMatrix (path.getLastD 0) a
            ≤ t.distanceMatrix (path.getLastD 0) b) ∧
      (∀ fuel currentDistance, geBest lb t1.bestDistance = false →
        path.length ≠ t.numPoints →
        bruteForceRecursive rt (fuel + 1) t path currentDistance visited =
          (rt.sortSlice (t1.distanceMatrix (path.getLastD 0))
            (pointsToTryOf t1 (path.getLastD 0) visited)).foldlM
            (tryPoint (bruteForceRecursive rt fuel) path currentDistance (path.getLastD 0))
            (t1, visited)) ∧
      ∀ (recurse : TSPSolver → List Nat → ℚ → List Bool → Option (TSPSolver × List Bool))
        (currentDistance : ℚ) (s : TSPSolver × List Bool) (nextPoint : Nat),
        tryPoint recurse path currentDistance (path.getLastD 0) s nextPoint =
          if geBest (currentDistance + s.1.distanceMatrix (path.getLastD 0) nextPoint)
              s.1.bestDistance then some s
          else (recurse s.1 (path ++ [nextPoint])
              (currentDistance + s.1.distanceMatrix (path.getLastD 0) nextPoint)
              (s.2.set nextPoint true)).map (fun r => (r.1, r.2.set nextPoint false)) := by
  obtain ⟨lb, t1, hlb, hsame, _⟩ := calculateLowerBound_frame rt hrt t path visited
  have hrank1 : ∀ row ∈ t1.nearestNeighbors, ∀ x ∈ row, x < t1.numPoints := by
    rw [hsame.1, hsame.2.2]
    exact hrank
  have hnd1 : ∀ row ∈ t1.nearestNeighbors, row.Nodup := by
    rw [hsame.2.2]
    exact hnd
  obtain ⟨hperm, hnodup, hsorted⟩ := pointsToTry_spec rt hrt hrank1 hnd1 (path.getLastD 0) visited
  refine ⟨lb, t1, hlb, ?_, ?_, hnodup, ?_, ?_, ?_⟩
  · intro x
    rw [hperm.mem_iff, hsame.1, mem_unvisitedOf]
  · intro x
    rw [hperm.mem_iff, hsame.1]
    exact mem_unvisitedOf_of_marks hm
  · rw [← hsame.2.1]
    exact hsorted
  · intro fuel currentDistance hge hlen
    have hlen1 : path.length ≠ t1.numPoints := by rw [hsame.1]; exact hlen
    rw [bruteForceRecursive]
    simp only [hlb]
    rw [if_neg (by rw [hge]; exact Bool.false_ne_true), if_neg hlen1]
  · intro recurse currentDistance s nextPoint
    simp only [tryPoint]
    split_ifs
    · rfl
    · cases recurse s.1 (path ++ [nextPoint])
        (currentDistance + s.1.distanceMatrix (path.getLastD 0) nextPoint)
        (s.2.set nextPoint true) <;> rfl

/-- C17 on the three-vertex instance `triangleMatrix`, for the path `[0]`. -/
theorem pointsToTry_complete_witness :
    ∃ lb t1, calculateLowerBound Runtime.ascending (solverOf Runtime.ascending 3 triangleMatrix)
        [0] [true, false, false] = some (lb, t1) ∧
      ∀ x, x ∈ Runtime.ascending.sortSlice (t1.distanceMatrix 0)
          (pointsToTryOf t1 0 [true, false, false]) ↔ x < 3 ∧ x ∉ [0] :=
  (pointsToTry_complete Runtime.ascending Runtime.ascending_valid
    (solverOf Runtime.ascending 3 triangleMatrix)
    (solverOf_ranking Runtime.ascending Runtime.ascending_valid 3 triangleMatrix)
    (precomputeNearestNeighbors_nodup Runtime.ascending Runtime.ascending_valid 3 triangleMatrix)
    [0] [true, false, false] (marks_initial (show 0 < 3 by decide))).imp
    (fun _ h => h.imp (fun _ h1 => ⟨h1.1, h1.2.2.1⟩))

/-- C18: the incumbent changes only by strict improvement at a complete tour.
Every call of `bruteForceRecursive` on a duplicate-free path of vertices that
`visited` marks, with `currentDistance` the length of the path, returns, and
afterwards `bestDistance` is at most what it was; either `bestDistance` and
`bestPath` are both unchanged, or `bestPath` is a complete path through the
call's path (so it starts at vertex 0 when the search starts at `[0]`), a
permutation of `0..n-1`, whose closed-tour length `calculatePathDistance`
equals the new `bestDistance` and is strictly less than `bestDistance` was at
entry; and on a complete path the only possible new incumbent is that path. -/
theorem incumbent_strict_improvement (rt : Runtime) (hrt : rt.Valid) (fuel : Nat)
    (t : TSPSolver) (path : List Nat) (visited : List Bool)
    (hrank : ∀ row ∈ t.nearestNeighbors, ∀ x ∈ row, x < t.numPoints)
    (hp : path ≠ []) (hnd : path.Nodup) (hlt : ∀ x ∈ path, x < t.numPoints)
    (hm : Marks t.numPoints visited path) (hfuel : t.numPoints < fuel + path.length) :
    ∃ t1, bruteForceRecursive rt fuel t path (calculatePartialDistance t path) visited
        = some (t1, visited) ∧
      (∀ x, t.bestDistance = some x → ∃ y, t1.bestDistance = some y ∧ y ≤ x) ∧
      ((t1.bestDistance = t.bestDistance ∧ t1.bestPath = t.bestPath) ∨
        ((∃ rest, t1.bestPath = path ++ rest) ∧ t1.bestPath.Perm (List.range t.numPoints) ∧
          t1.bestPath.length = t.numPoints ∧
          t1.bestDistance = some (calculatePathDistance t1 t1.bestPath) ∧
          ltBest (calculatePathDistance t t1.bestPath) t.bestDistance = true ∧
          (path.length = t.numPoints → t1.bestPath = path))) := by
  obtain ⟨t1, hrun, hres⟩ := bruteForceRecursive_run rt hrt 0 fuel t path visited hrank hp hnd
    hlt hm hfuel
  rw [zero_add] at hrun
  refine ⟨t1, hrun, ?_, ?_⟩
  · intro x hx
    obtain ⟨y, hy, hyx⟩ := hres.mono x ⟨x, hx, le_refl x⟩
    exact ⟨y, hy, hyx⟩
  · rcases hres.incumbent with h | ⟨hsrc, hval, hlow⟩
    · exact Or.inl h
    · rw [zero_add] at hval hlow
      obtain ⟨rest, hq, htour⟩ := hsrc
      refine Or.inr ⟨⟨rest, hq⟩, htour, htour.length_eq, ?_, ?_, ?_⟩
      · rw [hval, calculatePathDistance_eq, hres.same.2.1]
      · rw [ltBest_eq_true_iff, calculatePathDistance_eq]
        exact hlow
      · intro hlen
        exact extends_complete hlen ⟨rest, hq, htour⟩

/-- C18 on the three-vertex instance `triangleMatrix`, for the search from
`[0]` with no incumbent (`math.MaxFloat64`). -/
theorem incumbent_strict_improvement_witness :
    ∃ t1, bruteForceRecursive Runtime.ascending 3
        { solverOf Runtime.ascending 3 triangleMatrix with bestDistance := none } [0]
        (calculatePartialDistance
          { solverOf Runtime.ascending 3 triangleMatrix with bestDistance := none } [0])
        [true, false, false] = some (t1, [true, false, false]) ∧
      ((t1.bestDistance = none ∧ t1.bestPath = []) ∨
        ((∃ rest, t1.bestPath = [0] ++ rest) ∧ t1.bestPath.Perm (List.range 3) ∧
          t1.bestDistance = some (calculatePathDistance t1 t1.bestPath))) :=
  (incumbent_strict_improvement Runtime.ascending Runtime.ascending_valid 3
    { solverOf Runtime.ascending 3 triangleMatrix with bestDistance := none } [0]
    [true, false, false]
    (solverOf_ranking Runtime.ascending Runtime.ascending_valid 3 triangleMatrix)
    (by simp) (by simp) (by simp [solverOf]) (marks_initial (show 0 < 3 by decide))
    (by decide)).imp
    (fun _ h => ⟨h.1, h.2.2.imp (fun h1 => h1) (fun h2 => ⟨h2.1, h2.2.1, h2.2.2.2.1⟩)⟩)

/-- C19: backtracking restores the visited set. Every call of
`bruteForceRecursive` on a duplicate-free path of vertices whose `visited`
slice marks exactly the vertices of the path returns with the contents of
`visited` equal to those at entry, whatever `currentDistance` and the
incumbent are. Inside the call, for every vertex `x` that is not on the path
(every candidate), the slice passed to the recursive call, `visited` with
`visited[x] = true`, marks exactly the vertices of the extended path, and the
loop iteration for `x` ends with `visited` as the call received it, in every
solver state of the same problem; so `visited[i]` is true exactly for the
vertices `i` of the current path throughout the recursion, which starts with
only vertex 0 marked for the path `[0]`. -/
theorem visited_restored (rt : Runtime) (hrt : rt.Valid) (fuel : Nat) (t : TSPSolver)
    (path : List Nat) (currentDistance : ℚ) (visited : List Bool)
    (hrank : ∀ row ∈ t.nearestNeighbors, ∀ x ∈ row, x < t.numPoints)
    (hp : path ≠ []) (hnd : path.Nodup) (hlt : ∀ x ∈ path, x < t.numPoints)
    (hm : Marks t.numPoints visited path) (hfuel : t.numPoints < fuel + 1 + path.length) :
    (∃ t1, bruteForceRecursive rt (fuel + 1) t path currentDistance visited
        = some (t1, visited)) ∧
      (∀ x, x < t.numPoints → x ∉ path →
        Marks t.numPoints (visited.set x true) (path ++ [x]) ∧
        (visited.set x true).set x false = visited ∧
        ∀ s : TSPSolver, SameProblem t s →
          ∃ s1, tryPoint (bruteForceRecursive rt fuel) path currentDistance (path.getLastD 0)
            (s, visited) x = some (s1, visited)) ∧
      Marks t.numPoints ((List.replicate t.numPoints false).set 0 true) [0] := by
  have hoff : currentDistance - sumConsecutive t.distanceMatrix 0 path +
      sumConsecutive t.distanceMatrix 0 path = currentDistance := sub_add_cancel _ _
  have hn : 0 < t.numPoints := by
    cases path with
    | nil => exact absurd rfl hp
    | cons a rest => exact Nat.lt_of_le_of_lt (Nat.zero_le a) (hlt a (List.mem_cons_self _ _))
  refine ⟨?_, ?_, marks_initial hn⟩
  · obtain ⟨t1, hrun, _⟩ := bruteForceRecursive_run rt hrt
      (currentDistance - sumConsecutive t.distanceMatrix 0 path) (fuel + 1) t path visited
      hrank hp hnd hlt hm hfuel
    rw [hoff] at hrun
    exact ⟨t1, hrun⟩
  · intro x hx hxp
    have hvis : visited.getD x false = false := by
      cases hv : visited.getD x false with
      | false => rfl
      | true => exact absurd ((hm.2 x hx).1 hv) hxp
    refine ⟨hm.extend hx, set_set_visited visited x (by rw [hm.1]; exact hx) hvis, ?_⟩
    intro s hs
    have hranks : ∀ row ∈ s.nearestNeighbors, ∀ y ∈ row, y < s.numPoints := by
      rw [hs.1, hs.2.2]
      exact hrank
    obtain ⟨s1, hfold, _⟩ := tryPoints_run rt fuel t.numPoints t.distanceMatrix
      (currentDistance - sumConsecutive t.distanceMatrix 0 path) path visited hp hnd hlt hm
      hfuel (bruteForceRecursive_run rt hrt _ fuel) [x]
      (fun c hc => by rw [List.mem_singleton.1 hc]; exact ⟨hx, hxp⟩) s hranks hs.1 hs.2.1
    rw [hoff] at hfold
    refine ⟨s1, ?_⟩
    rw [List.foldlM_cons] at hfold
    cases hstep : tryPoint (bruteForceRecursive rt fuel) path currentDistance
        (path.getLastD 0) (s, visited) x with
    | none =>
      rw [hstep] at hfold
      cases hfold
    | some r =>
      rw [hstep] at hfold
      exact hfold

/-- C19 on the three-vertex instance `triangleMatrix`, for the search from
`[0]` with no incumbent (`math.MaxFloat64`). -/
theorem visited_restored_witness :
    (∃ t1, bruteForceRecursive Runtime.ascending 3
        { solverOf Runtime.ascending 3 triangleMatrix with bestDistance := none } [0] 0
        [true, false, false] = some (t1, [true, false, false])) ∧
      Marks 3 ([true, false, false].set 2 true) ([0] ++ [2]) :=
  have h := visited_restored Runtime.ascending Runtime.ascending_valid 2
    { solverOf Runtime.ascending 3 triangleMatrix with bestDistance := none } [0] 0
    [true, false, false]
    (solverOf_ranking Runtime.ascending Runtime.ascending_valid 3 triangleMatrix)
    (by simp) (by simp) (by simp [solverOf]) (marks_initial (show 0 < 3 by decide))
    (by decide)
  ⟨h.1, (h.2.1 2 (by decide) (by decide)).1⟩

/-! ## The claims of the specification: local search, rounds, counters -/

/-- C21, as stated, fails for moves that involve the closing edge: on the
symmetric matrix `gapMatrix` and the input tour `[0, 3, 1, 2]`, v2 `twoOpt`
stops after its first pass (`improved == false`, far from the cap of 1000) and
returns `[0, 3, 1, 2]` with the length 41, in the exact and in the `float64`
reading; the 2-opt move that removes the edge `(3, 1)` and the closing edge
`(2, 0)` and reverses the segment between them (positions 2 to 3) gives the
tour `[0, 3, 2, 1]` of length 40. -/
theorem V2.twoOpt_ignores_closing_edge :
    SymmetricOn 4 gapMatrix ∧ [0, 3, 1, 2].Perm (List.range 4) ∧
      V2.twoOpt (solverOf Runtime.ascending 4 gapMatrix) [0, 3, 1, 2]
        = some ([0, 3, 1, 2], 41) ∧
      V2.twoOptImproved gapMatrix 1000 [0, 3, 1, 2] = false ∧
      F64.V2.twoOpt (solverOf Runtime.ascending 4 gapMatrix) [0, 3, 1, 2]
        = some ([0, 3, 1, 2], 41) ∧
      F64.V2.twoOptImproved gapMatrix 1000 [0, 3, 1, 2] = false ∧
      V2.reverseSegment [0, 3, 1, 2] 2 3 = [0, 3, 2, 1] ∧
      calculatePathDistance (solverOf Runtime.ascending 4 gapMatrix) [0, 3, 2, 1] = 40 ∧
      F64.calculatePathDistance (solverOf Runtime.ascending 4 gapMatrix) [0, 3, 2, 1] = 40 ∧
      calculatePathDistance (solverOf Runtime.ascending 4 gapMatrix) [0, 3, 2, 1]
        < calculatePathDistance (solverOf Runtime.ascending 4 gapMatrix) [0, 3, 1, 2] :=
  ⟨gapMatrix_symmetric, by decide, by decide!, by decide!, by decide!, by decide!, by decide,
    by decide!, by decide!, by decide!⟩

/-- C21, amended: for every symmetric distance matrix whose entries are
natural numbers not above some `K` with `(2 n + 4) K < 2^53` and every input
tour of at least 4 vertices, when v2 `twoOpt` (in the `float64` reading)
stops before its cap of 1000 passes (its loop ends with `improved == false`),
no 2-opt move that `twoOpt` examines yields a strictly shorter closed tour:
for all positions `1 ≤ i < j ≤ n - 2`, removing the edges `(i-1, i)` and
`(j, j+1)` of the returned tour and reversing the segment from `i` to `j`
gives a closed tour that is at least as long. These moves keep the first and
the last vertex in place and never involve the closing edge. -/
theorem V2.twoOpt_local_optimum (t : TSPSolver)
    (hsymm : SymmetricOn t.numPoints t.distanceMatrix)
    (hex : ExactOn t.numPoints t.distanceMatrix) (path : List Nat) (h4 : 4 ≤ path.length)
    (hperm : path.Perm (List.range t.numPoints))
    (hstop : F64.V2.twoOptImproved t.distanceMatrix 1000 path = false) :
    ∃ p dist, F64.V2.twoOpt t path = some (p, dist) ∧ p.Perm path ∧
      ∀ i j, 1 ≤ i → i < j → j + 2 ≤ p.length →
        F64.calculatePathDistance t p
          ≤ F64.calculatePathDistance t (V2.reverseSegment p i j) := by
  obtain ⟨K, hK, hE⟩ := hex
  have hexp : (2 * t.numPoints + 4) * K = 2 * (t.numPoints * K) + 4 * K := by ring
  have hl : ∀ x ∈ path, x < t.numPoints := fun x hx => List.mem_range.1 (hperm.subset hx)
  have hplen : path.length = t.numPoints := by
    have := hperm.length_eq
    simpa using this
  have h0 : 0 < t.numPoints := by omega
  have hb : (path.length + 1) * K + (K + K) < 2 ^ 53 := by
    rw [hplen]
    have : (t.numPoints + 1) * K = t.numPoints * K + K := by ring
    omega
  rw [V2.twoOptImproved_float h0 hE (by omega) 1000 path hl] at hstop
  obtain ⟨p, dist, hrun, hpp, _, hopt⟩ := V2.twoOpt_inner_optimum t hsymm h4 hl hstop
  refine ⟨p, dist, by rw [V2.twoOpt_float t h0 hsymm hE hl hb]; exact hrun, hpp, ?_⟩
  intro i j hi hij hj
  have hrev : (V2.reverseSegment p i j).Perm p :=
    V2.reverseSegment_perm p i j (by omega) (by omega)
  rw [(tourLength_float t h0 hE hK (hpp.trans hperm)).1,
    (tourLength_float t h0 hE hK ((hrev.trans hpp).trans hperm)).1]
  exact (hopt i j hi hij (by omega)).2

/-- C21, amended, on the instance `gapMatrix` and the input tour
`[0, 3, 1, 2]`. -/
theorem V2.twoOpt_local_optimum_witness :
    ∃ p dist, F64.V2.twoOpt (solverOf Runtime.ascending 4 gapMatrix) [0, 3, 1, 2]
        = some (p, dist) ∧ p.Perm [0, 3, 1, 2] ∧
      ∀ i j, 1 ≤ i → i < j → j + 2 ≤ p.length →
        F64.calculatePathDistance (solverOf Runtime.ascending 4 gapMatrix) p ≤
          F64.calculatePathDistance (solverOf Runtime.ascending 4 gapMatrix)
            (V2.reverseSegment p i j) :=
  V2.twoOpt_local_optimum (solverOf Runtime.ascending 4 gapMatrix) gapMatrix_symmetric
    gapMatrix_exactOn [0, 3, 1, 2] (by decide) (by decide) (by decide!)

/-- C22: the distance reported by v2 `twoOpt` matches its path. For every
symmetric distance matrix and every input path of valid vertices, `twoOpt`
returns when the path is not empty, and whenever it returns, the distance it
returns (the initial length plus the accumulated deltas) equals
`calculatePathDistance` of the path it returns. -/
theorem V2.twoOpt_distance_matches (t : TSPSolver) (n : Nat)
    (hsymm : SymmetricOn n t.distanceMatrix) (path : List Nat) (hl : ∀ x ∈ path, x < n) :
    (path ≠ [] → ∃ p dist, V2.twoOpt t path = some (p, dist)) ∧
      ∀ (p : List Nat) (dist : ℚ), V2.twoOpt t path = some (p, dist) →
        dist = calculatePathDistance t p := by
  refine ⟨?_, ?_⟩
  · intro hne
    obtain ⟨p, dist, hrun, _⟩ := V2.twoOpt_spec t hsymm hne hl
    exact ⟨p, dist, hrun⟩
  · intro p dist hrun
    have hne : path ≠ [] := by
      intro h
      rw [h] at hrun
      simp [V2.twoOpt] at hrun
    obtain ⟨p2, dist2, hrun2, _, h2, _⟩ := V2.twoOpt_spec t hsymm hne hl
    rw [hrun] at hrun2
    cases hrun2
    exact h2

/-- C22 on the instance `gapMatrix` with the input path `[0, 2, 1, 3]`, which
2-opt improves, and with the path `[1, 1, 2]`, which is no tour. -/
theorem V2.twoOpt_distance_matches_witness :
    V2.twoOpt (solverOf Runtime.ascending 4 gapMatrix) [0, 2, 1, 3] = some ([0, 1, 2, 3], 40) ∧
      (40 : ℚ) = calculatePathDistance (solverOf Runtime.ascending 4 gapMatrix) [0, 1, 2, 3] ∧
      ∀ (p : List Nat) (dist : ℚ),
        V2.twoOpt (solverOf Runtime.ascending 4 gapMatrix) [1, 1, 2] = some (p, dist) →
        dist = calculatePathDistance (solverOf Runtime.ascending 4 gapMatrix) p :=
  have h : V2.twoOpt (solverOf Runtime.ascending 4 gapMatrix) [0, 2, 1, 3]
      = some ([0, 1, 2, 3], 40) := by decide!
  ⟨h, (V2.twoOpt_distance_matches (solverOf Runtime.ascending 4 gapMatrix) 4
      gapMatrix_symmetric [0, 2, 1, 3] (by decide)).2 _ _ h,
    (V2.twoOpt_distance_matches (solverOf Runtime.ascending 4 gapMatrix) 4
      gapMatrix_symmetric [1, 1, 2] (by decide)).2⟩

/-- C23, as stated, fails in `float64`: on the symmetric, non-negative,
zero-diagonal matrix `decimalMatrix` (the `float64` values of 0.1, 0.2 and
0.3) a round of `bruteForceRecursive` seeded with the ceiling `0.7` finds the
tour `[0, 1, 2]` and ends with `bestDistance = 0.6000000000000001`, which is
below the ceiling, while the permutation `[0, 2, 1]` has the closed-tour
length `0.6`: the round found a tour below its ceiling and did not end with
the minimum. -/
theorem V2.round_rounding :
    Runtime.ascending.Valid ∧ SymmetricOn 3 decimalMatrix ∧ NonnegOn 3 decimalMatrix ∧
      ZeroDiagOn 3 decimalMatrix ∧
      (F64.bruteForceRecursive Runtime.ascending (3 + 1)
        { solverOf Runtime.ascending 3 decimalMatrix with
            bestPath := [], bestDistance := some (F64.lit (7 / 10)), visitedCount := 0,
            mstCache := [] }
        [0] 0 ((List.replicate 3 false).set 0 true)).map
          (fun r => (r.1.bestPath, r.1.bestDistance))
        = some ([0, 1, 2], some (1351079888211149 / 2251799813685248)) ∧
      F64.lt (1351079888211149 / 2251799813685248) (F64.lit (7 / 10)) = true ∧
      [0, 2, 1].Perm (List.range 3) ∧
      F64.calculatePathDistance (solverOf Runtime.ascending 3 decimalMatrix) [0, 2, 1]
        = 5404319552844595 / 9007199254740992 ∧
      F64.lt (5404319552844595 / 9007199254740992) (1351079888211149 / 2251799813685248)
        = true :=
  ⟨Runtime.ascending_valid, decimalMatrix_symmetric, decimalMatrix_nonneg,
    decimalMatrix_zeroDiag, by decide!, by decide!, by decide, by decide!, by decide!⟩

/-- C23, amended: whenever v2 `adaptiveSearch` returns a distance strictly
less than the greedy + 2-opt baseline `G`, that distance is the global
optimum, where the `float64` arithmetic is exact. For every symmetric,
non-negative, zero-diagonal distance matrix whose entries are natural numbers
not above some `K` with `(2 n + 4) K < 2^53`, in the `float64` reading: a
round of `bruteForceRecursive` seeded with a ceiling `C` that is a number (on
at least one vertex) returns, and when it ends with `bestDistance` below `C`,
then `bestDistance` is the closed-tour length of `bestPath`, a permutation of
the vertices, and is at most the closed-tour length of every permutation; and
whenever `adaptiveSearch` returns a distance below the distance `G` returned
by `multiStartGreedy`, the returned distance is the closed-tour length of the
returned path, a permutation of the vertices, and is at most the closed-tour
length of every permutation. -/
theorem V2.adaptiveSearch_improvement_optimal (rt : Runtime) (hrt : rt.Valid) (n : Nat)
    (d : Nat → Nat → ℚ) (hsymm : SymmetricOn n d) (hnonneg : NonnegOn n d)
    (_hzero : ZeroDiagOn n d) (hex : ExactOn n d) :
    (1 ≤ n → ∀ C : ℚ, C ≠ F64.nan → ∃ t2 visited2 v,
      F64.bruteForceRecursive rt (n + 1)
        { solverOf rt n d with bestPath := [], bestDistance := some C, visitedCount := 0,
                               mstCache := [] }
        [0] 0 ((List.replicate n false).set 0 true) = some (t2, visited2) ∧
      t2.bestDistance = some v ∧
      (v < C → t2.bestPath.Perm (List.range n) ∧
        F64.calculatePathDistance (solverOf rt n d) t2.bestPath = v ∧
        ∀ q : List Nat, q.Perm (List.range n) →
          v ≤ F64.calculatePathDistance (solverOf rt n d) q)) ∧
    ∀ (p gp : List Nat) (r G : ℚ), F64.V2.adaptiveSearch rt n (solverOf rt n d) = some (p, r) →
      F64.V2.multiStartGreedy rt n (solverOf rt n d) = some (gp, G) → r < G →
      p.Perm (List.range n) ∧ F64.calculatePathDistance (solverOf rt n d) p = r ∧
        ∀ q : List Nat, q.Perm (List.range n) →
          r ≤ F64.calculatePathDistance (solverOf rt n d) q := by
  obtain ⟨K, hK, hE⟩ := hex
  refine ⟨?_, ?_⟩
  · intro hn C hC
    have hlenf : ∀ q : List Nat, q.Perm (List.range n) →
        F64.calculatePathDistance (solverOf rt n d) q = tourLength d q :=
      fun q hq => (tourLength_float (solverOf rt n d) hn hE hK hq).1
    obtain ⟨t2, v, hround, _, hv, _, hcov, hfound⟩ :=
      V2.round_spec rt hrt (solverOf rt n d) hn hsymm hnonneg (solverOf_ranking rt hrt n d) C
    have htame : F64.Tame K
        ({ solverOf rt n d with bestPath := [], bestDistance := some C, visitedCount := 0,
                                mstCache := [] } : TSPSolver) :=
      ⟨hn, hE, hK, solverOf_ranking rt hrt n d, fun key w h => by simp at h, fun e => by
        simp only [Option.some.injEq] at e
        exact hC e⟩
    obtain ⟨e1, _⟩ := bruteForceRecursive_float rt hrt (n + 1)
      ({ solverOf rt n d with bestPath := [], bestDistance := some C, visitedCount := 0,
                              mstCache := [] } : TSPSolver)
      [0] 0 ((List.replicate n false).set 0 true) htame
      (fun x hx => by rw [List.mem_singleton.1 hx]; exact hn)
      (by simpa using hn) (F64.Small.zero _)
    refine ⟨t2, _, v, by rw [e1]; exact hround, hv, ?_⟩
    intro hlt
    obtain ⟨htour, hlen⟩ := hfound hlt
    refine ⟨htour, by rw [hlenf _ htour]; exact hlen, fun q hq => ?_⟩
    rw [hlenf q hq]
    exact hcov q hq
  · intro p gp r G hrun hgreedy hlt
    by_cases hn : n = 0
    · subst hn
      simp [F64.V2.multiStartGreedy, F64.V2.startLoop, F64.V2.twoOpt, solverOf] at hgreedy
    · have hn1 : 0 < (solverOf rt n d).numPoints := Nat.pos_of_ne_zero hn
      have hlenf : ∀ q : List Nat, q.Perm (List.range n) →
          F64.calculatePathDistance (solverOf rt n d) q = tourLength d q :=
        fun q hq => (tourLength_float (solverOf rt n d) hn1 hE hK hq).1
      obtain ⟨p2, r2, gp2, hg2, _, hrun2, hres⟩ := V2.adaptiveSearch_float rt hrt
        (solverOf rt n d) hn1 hsymm hnonneg hE hK (solverOf_ranking rt hrt n d)
      have e1 : F64.V2.adaptiveSearch rt n (solverOf rt n d) = some (p2, r2) := hrun2
      have e2 : F64.V2.multiStartGreedy rt n (solverOf rt n d)
          = some (gp2, tourLength d gp2) := hg2
      rw [hrun] at e1
      rw [hgreedy] at e2
      simp only [Option.some.injEq, Prod.mk.injEq] at e1 e2
      obtain ⟨rfl, rfl⟩ := e1
      obtain ⟨rfl, rfl⟩ := e2
      rcases hres with h | ⟨h1, h2, h3⟩
      · exfalso
        simp only [Prod.mk.injEq] at h
        have hG : (solverOf rt n d).distanceMatrix = d := rfl
        rw [hG] at h
        rw [h.2] at hlt
        exact lt_irrefl _ hlt
      · refine ⟨h1, by rw [hlenf p h1]; exact h2, fun q hq => ?_⟩
        rw [hlenf q hq]
        exact h3 q hq

/-- C23, amended, on the instance `gapMatrix`: the round with the ceiling 41. -/
theorem V2.adaptiveSearch_improvement_optimal_witness :
    ∃ t2 visited2 v,
      F64.bruteForceRecursive Runtime.ascending (4 + 1)
        { solverOf Runtime.ascending 4 gapMatrix with
            bestPath := [], bestDistance := some 41, visitedCount := 0, mstCache := [] }
        [0] 0 ((List.replicate 4 false).set 0 true) = some (t2, visited2) ∧
      t2.bestDistance = some v ∧
      (v < 41 → t2.bestPath.Perm (List.range 4) ∧
        F64.calculatePathDistance (solverOf Runtime.ascending 4 gapMatrix) t2.bestPath = v ∧
        ∀ q : List Nat, q.Perm (List.range 4) →
          v ≤ F64.calculatePathDistance (solverOf Runtime.ascending 4 gapMatrix) q) :=
  (V2.adaptiveSearch_improvement_optimal Runtime.ascending Runtime.ascending_valid 4 gapMatrix
    gapMatrix_symmetric gapMatrix_nonneg gapMatrix_zeroDiag gapMatrix_exactOn).1 (by decide) 41
    (by decide!)

/-- C24, as stated, fails in its last part: on the symmetric, non-negative,
zero-diagonal matrix `triangleMatrix` the baseline is `G = 12`, the first round
with the ceiling `0.9 * 12` finds nothing, and the second round is run with
the ceiling `(12 * 0.90) * (1.0 + 0.07)`: in exact arithmetic that is
`2889/250`, which is `0.963 * 12`, and in `float64` it is
`11.556000000000001`, which is above the `float64` product `0.963 * 12`.  A
ceiling at or above `0.963 * G` is searched. -/
theorem V2.adaptiveSearch_searches_at_bound :
    Runtime.ascending.Valid ∧ SymmetricOn 3 triangleMatrix ∧ NonnegOn 3 triangleMatrix ∧
      ZeroDiagOn 3 triangleMatrix ∧
      V2.multiStartGreedy Runtime.ascending (solverOf Runtime.ascending 3 triangleMatrix)
        = some ([0, 1, 2], 12) ∧
      V2.adaptiveLoopLog Runtime.ascending [0, 1, 2] 12 (7 / 100) 200
        (solverOf Runtime.ascending 3 triangleMatrix) (12 * (9 / 10)) [0, 1, 2] 12 false
        = some (([0, 1, 2], 12), [54 / 5, 2889 / 250], true) ∧
      (2889 / 250 : ℚ) = 963 / 1000 * 12 ∧
      ¬ ((2889 / 250 : ℚ) < 963 / 1000 * 12) ∧
      F64.V2.adaptiveSearchLog Runtime.ascending 3 (solverOf Runtime.ascending 3 triangleMatrix)
        = some (([0, 1, 2], 12),
            [3039929748475085 / 281474976710656, 3252724830868341 / 281474976710656]) ∧
      F64.lt (F64.mul (F64.lit (963 / 1000)) 12) (3252724830868341 / 281474976710656) = true :=
  ⟨Runtime.ascending_valid, triangleMatrix_symmetric, triangleMatrix_nonneg,
    triangleMatrix_zeroDiag, by decide!, by decide!, by norm_num, by norm_num, by decide!,
    by decide!⟩

/-- C24, amended: the 200-round cap of v2 `adaptiveSearch` is never reached.
For every symmetric, non-negative, zero-diagonal distance matrix on at least
one vertex, with `G` the distance returned by `multiStartGreedy`,
`adaptiveSearch` runs one, two or three rounds of `bruteForceRecursive` and
returns from inside the loop, so the `return` after the loop is not reached,
and no ceiling above `G` is ever searched.  This is shown in the exact reading
for every such matrix, where the flag of `adaptiveLoopLog` says that the loop
was left by a `return` in its body; and in the `float64` reading for the
matrices whose entries are natural numbers not above some `K` with
`(2 n + 4) K < 2^53`, where the list of the ceilings searched has one, two or
three of the 200 possible entries and starts with the `float64` product
`G * 0.90`. -/
theorem V2.adaptiveSearch_rounds (rt : Runtime) (hrt : rt.Valid) (n : Nat)
    (d : Nat → Nat → ℚ) (hn : 1 ≤ n) (hsymm : SymmetricOn n d) (hnonneg : NonnegOn n d)
    (_hzero : ZeroDiagOn n d) :
    (∃ p r gp G ceilings,
      V2.multiStartGreedy rt (solverOf rt n d) = some (gp, G) ∧
      V2.adaptiveLoopLog rt gp G (7 / 100) 200 (solverOf rt n d) (G * (9 / 10)) gp G false
        = some ((p, r), ceilings, true) ∧
      V2.adaptiveSearch rt (solverOf rt n d) = some (p, r) ∧
      1 ≤ ceilings.length ∧ ceilings.length ≤ 3 ∧
      (∀ c ∈ ceilings, c ≤ G)) ∧
    (ExactOn n d → ∃ p r gp G ceilings,
      F64.V2.multiStartGreedy rt n (solverOf rt n d) = some (gp, G) ∧
      F64.V2.adaptiveSearchLog rt n (solverOf rt n d) = some ((p, r), ceilings) ∧
      F64.V2.adaptiveSearch rt n (solverOf rt n d) = some (p, r) ∧
      1 ≤ ceilings.length ∧ ceilings.length ≤ 3 ∧
      ceilings.head? = some (F64.mul G (F64.roundNearest (9 / 10))) ∧
      (∀ c ∈ ceilings, c ≤ G)) := by
  have hn1 : 0 < (solverOf rt n d).numPoints := hn
  refine ⟨?_, ?_⟩
  · obtain ⟨gp, hg, hgtour⟩ :=
      V2.multiStartGreedy_twoOpt_spec rt hrt (solverOf rt n d) hn1 hsymm
    obtain ⟨res, ceilings, hlog, hpat⟩ := V2.adaptiveLoopLog_spec rt hrt (solverOf rt n d) hn1
      hsymm hnonneg (solverOf_ranking rt hrt n d) gp hgtour 197
    have hG0 : 0 ≤ tourLength d gp := tourLength_nonneg hnonneg hn hgtour
    have hG : (solverOf rt n d).distanceMatrix = d := rfl
    rw [hG] at hg hlog hpat
    refine ⟨res.1, res.2, gp, tourLength d gp, ceilings, hg, hlog, ?_, ?_, ?_, ?_⟩
    · have herase := V2.adaptiveLoopLog_erase rt gp (tourLength d gp) (7 / 100) 200
        (solverOf rt n d) (tourLength d gp * (9 / 10)) gp (tourLength d gp) false
      rw [hlog] at herase
      rw [V2.adaptiveSearch, hg]
      exact herase.symm
    · rcases hpat with h | ⟨v, _, _, h⟩ | ⟨_, h⟩ | ⟨v, _, _, h⟩ <;> rw [h] <;> simp
    · rcases hpat with h | ⟨v, _, _, h⟩ | ⟨_, h⟩ | ⟨v, _, _, h⟩ <;> rw [h] <;> simp
    · intro c hc
      rcases hpat with h | ⟨v, hv, hv0, h⟩ | ⟨_, h⟩ | ⟨v, hv, hv0, h⟩
      · rw [h] at hc
        simp only [List.mem_singleton] at hc
        rw [hc]
        linarith
      · rw [h] at hc
        simp only [List.mem_cons, List.mem_singleton, List.not_mem_nil, or_false] at hc
        rcases hc with hc | hc <;> rw [hc] <;> linarith
      · rw [h] at hc
        simp only [List.mem_cons, List.mem_singleton, List.not_mem_nil, or_false] at hc
        rcases hc with hc | hc <;> rw [hc] <;> linarith
      · rw [h] at hc
        simp only [List.mem_cons, List.mem_singleton, List.not_mem_nil, or_false] at hc
        rcases hc with hc | hc | hc <;> rw [hc] <;> linarith
  · rintro ⟨K, hK, hE⟩
    obtain ⟨p, r, gp, G, log, hg, hlog, hrun, hpat, hbound⟩ := V2.adaptiveSearchLog_float rt hrt
      (solverOf rt n d) hn1 hsymm hnonneg hE hK (solverOf_ranking rt hrt n d)
    refine ⟨p, r, gp, G, log, hg, hlog, hrun, ?_, ?_, ?_, hbound⟩
    · rcases hpat with h | ⟨v, _, h⟩ | h | ⟨v, _, h⟩ <;> rw [h] <;> simp
    · rcases hpat with h | ⟨v, _, h⟩ | h | ⟨v, _, h⟩ <;> rw [h] <;> simp
    · rcases hpat with h | ⟨v, _, h⟩ | h | ⟨v, _, h⟩ <;> rw [h] <;> rfl

/-- C24, amended, on the instance `gapMatrix`, in the `float64` reading. -/
theorem V2.adaptiveSearch_rounds_witness :
    ∃ p r gp G ceilings,
      F64.V2.multiStartGreedy Runtime.ascending 4 (solverOf Runtime.ascending 4 gapMatrix)
        = some (gp, G) ∧
      F64.V2.adaptiveSearchLog Runtime.ascending 4 (solverOf Runtime.ascending 4 gapMatrix)
        = some ((p, r), ceilings) ∧
      F64.V2.adaptiveSearch Runtime.ascending 4 (solverOf Runtime.ascending 4 gapMatrix)
        = some (p, r) ∧
      1 ≤ ceilings.length ∧ ceilings.length ≤ 3 ∧
      ceilings.head? = some (F64.mul G (F64.roundNearest (9 / 10))) ∧
      (∀ c ∈ ceilings, c ≤ G) :=
  (V2.adaptiveSearch_rounds Runtime.ascending Runtime.ascending_valid 4 gapMatrix (by decide)
    gapMatrix_symmetric gapMatrix_nonneg gapMatrix_zeroDiag).2 gapMatrix_exactOn

/-- C25: `visitedCount` counts only improving tours. Every call of
`bruteForceRecursive` on a duplicate-free path of vertices that `visited`
marks, with `currentDistance` the length of the path, returns, and the counter
`visitedCount` has grown by exactly the number of incumbent replacements made
during the call. When the path is complete and the call passes the bound
check, the lower bound is the closed length of the path, so `finalDistance` is
strictly less than `bestDistance`: the incumbent is replaced by the path and
`visitedCount` grows by one; when the bound check fails on a complete path,
neither changes. -/
theorem visitedCount_counts_replacements (rt : Runtime) (hrt : rt.Valid) (fuel : Nat)
    (t : TSPSolver) (path : List Nat) (visited : List Bool)
    (hrank : ∀ row ∈ t.nearestNeighbors, ∀ x ∈ row, x < t.numPoints)
    (hp : path ≠ []) (hnd : path.Nodup) (hlt : ∀ x ∈ path, x < t.numPoints)
    (hm : Marks t.numPoints visited path) (hfuel : t.numPoints < fuel + 1 + path.length) :
    (∃ t1 replaced,
      bruteForceRecursiveCount rt (fuel + 1) t path (calculatePartialDistance t path) visited
        = some (t1, visited, replaced) ∧
      bruteForceRecursive rt (fuel + 1) t path (calculatePartialDistance t path) visited
        = some (t1, visited) ∧
      t1.visitedCount = t.visitedCount + replaced) ∧
    (path.length = t.numPoints →
      ∀ lb t0, calculateLowerBound rt t path visited = some (lb, t0) →
        (geBest lb t0.bestDistance = false →
          ltBest (calculatePartialDistance t path +
            t0.distanceMatrix (path.getLastD 0) (path.headD 0)) t0.bestDistance = true ∧
          bruteForceRecursiveCount rt (fuel + 1) t path (calculatePartialDistance t path)
            visited
            = some ({ t with visitedCount := t.visitedCount + 1,
                             bestDistance := some (calculatePathDistance t path),
                             bestPath := path }, visited, 1)) ∧
        (geBest lb t0.bestDistance = true →
          bruteForceRecursiveCount rt (fuel + 1) t path (calculatePartialDistance t path)
            visited = some (t0, visited, 0) ∧ t0.visitedCount = t.visitedCount ∧
            t0.bestDistance = t.bestDistance ∧ t0.bestPath = t.bestPath)) := by
  refine ⟨?_, ?_⟩
  · obtain ⟨t1, k, hrun, _, hcount⟩ := bruteForceRecursiveCount_run rt hrt (fuel + 1) t path
      visited hrank hp hnd hlt hm hfuel
    refine ⟨t1, k, hrun, ?_, hcount⟩
    have herase := bruteForceRecursiveCount_erase rt (fuel + 1) t path
      (calculatePartialDistance t path) visited
    rw [show calculatePartialDistance t path = sumConsecutive t.distanceMatrix 0 path from rfl,
      hrun] at herase
    exact herase.symm
  · intro hlen lb t0 hlb
    refine ⟨?_, ?_⟩
    · intro hge
      obtain ⟨_, _, h3, h4⟩ := bruteForceRecursiveCount_complete rt fuel t path visited hm hnd
        hlt hlen hlb hge
      exact ⟨h3, h4⟩
    · intro hge
      obtain ⟨lb2, t2, hlb2, _, hbp, hbd, hvc, _⟩ :=
        calculateLowerBound_frame rt hrt t path visited
      rw [hlb] at hlb2
      cases hlb2
      refine ⟨?_, hvc, hbd, hbp⟩
      rw [bruteForceRecursiveCount]
      simp only [hlb]
      rw [if_pos hge]

/-- C25 on the instance `gapMatrix`, for the search from `[0]` with no
incumbent (`math.MaxFloat64`): the counter ends at 2 after two incumbent
replacements, while there are 6 tours that start at vertex 0. -/
theorem visitedCount_counts_replacements_witness :
    (∃ t1, bruteForceRecursiveCount Runtime.ascending 4
        { solverOf Runtime.ascending 4 gapMatrix with bestDistance := none } [0] 0
        [true, false, false, false] = some (t1, [true, false, false, false], 2) ∧
      t1.visitedCount = 2) ∧
    ∃ t1 replaced, bruteForceRecursive Runtime.ascending 4
        { solverOf Runtime.ascending 4 gapMatrix with bestDistance := none } [0]
        (calculatePartialDistance
          { solverOf Runtime.ascending 4 gapMatrix with bestDistance := none } [0])
        [true, false, false, false] = some (t1, [true, false, false, false]) ∧
      t1.visitedCount = 0 + replaced :=
  have h := (visitedCount_counts_replacements Runtime.ascending Runtime.ascending_valid 3
    { solverOf Runtime.ascending 4 gapMatrix with bestDistance := none } [0]
    [true, false, false, false]
    (solverOf_ranking Runtime.ascending Runtime.ascending_valid 4 gapMatrix)
    (by simp) (by simp) (by simp [solverOf]) (marks_initial (show 0 < 4 by decide))
    (by decide)).1
  ⟨by
    obtain ⟨t1, k, h1, _, h3⟩ := h
    have hk : (bruteForceRecursiveCount Runtime.ascending 4
        { solverOf Runtime.ascending 4 gapMatrix with bestDistance := none } [0] 0
        [true, false, false, false]).map (fun r => r.2.2) = some 2 := by decide!
    have h1' : bruteForceRecursiveCount Runtime.ascending 4
        { solverOf Runtime.ascending 4 gapMatrix with bestDistance := none } [0] 0
        [true, false, false, false] = some (t1, [true, false, false, false], k) := h1
    rw [h1'] at hk
    simp only [Option.map_some', Option.some.injEq] at hk
    subst hk
    exact ⟨t1, h1', by simpa using h3⟩,
   h.imp (fun _ h1 => h1.imp (fun _ h2 => ⟨h2.2.1, h2.2.2⟩))⟩

end TspOracle
